import Mathlib

/-!
# FastLZ: a shallow embedding of `fastlz.c` and proofs about it

The embedding follows `src/fastlz.c` as compiled with `FASTLZ_SAFE` and
`FASTLZ_STRICT_ALIGN` defined (the byte-wise copy paths).

* A buffer is a `List Nat`; a load through a `uint8_t*` is `rd`, which yields a
  value below 256, and a store through a `uint8_t*` keeps the value modulo 256.
* Pointers are indices.  The compressors write with `*op++ = v` only, apart from
  the prefix fix-up store below `op` and `op--`; the list `out` holds
  `output[0 .. op)`.
* The decoders read the input with `*ip++` only, so the input indices read are
  exactly `0 .. ip - 1`; they write with `*op++ = v` only, so the list `out` is
  the sequence of bytes stored to `output[0], output[1], ...`.
* Lengths, indices and returned sizes are natural numbers: the `int` and
  pointer arithmetic of the source is exact for buffers whose sizes stay below
  `2 ^ 31`.  The one counter that wraps on such buffers, the `uint32_t` match
  length of the Level-2 decoder, is kept modulo `2 ^ 32`.
* Loops are functions with a fuel argument bounded by the loop's own range; the
  facts `CInv_loop1`, `CInv_loop2`, `dloop1_fuel`, `dloop2_fuel` and
  `chainLoop_fuel` show that the fuel given is never the reason a loop ends.
* The reference decoders of `src/tests/refimpl.c` have no bounds checks; their
  `int` arithmetic is exact, and they are given as the list of bytes they store
  to `output[0], output[1], ...`.
* Of `src/6pack.c` the checksum `update_adler32`, the header writer
  `write_chunk_header` and the part of `pack_file_compressed` that turns one
  block read from the file into a data chunk are embedded; a file is the list
  of bytes written to it.  The `unsigned long` accumulators of the checksum are
  kept modulo `2 ^ 32` and every addition that would exceed that is recorded.
* The compressed stream of a compressor result is `CResult.stream`, and
  `Opcodes E S s toks` says that the stream `s` is exactly the encodings of the
  opcodes `toks`, one after the other.  A stream has at most one such sequence
  of opcodes at either level (`Opcodes_unique1`, `Opcodes_unique2`), so a
  statement about every opcode of a stream is a statement about the opcodes of
  that sequence.
* The loads of the compressors are listed by the functions `iter1Reads`,
  `iter2Reads`, `compress1Reads`, `compress2Reads` and their parts, which follow
  the control flow of the compressor functions, short-circuit evaluation
  included; the indices are integers.
-/

set_option autoImplicit false

namespace FastLZ

/-! ## Constants and byte access -/

abbrev MAX_COPY : Nat := 32
abbrev MAX_LEN : Nat := 264
abbrev MAX_L1_DISTANCE : Nat := 8192
abbrev MAX_L2_DISTANCE : Nat := 8191
abbrev MAX_FARDISTANCE : Nat := 65535 + MAX_L2_DISTANCE - 1
abbrev HASH_LOG : Nat := 13
abbrev HASH_SIZE : Nat := 1 <<< HASH_LOG
abbrev HASH_MASK : Nat := HASH_SIZE - 1

/-- Load of the byte `mem[i]` through a `uint8_t*`.  An index past the end of
the modelled memory reads as 0. -/
def rd (mem : List Nat) (i : Nat) : Nat := mem.getD i 0 % 256

/-- Store `*op++ = v` through a `uint8_t*`: the value is truncated to 8 bits. -/
def st (out : List Nat) (v : Nat) : List Nat := out ++ [v % 256]

/-- Macro `FASTLZ_READU16(p)` in its `FASTLZ_STRICT_ALIGN` form
`(p)[0] | (p)[1] << 8`. -/
def FASTLZ_READU16 (mem : List Nat) (p : Nat) : Nat :=
  rd mem p ||| (rd mem (p + 1) <<< 8)

/-- Macro `HASH_FUNCTION(v, p)`: the value left in `v`. -/
def HASH_FUNCTION (mem : List Nat) (p : Nat) : Nat :=
  let v := FASTLZ_READU16 mem p
  let v := v ^^^ (FASTLZ_READU16 mem (p + 1) ^^^ (v >>> (16 - HASH_LOG)))
  v &&& HASH_MASK

/-! ## Compressor -/

/-- Local state of a compressor across iterations of its main loop: the read
position `ip`, the bytes `out` of `output[0 .. op)`, the pending literal count
`copy` and the hash table `htab` (slot to input position). -/
structure CState where
  ip : Nat
  out : List Nat
  copy : Nat
  htab : Nat → Nat

/-- What a compressor leaves behind: the returned length `ret` and the bytes
`buf` it has stored in the output buffer, from index 0 up to the highest index
stored to.  The compressed stream is `buf.take ret`. -/
structure CResult where
  ret : Nat
  buf : List Nat

/-- Copy of `n` input bytes `while (ip <= ip_bound) *op++ = *ip++;` of the
short-input path. -/
def copyShort (input : List Nat) : Nat → Nat → List Nat → List Nat
  | 0, _, out => out
  | n + 1, ip, out => copyShort input n (ip + 1) (st out (rd input ip))

/-- Run extension `while (ip < ip_bound) if (*ref++ != x) break; else ip++;`,
with `n = ip_bound - ip` iterations left; the value is the final `ip`. -/
def runLoop (input : List Nat) (x : Nat) : Nat → Nat → Nat → Nat
  | 0, _, ip => ip
  | n + 1, ref, ip =>
    if rd input ref ≠ x then ip else runLoop input x n (ref + 1) (ip + 1)

/-- Bounded extension `while (ip < ip_bound) if (*ref++ != *ip++) break;`, with
`n = ip_bound - ip` iterations left; the value is the final `ip`. -/
def cmpLoop (input : List Nat) : Nat → Nat → Nat → Nat
  | 0, _, ip => ip
  | n + 1, ref, ip =>
    if rd input ref ≠ rd input ip then ip + 1
    else cmpLoop input n (ref + 1) (ip + 1)

/-- The `for (;;)` block: `k` unrolled `if (*ref++ != *ip++) break;` lines (eight
in the source), then the bounded loop; the value is the final `ip`. -/
def cmpUnrolled (input : List Nat) (ip_bound : Nat) : Nat → Nat → Nat → Nat
  | 0, ref, ip => cmpLoop input (ip_bound - ip) ref ip
  | k + 1, ref, ip =>
    if rd input ref ≠ rd input ip then ip + 1
    else cmpUnrolled input ip_bound k (ref + 1) (ip + 1)

/-- Match extension after the minimum match: a run when the biased distance is
0, the general comparison otherwise. -/
def extend (input : List Nat) (ip_bound distance ref ip : Nat) : Nat :=
  if distance = 0 then
    runLoop input (rd input (ip - 1)) (ip_bound - ip) ref ip
  else
    cmpUnrolled input ip_bound 8 ref ip

/-- Closing of the pending literal run before a match:
`if (copy) *(op - copy - 1) = copy - 1; else op--;`.  After `op--` the next
store overwrites the unused prefix byte, so that byte is dropped here. -/
def closeRun (out : List Nat) (copy : Nat) : List Nat :=
  if copy ≠ 0 then out.set (out.length - copy - 1) ((copy - 1) % 256)
  else out.dropLast

/-- The label `literal:` of the main loop. -/
def literal (input : List Nat) (anchor : Nat) (s : CState) : CState :=
  let out := st s.out (rd input anchor)
  let copy := s.copy + 1
  if copy = MAX_COPY then
    { s with ip := anchor + 1, out := st out (MAX_COPY - 1), copy := 0 }
  else
    { s with ip := anchor + 1, out := out, copy := copy }

/-- Level 1, `while (len > MAX_LEN - 2)`: one maximum-length block per
iteration (at most `fuel` of them); the value is the remaining `len` and the
output. -/
def emitLong1 (distance : Nat) : Nat → Nat → List Nat → Nat × List Nat
  | 0, len, out => (len, out)
  | fuel + 1, len, out =>
    if len > MAX_LEN - 2 then
      emitLong1 distance fuel (len - (MAX_LEN - 2))
        (st (st (st out ((7 <<< 5) + (distance >>> 8))) (MAX_LEN - 2 - 7 - 2))
          (distance &&& 255))
    else (len, out)

/-- Level 1, the last opcode of a match, `if (len < 7) ... else ...`. -/
def emitMatch1 (len distance : Nat) (out : List Nat) : List Nat :=
  if len < 7 then
    st (st out ((len <<< 5) + (distance >>> 8))) (distance &&& 255)
  else
    st (st (st out ((7 <<< 5) + (distance >>> 8))) (len - 7)) (distance &&& 255)

/-- Hash update at the match boundary and the fresh literal prefix: the end of
the match branch of the main loop. -/
def afterMatch (input : List Nat) (ip : Nat) (out : List Nat)
    (htab : Nat → Nat) : CState :=
  let htab := Function.update htab (HASH_FUNCTION input ip) ip
  let htab := Function.update htab (HASH_FUNCTION input (ip + 1)) (ip + 1)
  { ip := ip + 2, out := st out (MAX_COPY - 1), copy := 0, htab := htab }

/-- Body of the main loop of `fastlz1_compress`.  `distance = anchor - ref` is a
`uint32_t`; the hash table only holds earlier input positions, and were `ref`
beyond `anchor` the source would see a distance of at least `2 ^ 31` and the
truncated difference here is 0: both go to `literal`. -/
def iter1 (input : List Nat) (s : CState) : CState :=
  let ip_bound := input.length - 2
  let anchor := s.ip
  let hval := HASH_FUNCTION input s.ip
  let ref := s.htab hval
  let distance := anchor - ref
  let htab := Function.update s.htab hval anchor
  if distance = 0 ∨ distance ≥ MAX_L1_DISTANCE ∨ rd input ref ≠ rd input anchor ∨
      rd input (ref + 1) ≠ rd input (anchor + 1) ∨
      rd input (ref + 2) ≠ rd input (anchor + 2) then
    literal input anchor { s with htab := htab }
  else
    let distance := distance - 1
    let ip := extend input ip_bound distance (ref + 3) (anchor + 3)
    let out := closeRun s.out s.copy
    let ip := ip - 3
    let len := ip - anchor
    let r := emitLong1 distance len len out
    afterMatch input ip (emitMatch1 r.1 distance r.2) htab

/-- Main loop `while (ip < ip_limit)` of `fastlz1_compress`, with
`ip_limit = ip + length - 12 - 1`; every iteration advances `ip`, so `fuel`
iterations are enough when `fuel ≥ length`. -/
def loop1 (input : List Nat) : Nat → CState → CState
  | 0, s => s
  | fuel + 1, s =>
    if s.ip + 13 < input.length then loop1 input fuel (iter1 input s) else s

/-- Left-over bytes as literals, `while (ip <= ip_bound)` after `ip_bound++`,
with `n = length - ip` iterations left; the value is the output and `copy`. -/
def tailLoop (input : List Nat) : Nat → Nat → List Nat → Nat → List Nat × Nat
  | 0, _, out, copy => (out, copy)
  | n + 1, ip, out, copy =>
    let out := st out (rd input ip)
    let copy := copy + 1
    if copy = MAX_COPY then tailLoop input n (ip + 1) (st out (MAX_COPY - 1)) 0
    else tailLoop input n (ip + 1) out copy

/-- End of a compressor: `if (copy) *(op - copy - 1) = copy - 1; else op--;` and
`return op - output`.  After `op--` the byte stored last stays in the buffer,
beyond the returned length. -/
def finish (out : List Nat) (copy : Nat) : CResult :=
  if copy ≠ 0 then
    { ret := out.length, buf := out.set (out.length - copy - 1) ((copy - 1) % 256) }
  else
    { ret := out.length - 1, buf := out }

/-- The state at the entry of the main loop: hash table filled with the input
start, prefix `MAX_COPY - 1` and two literals stored, `copy = 2`. -/
def initState (input : List Nat) : CState :=
  { ip := 2,
    out := st (st (st [] (MAX_COPY - 1)) (rd input 0)) (rd input 1),
    copy := 2,
    htab := fun _ => 0 }

/-- The short-input path `if (length < 4)` shared by both compressors. -/
def shortPath (input : List Nat) : CResult :=
  if input.length ≠ 0 then
    { ret := input.length + 1,
      buf := copyShort input input.length 0 (st [] (input.length - 1)) }
  else
    { ret := 0, buf := [] }

/-- Function `fastlz1_compress(input, length, output)` with
`length = input.length`. -/
def fastlz1_compress (input : List Nat) : CResult :=
  if input.length < 4 then shortPath input
  else
    let s := loop1 input input.length (initState input)
    let r := tailLoop input (input.length - s.ip) s.ip s.out s.copy
    finish r.1 r.2

/-- Level 2, `for (len -= 7; len >= 255; len -= 255) *op++ = 255;` once `len`
has been reduced by 7 (at most `fuel` iterations); the value is the remaining
`len` and the output. -/
def emitChain : Nat → Nat → List Nat → Nat × List Nat
  | 0, len, out => (len, out)
  | fuel + 1, len, out =>
    if len ≥ 255 then emitChain fuel (len - 255) (st out 255) else (len, out)

/-- Level 2, encoding of a match with biased length `len` and biased
`distance`. -/
def emitMatch2 (len distance : Nat) (out : List Nat) : List Nat :=
  if distance < MAX_L2_DISTANCE then
    if len < 7 then
      st (st out ((len <<< 5) + (distance >>> 8))) (distance &&& 255)
    else
      let out := st out ((7 <<< 5) + (distance >>> 8))
      let r := emitChain (len - 7) (len - 7) out
      st (st r.2 r.1) (distance &&& 255)
  else
    if len < 7 then
      let distance := distance - MAX_L2_DISTANCE
      st (st (st (st out ((len <<< 5) + 31)) 255) (distance >>> 8)) (distance &&& 255)
    else
      let distance := distance - MAX_L2_DISTANCE
      let out := st out ((7 <<< 5) + 31)
      let r := emitChain (len - 7) (len - 7) out
      st (st (st (st r.2 r.1) 255) (distance >>> 8)) (distance &&& 255)

/-- Level 2, from the label `match:` to the end of the match branch: `len` is
the minimum match length reached (3 or 5), `distance` the unbiased distance and
`ref` the reference pointer after the bytes compared so far. -/
def match2 (input : List Nat) (s : CState) (htab : Nat → Nat)
    (anchor len distance ref : Nat) : CState :=
  let ip_bound := input.length - 2
  let distance := distance - 1
  let ip := extend input ip_bound distance ref (anchor + len)
  let out := closeRun s.out s.copy
  let ip := ip - 3
  let len := ip - anchor
  afterMatch input ip (emitMatch2 len distance out) htab

/-- Body of the main loop of `fastlz2_compress`.  `distance = anchor - ref` is a
`uint32_t`; the hash table only holds earlier input positions, and were `ref`
beyond `anchor` the source would see a distance of at least `2 ^ 31` and the
truncated difference here is 0: both go to `literal`. -/
def iter2 (input : List Nat) (s : CState) : CState :=
  let anchor := s.ip
  if rd input anchor = rd input (anchor - 1) ∧ rd input anchor = rd input (anchor + 1) ∧
      rd input (anchor + 1) = rd input (anchor + 2) then
    match2 input s s.htab anchor 3 1 (anchor - 1 + 3)
  else
    let hval := HASH_FUNCTION input anchor
    let ref := s.htab hval
    let distance := anchor - ref
    let htab := Function.update s.htab hval anchor
    if distance = 0 ∨ distance ≥ MAX_FARDISTANCE ∨ rd input ref ≠ rd input anchor ∨
        rd input (ref + 1) ≠ rd input (anchor + 1) ∨
        rd input (ref + 2) ≠ rd input (anchor + 2) then
      literal input anchor { s with htab := htab }
    else if distance ≥ MAX_L2_DISTANCE then
      if rd input (anchor + 3) ≠ rd input (ref + 3) ∨
          rd input (anchor + 4) ≠ rd input (ref + 4) then
        literal input anchor { s with htab := htab }
      else
        match2 input s htab anchor 5 distance (ref + 5)
    else
      match2 input s htab anchor 3 distance (ref + 3)

/-- Main loop `while (ip < ip_limit)` of `fastlz2_compress`, with
`ip_limit = ip + length - 12 - 1`; every iteration advances `ip`, so `fuel`
iterations are enough when `fuel ≥ length`. -/
def loop2 (input : List Nat) : Nat → CState → CState
  | 0, s => s
  | fuel + 1, s =>
    if s.ip + 13 < input.length then loop2 input fuel (iter2 input s) else s

/-- The level marker `*(uint8_t*)output |= (1 << 5);`. -/
def mark2 (r : CResult) : CResult :=
  { r with buf := r.buf.set 0 ((rd r.buf 0 ||| (1 <<< 5)) % 256) }

/-- Function `fastlz2_compress(input, length, output)` with
`length = input.length`. -/
def fastlz2_compress (input : List Nat) : CResult :=
  if input.length < 4 then shortPath input
  else
    let s := loop2 input input.length (initState input)
    let r := tailLoop input (input.length - s.ip) s.ip s.out s.copy
    mark2 (finish r.1 r.2)

/-- Function `fastlz_compress(input, length, output)`. -/
def fastlz_compress (input : List Nat) : CResult :=
  if input.length < 65536 then fastlz1_compress input
  else fastlz2_compress input

/-- Function `fastlz_compress_level(level, input, length, output)`. -/
def fastlz_compress_level (level : Nat) (input : List Nat) : CResult :=
  if level = 1 then fastlz1_compress input
  else if level = 2 then fastlz2_compress input
  else { ret := 0, buf := [] }

/-! ## Decompressor -/

/-- What a decompressor leaves behind: the returned value `ret`, the bytes `out`
stored to `output[0], output[1], ...` (one per `*op++ = v`), the final read
pointer `ip` (the input indices read are `0 .. ip - 1`, one per `*ip++`) and
the output indices `oreads` loaded through `ref`. -/
structure DResult where
  ret : Nat
  out : List Nat
  ip : Nat
  oreads : List Int
deriving DecidableEq

/-- Load of the output byte `output[i]` through `ref`. -/
def rdo (out : List Nat) (i : Int) : Nat :=
  if 0 ≤ i then rd out i.toNat else 0

/-- Literal copy `*op++ = *ip++`, `n` times. -/
def copyLit (input : List Nat) : Nat → Nat → List Nat → List Nat
  | 0, _, out => out
  | n + 1, ip, out => copyLit input n (ip + 1) (out ++ [rd input ip])

/-- Match copy `*op++ = *ref++`, `n` times; source and destination may
overlap. -/
def copyRef : Nat → Int → List Nat → List Nat
  | 0, _, out => out
  | n + 1, ref, out => copyRef n (ref + 1) (out ++ [rdo out ref])

/-- The output indices loaded by `copyRef n ref`. -/
def refReads : Nat → Int → List Int
  | 0, _ => []
  | n + 1, ref => ref :: refReads n (ref + 1)

/-- The copy of a match of `len + 3` bytes in both decoders, with `ref` the
reference pointer at the test `ref == op`: a run of the byte `ref[-1]`, or a
copy from `ref - 1` on. -/
def copyMatch (out : List Nat) (ref : Int) (len : Nat) : List Nat :=
  if ref = out.length then out ++ List.replicate (len + 3) (rdo out (ref - 1))
  else copyRef (len + 3) (ref - 1) out

/-- The output indices loaded by `copyMatch`. -/
def matchReads (out : List Nat) (ref : Int) (len : Nat) : List Int :=
  if ref = out.length then [ref - 1] else refReads (len + 3) (ref - 1)

/-- The loop `do ... while (loop)` of `fastlz1_decompress`, entered with the
control byte `ctrl` read and `ip` past it.  Every iteration but the last reads
a control byte below `ip_limit`, so `length + 1` iterations are enough. -/
def dloop1 (input : List Nat) (length maxout : Nat) :
    Nat → Nat → Nat → List Nat → List Int → DResult
  | 0, ip, _, out, log => { ret := 0, out := out, ip := ip, oreads := log }
  | fuel + 1, ip, ctrl, out, log =>
    let len := ctrl >>> 5
    let ofs := (ctrl &&& 31) <<< 8
    if ctrl ≥ 32 then
      let len := len - 1
      let ref : Int := (out.length : Int) - ofs
      let len1 := if len = 7 - 1 then len + rd input ip else len
      let ip1 := if len = 7 - 1 then ip + 1 else ip
      let ref := ref - rd input ip1
      let ip2 := ip1 + 1
      if out.length + len1 + 3 > maxout then
        { ret := 0, out := out, ip := ip2, oreads := log }
      else if ref - 1 < 0 then
        { ret := 0, out := out, ip := ip2, oreads := log }
      else
        let out1 := copyMatch out ref len1
        let log1 := log ++ matchReads out ref len1
        if ip2 < length then
          dloop1 input length maxout fuel (ip2 + 1) (rd input ip2) out1 log1
        else
          { ret := out1.length, out := out1, ip := ip2, oreads := log1 }
    else
      let ctrl := ctrl + 1
      if out.length + ctrl > maxout then
        { ret := 0, out := out, ip := ip, oreads := log }
      else if ip + ctrl > length then
        { ret := 0, out := out, ip := ip, oreads := log }
      else
        let out1 := copyLit input ctrl ip out
        let ip1 := ip + ctrl
        if ip1 < length then
          dloop1 input length maxout fuel (ip1 + 1) (rd input ip1) out1 log
        else
          { ret := out1.length, out := out1, ip := ip1, oreads := log }

/-- Function `fastlz1_decompress(input, length, output, maxout)`: `input` is the
memory at the input pointer, `length` the declared length. -/
def fastlz1_decompress (input : List Nat) (length maxout : Nat) : DResult :=
  dloop1 input length maxout (length + 1) 1 (rd input 0 &&& 31) [] []

/-- Level 2, `do { code = *ip++; len += code; } while (code == 255);` with
`len` a `uint32_t`; the value is the final `ip` and `len`.  Memory past the
modelled input reads as 0, which ends the loop, so `input.length - ip + 1`
iterations are enough. -/
def chainLoop (input : List Nat) : Nat → Nat → Nat → Nat × Nat
  | 0, ip, len => (ip, len)
  | fuel + 1, ip, len =>
    let code := rd input ip
    let len := (len + code) % 2 ^ 32
    if code = 255 then chainLoop input fuel (ip + 1) len else (ip + 1, len)

/-- The loop `do ... while (loop)` of `fastlz2_decompress`, entered with the
control byte `ctrl` read and `ip` past it. -/
def dloop2 (input : List Nat) (length maxout : Nat) :
    Nat → Nat → Nat → List Nat → List Int → DResult
  | 0, ip, _, out, log => { ret := 0, out := out, ip := ip, oreads := log }
  | fuel + 1, ip, ctrl, out, log =>
    let len := ctrl >>> 5
    let ofs := (ctrl &&& 31) <<< 8
    if ctrl ≥ 32 then
      let len := len - 1
      let ref : Int := (out.length : Int) - ofs
      let r := if len = 7 - 1 then chainLoop input (input.length - ip + 1) ip len
        else (ip, len)
      let ip1 := r.1
      let len1 := r.2
      let code := rd input ip1
      let ip2 := ip1 + 1
      let ref := ref - code
      let far := code = 255 ∧ ofs = 31 <<< 8
      let ofs2 := (rd input ip2 <<< 8) + rd input (ip2 + 1)
      let ref := if far then (out.length : Int) - ofs2 - MAX_L2_DISTANCE else ref
      let ip3 := if far then ip2 + 2 else ip2
      if out.length + len1 + 3 > maxout then
        { ret := 0, out := out, ip := ip3, oreads := log }
      else if ref - 1 < 0 then
        { ret := 0, out := out, ip := ip3, oreads := log }
      else
        let out1 := copyMatch out ref len1
        let log1 := log ++ matchReads out ref len1
        if ip3 < length then
          dloop2 input length maxout fuel (ip3 + 1) (rd input ip3) out1 log1
        else
          { ret := out1.length, out := out1, ip := ip3, oreads := log1 }
    else
      let ctrl := ctrl + 1
      if out.length + ctrl > maxout then
        { ret := 0, out := out, ip := ip, oreads := log }
      else if ip + ctrl > length then
        { ret := 0, out := out, ip := ip, oreads := log }
      else
        let out1 := copyLit input ctrl ip out
        let ip1 := ip + ctrl
        if ip1 < length then
          dloop2 input length maxout fuel (ip1 + 1) (rd input ip1) out1 log
        else
          { ret := out1.length, out := out1, ip := ip1, oreads := log }

/-- Function `fastlz2_decompress(input, length, output, maxout)`: `input` is the
memory at the input pointer, `length` the declared length. -/
def fastlz2_decompress (input : List Nat) (length maxout : Nat) : DResult :=
  dloop2 input length maxout (length + 1) 1 (rd input 0 &&& 31) [] []

/-- Function `fastlz_decompress(input, length, output, maxout)`; the level is
read from `input[0]`. -/
def fastlz_decompress (input : List Nat) (length maxout : Nat) : DResult :=
  let level := (rd input 0 >>> 5) + 1
  if level = 1 then fastlz1_decompress input length maxout
  else if level = 2 then fastlz2_decompress input length maxout
  else { ret := 0, out := [], ip := 1, oreads := [] }

/-! ## Vocabulary of the statements and of the proofs -/

/-- A decoder result respects the output capacity `maxout`: the bytes stored are
`output[0 .. out.length)` with `out.length ≤ maxout`, the returned value is at
most `maxout`, and a nonzero returned value is the number of bytes stored. -/
def WriteSafe (r : DResult) (maxout : Nat) : Prop :=
  r.out.length ≤ maxout ∧ r.ret ≤ maxout ∧ (r.ret ≠ 0 → r.ret = r.out.length)

/-- No output index loaded through `ref` lies before the start of the output
buffer. -/
def NoUnderread (r : DResult) : Prop := ∀ i ∈ r.oreads, 0 ≤ i

/-! ## Vocabulary of the proofs: opcodes as tokens -/

/-- One opcode of a compressed stream: a literal run of the bytes `bs`, or a
match with length field `len` (biased by 2) and distance field `d` (biased
by 1).  The encodings `enc1` and `enc2` below are the bytes the compressors
store for an opcode (`closeRun_eq`, `emit1_spec`, `emit2_spec`) and the bytes
the decoders take for one (`dloop1_step`, `dloop2_step`). -/
inductive Tok where
  | lit (bs : List Nat)
  | mat (len d : Nat)

/-- The bytes `bs` stand in the memory `mem` from index `p` on. -/
def At (mem : List Nat) (p : Nat) (bs : List Nat) : Prop :=
  ∀ j, j < bs.length → rd mem (p + j) = bs.getD j 0

/-- Number of bytes a Level-1 match with length field `len` stands for. -/
def ml1 (len : Nat) : Nat := len + 2

/-- Number of bytes a Level-2 match with length field `len` stands for; the
decoder keeps the length in a `uint32_t`. -/
def ml2 (len : Nat) : Nat := (len - 1) % 2 ^ 32 + 3

namespace Tok

/-- Number of bytes the opcode stands for. -/
def size (ml : Nat → Nat) : Tok → Nat
  | lit bs => bs.length
  | mat len _ => ml len

/-- The match refers to bytes that are already in the output. -/
def fits (out : List Nat) : Tok → Prop
  | lit _ => True
  | mat _ d => d + 1 ≤ out.length

/-- The output after the opcode. -/
def apply (ml : Nat → Nat) (out : List Nat) : Tok → List Nat
  | lit bs => out ++ bs
  | mat len d => copyRef (ml len) ((out.length : Int) - (d + 1)) out

/-- The output indices the decoder loads for the opcode. -/
def reads (ml : Nat → Nat) (out : List Nat) : Tok → List Int
  | lit _ => []
  | mat len d => matchReads out ((out.length : Int) - d) (ml len - 3)

/-- Opcodes of the Level-1 format. -/
def shape1 : Tok → Prop
  | lit bs => 1 ≤ bs.length ∧ bs.length ≤ 32
  | mat len d => 1 ≤ len ∧ len ≤ 262 ∧ d < 8192

/-- First byte of the Level-1 encoding of an opcode. -/
def hdr1 : Tok → Nat
  | lit bs => bs.length - 1
  | mat len d => if len < 7 then len * 32 + d / 256 else 224 + d / 256

/-- The bytes after the first of the Level-1 encoding of an opcode. -/
def body1 : Tok → List Nat
  | lit bs => bs
  | mat len d => if len < 7 then [d % 256] else [len - 7, d % 256]

/-- Level-1 encoding of an opcode. -/
def enc1 (t : Tok) : List Nat := t.hdr1 :: t.body1

end Tok

/-- Encoding of a sequence of opcodes, each encoded by `E`. -/
def encAll (E : Tok → List Nat) : List Tok → List Nat
  | [] => []
  | t :: ts => E t ++ encAll E ts

/-- Total number of bytes a sequence of opcodes stands for. -/
def sizeAll (ml : Nat → Nat) : List Tok → Nat
  | [] => 0
  | t :: ts => t.size ml + sizeAll ml ts

/-- Every match of the sequence refers to bytes already in the output. -/
def fitsAll (ml : Nat → Nat) : List Nat → List Tok → Prop
  | _, [] => True
  | out, t :: ts => t.fits out ∧ fitsAll ml (t.apply ml out) ts

/-- The output after a sequence of opcodes. -/
def applyAll (ml : Nat → Nat) : List Nat → List Tok → List Nat
  | out, [] => out
  | out, t :: ts => applyAll ml (t.apply ml out) ts


/-- Level 2, the length bytes after the first byte of a long match whose length
field is `x + 7`: a chain of bytes 255 and a last byte below 255. -/
def chainBytes (x : Nat) : List Nat := List.replicate (x / 255) 255 ++ [x % 255]

namespace Tok

/-- Opcodes of the Level-2 format. -/
def shape2 : Tok → Prop
  | lit bs => 1 ≤ bs.length ∧ bs.length ≤ 32
  | mat len d => 1 ≤ len ∧ d < 8191 + 65536

/-- First byte of the Level-2 encoding of an opcode. -/
def hdr2 : Tok → Nat
  | lit bs => bs.length - 1
  | mat len d => (if len < 7 then len else 7) * 32 + (if d < 8191 then d / 256 else 31)

/-- The bytes after the first of the Level-2 encoding of an opcode. -/
def body2 : Tok → List Nat
  | lit bs => bs
  | mat len d =>
    (if len < 7 then [] else chainBytes (len - 7)) ++
      (if d < 8191 then [d % 256] else [255, (d - 8191) / 256, (d - 8191) % 256])

/-- Level-2 encoding of an opcode. -/
def enc2 (t : Tok) : List Nat := t.hdr2 :: t.body2

end Tok


/-- The input as the bytes the compressor reads from it. -/
def bytes (B : List Nat) : List Nat := B.map (· % 256)

/-- The opcode sequence starts with a literal run. -/
def startsLit : List Tok → Prop
  | Tok.lit _ :: _ => True
  | _ => False

/-- Invariant of a compressor between opcodes, for the format with opcode
encoder `E`, opcode format `S` and match length `ml`: the output is the
encoding of a well-formed opcode sequence `toks` followed by the pending prefix
byte 31 and the `copy` pending literals; the opcodes and the pending literals
reproduce the first `ip` input bytes; and the output has grown by at most one
byte in 32 over the input consumed. -/
def CInv (E : Tok → List Nat) (S : Tok → Prop) (ml : Nat → Nat) (B : List Nat)
    (ip : Nat) (out : List Nat) (copy : Nat) : Prop :=
  ∃ toks lits, out = encAll E toks ++ 31 :: lits ∧ lits.length = copy ∧ copy < 32 ∧
    (∀ t ∈ toks, S t) ∧ fitsAll ml [] toks ∧
    applyAll ml [] toks ++ lits = (bytes B).take ip ∧
    2 ≤ ip ∧ ip ≤ B.length ∧ (startsLit toks ∨ (toks = [] ∧ 1 ≤ copy)) ∧
    (∀ b ∈ out, b < 256) ∧
    32 * out.length + copy ≤ 33 * ip + 32

/-- What the end of a compressor establishes: the stream `buf.take ret` is the
encoding of a well-formed opcode sequence that starts with a literal run and
reproduces the input. -/
def CPost (E : Tok → List Nat) (S : Tok → Prop) (ml : Nat → Nat) (B : List Nat)
    (r : CResult) : Prop :=
  ∃ toks post, r.buf = encAll E toks ++ post ∧ r.ret = (encAll E toks).length ∧
    (∀ t ∈ toks, S t) ∧ fitsAll ml [] toks ∧ applyAll ml [] toks = bytes B ∧
    startsLit toks ∧ (∀ b ∈ r.buf, b < 256) ∧
    32 * r.buf.length ≤ 33 * B.length + 32 ∧ 32 * r.ret ≤ 33 * B.length + 31

/-! ## Reference decoders (`tests/refimpl.c`) -/

/-- The loop `while (src < length)` of `REF_Level1_decompress` in
`tests/refimpl.c`; `out` holds `output[0 .. dest)`.  The inner loops are
`copyLit` (`output[dest] = input[src]`, `run` times) and `copyRef`
(`output[dest] = output[ref]`, `len` times).  Every iteration advances `src`,
so `length` iterations are enough. -/
def refLoop1 (input : List Nat) (length : Nat) : Nat → Nat → List Nat → List Nat
  | 0, _, out => out
  | fuel + 1, src, out =>
    if src < length then
      let type := rd input src >>> 5
      if type = 0 then
        let run := 1 + rd input src
        let src := src + 1
        refLoop1 input length fuel (src + run) (copyLit input run src out)
      else if type < 7 then
        let ofs := 256 * (rd input src &&& 31) + rd input (src + 1)
        let len := 2 + (rd input src >>> 5)
        let ref : Int := (out.length : Int) - ofs - 1
        refLoop1 input length fuel (src + 2) (copyRef len ref out)
      else
        let ofs := 256 * (rd input src &&& 31) + rd input (src + 2)
        let len := 9 + rd input (src + 1)
        let ref : Int := (out.length : Int) - ofs - 1
        refLoop1 input length fuel (src + 3) (copyRef len ref out)
    else out

/-- Function `REF_Level1_decompress(input, length, output)`: the bytes it stores
to `output[0], output[1], ...`. -/
def REF_Level1_decompress (input : List Nat) (length : Nat) : List Nat :=
  refLoop1 input length length 0 []

/-- The loop `while (nn == 255)` of the gamma code in `REF_Level2_decompress`;
the value is the final `next` and `len`.  Memory past the modelled input reads
as 0, which ends the loop, so `input.length - src` iterations are enough. -/
def refGamma (input : List Nat) (src : Nat) : Nat → Nat → Nat → Nat → Nat × Nat
  | 0, next, len, _ => (next, len)
  | fuel + 1, next, len, nn =>
    if nn = 255 then
      let nn := rd input (src + next - 1)
      refGamma input src fuel (next + 1) (len + nn) nn
    else (next, len)

/-- The loop `while (src < length)` of `REF_Level2_decompress` in
`tests/refimpl.c`; `out` holds `output[0 .. dest)`. -/
def refLoop2 (input : List Nat) (length : Nat) : Nat → Nat → List Nat → List Nat
  | 0, _, out => out
  | fuel + 1, src, out =>
    if src < length then
      let type := rd input src >>> 5
      if type = 0 then
        let run := 1 + rd input src
        let src := src + 1
        refLoop2 input length fuel (src + run) (copyLit input run src out)
      else
        let next := 2
        let len := 2 + (rd input src >>> 5)
        let r :=
          if len = 9 then
            let next := next + 1
            let len := len + rd input (src + 1)
            if len = 9 + 255 then
              refGamma input src (input.length - src) next len (rd input (src + 1))
            else (next, len)
          else (next, len)
        let next := r.1
        let len := r.2
        let ofs := 256 * (rd input src &&& 31) + rd input (src + next - 1)
        let far := ofs = 8191
        let ofs := if far then ofs + (256 * rd input (src + next) + rd input (src + next + 1))
          else ofs
        let next := if far then next + 2 else next
        let ref : Int := (out.length : Int) - ofs - 1
        refLoop2 input length fuel (src + next) (copyRef len ref out)
    else out

/-- Function `REF_Level2_decompress(input, length, output)`: the bytes it stores
to `output[0], output[1], ...`. -/
def REF_Level2_decompress (input : List Nat) (length : Nat) : List Nat :=
  refLoop2 input length length 0 []

/-! ## The 6pack container (`6pack.c`): checksum and data chunks -/

abbrev BLOCK_SIZE : Nat := 2 * 64 * 1024
abbrev ADLER32_BASE : Nat := 65521

/-- The variables of `update_adler32` inside its loops: the read pointer `ptr`
and the accumulators `s1` and `s2`.  The accumulators are `unsigned long`; they
are kept modulo `2 ^ 32`, the narrowest `unsigned long`, and `ovf` records
whether any addition so far has exceeded `2 ^ 32 - 1`.  While `ovf` is false
the values are those of exact arithmetic, on every width of `unsigned long`. -/
structure Adler where
  ptr : Nat
  s1 : Nat
  s2 : Nat
  ovf : Bool
deriving DecidableEq

/-- One line `s1 += *ptr++; s2 += s1;`. -/
def adlerStep (buf : List Nat) (a : Adler) : Adler :=
  let s1 := a.s1 + rd buf a.ptr
  let s2 := a.s2 + s1 % 2 ^ 32
  { ptr := a.ptr + 1, s1 := s1 % 2 ^ 32, s2 := s2 % 2 ^ 32,
    ovf := a.ovf || decide (2 ^ 32 ≤ s1) || decide (2 ^ 32 ≤ s2) }

/-- The loop `while (k >= 8)` with its eight unrolled lines and `k -= 8`; the
value is the remaining `k` and the variables. -/
def adlerUnrolled (buf : List Nat) : Nat → Nat → Adler → Nat × Adler
  | 0, k, a => (k, a)
  | fuel + 1, k, a =>
    if k ≥ 8 then
      adlerUnrolled buf fuel (k - 8)
        (adlerStep buf (adlerStep buf (adlerStep buf (adlerStep buf
          (adlerStep buf (adlerStep buf (adlerStep buf (adlerStep buf a))))))))
    else (k, a)

/-- The loop `while (k-- > 0)`. -/
def adlerRest (buf : List Nat) : Nat → Adler → Adler
  | 0, a => a
  | k + 1, a => adlerRest buf k (adlerStep buf a)

/-- The loop `while (len > 0)` of `update_adler32`: blocks of at most 5552
bytes, each followed by the reduction modulo `ADLER32_BASE`.  Every iteration
takes at least one byte, so `len` iterations are enough. -/
def adlerBlocks (buf : List Nat) : Nat → Nat → Adler → Adler
  | 0, _, a => a
  | fuel + 1, len, a =>
    if len > 0 then
      let k := if len < 5552 then len else 5552
      let len := len - k
      let r := adlerUnrolled buf k k a
      let a := adlerRest buf r.1 r.2
      adlerBlocks buf fuel len
        { a with s1 := a.s1 % ADLER32_BASE, s2 := a.s2 % ADLER32_BASE }
    else a

/-- The variables of `update_adler32(checksum, buf, len)` at its `return`. -/
def adlerRun (checksum : Nat) (buf : List Nat) (len : Nat) : Adler :=
  adlerBlocks buf len len
    { ptr := 0, s1 := checksum &&& 0xffff, s2 := (checksum >>> 16) &&& 0xffff, ovf := false }

/-- Function `update_adler32(checksum, buf, len)`: the value
`(s2 << 16) + s1` returned, an `unsigned long`. -/
def update_adler32 (checksum : Nat) (buf : List Nat) (len : Nat) : Nat :=
  let a := adlerRun checksum buf len
  ((a.s2 <<< 16) + a.s1) % 2 ^ 32

/-- Whether an `unsigned long` of 32 bits overflows anywhere in
`update_adler32(checksum, buf, len)`. -/
def adlerOverflow (checksum : Nat) (buf : List Nat) (len : Nat) : Bool :=
  let a := adlerRun checksum buf len
  a.ovf || decide (2 ^ 32 ≤ (a.s2 <<< 16) + a.s1)

/-- Function `write_chunk_header(f, id, options, size, checksum, extra)`: the 16
bytes written to `f`. -/
def write_chunk_header (id options size checksum extra : Nat) : List Nat :=
  [(id &&& 255) % 256, (id >>> 8) % 256, (options &&& 255) % 256, (options >>> 8) % 256,
   (size &&& 255) % 256, ((size >>> 8) &&& 255) % 256, ((size >>> 16) &&& 255) % 256,
   ((size >>> 24) &&& 255) % 256,
   (checksum &&& 255) % 256, ((checksum >>> 8) &&& 255) % 256,
   ((checksum >>> 16) &&& 255) % 256, ((checksum >>> 24) &&& 255) % 256,
   (extra &&& 255) % 256, ((extra >>> 8) &&& 255) % 256, ((extra >>> 16) &&& 255) % 256,
   ((extra >>> 24) &&& 255) % 256]

/-- One pass of the `for(;;)` loop of `pack_file_compressed(input_file, method,
f)` for a block of `bytes_read = block.length > 0` bytes read into `buffer`:
the bytes written to `f`, a chunk header and the payload. -/
def packBlock (method : Nat) (block : List Nat) : List Nat :=
  let bytes_read := block.length
  let compress_method := if bytes_read < 32 then 0 else method
  if compress_method = 1 then
    let r := fastlz_compress_level 2 block
    let chunk_size := r.ret
    let checksum := update_adler32 1 r.buf chunk_size
    write_chunk_header 17 1 chunk_size checksum bytes_read ++ r.buf.take chunk_size
  else
    let checksum := update_adler32 1 block bytes_read
    write_chunk_header 17 0 bytes_read checksum bytes_read ++ bytes block

/-- The checksum of the file-entry chunk in `pack_file_compressed`:
`checksum = 1L`, then `update_adler32` over the 10 bytes of `buffer`, then over
the `strlen(shown_name) + 1` bytes of the name and its terminating 0, here the
list `name`. -/
def fileEntryChecksum (buffer name : List Nat) : Nat :=
  let checksum := 1
  let checksum := update_adler32 checksum buffer 10
  update_adler32 checksum name name.length

/-! ## Vocabulary of the statements about the container -/

/-- Spec-side definition, RFC 1950: `s1` of a buffer is 1 plus the sum of its
bytes, modulo 65521. -/
def specS1 (b : List Nat) : Nat := (1 + b.sum) % 65521

/-- Spec-side definition, RFC 1950: `s2` of a buffer is the sum of the
successive `s1` values, one after each byte, modulo 65521. -/
def specS2 (b : List Nat) : Nat :=
  ((List.range b.length).map (fun i => specS1 (b.take (i + 1)))).sum % 65521

/-- Spec-side definition, RFC 1950: the Adler-32 checksum `(s2 << 16) + s1`. -/
def specAdler32 (b : List Nat) : Nat := (specS2 b <<< 16) + specS1 b

/-- The 16-bit little-endian field at index `i` of a chunk. -/
def le16 (c : List Nat) (i : Nat) : Nat := rd c i + 256 * rd c (i + 1)

/-- The 32-bit little-endian field at index `i` of a chunk. -/
def le32 (c : List Nat) (i : Nat) : Nat :=
  rd c i + 256 * rd c (i + 1) + 65536 * rd c (i + 2) + 16777216 * rd c (i + 3)

/-! ## Vocabulary of the proofs about the checksum -/

/-- Exact arithmetic for `k` lines `s1 += *ptr++; s2 += s1;` from the pointer
`ptr` on: the values of `s1` and `s2` after them. -/
def adlerSum (buf : List Nat) : Nat → Nat → Nat → Nat → Nat × Nat
  | 0, _, s1, s2 => (s1, s2)
  | k + 1, ptr, s1, s2 => adlerSum buf k (ptr + 1) (s1 + rd buf ptr) (s2 + (s1 + rd buf ptr))

/-! ## Vocabulary of the statements about emitted opcodes -/

namespace Tok

/-- Opcodes as `fastlz2_compress` emits them: the distance `d + 1` of a match is
below `MAX_FARDISTANCE`, and a match at a distance of `MAX_L2_DISTANCE` or more
has a length field of at least 3, which stands for 5 bytes. -/
def shape2s : Tok → Prop
  | lit bs => 1 ≤ bs.length ∧ bs.length ≤ 32
  | mat len d => 1 ≤ len ∧ d + 1 < MAX_FARDISTANCE ∧ (MAX_L2_DISTANCE ≤ d + 1 → 3 ≤ len)

end Tok


/-! ## Vocabulary of the statements about the compressed stream -/

/-- The compressed stream: the bytes of the output buffer below the value the
compressor returns. -/
def CResult.stream (r : CResult) : List Nat := r.buf.take r.ret

/-- The stream with its first byte taken AND 31, as the Level-2 decoder reads
it (the level marker cleared). -/
def clearLevel (s : List Nat) : List Nat := s.set 0 (rd s 0 &&& 31)

/-- The stream `s` consists of the opcodes `toks` of the format `S`, encoded by
`E` one after the other with nothing left over. -/
def Opcodes (E : Tok → List Nat) (S : Tok → Prop) (s : List Nat) (toks : List Tok) : Prop :=
  s = encAll E toks ∧ ∀ t ∈ toks, S t

/-- The pending literal run of a compressor state with input position `ip`,
output `out` and count `copy`: the count is in `0 .. 31`; the byte at
`op - copy - 1` is in the output and is the prefix byte `MAX_COPY - 1` stored
when the run was started; before it the output consists of complete opcodes;
and the `copy` bytes after it are the input bytes at `ip - copy .. ip - 1`. -/
def Pending (E : Tok → List Nat) (S : Tok → Prop) (B : List Nat) (ip : Nat) (out : List Nat)
    (copy : Nat) : Prop :=
  copy < MAX_COPY ∧ copy + 1 ≤ out.length ∧ rd out (out.length - copy - 1) = MAX_COPY - 1 ∧
  copy ≤ ip ∧ ip ≤ B.length ∧
  (∀ j, j < copy → rd out (out.length - copy + j) = rd B (ip - copy + j)) ∧
  ∃ toks, Opcodes E S (out.take (out.length - copy - 1)) toks

/-! ## Input indices the compressors load

Each function below follows the control flow of the compressor function it is
named after and lists, in order, the indices `i` of the loads `input[i]` that
function performs.  The indices are integers, so that a load before the start of
the input would show as a negative index. -/

/-- Indices loaded by `HASH_FUNCTION(v, p)`: `FASTLZ_READU16(p)` and
`FASTLZ_READU16(p + 1)`, two bytes each. -/
def hashReads (p : Int) : List Int := [p, p + 1, p + 1, p + 2]

/-- Indices loaded by `while (ip <= ip_bound) *op++ = *ip++;` with `n`
iterations left, in the short-input path and, with the run bookkeeping, in the
loop over the left-over bytes. -/
def copyReads : Nat → Nat → List Int
  | 0, _ => []
  | n + 1, ip => (ip : Int) :: copyReads n (ip + 1)

/-- Indices loaded by `runLoop`: `*ref++` once per iteration. -/
def runLoopReads (input : List Nat) (x : Nat) : Nat → Nat → List Int
  | 0, _ => []
  | n + 1, ref =>
    (ref : Int) :: (if rd input ref ≠ x then [] else runLoopReads input x n (ref + 1))

/-- Indices loaded by `cmpLoop`: `*ref++` and `*ip++` once per iteration. -/
def cmpLoopReads (input : List Nat) : Nat → Nat → Nat → List Int
  | 0, _, _ => []
  | n + 1, ref, ip =>
    (ref : Int) :: (ip : Int) ::
      (if rd input ref ≠ rd input ip then [] else cmpLoopReads input n (ref + 1) (ip + 1))

/-- Indices loaded by `cmpUnrolled`: the unrolled comparisons, then the bounded
loop. -/
def cmpUnrolledReads (input : List Nat) (ip_bound : Nat) : Nat → Nat → Nat → List Int
  | 0, ref, ip => cmpLoopReads input (ip_bound - ip) ref ip
  | k + 1, ref, ip =>
    (ref : Int) :: (ip : Int) ::
      (if rd input ref ≠ rd input ip then []
       else cmpUnrolledReads input ip_bound k (ref + 1) (ip + 1))

/-- Indices loaded by `extend`: `x = ip[-1]` and the run loop when the biased
distance is 0, the general comparison otherwise. -/
def extendReads (input : List Nat) (ip_bound distance ref ip : Nat) : List Int :=
  if distance = 0 then
    ((ip : Int) - 1) :: runLoopReads input (rd input (ip - 1)) (ip_bound - ip) ref
  else
    cmpUnrolledReads input ip_bound 8 ref ip

/-- Indices loaded by `k` comparisons `*ref++ != *ip++ || ...` of the check of
the first bytes of a candidate: a comparison is evaluated only when the earlier
ones found equal bytes. -/
def checkReads (input : List Nat) : Nat → Nat → Nat → List Int
  | 0, _, _ => []
  | k + 1, ref, ip =>
    (ref : Int) :: (ip : Int) ::
      (if rd input ref ≠ rd input ip then [] else checkReads input k (ref + 1) (ip + 1))

/-- Indices loaded from the match extension to the end of the match branch of
either main loop: the extension, then the two hash updates at `ip` and
`ip + 1` after `ip -= 3`.  `len` is the minimum match length reached and
`distance` the unbiased distance. -/
def matchBranchReads (input : List Nat) (anchor len distance ref : Nat) : List Int :=
  let ip_bound := input.length - 2
  let distance := distance - 1
  let ip := extend input ip_bound distance ref (anchor + len)
  extendReads input ip_bound distance ref (anchor + len) ++
    (hashReads ((ip : Int) - 3) ++ hashReads ((ip : Int) - 3 + 1))

/-- Indices loaded by one iteration of the main loop of `fastlz1_compress`: the
hash of the three bytes at `ip`, the check of the candidate unless the distance
rules it out, then either the literal `*anchor` or the match branch. -/
def iter1Reads (input : List Nat) (s : CState) : List Int :=
  let anchor := s.ip
  let hval := HASH_FUNCTION input s.ip
  let ref := s.htab hval
  let distance := anchor - ref
  hashReads anchor ++
    (if distance = 0 ∨ distance ≥ MAX_L1_DISTANCE then [(anchor : Int)]
     else
       checkReads input 3 ref anchor ++
         (if rd input ref ≠ rd input anchor ∨
              rd input (ref + 1) ≠ rd input (anchor + 1) ∨
              rd input (ref + 2) ≠ rd input (anchor + 2) then [(anchor : Int)]
          else matchBranchReads input anchor 3 distance (ref + 3)))

/-- Indices loaded by the main loop of `fastlz1_compress`. -/
def loop1Reads (input : List Nat) : Nat → CState → List Int
  | 0, _ => []
  | fuel + 1, s =>
    if s.ip + 13 < input.length then
      iter1Reads input s ++ loop1Reads input fuel (iter1 input s)
    else []

/-- Indices loaded by `fastlz1_compress`: the short-input path, or the two
first literals, the main loop and the loop over the left-over bytes. -/
def compress1Reads (input : List Nat) : List Int :=
  if input.length < 4 then copyReads input.length 0
  else
    [0, 1] ++ loop1Reads input input.length (initState input) ++
      copyReads (input.length - (loop1 input input.length (initState input)).ip)
        (loop1 input input.length (initState input)).ip

/-- Indices loaded by the run check
`ip[0] == ip[-1] && ip[0] == ip[1] && ip[1] == ip[2]` of `fastlz2_compress`. -/
def runCheckReads (input : List Nat) (anchor : Nat) : List Int :=
  [(anchor : Int), (anchor : Int) - 1] ++
    (if rd input anchor = rd input (anchor - 1) then
      [(anchor : Int), (anchor : Int) + 1] ++
        (if rd input anchor = rd input (anchor + 1) then
          [(anchor : Int) + 1, (anchor : Int) + 2]
         else [])
     else [])

/-- Indices loaded by one iteration of the main loop of `fastlz2_compress`. -/
def iter2Reads (input : List Nat) (s : CState) : List Int :=
  let anchor := s.ip
  runCheckReads input anchor ++
    (if rd input anchor = rd input (anchor - 1) ∧ rd input anchor = rd input (anchor + 1) ∧
        rd input (anchor + 1) = rd input (anchor + 2) then
      matchBranchReads input anchor 3 1 (anchor - 1 + 3)
     else
      let hval := HASH_FUNCTION input anchor
      let ref := s.htab hval
      let distance := anchor - ref
      hashReads anchor ++
        (if distance = 0 ∨ distance ≥ MAX_FARDISTANCE then [(anchor : Int)]
         else
           checkReads input 3 ref anchor ++
             (if rd input ref ≠ rd input anchor ∨
                  rd input (ref + 1) ≠ rd input (anchor + 1) ∨
                  rd input (ref + 2) ≠ rd input (anchor + 2) then [(anchor : Int)]
              else if distance ≥ MAX_L2_DISTANCE then
                checkReads input 2 (ref + 3) (anchor + 3) ++
                  (if rd input (anchor + 3) ≠ rd input (ref + 3) ∨
                       rd input (anchor + 4) ≠ rd input (ref + 4) then [(anchor : Int)]
                   else matchBranchReads input anchor 5 distance (ref + 5))
              else matchBranchReads input anchor 3 distance (ref + 3))))

/-- Indices loaded by the main loop of `fastlz2_compress`. -/
def loop2Reads (input : List Nat) : Nat → CState → List Int
  | 0, _ => []
  | fuel + 1, s =>
    if s.ip + 13 < input.length then
      iter2Reads input s ++ loop2Reads input fuel (iter2 input s)
    else []

/-- Indices loaded by `fastlz2_compress`. -/
def compress2Reads (input : List Nat) : List Int :=
  if input.length < 4 then copyReads input.length 0
  else
    [0, 1] ++ loop2Reads input input.length (initState input) ++
      copyReads (input.length - (loop2 input input.length (initState input)).ip)
        (loop2 input input.length (initState input)).ip

/-! ## Basic facts -/

theorem rd_lt (mem : List Nat) (i : Nat) : rd mem i < 256 :=
  Nat.mod_lt _ (by decide)

theorem copyLit_length (input : List Nat) :
    ∀ (n ip : Nat) (out : List Nat), (copyLit input n ip out).length = out.length + n := by
  intro n
  induction n with
  | zero => intro ip out; simp [copyLit]
  | succ n ih => intro ip out; simp [copyLit, ih]; omega

theorem copyRef_length :
    ∀ (n : Nat) (ref : Int) (out : List Nat), (copyRef n ref out).length = out.length + n := by
  intro n
  induction n with
  | zero => intro ref out; simp [copyRef]
  | succ n ih => intro ref out; simp [copyRef, ih]; omega

theorem copyMatch_length (out : List Nat) (ref : Int) (len : Nat) :
    (copyMatch out ref len).length = out.length + (len + 3) := by
  unfold copyMatch
  split
  · simp
  · exact copyRef_length _ _ _

/-! ## Write safety of the decoders -/

/-- The Level-1 opcode loop respects the output capacity from any state. -/
theorem dloop1_write_safe (input : List Nat) (length maxout : Nat) :
    ∀ (fuel ip ctrl : Nat) (out : List Nat) (log : List Int), out.length ≤ maxout →
      WriteSafe (dloop1 input length maxout fuel ip ctrl out log) maxout := by
  intro fuel
  induction fuel with
  | zero => intro ip ctrl out log h; simp [dloop1, WriteSafe, h]
  | succ fuel ih =>
    intro ip ctrl out log h
    simp only [dloop1]
    split_ifs <;> first
      | (refine ⟨h, ?_, ?_⟩ <;> simp)
      | (apply ih; simp only [copyMatch_length, copyLit_length]; omega)
      | exact ⟨by simp only [copyMatch_length, copyLit_length]; omega,
          by simp only [copyMatch_length, copyLit_length]; omega, fun _ => rfl⟩

/-- The Level-2 opcode loop respects the output capacity from any state. -/
theorem dloop2_write_safe (input : List Nat) (length maxout : Nat) :
    ∀ (fuel ip ctrl : Nat) (out : List Nat) (log : List Int), out.length ≤ maxout →
      WriteSafe (dloop2 input length maxout fuel ip ctrl out log) maxout := by
  intro fuel
  induction fuel with
  | zero => intro ip ctrl out log h; simp [dloop2, WriteSafe, h]
  | succ fuel ih =>
    intro ip ctrl out log h
    simp only [dloop2]
    split_ifs <;> first
      | (refine ⟨h, ?_, ?_⟩ <;> simp)
      | (apply ih; simp only [copyMatch_length, copyLit_length]; omega)
      | exact ⟨by simp only [copyMatch_length, copyLit_length]; omega,
          by simp only [copyMatch_length, copyLit_length]; omega, fun _ => rfl⟩

theorem fastlz1_decompress_write_safe (input : List Nat) (length maxout : Nat) :
    WriteSafe (fastlz1_decompress input length maxout) maxout :=
  dloop1_write_safe input length maxout _ _ _ _ _ (Nat.zero_le _)

theorem fastlz2_decompress_write_safe (input : List Nat) (length maxout : Nat) :
    WriteSafe (fastlz2_decompress input length maxout) maxout :=
  dloop2_write_safe input length maxout _ _ _ _ _ (Nat.zero_le _)

/-! ## Dispatch -/

theorem fastlz_decompress_level1 (input : List Nat) (length maxout : Nat)
    (h : rd input 0 >>> 5 = 0) :
    fastlz_decompress input length maxout = fastlz1_decompress input length maxout := by
  simp [fastlz_decompress, h]

theorem fastlz_decompress_level2 (input : List Nat) (length maxout : Nat)
    (h : rd input 0 >>> 5 = 1) :
    fastlz_decompress input length maxout = fastlz2_decompress input length maxout := by
  simp [fastlz_decompress, h]

/-! ## Opcodes as the decoders read them -/

theorem and31 (x : Nat) : x &&& 31 = x % 32 := Nat.and_pow_two_sub_one_eq_mod x 5
theorem and255 (x : Nat) : x &&& 255 = x % 256 := Nat.and_pow_two_sub_one_eq_mod x 8

theorem At_nil (mem : List Nat) (p : Nat) : At mem p [] := by
  intro j hj; simp at hj

theorem At_cons (mem : List Nat) (p b : Nat) (bs : List Nat) :
    At mem p (b :: bs) ↔ rd mem p = b ∧ At mem (p + 1) bs := by
  constructor
  · intro h
    refine ⟨by simpa using h 0 (by simp), ?_⟩
    intro j hj
    have := h (j + 1) (by simpa using hj)
    simpa [Nat.add_assoc, Nat.add_comm 1 j] using this
  · rintro ⟨h0, h1⟩ j hj
    cases j with
    | zero => simpa using h0
    | succ j =>
      have := h1 j (by simpa using hj)
      simpa [Nat.add_assoc, Nat.add_comm 1 j] using this

theorem At_append (mem : List Nat) (p : Nat) (as bs : List Nat) :
    At mem p (as ++ bs) ↔ At mem p as ∧ At mem (p + as.length) bs := by
  induction as generalizing p with
  | nil => simp [At_nil]
  | cons a as ih =>
    simp only [List.cons_append, At_cons, ih, List.length_cons]
    have : p + 1 + as.length = p + (as.length + 1) := by omega
    rw [this]
    tauto

theorem copyLit_At (mem : List Nat) :
    ∀ (bs : List Nat) (p : Nat) (out : List Nat), At mem p bs →
      copyLit mem bs.length p out = out ++ bs := by
  intro bs
  induction bs with
  | nil => intro p out _; simp [copyLit]
  | cons b bs ih =>
    intro p out h
    rw [At_cons] at h
    simp [copyLit, ih _ _ h.2, h.1]

theorem rdo_natCast (out : List Nat) (i : Nat) : rdo out (i : Int) = rd out i := by
  simp [rdo]

/-- A copy at distance 1 repeats the last byte. -/
theorem copyRef_run :
    ∀ (n : Nat) (out : List Nat), 1 ≤ out.length →
      copyRef n ((out.length : Int) - 1) out =
        out ++ List.replicate n (rdo out ((out.length : Int) - 1)) := by
  intro n
  induction n with
  | zero => intro out _; simp [copyRef]
  | succ n ih =>
    intro out h
    have hcast : ((out.length : Int) - 1) = ((out.length - 1 : Nat) : Int) := by omega
    have h1 : (out ++ [rdo out ((out.length : Int) - 1)]).length = out.length + 1 := by simp
    have h2 := ih (out ++ [rdo out ((out.length : Int) - 1)]) (by simp)
    have h3 : rdo (out ++ [rdo out ((out.length : Int) - 1)])
        (((out ++ [rdo out ((out.length : Int) - 1)]).length : Int) - 1) =
        rdo out ((out.length : Int) - 1) := by
      rw [h1]
      have : (((out.length + 1 : Nat) : Int) - 1) = ((out.length : Nat) : Int) := by omega
      rw [this, rdo_natCast, hcast, rdo_natCast]
      simp [rd, List.getD_append_right]
    rw [h3, h1] at h2
    have h4 : (((out.length + 1 : Nat) : Int) - 1) = (out.length : Int) - 1 + 1 := by omega
    rw [h4] at h2
    simp only [copyRef]
    rw [h2]
    simp [List.replicate_succ]

theorem copyMatch_eq (out : List Nat) (d len : Nat) (h : d + 1 ≤ out.length) :
    copyMatch out ((out.length : Int) - d) len =
      copyRef (len + 3) ((out.length : Int) - (d + 1)) out := by
  unfold copyMatch
  split
  · rename_i h0
    have hd : d = 0 := by omega
    subst hd
    have := copyRef_run (len + 3) out (by omega)
    simp only [Nat.cast_zero, sub_zero, zero_add] at this ⊢
    rw [this]
  · congr 1
    omega


theorem Tok.apply_length (ml : Nat → Nat) (out : List Nat) (t : Tok) :
    (t.apply ml out).length = out.length + t.size ml := by
  cases t <;> simp [Tok.apply, Tok.size, copyRef_length]

/-- One iteration of the Level-1 opcode loop on a well-formed opcode. -/
theorem dloop1_step (mem : List Nat) (n maxout fuel p : Nat) (out : List Nat)
    (log : List Int) (t : Tok) (hs : t.shape1) (hAt : At mem p t.body1)
    (hn : p + t.body1.length ≤ n) :
    ((maxout < out.length + t.size ml1 ∨ ¬ t.fits out) →
      (dloop1 mem n maxout (fuel + 1) p t.hdr1 out log).ret = 0) ∧
    (out.length + t.size ml1 ≤ maxout → t.fits out →
      dloop1 mem n maxout (fuel + 1) p t.hdr1 out log =
        if p + t.body1.length < n then
          dloop1 mem n maxout fuel (p + t.body1.length + 1) (rd mem (p + t.body1.length))
            (t.apply ml1 out) (log ++ t.reads ml1 out)
        else
          { ret := (t.apply ml1 out).length, out := t.apply ml1 out,
            ip := p + t.body1.length, oreads := log ++ t.reads ml1 out }) := by
  cases t with
  | lit bs =>
    obtain ⟨h1, h2⟩ := hs
    simp only [Tok.body1] at hAt hn
    have hc : ¬ (bs.length - 1 ≥ 32) := by omega
    have hb : bs.length - 1 + 1 = bs.length := by omega
    simp only [Tok.hdr1, Tok.body1, Tok.size, Tok.fits, Tok.apply, Tok.reads, dloop1, hc,
      if_false, hb, copyLit_At mem bs p out hAt, List.append_nil, not_true, or_false]
    constructor
    · intro h
      have : out.length + bs.length > maxout := by omega
      simp [this]
    · intro h _
      have h3 : ¬ (out.length + bs.length > maxout) := by omega
      have h4 : ¬ (p + bs.length > n) := by omega
      simp [h3, h4]
  | mat len d =>
    obtain ⟨h1, h2, h3⟩ := hs
    by_cases h7 : len < 7
    · simp only [Tok.body1, h7, if_true, At_cons, List.length_singleton] at hAt hn
      have hc : len * 32 + d / 256 ≥ 32 := by omega
      have e1 : (len * 32 + d / 256) >>> 5 = len := by
        rw [Nat.shiftRight_eq_div_pow]; omega
      have e2 : ((len * 32 + d / 256) &&& 31) <<< 8 = d / 256 * 256 := by
        rw [and31, Nat.shiftLeft_eq]
        have : (len * 32 + d / 256) % 32 = d / 256 := by omega
        rw [this]
      have e5 : ((out.length : Int) - ((d / 256 * 256 : Nat) : Int) - ((d % 256 : Nat) : Int)) =
          (out.length : Int) - d := by omega
      simp only [Tok.hdr1, Tok.body1, Tok.size, Tok.fits, Tok.apply, Tok.reads, dloop1, h7,
        if_true, e1, e2, hAt.1, e5, ml1, List.length_singleton]
      constructor
      · intro h
        split_ifs <;> first | rfl | (exfalso; omega)
      · intro ha hb
        have h8 : len + 2 - 3 = len - 1 := by omega
        have h9 := copyMatch_eq out d (len - 1) hb
        have e4 : len - 1 + 3 = len + 2 := by omega
        rw [e4] at h9
        split_ifs <;> first | (exfalso; omega) | simp only [hAt.1, e5, h9, h8]
    · simp only [Tok.body1, h7, if_false, At_cons, List.length_cons, List.length_singleton,
        List.length_nil] at hAt hn
      have hc : 224 + d / 256 ≥ 32 := by omega
      have e1 : (224 + d / 256) >>> 5 = 7 := by
        rw [Nat.shiftRight_eq_div_pow]; omega
      have e2 : ((224 + d / 256) &&& 31) <<< 8 = d / 256 * 256 := by
        rw [and31, Nat.shiftLeft_eq]
        have : (224 + d / 256) % 32 = d / 256 := by omega
        rw [this]
      have e5 : ((out.length : Int) - ((d / 256 * 256 : Nat) : Int) - ((d % 256 : Nat) : Int)) =
          (out.length : Int) - d := by omega
      simp only [Tok.hdr1, Tok.body1, Tok.size, Tok.fits, Tok.apply, Tok.reads, dloop1, h7,
        if_false, if_true, e1, e2, hAt.1, hAt.2.1, e5, ml1, List.length_cons,
        List.length_singleton, List.length_nil]
      constructor
      · intro h
        split_ifs <;> first | rfl | (exfalso; omega)
      · intro ha hb
        have h8 : len + 2 - 3 = 7 - 1 + (len - 7) := by omega
        have h9 := copyMatch_eq out d (7 - 1 + (len - 7)) hb
        have e4 : 7 - 1 + (len - 7) + 3 = len + 2 := by omega
        rw [e4] at h9
        split_ifs <;> first | (exfalso; omega) | simp only [hAt.1, hAt.2.1, e5, h9, h8]


theorem fitsAll_cons (ml : Nat → Nat) (out : List Nat) (t : Tok) (ts : List Tok) :
    fitsAll ml out (t :: ts) ↔ t.fits out ∧ fitsAll ml (t.apply ml out) ts := Iff.rfl

/-- The Level-1 opcode loop on a stream that consists of well-formed opcodes up
to the declared length: it returns the decoded size and stores the decoded
bytes when every match refers to earlier output and the capacity suffices, and
returns 0 otherwise. -/
theorem dloop1_run (mem : List Nat) (n maxout : Nat) :
    ∀ (ts : List Tok) (t : Tok) (fuel p : Nat) (out : List Nat) (log : List Int),
      t.shape1 → (∀ u ∈ ts, u.shape1) → At mem p (t.body1 ++ encAll Tok.enc1 ts) →
      p + (t.body1 ++ encAll Tok.enc1 ts).length = n → n + 2 ≤ fuel + p →
      ((fitsAll ml1 out (t :: ts) ∧ out.length + sizeAll ml1 (t :: ts) ≤ maxout) →
        (dloop1 mem n maxout fuel p t.hdr1 out log).ret = out.length + sizeAll ml1 (t :: ts) ∧
        (dloop1 mem n maxout fuel p t.hdr1 out log).out = applyAll ml1 out (t :: ts) ∧
        (dloop1 mem n maxout fuel p t.hdr1 out log).ip = n) ∧
      (¬ (fitsAll ml1 out (t :: ts) ∧ out.length + sizeAll ml1 (t :: ts) ≤ maxout) →
        (dloop1 mem n maxout fuel p t.hdr1 out log).ret = 0) := by
  intro ts
  induction ts with
  | nil =>
    intro t fuel p out log hs _ hAt hn hf
    simp only [encAll, List.append_nil] at hAt hn
    obtain ⟨f, rfl⟩ : ∃ f, fuel = f + 1 := ⟨fuel - 1, by omega⟩
    have step := dloop1_step mem n maxout f p out log t hs hAt (by omega)
    have hlt : ¬ (p + t.body1.length < n) := by omega
    simp only [fitsAll, sizeAll, applyAll, and_true, Nat.add_zero]
    constructor
    · rintro ⟨hfit, hcap⟩
      rw [step.2 hcap hfit, if_neg hlt]
      exact ⟨Tok.apply_length _ _ _, rfl, hn⟩
    · intro h
      apply step.1
      by_cases hfit : t.fits out
      · left
        have : ¬ (out.length + t.size ml1 ≤ maxout) := fun hc => h ⟨hfit, hc⟩
        omega
      · right; exact hfit
  | cons t2 ts ih =>
    intro t fuel p out log hs hss hAt hn hf
    have hs2 : t2.shape1 := hss t2 (List.mem_cons_self _ _)
    have hss2 : ∀ u ∈ ts, u.shape1 := fun u hu => hss u (List.mem_cons_of_mem _ hu)
    simp only [encAll, Tok.enc1, List.length_append, List.length_cons, List.cons_append] at hAt hn
    rw [At_append, At_cons] at hAt
    obtain ⟨hA1, hA2, hA3⟩ := hAt
    obtain ⟨f, rfl⟩ : ∃ f, fuel = f + 1 := ⟨fuel - 1, by omega⟩
    have step := dloop1_step mem n maxout f p out log t hs hA1 (by omega)
    have hlt : p + t.body1.length < n := by omega
    have ih2 := ih t2 f (p + t.body1.length + 1) (t.apply ml1 out) (log ++ t.reads ml1 out)
      hs2 hss2 hA3 (by simp only [List.length_append]; omega) (by omega)
    rw [Tok.apply_length] at ih2
    simp only [fitsAll_cons, sizeAll, applyAll] at ih2 ⊢
    constructor
    · rintro ⟨⟨hfit, hfits⟩, hcap⟩
      rw [step.2 (by omega) hfit, if_pos hlt, hA2]
      have := ih2.1 ⟨hfits, by omega⟩
      refine ⟨by omega, this.2.1, this.2.2⟩
    · intro h
      by_cases hfit : t.fits out
      · by_cases hcap : out.length + t.size ml1 ≤ maxout
        · rw [step.2 hcap hfit, if_pos hlt, hA2]
          apply ih2.2
          rintro ⟨hfits, hc⟩
          exact h ⟨⟨hfit, hfits⟩, by omega⟩
        · exact step.1 (Or.inl (by omega))
      · exact step.1 (Or.inr hfit)

/-! ## Match search and match copy -/

theorem bytes_length (B : List Nat) : (bytes B).length = B.length := by simp [bytes]

theorem bytes_of_lt (B : List Nat) (h : ∀ b ∈ B, b < 256) : bytes B = B := by
  unfold bytes
  conv_rhs => rw [← List.map_id B]
  apply List.map_congr_left
  intro b hb
  exact Nat.mod_eq_of_lt (h b hb)

theorem rd_eq_getElem (B : List Nat) (i : Nat) (h : i < B.length) :
    rd B i = B[i] % 256 := by
  unfold rd
  rw [List.getD_eq_getElem _ _ h]

theorem bytes_take_succ (B : List Nat) (i : Nat) (h : i < B.length) :
    (bytes B).take (i + 1) = (bytes B).take i ++ [rd B i] := by
  rw [List.take_succ]
  congr 1
  simp [bytes, rd_eq_getElem B i h, List.getElem?_eq_getElem, h]

theorem rd_bytes_take (B : List Nat) (a i : Nat) (hi : i < a) (ha : a ≤ B.length) :
    rd ((bytes B).take a) i = rd B i := by
  have h1 : i < B.length := by omega
  have h2 : i < ((bytes B).take a).length := by simp [bytes_length]; omega
  rw [rd_eq_getElem _ _ h2, rd_eq_getElem _ _ h1]
  simp [bytes]

/-- A match copy reproduces the input when the input repeats at the distance
of the match. -/
theorem copyRef_sound (B : List Nat) (dist : Nat) :
    ∀ (m a : Nat), 1 ≤ dist → dist ≤ a → a + m ≤ B.length →
      (∀ i, i < m → rd B (a - dist + i) = rd B (a + i)) →
      copyRef m ((a : Int) - dist) ((bytes B).take a) = (bytes B).take (a + m) := by
  intro m
  induction m with
  | zero => intro a _ _ _ _; simp [copyRef]
  | succ m ih =>
    intro a h1 h2 h3 h4
    have hcast : ((a : Int) - dist) = ((a - dist : Nat) : Int) := by omega
    have hr : rdo ((bytes B).take a) ((a : Int) - dist) = rd B a := by
      rw [hcast, rdo_natCast, rd_bytes_take B a (a - dist) (by omega) (by omega)]
      simpa using h4 0 (by omega)
    have hs : (bytes B).take a ++ [rd B a] = (bytes B).take (a + 1) :=
      (bytes_take_succ B a (by omega)).symm
    have ih2 := ih (a + 1) h1 (by omega) (by omega) (by
      intro i hi
      have := h4 (i + 1) (by omega)
      have e1 : a + 1 - dist + i = a - dist + (i + 1) := by omega
      have e2 : a + 1 + i = a + (i + 1) := by omega
      rw [e1, e2]; exact this)
    have e3 : (((a + 1 : Nat) : Int) - dist) = (a : Int) - dist + 1 := by omega
    have e4 : a + 1 + m = a + (m + 1) := by omega
    rw [e3, e4] at ih2
    simp only [copyRef, hr, hs]
    exact ih2

theorem cmpLoop_spec (input : List Nat) :
    ∀ (n ref ip : Nat),
      ip ≤ cmpLoop input n ref ip ∧ cmpLoop input n ref ip ≤ ip + n ∧
      (1 ≤ n → ip + 1 ≤ cmpLoop input n ref ip) ∧
      ∀ j, ip + j + 1 < cmpLoop input n ref ip → rd input (ref + j) = rd input (ip + j) := by
  intro n
  induction n with
  | zero =>
    intro ref ip
    simp only [cmpLoop]
    refine ⟨le_refl _, by omega, by omega, ?_⟩
    intro j hj; omega
  | succ n ih =>
    intro ref ip
    simp only [cmpLoop]
    split_ifs with h
    · refine ⟨by omega, by omega, by omega, ?_⟩
      intro j hj; omega
    · obtain ⟨a1, a2, _, a4⟩ := ih (ref + 1) (ip + 1)
      refine ⟨by omega, by omega, by omega, ?_⟩
      intro j hj
      cases j with
      | zero => simpa using h
      | succ j =>
        have := a4 j (by omega)
        have e1 : ref + (j + 1) = ref + 1 + j := by omega
        have e2 : ip + (j + 1) = ip + 1 + j := by omega
        rw [e1, e2]; exact this

theorem cmpUnrolled_spec (input : List Nat) (ipb : Nat) :
    ∀ (k ref ip : Nat),
      ip ≤ cmpUnrolled input ipb k ref ip ∧
      (cmpUnrolled input ipb k ref ip ≤ ip + k ∨ cmpUnrolled input ipb k ref ip ≤ ipb) ∧
      (1 ≤ k → ip + 1 ≤ cmpUnrolled input ipb k ref ip) ∧
      ∀ j, ip + j + 1 < cmpUnrolled input ipb k ref ip →
        rd input (ref + j) = rd input (ip + j) := by
  intro k
  induction k with
  | zero =>
    intro ref ip
    simp only [cmpUnrolled]
    obtain ⟨a1, a2, _, a4⟩ := cmpLoop_spec input (ipb - ip) ref ip
    refine ⟨a1, by omega, by omega, a4⟩
  | succ k ih =>
    intro ref ip
    simp only [cmpUnrolled]
    split_ifs with h
    · refine ⟨by omega, by omega, by omega, ?_⟩
      intro j hj; omega
    · obtain ⟨a1, a2, _, a4⟩ := ih (ref + 1) (ip + 1)
      refine ⟨by omega, by omega, by omega, ?_⟩
      intro j hj
      cases j with
      | zero => simpa using h
      | succ j =>
        have := a4 j (by omega)
        have e1 : ref + (j + 1) = ref + 1 + j := by omega
        have e2 : ip + (j + 1) = ip + 1 + j := by omega
        rw [e1, e2]; exact this

theorem runLoop_spec (input : List Nat) (x : Nat) :
    ∀ (n ref ip : Nat),
      ip ≤ runLoop input x n ref ip ∧ runLoop input x n ref ip ≤ ip + n ∧
      (1 ≤ n → rd input ref = x → ip + 1 ≤ runLoop input x n ref ip) ∧
      ∀ j, ip + j < runLoop input x n ref ip → rd input (ref + j) = x := by
  intro n
  induction n with
  | zero =>
    intro ref ip
    simp only [runLoop]
    refine ⟨le_refl _, by omega, by omega, ?_⟩
    intro j hj; omega
  | succ n ih =>
    intro ref ip
    simp only [runLoop]
    split_ifs with h
    · refine ⟨by omega, by omega, fun _ hx => absurd hx h, ?_⟩
      intro j hj; omega
    · obtain ⟨a1, a2, _, a4⟩ := ih (ref + 1) (ip + 1)
      refine ⟨by omega, by omega, by omega, ?_⟩
      intro j hj
      cases j with
      | zero => simpa using h
      | succ j =>
        have := a4 j (by omega)
        have e1 : ref + (j + 1) = ref + 1 + j := by omega
        rw [e1]; exact this

/-- The extension of a verified minimum match of `len0` bytes: the final `ip` is
past the minimum match, at most `length - 1`, and all bytes up to `ip - 2`
repeat at the distance of the match. -/
theorem extend_spec (input : List Nat) (anchor ref0 len0 : Nat)
    (href : ref0 < anchor) (hlen : 3 ≤ len0) (hend : anchor + len0 + 8 < input.length)
    (hmin : ∀ i, i < len0 → rd input (ref0 + i) = rd input (anchor + i)) :
    anchor + len0 + 1 ≤
      extend input (input.length - 2) (anchor - ref0 - 1) (ref0 + len0) (anchor + len0) ∧
    extend input (input.length - 2) (anchor - ref0 - 1) (ref0 + len0) (anchor + len0) + 1 ≤
      input.length ∧
    ∀ i, anchor + i + 1 <
        extend input (input.length - 2) (anchor - ref0 - 1) (ref0 + len0) (anchor + len0) →
      rd input (ref0 + i) = rd input (anchor + i) := by
  unfold extend
  split_ifs with h
  · have hr : ref0 + 1 = anchor := by omega
    have e0 : anchor + len0 - 1 = ref0 + len0 := by omega
    rw [e0]
    obtain ⟨a1, a2, a3, a4⟩ := runLoop_spec input (rd input (ref0 + len0))
      (input.length - 2 - (anchor + len0)) (ref0 + len0) (anchor + len0)
    refine ⟨a3 (by omega) rfl, by omega, ?_⟩
    intro i hi
    by_cases hi0 : i < len0
    · exact hmin i hi0
    · have b1 := a4 (i - len0) (by omega)
      have b2 := a4 (i + 1 - len0) (by omega)
      have e1 : ref0 + len0 + (i - len0) = ref0 + i := by omega
      have e2 : ref0 + len0 + (i + 1 - len0) = anchor + i := by omega
      rw [e1] at b1
      rw [e2] at b2
      rw [b1, b2]
  · obtain ⟨a1, a2, a3, a4⟩ := cmpUnrolled_spec input (input.length - 2) 8
      (ref0 + len0) (anchor + len0)
    refine ⟨a3 (by omega), by omega, ?_⟩
    intro i hi
    by_cases hi0 : i < len0
    · exact hmin i hi0
    · have b1 := a4 (i - len0) (by omega)
      have e1 : ref0 + len0 + (i - len0) = ref0 + i := by omega
      have e2 : anchor + len0 + (i - len0) = anchor + i := by omega
      rw [e1, e2] at b1
      exact b1

/-! ## Opcode sequences -/

theorem encAll_append (E : Tok → List Nat) (ts us : List Tok) :
    encAll E (ts ++ us) = encAll E ts ++ encAll E us := by
  induction ts with
  | nil => simp [encAll]
  | cons t ts ih => simp [encAll, ih]

theorem applyAll_append (ml : Nat → Nat) (ts us : List Tok) :
    ∀ out, applyAll ml out (ts ++ us) = applyAll ml (applyAll ml out ts) us := by
  induction ts with
  | nil => intro out; simp [applyAll]
  | cons t ts ih => intro out; simp [applyAll, ih]

theorem fitsAll_append (ml : Nat → Nat) (ts us : List Tok) :
    ∀ out, fitsAll ml out (ts ++ us) ↔
      fitsAll ml out ts ∧ fitsAll ml (applyAll ml out ts) us := by
  induction ts with
  | nil => intro out; simp [fitsAll, applyAll]
  | cons t ts ih => intro out; simp [fitsAll, applyAll, ih, and_assoc]

theorem sizeAll_append (ml : Nat → Nat) (ts us : List Tok) :
    sizeAll ml (ts ++ us) = sizeAll ml ts + sizeAll ml us := by
  induction ts with
  | nil => simp [sizeAll]
  | cons t ts ih => simp [sizeAll, ih]; omega

theorem applyAll_length (ml : Nat → Nat) (ts : List Tok) :
    ∀ out, (applyAll ml out ts).length = out.length + sizeAll ml ts := by
  induction ts with
  | nil => intro out; simp [applyAll, sizeAll]
  | cons t ts ih => intro out; simp [applyAll, sizeAll, ih, Tok.apply_length]; omega

theorem startsLit_append (ts us : List Tok) (h : startsLit ts) : startsLit (ts ++ us) := by
  cases ts with
  | nil => exact absurd h (by simp [startsLit])
  | cons t ts => cases t <;> simp_all [startsLit]

theorem st_lt (out : List Nat) (v : Nat) (h : ∀ b ∈ out, b < 256) :
    ∀ b ∈ st out v, b < 256 := by
  intro b hb
  simp only [st, List.mem_append, List.mem_singleton] at hb
  rcases hb with hb | hb
  · exact h b hb
  · rw [hb]; exact Nat.mod_lt _ (by decide)

theorem st_length (out : List Nat) (v : Nat) : (st out v).length = out.length + 1 := by
  simp [st]

/-- Closing the pending literal run turns it into a literal opcode, or removes
the unused prefix byte. -/
theorem closeRun_eq (E : Tok → List Nat) (hE : ∀ bs, E (Tok.lit bs) = (bs.length - 1) :: bs)
    (toks : List Tok) (lits : List Nat) (copy : Nat) (hl : lits.length = copy)
    (hc : copy < 32) :
    closeRun (encAll E toks ++ 31 :: lits) copy =
      encAll E (if copy ≠ 0 then toks ++ [Tok.lit lits] else toks) := by
  unfold closeRun
  split_ifs with h
  · have e1 : (encAll E toks ++ 31 :: lits).length - copy - 1 = (encAll E toks).length := by
      simp only [List.length_append, List.length_cons]; omega
    rw [e1, encAll_append]
    simp only [encAll, hE, List.append_nil]
    rw [List.set_append]
    simp only [Nat.lt_irrefl, if_false, Nat.sub_self, List.set_cons_zero]
    congr 2
    omega
  · have h0 : lits = [] := by
      apply List.eq_nil_of_length_eq_zero; omega
    subst h0
    rw [List.dropLast_append_of_ne_nil _ (by simp)]
    simp


theorem rd_mod (B : List Nat) (i : Nat) : rd B i % 256 = rd B i :=
  Nat.mod_eq_of_lt (rd_lt B i)

/-- One more literal byte keeps the invariant, with a fresh prefix byte once 32
literals are pending. -/
theorem CInv_litStep (E : Tok → List Nat) (S : Tok → Prop) (ml : Nat → Nat)
    (hE : ∀ bs, E (Tok.lit bs) = (bs.length - 1) :: bs)
    (hS : ∀ bs, 1 ≤ bs.length → bs.length ≤ 32 → S (Tok.lit bs))
    (B : List Nat) (ip : Nat) (out : List Nat) (copy : Nat)
    (h : CInv E S ml B ip out copy) (hip : ip < B.length) :
    (copy + 1 = 32 → CInv E S ml B (ip + 1) (st (st out (rd B ip)) 31) 0) ∧
    (copy + 1 ≠ 32 → CInv E S ml B (ip + 1) (st out (rd B ip)) (copy + 1)) := by
  obtain ⟨toks, lits, ho, hl, hc, hs, hf, ha, h2, hle, hst, hb, hsz⟩ := h
  have hb1 : ∀ b ∈ st out (rd B ip), b < 256 := st_lt _ _ hb
  have htake : applyAll ml [] toks ++ (lits ++ [rd B ip]) = (bytes B).take (ip + 1) := by
    rw [bytes_take_succ B ip hip, ← ha, List.append_assoc]
  constructor
  · intro h32
    refine ⟨toks ++ [Tok.lit (lits ++ [rd B ip])], [], ?_, rfl, by omega, ?_, ?_, ?_,
      by omega, by omega, ?_, st_lt _ _ hb1, ?_⟩
    · rw [ho, encAll_append]
      simp only [encAll, hE, st, rd_mod, List.length_append, List.length_singleton,
        List.append_nil, List.append_assoc, List.cons_append, List.nil_append]
      have : lits.length + 1 - 1 = 31 := by omega
      rw [this]
    · intro t ht
      rw [List.mem_append, List.mem_singleton] at ht
      rcases ht with ht | ht
      · exact hs t ht
      · rw [ht]; exact hS _ (by simp) (by simp; omega)
    · rw [fitsAll_append]
      exact ⟨hf, by simp [fitsAll, Tok.fits]⟩
    · rw [applyAll_append]
      simpa [applyAll, Tok.apply] using htake
    · rcases hst with hst | hst
      · left; exact startsLit_append _ _ hst
      · left; rw [hst.1]; simp [startsLit]
    · simp only [st_length]; omega
  · intro h32
    refine ⟨toks, lits ++ [rd B ip], ?_, by simp [hl], by omega, hs, hf, htake,
      by omega, by omega, ?_, hb1, ?_⟩
    · rw [ho]
      simp [st, rd_mod]
    · rcases hst with hst | hst
      · left; exact hst
      · right; exact ⟨hst.1, by omega⟩
    · simp only [st_length]; omega

/-- The state at the entry of the main loop satisfies the invariant. -/
theorem CInv_init (E : Tok → List Nat) (S : Tok → Prop) (ml : Nat → Nat)
    (B : List Nat) (hB : 4 ≤ B.length) :
    CInv E S ml B (initState B).ip (initState B).out (initState B).copy := by
  refine ⟨[], [rd B 0, rd B 1], ?_, rfl, by simp [initState], by simp, by simp [fitsAll], ?_,
    by simp [initState], by simp [initState]; omega, Or.inr ⟨rfl, by simp [initState]⟩, ?_, ?_⟩
  · simp [initState, st, encAll, rd_mod]
  · simp only [applyAll, List.nil_append, initState]
    have h1 := bytes_take_succ B 0 (by omega)
    have h2 := bytes_take_succ B 1 (by omega)
    rw [h2, h1]
    simp
  · intro b hb
    simp only [initState] at hb
    exact st_lt _ _ (st_lt _ _ (st_lt _ _ (by simp))) b hb
  · simp [initState, st]

/-- The branch `literal:` of the main loop keeps the invariant. -/
theorem CInv_literal (E : Tok → List Nat) (S : Tok → Prop) (ml : Nat → Nat)
    (hE : ∀ bs, E (Tok.lit bs) = (bs.length - 1) :: bs)
    (hS : ∀ bs, 1 ≤ bs.length → bs.length ≤ 32 → S (Tok.lit bs))
    (B : List Nat) (s : CState) (htab : Nat → Nat)
    (h : CInv E S ml B s.ip s.out s.copy) (hip : s.ip < B.length) :
    CInv E S ml B (literal B s.ip { s with htab := htab }).ip
      (literal B s.ip { s with htab := htab }).out
      (literal B s.ip { s with htab := htab }).copy ∧
    (literal B s.ip { s with htab := htab }).ip = s.ip + 1 := by
  have := CInv_litStep E S ml hE hS B s.ip s.out s.copy h hip
  unfold literal
  dsimp only
  split_ifs with h32
  · exact ⟨this.1 h32, rfl⟩
  · exact ⟨this.2 h32, rfl⟩

/-- The loop over the left-over bytes keeps the invariant and consumes the
whole input. -/
theorem CInv_tailLoop (E : Tok → List Nat) (S : Tok → Prop) (ml : Nat → Nat)
    (hE : ∀ bs, E (Tok.lit bs) = (bs.length - 1) :: bs)
    (hS : ∀ bs, 1 ≤ bs.length → bs.length ≤ 32 → S (Tok.lit bs))
    (B : List Nat) :
    ∀ (n ip : Nat) (out : List Nat) (copy : Nat), CInv E S ml B ip out copy →
      ip + n = B.length →
      CInv E S ml B B.length (tailLoop B n ip out copy).1 (tailLoop B n ip out copy).2 := by
  intro n
  induction n with
  | zero =>
    intro ip out copy h hn
    have : ip = B.length := by omega
    subst this
    simpa [tailLoop] using h
  | succ n ih =>
    intro ip out copy h hn
    have := CInv_litStep E S ml hE hS B ip out copy h (by omega)
    simp only [tailLoop]
    split_ifs with h32
    · exact ih _ _ _ (this.1 h32) (by omega)
    · exact ih _ _ _ (this.2 h32) (by omega)

/-- The end of a compressor turns the invariant at the end of the input into
the postcondition. -/
theorem CPost_finish (E : Tok → List Nat) (S : Tok → Prop) (ml : Nat → Nat)
    (hE : ∀ bs, E (Tok.lit bs) = (bs.length - 1) :: bs)
    (hS : ∀ bs, 1 ≤ bs.length → bs.length ≤ 32 → S (Tok.lit bs))
    (B : List Nat) (out : List Nat) (copy : Nat)
    (h : CInv E S ml B B.length out copy) :
    CPost E S ml B (finish out copy) := by
  obtain ⟨toks, lits, ho, hl, hc, hs, hf, ha, h2, hle, hst, hb, hsz⟩ := h
  have hcl := closeRun_eq E hE toks lits copy hl hc
  rw [← ho] at hcl
  have htk : (bytes B).take B.length = bytes B := by
    rw [← bytes_length B]; exact List.take_length _
  unfold finish
  split_ifs with h0
  · unfold closeRun at hcl
    rw [if_pos h0] at hcl
    refine ⟨toks ++ [Tok.lit lits], [], ?_, ?_, ?_, ?_, ?_, ?_, ?_, ?_, ?_⟩
    · simp only [hcl, if_pos h0, List.append_nil]
    · have := congrArg List.length hcl
      simp only [if_pos h0, List.length_set] at this
      exact this
    · intro t ht
      rw [List.mem_append, List.mem_singleton] at ht
      rcases ht with ht | ht
      · exact hs t ht
      · rw [ht]; exact hS _ (by omega) (by omega)
    · rw [fitsAll_append]
      exact ⟨hf, by simp [fitsAll, Tok.fits]⟩
    · rw [applyAll_append]
      simp only [applyAll, Tok.apply]
      rw [ha, htk]
    · rcases hst with hst | hst
      · exact startsLit_append _ _ hst
      · rw [hst.1]; simp [startsLit]
    · intro b hb2
      dsimp only at hb2
      rcases List.mem_or_eq_of_mem_set hb2 with hb3 | hb3
      · exact hb b hb3
      · rw [hb3]; exact Nat.mod_lt _ (by decide)
    · simp only [List.length_set]; omega
    · dsimp only; omega
  · have hc0 : copy = 0 := by omega
    have hl0 : lits = [] := List.eq_nil_of_length_eq_zero (by omega)
    subst hl0
    refine ⟨toks, [31], ho, ?_, hs, hf, ?_, ?_, hb, ?_, ?_⟩
    · simp [ho]
    · rw [← htk, ← ha]; simp
    · rcases hst with hst | hst
      · exact hst
      · omega
    · dsimp only; omega
    · dsimp only; omega

/-! ## Matches and the Level-1 encoder -/

theorem closeRun_length (out : List Nat) (copy : Nat) (h : 1 ≤ out.length) :
    (closeRun out copy).length + (if copy ≠ 0 then 0 else 1) = out.length := by
  unfold closeRun
  split_ifs
  · simp
  · simp; omega

theorem closeRun_lt (out : List Nat) (copy : Nat) (h : ∀ b ∈ out, b < 256) :
    ∀ b ∈ closeRun out copy, b < 256 := by
  intro b hb
  unfold closeRun at hb
  split_ifs at hb
  · rcases List.mem_or_eq_of_mem_set hb with hb3 | hb3
    · exact h b hb3
    · rw [hb3]; exact Nat.mod_lt _ (by decide)
  · exact h b (List.dropLast_subset _ hb)

/-- A match, emitted as the opcodes `ms` that reproduce the next `m` input
bytes, followed by a fresh prefix byte, keeps the invariant. -/
theorem CInv_match (E : Tok → List Nat) (S : Tok → Prop) (ml : Nat → Nat)
    (hE : ∀ bs, E (Tok.lit bs) = (bs.length - 1) :: bs)
    (hS : ∀ bs, 1 ≤ bs.length → bs.length ≤ 32 → S (Tok.lit bs))
    (B : List Nat) (a : Nat) (out : List Nat) (copy : Nat)
    (h : CInv E S ml B a out copy) (ms : List Tok) (m : Nat)
    (hms : ∀ t ∈ ms, S t) (hfit : fitsAll ml ((bytes B).take a) ms)
    (happ : applyAll ml ((bytes B).take a) ms = (bytes B).take (a + m))
    (hm : a + m ≤ B.length) (hcost : 32 * ((encAll E ms).length + 1) ≤ 33 * m)
    (out2 : List Nat) (hout : out2 = closeRun out copy ++ encAll E ms)
    (hb2 : ∀ b ∈ out2, b < 256) :
    CInv E S ml B (a + m) (st out2 31) 0 := by
  obtain ⟨toks, lits, ho, hl, hc, hs, hf, ha, h2, hle, hst, hb, hsz⟩ := h
  have hcl := closeRun_eq E hE toks lits copy hl hc
  rw [← ho] at hcl
  have hlen := closeRun_length out copy (by rw [ho, List.length_append, List.length_cons]; omega)
  have hcs : ∀ t ∈ (if copy ≠ 0 then toks ++ [Tok.lit lits] else toks), S t := by
    intro t ht
    split_ifs at ht with h0
    · rw [List.mem_append, List.mem_singleton] at ht
      rcases ht with ht | ht
      · exact hs t ht
      · rw [ht]; exact hS _ (by omega) (by omega)
    · exact hs t ht
  have hcf : fitsAll ml [] (if copy ≠ 0 then toks ++ [Tok.lit lits] else toks) := by
    split_ifs with h0
    · rw [fitsAll_append]
      exact ⟨hf, by simp [fitsAll, Tok.fits]⟩
    · exact hf
  have hca : applyAll ml [] (if copy ≠ 0 then toks ++ [Tok.lit lits] else toks) =
      (bytes B).take a := by
    split_ifs with h0
    · rw [applyAll_append]
      simpa [applyAll, Tok.apply] using ha
    · have hl0 : lits = [] := List.eq_nil_of_length_eq_zero (by omega)
      rw [← ha, hl0]; simp
  have hcst : startsLit (if copy ≠ 0 then toks ++ [Tok.lit lits] else toks) := by
    rcases hst with hst | hst
    · split_ifs
      · exact startsLit_append _ _ hst
      · exact hst
    · have : copy ≠ 0 := by omega
      rw [if_pos this, hst.1]; simp [startsLit]
  refine ⟨(if copy ≠ 0 then toks ++ [Tok.lit lits] else toks) ++ ms, [], ?_, rfl, by omega,
    ?_, ?_, ?_, by omega, hm, Or.inl (startsLit_append _ _ hcst), st_lt _ _ hb2, ?_⟩
  · rw [hout, hcl, encAll_append]
    simp [st]
  · intro t ht
    rw [List.mem_append] at ht
    rcases ht with ht | ht
    · exact hcs t ht
    · exact hms t ht
  · rw [fitsAll_append, hca]
    exact ⟨hcf, hfit⟩
  · rw [applyAll_append, hca, happ]; simp
  · rw [st_length, hout, List.length_append]
    split_ifs at hlen <;> omega

/-- A sequence of matches at one distance reproduces the input when the input
repeats at that distance. -/
theorem matches_sound (ml : Nat → Nat) (B : List Nat) (d : Nat) :
    ∀ (ms : List Tok) (a : Nat), (∀ t ∈ ms, ∃ l, t = Tok.mat l d) → d + 1 ≤ a →
      a + sizeAll ml ms ≤ B.length →
      (∀ i, i < sizeAll ml ms → rd B (a - (d + 1) + i) = rd B (a + i)) →
      fitsAll ml ((bytes B).take a) ms ∧
      applyAll ml ((bytes B).take a) ms = (bytes B).take (a + sizeAll ml ms) := by
  intro ms
  induction ms with
  | nil => intro a _ _ _ _; simp [fitsAll, applyAll, sizeAll]
  | cons t ms ih =>
    intro a hd ha hle hrep
    obtain ⟨l, rfl⟩ := hd _ (List.mem_cons_self _ _)
    simp only [sizeAll, Tok.size] at hle hrep
    have hlen : ((bytes B).take a).length = a := by
      rw [List.length_take, bytes_length]; omega
    have hcopy : (Tok.mat l d).apply ml ((bytes B).take a) = (bytes B).take (a + ml l) := by
      simp only [Tok.apply, hlen]
      have := copyRef_sound B (d + 1) (ml l) a (by omega) ha (by omega)
        (fun i hi => hrep i (by omega))
      simpa using this
    have ih2 := ih (a + ml l) (fun t ht => hd t (List.mem_cons_of_mem _ ht)) (by omega)
      (by omega) (by
        intro i hi
        have := hrep (ml l + i) (by omega)
        have e1 : a + ml l - (d + 1) + i = a - (d + 1) + (ml l + i) := by omega
        have e2 : a + ml l + i = a + (ml l + i) := by omega
        rw [e1, e2]; exact this)
    simp only [fitsAll, applyAll, sizeAll, Tok.size, hcopy]
    refine ⟨⟨?_, ih2.1⟩, ?_⟩
    · simp only [Tok.fits, hlen]; exact ha
    · rw [ih2.2]; congr 1; omega

/-- The bytes a Level-1 match is emitted as are the encodings of match opcodes
at the given distance, one of 262 bytes for each maximum-length block. -/
theorem emit1_spec (d : Nat) (hd : d < 8192) :
    ∀ (fuel len : Nat) (out : List Nat), 1 ≤ len → len ≤ fuel →
      ∃ ms, emitMatch1 (emitLong1 d fuel len out).1 d (emitLong1 d fuel len out).2 =
          out ++ encAll Tok.enc1 ms ∧
        (∀ t ∈ ms, t.shape1) ∧ (∀ t ∈ ms, ∃ l, t = Tok.mat l d) ∧
        sizeAll ml1 ms = len + 2 ∧
        32 * ((encAll Tok.enc1 ms).length + 1) ≤ 33 * (len + 2) := by
  have hd8 : d >>> 8 = d / 256 := by rw [Nat.shiftRight_eq_div_pow]
  intro fuel
  induction fuel with
  | zero => intro len out h1 h2; omega
  | succ fuel ih =>
    intro len out h1 h2
    simp only [emitLong1, MAX_LEN, Nat.reduceSub]
    split_ifs with hlong
    · obtain ⟨ms, e, hs, hm, hsz, hc⟩ := ih (len - 262)
        (st (st (st out ((7 <<< 5) + (d >>> 8))) 253) (d &&& 255))
        (by omega) (by omega)
      refine ⟨Tok.mat 260 d :: ms, ?_, ?_, ?_, ?_, ?_⟩
      · rw [e]
        simp only [st, encAll, Tok.enc1, Tok.hdr1, Tok.body1, and255, hd8]
        have e1 : (7 <<< 5 + d / 256) % 256 = 224 + d / 256 := by
          have : (7 : Nat) <<< 5 = 224 := by decide
          rw [this]; omega
        simp [e1]
        omega
      · intro t ht
        rcases List.mem_cons.mp ht with ht | ht
        · rw [ht]; exact ⟨by omega, by omega, hd⟩
        · exact hs t ht
      · intro t ht
        rcases List.mem_cons.mp ht with ht | ht
        · exact ⟨260, ht⟩
        · exact hm t ht
      · simp only [sizeAll, Tok.size, ml1, hsz] at hsz ⊢
        omega
      · simp only [encAll, Tok.enc1, Tok.body1, List.length_append, List.length_cons,
          List.length_nil] at hc ⊢
        split_ifs <;> simp only [List.length_cons, List.length_nil] <;> omega
    · have hle : len ≤ 262 := by omega
      refine ⟨[Tok.mat len d], ?_, ?_, ?_, ?_, ?_⟩
      · simp only [emitMatch1, st, encAll, Tok.enc1, Tok.hdr1, Tok.body1, and255, hd8,
          List.append_nil]
        split_ifs with h7
        · have e1 : (len <<< 5 + d / 256) % 256 = len * 32 + d / 256 := by
            rw [Nat.shiftLeft_eq]; omega
          simp [e1]
        · have e1 : (7 <<< 5 + d / 256) % 256 = 224 + d / 256 := by
            have : (7 : Nat) <<< 5 = 224 := by decide
            rw [this]; omega
          have e2 : (len - 7) % 256 = len - 7 := by omega
          simp [e1, e2]
          omega
      · intro t ht
        rw [List.mem_singleton] at ht
        rw [ht]; exact ⟨h1, hle, hd⟩
      · intro t ht
        rw [List.mem_singleton] at ht
        exact ⟨len, ht⟩
      · simp [sizeAll, Tok.size, ml1]
      · simp only [encAll, Tok.enc1, Tok.body1, List.length_append, List.length_cons,
          List.length_nil]
        split_ifs <;> simp only [List.length_cons, List.length_nil] <;> omega

/-! ## The Level-1 compressor -/

theorem enc1_lit (bs : List Nat) : Tok.enc1 (Tok.lit bs) = (bs.length - 1) :: bs := rfl

theorem shape1_lit (bs : List Nat) (h1 : 1 ≤ bs.length) (h2 : bs.length ≤ 32) :
    (Tok.lit bs).shape1 := ⟨h1, h2⟩

theorem encAll_lt (E : Tok → List Nat) (ms : List Tok)
    (h : ∀ t ∈ ms, ∀ b ∈ E t, b < 256) : ∀ b ∈ encAll E ms, b < 256 := by
  induction ms with
  | nil => intro b hb; simp [encAll] at hb
  | cons t ms ih =>
    intro b hb
    simp only [encAll, List.mem_append] at hb
    rcases hb with hb | hb
    · exact h t (List.mem_cons_self _ _) b hb
    · exact ih (fun u hu => h u (List.mem_cons_of_mem _ hu)) b hb

theorem enc1_mat_lt (len d : Nat) (h : (Tok.mat len d).shape1) :
    ∀ b ∈ Tok.enc1 (Tok.mat len d), b < 256 := by
  obtain ⟨h1, h2, h3⟩ := h
  intro b hb
  simp only [Tok.enc1, Tok.hdr1, Tok.body1] at hb
  split_ifs at hb <;> simp only [List.mem_cons, List.mem_singleton, List.not_mem_nil,
    or_false] at hb <;> omega

/-- One iteration of the Level-1 main loop keeps the invariant and advances
`ip`. -/
theorem CInv_iter1 (B : List Nat) (s : CState)
    (h : CInv Tok.enc1 Tok.shape1 ml1 B s.ip s.out s.copy) (hlim : s.ip + 13 < B.length) :
    CInv Tok.enc1 Tok.shape1 ml1 B (iter1 B s).ip (iter1 B s).out (iter1 B s).copy ∧
    s.ip < (iter1 B s).ip := by
  unfold iter1
  dsimp only
  split_ifs with hlit
  · have := CInv_literal Tok.enc1 Tok.shape1 ml1 enc1_lit shape1_lit B s
      (Function.update s.htab (HASH_FUNCTION B s.ip) s.ip) h (by omega)
    exact ⟨this.1, by rw [this.2]; omega⟩
  · simp only [not_or, not_not, MAX_L1_DISTANCE, ge_iff_le, not_le] at hlit
    obtain ⟨hd0, hd1, hm0, hm1, hm2⟩ := hlit
    generalize s.htab (HASH_FUNCTION B s.ip) = ref0 at *
    have href : ref0 < s.ip := by omega
    have hext := extend_spec B s.ip ref0 3 href (le_refl _) (by omega) (by
      intro i hi
      interval_cases i
      · simpa using hm0
      · exact hm1
      · exact hm2)
    generalize extend B (B.length - 2) (s.ip - ref0 - 1) (ref0 + 3) (s.ip + 3) = r at *
    obtain ⟨hr1, hr2, hr3⟩ := hext
    have hd : s.ip - ref0 - 1 < 8192 := by omega
    obtain ⟨ms, e, hs, hm, hsz, hc⟩ := emit1_spec (s.ip - ref0 - 1) hd (r - 3 - s.ip)
      (r - 3 - s.ip) (closeRun s.out s.copy) (by omega) (le_refl _)
    have hsz2 : sizeAll ml1 ms = r - 1 - s.ip := by omega
    have hsound := matches_sound ml1 B (s.ip - ref0 - 1) ms s.ip hm (by omega) (by omega) (by
      intro i hi
      have := hr3 i (by omega)
      have e1 : s.ip - (s.ip - ref0 - 1 + 1) + i = ref0 + i := by omega
      rw [e1]; exact this)
    have hbo : ∀ b ∈ s.out, b < 256 := by
      obtain ⟨_, _, _, _, _, _, _, _, _, _, _, hbo, _⟩ := id h
      exact hbo
    have hinv := CInv_match Tok.enc1 Tok.shape1 ml1 enc1_lit shape1_lit B s.ip s.out s.copy h
      ms (r - 1 - s.ip) hs hsound.1 (by rw [hsound.2, hsz2]) (by omega) (by omega)
      _ e (by
        rw [e]
        intro b hb
        rw [List.mem_append] at hb
        rcases hb with hb | hb
        · exact closeRun_lt _ _ hbo b hb
        · refine encAll_lt _ _ ?_ b hb
          intro t ht
          obtain ⟨l, rfl⟩ := hm t ht
          exact enc1_mat_lt _ _ (hs _ ht))
    unfold afterMatch
    dsimp only
    have e2 : r - 3 + 2 = s.ip + (r - 1 - s.ip) := by omega
    rw [e2]
    exact ⟨hinv, by omega⟩

/-- The Level-1 main loop keeps the invariant and ends because its condition
`ip < ip_limit` fails, not for lack of fuel. -/
theorem CInv_loop1 (B : List Nat) :
    ∀ (fuel : Nat) (s : CState), CInv Tok.enc1 Tok.shape1 ml1 B s.ip s.out s.copy →
      B.length ≤ fuel + s.ip →
      CInv Tok.enc1 Tok.shape1 ml1 B (loop1 B fuel s).ip (loop1 B fuel s).out
        (loop1 B fuel s).copy ∧
      ¬ ((loop1 B fuel s).ip + 13 < B.length) := by
  intro fuel
  induction fuel with
  | zero =>
    intro s h hf
    simp only [loop1]
    exact ⟨h, by omega⟩
  | succ fuel ih =>
    intro s h hf
    simp only [loop1]
    split_ifs with hlim
    · have := CInv_iter1 B s h hlim
      exact ih _ this.1 (by omega)
    · exact ⟨h, hlim⟩

theorem copyShort_eq (B : List Nat) :
    ∀ (n ip : Nat) (out : List Nat), ip + n = B.length →
      copyShort B n ip out = out ++ (bytes B).drop ip := by
  intro n
  induction n with
  | zero =>
    intro ip out h
    have : (bytes B).length ≤ ip := by rw [bytes_length]; omega
    simp [copyShort, List.drop_eq_nil_of_le this]
  | succ n ih =>
    intro ip out h
    have hlt : ip < (bytes B).length := by rw [bytes_length]; omega
    have hr : rd B ip = (bytes B)[ip] := by
      rw [rd_eq_getElem B ip (by omega)]
      simp [bytes]
    simp only [copyShort, st, rd_mod]
    rw [ih (ip + 1) _ (by omega), List.drop_eq_getElem_cons hlt, hr]
    simp

/-- The short-input path emits one literal run that holds the whole input. -/
theorem CPost_shortPath (E : Tok → List Nat) (S : Tok → Prop) (ml : Nat → Nat)
    (hE : ∀ bs, E (Tok.lit bs) = (bs.length - 1) :: bs)
    (hS : ∀ bs, 1 ≤ bs.length → bs.length ≤ 32 → S (Tok.lit bs))
    (B : List Nat) (h1 : 1 ≤ B.length) (h4 : B.length < 4) :
    CPost E S ml B (shortPath B) := by
  have h0 : B.length ≠ 0 := by omega
  have hbuf : (shortPath B).buf = (B.length - 1) :: bytes B := by
    simp only [shortPath, if_pos h0]
    rw [copyShort_eq B B.length 0 _ (by omega)]
    have : (B.length - 1) % 256 = B.length - 1 := by omega
    simp [st, this]
  have hret : (shortPath B).ret = B.length + 1 := by
    simp only [shortPath, if_pos h0]
  refine ⟨[Tok.lit (bytes B)], [], ?_, ?_, ?_, by simp [fitsAll, Tok.fits], ?_, by simp [startsLit],
    ?_, ?_, ?_⟩
  · simp [hbuf, encAll, hE, bytes_length]
  · simp [hret, encAll, hE, bytes_length]
  · intro t ht
    rw [List.mem_singleton] at ht
    rw [ht]; exact hS _ (by rw [bytes_length]; omega) (by rw [bytes_length]; omega)
  · simp [applyAll, Tok.apply]
  · rw [hbuf]
    intro b hb
    rcases List.mem_cons.mp hb with hb | hb
    · omega
    · simp only [bytes, List.mem_map] at hb
      obtain ⟨a, _, rfl⟩ := hb
      exact Nat.mod_lt _ (by decide)
  · rw [hbuf]; simp [bytes_length]; omega
  · rw [hret]; omega

/-- The stream of `fastlz1_compress` on a non-empty input is a well-formed
Level-1 opcode sequence that reproduces the input. -/
theorem CPost_fastlz1_compress (B : List Nat) (h1 : 1 ≤ B.length) :
    CPost Tok.enc1 Tok.shape1 ml1 B (fastlz1_compress B) := by
  unfold fastlz1_compress
  split_ifs with h4
  · exact CPost_shortPath _ _ _ enc1_lit shape1_lit B h1 h4
  · dsimp only
    have hloop := CInv_loop1 B B.length (initState B)
      (CInv_init _ _ _ B (by omega)) (by omega)
    generalize loop1 B B.length (initState B) = s at *
    obtain ⟨_, _, _, _, _, _, _, _, _, hle, _⟩ := id hloop.1
    exact CPost_finish _ _ _ enc1_lit shape1_lit B _ _
      (CInv_tailLoop _ _ _ enc1_lit shape1_lit B _ _ _ _ hloop.1 (by omega))

/-! ## Level-1 round trip -/

theorem At_initial (l post : List Nat) (h : ∀ b ∈ l ++ post, b < 256) :
    At (l ++ post) 0 l := by
  intro j hj
  have h1 : j < (l ++ post).length := by rw [List.length_append]; omega
  rw [Nat.zero_add, rd_eq_getElem _ _ h1, List.getD_eq_getElem _ _ hj,
    List.getElem_append_left hj]
  exact Nat.mod_eq_of_lt (h _ (List.mem_append_left _ (List.getElem_mem _)))

/-- The Level-1 decoder on the stream of a compressor result that satisfies the
Level-1 postcondition: it returns the input when the capacity suffices and 0
otherwise. -/
theorem decode1_of_CPost (B : List Nat) (r : CResult)
    (h : CPost Tok.enc1 Tok.shape1 ml1 B r) (maxout : Nat) :
    rd r.buf 0 < 32 ∧
    (B.length ≤ maxout →
      (fastlz1_decompress r.buf r.ret maxout).ret = B.length ∧
      (fastlz1_decompress r.buf r.ret maxout).out = bytes B ∧
      (fastlz1_decompress r.buf r.ret maxout).ip = r.ret) ∧
    (maxout < B.length → (fastlz1_decompress r.buf r.ret maxout).ret = 0) := by
  obtain ⟨toks, post, hbuf, hret, hs, hf, ha, hst, hb, _, _⟩ := h
  cases toks with
  | nil => exact absurd hst (by simp [startsLit])
  | cons t ts =>
    cases t with
    | mat len d => exact absurd hst (by simp [startsLit])
    | lit bs =>
      have hsh : (Tok.lit bs).shape1 := hs _ (List.mem_cons_self _ _)
      have hss : ∀ u ∈ ts, u.shape1 := fun u hu => hs u (List.mem_cons_of_mem _ hu)
      obtain ⟨hs1, hs2⟩ := id hsh
      have hAt : At r.buf 0 (encAll Tok.enc1 (Tok.lit bs :: ts)) := by
        rw [hbuf]; exact At_initial _ _ (by rw [← hbuf]; exact hb)
      simp only [encAll, Tok.enc1, Tok.hdr1, Tok.body1, List.cons_append] at hAt hret
      rw [At_cons] at hAt
      obtain ⟨h0, hAt1⟩ := hAt
      have hctrl : rd r.buf 0 &&& 31 = (Tok.lit bs).hdr1 := by
        rw [h0, and31]; simp only [Tok.hdr1]; omega
      have hsize : sizeAll ml1 (Tok.lit bs :: ts) = B.length := by
        have := applyAll_length ml1 (Tok.lit bs :: ts) []
        rw [ha, bytes_length] at this
        simpa using this.symm
      have hrun := dloop1_run r.buf r.ret maxout ts (Tok.lit bs) (r.ret + 1) 1 [] [] hsh hss
        (by simpa [Tok.body1] using hAt1)
        (by simp only [Tok.body1, hret, List.length_cons]; omega) (by omega)
      simp only [List.length_nil, Nat.zero_add, hsize, ha] at hrun
      unfold fastlz1_decompress
      rw [hctrl]
      refine ⟨by omega, ?_, ?_⟩
      · intro hcap
        exact hrun.1 ⟨hf, hcap⟩
      · intro hcap
        exact hrun.2 (fun hh => by omega)

/-- Round trip and overflow for the Level-1 compressor through the
dispatching decoder. -/
theorem fastlz1_roundtrip (B : List Nat) (h1 : 1 ≤ B.length) (maxout : Nat) :
    (B.length ≤ maxout →
      (fastlz_decompress (fastlz1_compress B).buf (fastlz1_compress B).ret maxout).ret =
        B.length ∧
      (fastlz_decompress (fastlz1_compress B).buf (fastlz1_compress B).ret maxout).out =
        bytes B ∧
      (fastlz_decompress (fastlz1_compress B).buf (fastlz1_compress B).ret maxout).ip =
        (fastlz1_compress B).ret) ∧
    (maxout < B.length →
      (fastlz_decompress (fastlz1_compress B).buf (fastlz1_compress B).ret maxout).ret = 0) := by
  have h := decode1_of_CPost B _ (CPost_fastlz1_compress B h1) maxout
  have hlevel : rd (fastlz1_compress B).buf 0 >>> 5 = 0 := by
    rw [Nat.shiftRight_eq_div_pow]; omega
  rw [fastlz_decompress_level1 _ _ _ hlevel]
  exact h.2

/-! ## The Level-2 length chain -/

theorem lt_length_of_rd_ne_zero (mem : List Nat) (i : Nat) (h : rd mem i ≠ 0) :
    i < mem.length := by
  by_contra hc
  apply h
  unfold rd
  rw [List.getD_eq_default _ _ (by omega)]

theorem At_replicate_length (mem : List Nat) (p k : Nat) (post : List Nat)
    (h : At mem p (List.replicate k 255 ++ post)) : k = 0 ∨ p + k ≤ mem.length := by
  by_cases hk : k = 0
  · left; exact hk
  · right
    have := h (k - 1) (by simp; omega)
    rw [List.getD_append _ _ _ _ (by simp; omega)] at this
    rw [List.getD_eq_getElem _ _ (by simp; omega)] at this
    simp only [List.getElem_replicate] at this
    have := lt_length_of_rd_ne_zero mem (p + (k - 1)) (by omega)
    omega

/-- The Level-2 length chain: `k` bytes 255 and a last byte `c` below 255 add
`255 * k + c` to the length, modulo `2 ^ 32`. -/
theorem chainLoop_spec (mem : List Nat) (c : Nat) (hc : c < 255) (post : List Nat) :
    ∀ (k fuel p len : Nat), At mem p (List.replicate k 255 ++ c :: post) → k + 1 ≤ fuel →
      chainLoop mem fuel p len = (p + k + 1, (len + 255 * k + c) % 2 ^ 32) := by
  intro k
  induction k with
  | zero =>
    intro fuel p len hAt hf
    obtain ⟨f, rfl⟩ : ∃ f, fuel = f + 1 := ⟨fuel - 1, by omega⟩
    simp only [List.replicate_zero, List.nil_append, At_cons] at hAt
    have hne : ¬ (c = 255) := by omega
    simp [chainLoop, hAt.1, hne]
  | succ k ih =>
    intro fuel p len hAt hf
    obtain ⟨f, rfl⟩ : ∃ f, fuel = f + 1 := ⟨fuel - 1, by omega⟩
    simp only [List.replicate_succ, List.cons_append, At_cons] at hAt
    simp only [chainLoop, hAt.1, if_true]
    rw [ih f (p + 1) _ hAt.2 (by omega)]
    refine Prod.ext (by simp only; omega) ?_
    simp only
    omega


theorem hdr2_mat (len d : Nat) (h1 : 1 ≤ len) (hd : d < 8191 + 65536) :
    32 ≤ (Tok.mat len d).hdr2 ∧
    (Tok.mat len d).hdr2 >>> 5 - 1 = (if len < 7 then len - 1 else 6) ∧
    ((Tok.mat len d).hdr2 &&& 31) <<< 8 = (if d < 8191 then d / 256 * 256 else 7936) := by
  simp only [Tok.hdr2, and31, Nat.shiftRight_eq_div_pow, Nat.shiftLeft_eq]
  split_ifs <;> omega

/-- The length part of a Level-2 match opcode as the decoder reads it. -/
theorem chain_part (mem : List Nat) (p len : Nat) (post : List Nat) (h1 : 1 ≤ len)
    (hAt : At mem p ((if len < 7 then [] else chainBytes (len - 7)) ++ post)) :
    (if (if len < 7 then len - 1 else 6) = 7 - 1 then
        chainLoop mem (mem.length - p + 1) p (if len < 7 then len - 1 else 6)
      else (p, (if len < 7 then len - 1 else 6))) =
      (p + (if len < 7 then [] else chainBytes (len - 7)).length, (len - 1) % 2 ^ 32) := by
  by_cases h7 : len < 7
  · have hne : ¬ (len - 1 = 7 - 1) := by omega
    simp only [h7, if_true, hne, if_false, List.length_nil, Nat.add_zero]
    refine Prod.ext rfl ?_
    simp only
    omega
  · simp only [h7, if_false, if_true, chainBytes, List.length_append, List.length_replicate,
      List.length_singleton] at hAt ⊢
    rw [List.append_assoc, List.singleton_append] at hAt
    have hfuel : (len - 7) / 255 + 1 ≤ mem.length - p + 1 := by
      rcases At_replicate_length mem p _ _ hAt with h | h <;> omega
    rw [chainLoop_spec mem ((len - 7) % 255) (Nat.mod_lt _ (by decide)) post _ _ _ _ hAt hfuel]
    refine Prod.ext (by simp only; omega) ?_
    simp only
    omega

/-! ## The Level-2 decoder on opcodes -/

/-- One iteration of the Level-2 opcode loop on a well-formed opcode. -/
theorem dloop2_step (mem : List Nat) (n maxout fuel p : Nat) (out : List Nat)
    (log : List Int) (t : Tok) (hs : t.shape2) (hAt : At mem p t.body2)
    (hn : p + t.body2.length ≤ n) :
    ((maxout < out.length + t.size ml2 ∨ ¬ t.fits out) →
      (dloop2 mem n maxout (fuel + 1) p t.hdr2 out log).ret = 0) ∧
    (out.length + t.size ml2 ≤ maxout → t.fits out →
      dloop2 mem n maxout (fuel + 1) p t.hdr2 out log =
        if p + t.body2.length < n then
          dloop2 mem n maxout fuel (p + t.body2.length + 1) (rd mem (p + t.body2.length))
            (t.apply ml2 out) (log ++ t.reads ml2 out)
        else
          { ret := (t.apply ml2 out).length, out := t.apply ml2 out,
            ip := p + t.body2.length, oreads := log ++ t.reads ml2 out }) := by
  cases t with
  | lit bs =>
    obtain ⟨h1, h2⟩ := hs
    simp only [Tok.body2] at hAt hn
    have hc : ¬ (bs.length - 1 ≥ 32) := by omega
    have hb : bs.length - 1 + 1 = bs.length := by omega
    simp only [Tok.hdr2, Tok.body2, Tok.size, Tok.fits, Tok.apply, Tok.reads, dloop2, hc,
      if_false, hb, copyLit_At mem bs p out hAt, List.append_nil, not_true, or_false]
    constructor
    · intro h
      have : out.length + bs.length > maxout := by omega
      simp [this]
    · intro h _
      have h3 : ¬ (out.length + bs.length > maxout) := by omega
      have h4 : ¬ (p + bs.length > n) := by omega
      simp [h3, h4]
  | mat len d =>
    obtain ⟨h1, hd⟩ := hs
    obtain ⟨hc, e1, e2⟩ := hdr2_mat len d h1 hd
    simp only [Tok.body2] at hAt hn
    have hch := chain_part mem p len _ h1 hAt
    rw [At_append] at hAt
    obtain ⟨_, hA2⟩ := hAt
    rw [List.length_append] at hn
    have h31 : (31 : Nat) <<< 8 = 7936 := by decide
    generalize hcl : (if len < 7 then [] else chainBytes (len - 7)).length = cl at *
    by_cases hnear : d < 8191
    · simp only [hnear, if_true, At_cons, List.length_singleton] at hA2 e2 hn
      have hfar : ¬ (d % 256 = 255 ∧ d / 256 * 256 = 31 <<< 8) := by
        rw [h31]; omega
      have e5 : ((out.length : Int) - ((d / 256 * 256 : Nat) : Int) - ((d % 256 : Nat) : Int)) =
          (out.length : Int) - d := by omega
      simp only [dloop2, e1, e2, hch, hA2.1, hfar, if_false, e5]
      simp only [Tok.body2, Tok.size, Tok.fits, Tok.apply, Tok.reads,
        hnear, if_true, List.length_append, List.length_singleton, ml2, hcl]
      constructor
      · intro h
        split_ifs <;> first | rfl | (exfalso; omega)
      · intro ha hb
        have h9 := copyMatch_eq out d ((len - 1) % 2 ^ 32) hb
        have h8 : (len - 1) % 2 ^ 32 + 3 - 3 = (len - 1) % 2 ^ 32 := by omega
        split_ifs <;> first | (exfalso; omega) | simp only [h9, h8, Nat.add_assoc]
    · simp only [hnear, if_false, At_cons, List.length_cons, List.length_nil] at hA2 e2 hn
      obtain ⟨hc0, hc1, hc2, _⟩ := hA2
      have hfar : (255 = 255 ∧ 7936 = 31 <<< 8) := ⟨rfl, h31.symm⟩
      have e5 : ((out.length : Int) -
          (((((d - 8191) / 256) <<< 8 + (d - 8191) % 256 : Nat)) : Int) -
          ((MAX_L2_DISTANCE : Nat) : Int)) = (out.length : Int) - d := by
        rw [Nat.shiftLeft_eq]
        simp only [MAX_L2_DISTANCE]
        omega
      simp only [dloop2, e1, e2, hch, hc0, hc1, hc2, hfar, and_self, if_true, e5]
      simp only [Tok.body2, Tok.size, Tok.fits, Tok.apply, Tok.reads,
        hnear, if_false, List.length_append, List.length_cons, List.length_nil, ml2, hcl]
      constructor
      · intro h
        split_ifs <;> first | rfl | (exfalso; omega)
      · intro ha hb
        have h9 := copyMatch_eq out d ((len - 1) % 2 ^ 32) hb
        have h8 : (len - 1) % 2 ^ 32 + 3 - 3 = (len - 1) % 2 ^ 32 := by omega
        split_ifs <;> first | (exfalso; omega) | simp only [h9, h8, Nat.add_assoc, Nat.reduceAdd, Nat.zero_add]

/-- The Level-2 opcode loop on a stream that consists of well-formed opcodes up
to the declared length: it returns the decoded size and stores the decoded
bytes when every match refers to earlier output and the capacity suffices, and
returns 0 otherwise. -/
theorem dloop2_run (mem : List Nat) (n maxout : Nat) :
    ∀ (ts : List Tok) (t : Tok) (fuel p : Nat) (out : List Nat) (log : List Int),
      t.shape2 → (∀ u ∈ ts, u.shape2) → At mem p (t.body2 ++ encAll Tok.enc2 ts) →
      p + (t.body2 ++ encAll Tok.enc2 ts).length = n → n + 2 ≤ fuel + p →
      ((fitsAll ml2 out (t :: ts) ∧ out.length + sizeAll ml2 (t :: ts) ≤ maxout) →
        (dloop2 mem n maxout fuel p t.hdr2 out log).ret = out.length + sizeAll ml2 (t :: ts) ∧
        (dloop2 mem n maxout fuel p t.hdr2 out log).out = applyAll ml2 out (t :: ts) ∧
        (dloop2 mem n maxout fuel p t.hdr2 out log).ip = n) ∧
      (¬ (fitsAll ml2 out (t :: ts) ∧ out.length + sizeAll ml2 (t :: ts) ≤ maxout) →
        (dloop2 mem n maxout fuel p t.hdr2 out log).ret = 0) := by
  intro ts
  induction ts with
  | nil =>
    intro t fuel p out log hs _ hAt hn hf
    simp only [encAll, List.append_nil] at hAt hn
    obtain ⟨f, rfl⟩ : ∃ f, fuel = f + 1 := ⟨fuel - 1, by omega⟩
    have step := dloop2_step mem n maxout f p out log t hs hAt (by omega)
    have hlt : ¬ (p + t.body2.length < n) := by omega
    simp only [fitsAll, sizeAll, applyAll, and_true, Nat.add_zero]
    constructor
    · rintro ⟨hfit, hcap⟩
      rw [step.2 hcap hfit, if_neg hlt]
      exact ⟨Tok.apply_length _ _ _, rfl, hn⟩
    · intro h
      apply step.1
      by_cases hfit : t.fits out
      · left
        have : ¬ (out.length + t.size ml2 ≤ maxout) := fun hc => h ⟨hfit, hc⟩
        omega
      · right; exact hfit
  | cons t2 ts ih =>
    intro t fuel p out log hs hss hAt hn hf
    have hs2 : t2.shape2 := hss t2 (List.mem_cons_self _ _)
    have hss2 : ∀ u ∈ ts, u.shape2 := fun u hu => hss u (List.mem_cons_of_mem _ hu)
    simp only [encAll, Tok.enc2, List.length_append, List.length_cons, List.cons_append] at hAt hn
    rw [At_append, At_cons] at hAt
    obtain ⟨hA1, hA2, hA3⟩ := hAt
    obtain ⟨f, rfl⟩ : ∃ f, fuel = f + 1 := ⟨fuel - 1, by omega⟩
    have step := dloop2_step mem n maxout f p out log t hs hA1 (by omega)
    have hlt : p + t.body2.length < n := by omega
    have ih2 := ih t2 f (p + t.body2.length + 1) (t.apply ml2 out) (log ++ t.reads ml2 out)
      hs2 hss2 hA3 (by simp only [List.length_append]; omega) (by omega)
    rw [Tok.apply_length] at ih2
    simp only [fitsAll_cons, sizeAll, applyAll] at ih2 ⊢
    constructor
    · rintro ⟨⟨hfit, hfits⟩, hcap⟩
      rw [step.2 (by omega) hfit, if_pos hlt, hA2]
      have := ih2.1 ⟨hfits, by omega⟩
      refine ⟨by omega, this.2.1, this.2.2⟩
    · intro h
      by_cases hfit : t.fits out
      · by_cases hcap : out.length + t.size ml2 ≤ maxout
        · rw [step.2 hcap hfit, if_pos hlt, hA2]
          apply ih2.2
          rintro ⟨hfits, hc⟩
          exact h ⟨⟨hfit, hfits⟩, by omega⟩
        · exact step.1 (Or.inl (by omega))
      · exact step.1 (Or.inr hfit)

theorem enc2_lit (bs : List Nat) : Tok.enc2 (Tok.lit bs) = (bs.length - 1) :: bs := rfl

theorem shape2_lit (bs : List Nat) (h1 : 1 ≤ bs.length) (h2 : bs.length ≤ 32) :
    (Tok.lit bs).shape2 := ⟨h1, h2⟩

theorem emitChain_spec :
    ∀ (fuel x : Nat) (out : List Nat), x ≤ fuel →
      emitChain fuel x out = (x % 255, out ++ List.replicate (x / 255) 255) := by
  intro fuel
  induction fuel with
  | zero =>
    intro x out h
    have : x = 0 := by omega
    subst this
    simp [emitChain]
  | succ fuel ih =>
    intro x out h
    simp only [emitChain]
    split_ifs with h255
    · rw [ih (x - 255) _ (by omega)]
      have e1 : x / 255 = (x - 255) / 255 + 1 := by omega
      have e2 : (x - 255) % 255 = x % 255 := by omega
      rw [e1, e2, List.replicate_succ]
      simp [st]
    · have e1 : x / 255 = 0 := by omega
      have e2 : x % 255 = x := by omega
      rw [e1, e2]
      simp

/-- The bytes a Level-2 match is emitted as are the Level-2 encoding of one
match opcode. -/
theorem emit2_spec (len d : Nat) (out : List Nat) (h1 : 1 ≤ len) (hd : d < 8191 + 65536) :
    emitMatch2 len d out = out ++ Tok.enc2 (Tok.mat len d) := by
  have hd8 : ∀ x : Nat, x >>> 8 = x / 256 := fun x => by rw [Nat.shiftRight_eq_div_pow]
  have h75 : (7 : Nat) <<< 5 = 224 := by decide
  have hl5 : len <<< 5 = len * 32 := by rw [Nat.shiftLeft_eq]
  unfold emitMatch2
  simp only [MAX_L2_DISTANCE, Tok.enc2, Tok.hdr2, Tok.body2, chainBytes,
    emitChain_spec _ _ _ (le_refl _), st, and255, hd8, h75, hl5]
  split_ifs with hnear h7 h7
  · have e1 : (len * 32 + d / 256) % 256 = len * 32 + d / 256 := by omega
    simp [e1]
  · have e1 : (224 + d / 256) % 256 = 224 + d / 256 := by omega
    have e2 : (len - 7) % 255 % 256 = (len - 7) % 255 := by omega
    simp [e1, e2]
  · have e1 : (len * 32 + 31) % 256 = len * 32 + 31 := by omega
    have e2 : (d - 8191) / 256 % 256 = (d - 8191) / 256 := by omega
    simp [e1, e2]
  · have e2 : (d - 8191) / 256 % 256 = (d - 8191) / 256 := by omega
    have e3 : (len - 7) % 255 % 256 = (len - 7) % 255 := by omega
    simp [e2, e3]

theorem enc2_mat_length (len d : Nat) (h1 : 1 ≤ len) (hfar : 8191 ≤ d → 3 ≤ len) :
    32 * ((Tok.enc2 (Tok.mat len d)).length + 1) ≤ 33 * (len + 2) := by
  simp only [Tok.enc2, Tok.body2, chainBytes, List.length_cons, List.length_append,
    List.length_replicate, List.length_singleton]
  split_ifs <;> simp only [List.length_cons, List.length_nil, List.length_append,
    List.length_replicate, List.length_singleton] <;> omega

theorem enc2_mat_lt (len d : Nat) (h : (Tok.mat len d).shape2) :
    ∀ b ∈ Tok.enc2 (Tok.mat len d), b < 256 := by
  obtain ⟨h1, h2⟩ := h
  intro b hb
  simp only [Tok.enc2, Tok.hdr2, Tok.body2, chainBytes, List.mem_cons, List.mem_append,
    List.mem_replicate, List.mem_singleton] at hb
  split_ifs at hb <;> simp only [List.mem_cons, List.mem_singleton, List.not_mem_nil,
    or_false, false_or, List.mem_append, List.mem_replicate] at hb <;> omega

/-! ## The Level-2 compressor -/

theorem ml2_eq (len : Nat) (h1 : 1 ≤ len) (h : len < 2 ^ 32) : ml2 len = len + 2 := by
  unfold ml2
  have : (len - 1) % 2 ^ 32 = len - 1 := Nat.mod_eq_of_lt (by omega)
  omega

/-- The Level-2 code from the label `match:` on keeps the invariant and
advances `ip`, for a verified minimum match of `len0` bytes at distance
`dist`. -/
theorem CInv_match2 (B : List Nat) (s : CState) (htab : Nat → Nat)
    (ref0 len0 dist ref : Nat)
    (h : CInv Tok.enc2 Tok.shape2 ml1 B s.ip s.out s.copy) (hlim : s.ip + 13 < B.length)
    (href : ref0 < s.ip) (hdist : dist = s.ip - ref0) (hr : ref = ref0 + len0)
    (hlen : len0 = 3 ∨ len0 = 5) (hfar : 8191 ≤ dist → len0 = 5) (hmax : dist < 73725)
    (hmin : ∀ i, i < len0 → rd B (ref0 + i) = rd B (s.ip + i)) :
    CInv Tok.enc2 Tok.shape2 ml1 B (match2 B s htab s.ip len0 dist ref).ip
      (match2 B s htab s.ip len0 dist ref).out (match2 B s htab s.ip len0 dist ref).copy ∧
    s.ip < (match2 B s htab s.ip len0 dist ref).ip := by
  subst hdist hr
  have hext := extend_spec B s.ip ref0 len0 href (by omega) (by omega) hmin
  unfold match2 afterMatch
  dsimp only
  generalize extend B (B.length - 2) (s.ip - ref0 - 1) (ref0 + len0) (s.ip + len0) = r at *
  obtain ⟨hr1, hr2, hr3⟩ := hext
  have hd : s.ip - ref0 - 1 < 8191 + 65536 := by omega
  have hl1 : 1 ≤ r - 3 - s.ip := by omega
  have e := emit2_spec (r - 3 - s.ip) (s.ip - ref0 - 1) (closeRun s.out s.copy) hl1 hd
  have hml : ml1 (r - 3 - s.ip) = r - 1 - s.ip := by
    unfold ml1; omega
  have hsz2 : sizeAll ml1 [Tok.mat (r - 3 - s.ip) (s.ip - ref0 - 1)] = r - 1 - s.ip := by
    simp [sizeAll, Tok.size, hml]
  have hsound := matches_sound ml1 B (s.ip - ref0 - 1)
    [Tok.mat (r - 3 - s.ip) (s.ip - ref0 - 1)] s.ip
    (by intro t ht; rw [List.mem_singleton] at ht; exact ⟨_, ht⟩) (by omega)
    (by rw [hsz2]; omega) (by
      intro i hi
      rw [hsz2] at hi
      have := hr3 i (by omega)
      have e1 : s.ip - (s.ip - ref0 - 1 + 1) + i = ref0 + i := by omega
      rw [e1]; exact this)
  have hsh : (Tok.mat (r - 3 - s.ip) (s.ip - ref0 - 1)).shape2 := ⟨hl1, hd⟩
  have hbo : ∀ b ∈ s.out, b < 256 := by
    obtain ⟨_, _, _, _, _, _, _, _, _, _, _, hbo, _⟩ := id h
    exact hbo
  have hinv := CInv_match Tok.enc2 Tok.shape2 ml1 enc2_lit shape2_lit B s.ip s.out s.copy h
    [Tok.mat (r - 3 - s.ip) (s.ip - ref0 - 1)] (r - 1 - s.ip)
    (by intro t ht; rw [List.mem_singleton] at ht; rw [ht]; exact hsh)
    hsound.1 (by rw [hsound.2, hsz2]) (by omega)
    (by
      have := enc2_mat_length (r - 3 - s.ip) (s.ip - ref0 - 1) hl1 (by omega)
      simp only [encAll, List.append_nil]
      omega)
    (emitMatch2 (r - 3 - s.ip) (s.ip - ref0 - 1) (closeRun s.out s.copy))
    (by rw [e]; simp [encAll]) (by
      rw [e]
      intro b hb
      rw [List.mem_append] at hb
      rcases hb with hb | hb
      · exact closeRun_lt _ _ hbo b hb
      · exact enc2_mat_lt _ _ hsh b hb)
  have e2 : r - 3 + 2 = s.ip + (r - 1 - s.ip) := by omega
  rw [e2]
  exact ⟨hinv, by omega⟩

/-- One iteration of the Level-2 main loop keeps the invariant and advances
`ip`. -/
theorem CInv_iter2 (B : List Nat) (s : CState)
    (h : CInv Tok.enc2 Tok.shape2 ml1 B s.ip s.out s.copy) (hlim : s.ip + 13 < B.length) :
    CInv Tok.enc2 Tok.shape2 ml1 B (iter2 B s).ip (iter2 B s).out (iter2 B s).copy ∧
    s.ip < (iter2 B s).ip := by
  have h2 : 2 ≤ s.ip := by
    obtain ⟨_, _, _, _, _, _, _, _, h2, _⟩ := id h
    exact h2
  unfold iter2
  dsimp only
  split_ifs with hrun hlit hfar hlit2
  · obtain ⟨r0, r1, r2⟩ := hrun
    exact CInv_match2 B s s.htab (s.ip - 1) 3 1 (s.ip - 1 + 3) h hlim (by omega) (by omega)
      rfl (Or.inl rfl) (by omega) (by omega) (by
        intro i hi
        interval_cases i
        · simpa using r0.symm
        · have e1 : s.ip - 1 + 1 = s.ip := by omega
          rw [e1]; exact r1
        · have e1 : s.ip - 1 + 2 = s.ip + 1 := by omega
          rw [e1]; exact r2)
  · have := CInv_literal Tok.enc2 Tok.shape2 ml1 enc2_lit shape2_lit B s
      (Function.update s.htab (HASH_FUNCTION B s.ip) s.ip) h (by omega)
    exact ⟨this.1, by rw [this.2]; omega⟩
  · have := CInv_literal Tok.enc2 Tok.shape2 ml1 enc2_lit shape2_lit B s
      (Function.update s.htab (HASH_FUNCTION B s.ip) s.ip) h (by omega)
    exact ⟨this.1, by rw [this.2]; omega⟩
  · simp only [not_or, not_not, MAX_FARDISTANCE, MAX_L2_DISTANCE, ge_iff_le, not_le] at hlit hlit2 hfar
    obtain ⟨hd0, hd1, hm0, hm1, hm2⟩ := hlit
    obtain ⟨hm3, hm4⟩ := hlit2
    generalize s.htab (HASH_FUNCTION B s.ip) = ref0 at *
    exact CInv_match2 B s _ ref0 5 (s.ip - ref0) (ref0 + 5) h hlim (by omega) rfl rfl
      (Or.inr rfl) (fun _ => rfl) (by omega) (by
        intro i hi
        interval_cases i
        · simpa using hm0
        · exact hm1
        · exact hm2
        · exact hm3.symm
        · exact hm4.symm)
  · simp only [not_or, not_not, MAX_FARDISTANCE, MAX_L2_DISTANCE, ge_iff_le, not_le] at hlit hfar
    obtain ⟨hd0, hd1, hm0, hm1, hm2⟩ := hlit
    generalize s.htab (HASH_FUNCTION B s.ip) = ref0 at *
    exact CInv_match2 B s _ ref0 3 (s.ip - ref0) (ref0 + 3) h hlim (by omega) rfl rfl
      (Or.inl rfl) (by omega) (by omega) (by
        intro i hi
        interval_cases i
        · simpa using hm0
        · exact hm1
        · exact hm2)

/-- The Level-2 main loop keeps the invariant and ends because its condition
`ip < ip_limit` fails, not for lack of fuel. -/
theorem CInv_loop2 (B : List Nat) :
    ∀ (fuel : Nat) (s : CState), CInv Tok.enc2 Tok.shape2 ml1 B s.ip s.out s.copy →
      B.length ≤ fuel + s.ip →
      CInv Tok.enc2 Tok.shape2 ml1 B (loop2 B fuel s).ip (loop2 B fuel s).out
        (loop2 B fuel s).copy ∧
      ¬ ((loop2 B fuel s).ip + 13 < B.length) := by
  intro fuel
  induction fuel with
  | zero =>
    intro s h hf
    simp only [loop2]
    exact ⟨h, by omega⟩
  | succ fuel ih =>
    intro s h hf
    simp only [loop2]
    split_ifs with hlim
    · have := CInv_iter2 B s h hlim
      exact ih _ this.1 (by omega)
    · exact ⟨h, hlim⟩

/-! ## Level-2 round trip and sizes -/

/-- The stream of the main path of `fastlz2_compress`, before the level marker
is set, is a well-formed Level-2 opcode sequence that reproduces the input. -/
theorem CPost_fastlz2_main (B : List Nat) (h4 : 4 ≤ B.length) :
    CPost Tok.enc2 Tok.shape2 ml1 B
      (finish
        (tailLoop B (B.length - (loop2 B B.length (initState B)).ip)
          (loop2 B B.length (initState B)).ip (loop2 B B.length (initState B)).out
          (loop2 B B.length (initState B)).copy).1
        (tailLoop B (B.length - (loop2 B B.length (initState B)).ip)
          (loop2 B B.length (initState B)).ip (loop2 B B.length (initState B)).out
          (loop2 B B.length (initState B)).copy).2) := by
  have hloop := CInv_loop2 B B.length (initState B)
    (CInv_init _ _ _ B (by omega)) (by omega)
  generalize loop2 B B.length (initState B) = s at *
  obtain ⟨_, _, _, _, _, _, _, _, _, hle, _⟩ := id hloop.1
  exact CPost_finish _ _ _ enc2_lit shape2_lit B _ _
    (CInv_tailLoop _ _ _ enc2_lit shape2_lit B _ _ _ _ hloop.1 (by omega))

/-- Below `2 ^ 32` the Level-2 decoder keeps the length of every match. -/
theorem ml2_agree (ts : List Tok) (hs : ∀ t ∈ ts, t.shape2) (N : Nat) (hN : N < 2 ^ 32)
    (hsz : sizeAll ml1 ts ≤ N) :
    sizeAll ml2 ts = sizeAll ml1 ts ∧
    ∀ out, applyAll ml2 out ts = applyAll ml1 out ts ∧
      (fitsAll ml2 out ts ↔ fitsAll ml1 out ts) := by
  induction ts with
  | nil => simp [sizeAll, applyAll, fitsAll]
  | cons t ts ih =>
    have hsz1 : sizeAll ml1 ts ≤ N := by simp only [sizeAll] at hsz; omega
    obtain ⟨i1, i2⟩ := ih (fun u hu => hs u (List.mem_cons_of_mem _ hu)) hsz1
    have ht : t.size ml2 = t.size ml1 ∧ ∀ out, t.apply ml2 out = t.apply ml1 out := by
      cases t with
      | lit bs => simp [Tok.size, Tok.apply]
      | mat len d =>
        obtain ⟨h1, _⟩ := hs _ (List.mem_cons_self _ _)
        have : ml2 len = ml1 len := by
          simp only [sizeAll, Tok.size, ml1] at hsz
          rw [ml2_eq len h1 (by omega)]; rfl
        simp [Tok.size, Tok.apply, this]
    refine ⟨by simp only [sizeAll, ht.1, i1], ?_⟩
    intro out
    simp only [applyAll, fitsAll, ht.2, (i2 _).1, (i2 _).2, and_self]

theorem or_32 (x : Nat) (h : x < 32) : (x ||| (1 <<< 5)) % 256 = x + 32 := by
  revert x; decide

theorem rd_set_zero_succ (l : List Nat) (v j : Nat) : rd (l.set 0 v) (j + 1) = rd l (j + 1) := by
  cases l with
  | nil => simp [rd]
  | cons a l => simp [rd]

theorem rd_set_zero (l : List Nat) (v : Nat) (h : 1 ≤ l.length) (hv : v < 256) :
    rd (l.set 0 v) 0 = v := by
  cases l with
  | nil => simp at h
  | cons a l => simp [rd, Nat.mod_eq_of_lt hv]

/-- The Level-2 decoder on the marked stream of a compressor result that
satisfies the Level-2 postcondition: it returns the input when the capacity
suffices and 0 otherwise. -/
theorem decode2_of_CPost (B : List Nat) (r : CResult)
    (h : CPost Tok.enc2 Tok.shape2 ml1 B r) (hB : B.length < 2 ^ 32) (maxout : Nat) :
    rd (mark2 r).buf 0 >>> 5 = 1 ∧
    (B.length ≤ maxout →
      (fastlz2_decompress (mark2 r).buf (mark2 r).ret maxout).ret = B.length ∧
      (fastlz2_decompress (mark2 r).buf (mark2 r).ret maxout).out = bytes B ∧
      (fastlz2_decompress (mark2 r).buf (mark2 r).ret maxout).ip = (mark2 r).ret) ∧
    (maxout < B.length → (fastlz2_decompress (mark2 r).buf (mark2 r).ret maxout).ret = 0) := by
  obtain ⟨toks, post, hbuf, hret, hs, hf1, ha1, hst, hb, _, _⟩ := h
  have hsz1 : sizeAll ml1 toks = B.length := by
    have := applyAll_length ml1 toks []
    rw [ha1, bytes_length] at this
    simpa using this.symm
  obtain ⟨_, hag⟩ := ml2_agree toks hs B.length hB (by omega)
  have ha : applyAll ml2 [] toks = bytes B := by rw [(hag []).1]; exact ha1
  have hf : fitsAll ml2 [] toks := (hag []).2.mpr hf1
  cases toks with
  | nil => exact absurd hst (by simp [startsLit])
  | cons t ts =>
    cases t with
    | mat len d => exact absurd hst (by simp [startsLit])
    | lit bs =>
      have hsh : (Tok.lit bs).shape2 := hs _ (List.mem_cons_self _ _)
      have hss : ∀ u ∈ ts, u.shape2 := fun u hu => hs u (List.mem_cons_of_mem _ hu)
      obtain ⟨hs1, hs2⟩ := id hsh
      have hAt : At r.buf 0 (encAll Tok.enc2 (Tok.lit bs :: ts)) := by
        rw [hbuf]; exact At_initial _ _ (by rw [← hbuf]; exact hb)
      simp only [encAll, Tok.enc2, Tok.hdr2, Tok.body2, List.cons_append] at hAt hret
      rw [At_cons] at hAt
      obtain ⟨h0, hAt1⟩ := hAt
      have hlen1 : 1 ≤ r.buf.length := by rw [hbuf]; simp [encAll, Tok.enc2]
      have hm0 : rd (mark2 r).buf 0 = bs.length - 1 + 32 := by
        simp only [mark2]
        rw [h0, or_32 _ (by omega), rd_set_zero _ _ hlen1 (by omega)]
      have hmret : (mark2 r).ret = r.ret := rfl
      have hAt2 : At (mark2 r).buf (0 + 1) (bs ++ encAll Tok.enc2 ts) := by
        intro j hj
        have := hAt1 j hj
        simp only [mark2]
        rw [Nat.zero_add, Nat.add_comm 1 j, rd_set_zero_succ]
        rw [Nat.zero_add, Nat.add_comm 1 j] at this
        exact this
      have hctrl : rd (mark2 r).buf 0 &&& 31 = (Tok.lit bs).hdr2 := by
        rw [hm0, and31]; simp only [Tok.hdr2]; omega
      have hsize : sizeAll ml2 (Tok.lit bs :: ts) = B.length := by
        have := applyAll_length ml2 (Tok.lit bs :: ts) []
        rw [ha, bytes_length] at this
        simpa using this.symm
      have hrun := dloop2_run (mark2 r).buf (mark2 r).ret maxout ts (Tok.lit bs)
        ((mark2 r).ret + 1) 1 [] [] hsh hss
        (by simpa [Tok.body2] using hAt2)
        (by simp only [Tok.body2, hmret, hret, List.length_cons]; omega) (by omega)
      simp only [List.length_nil, Nat.zero_add, hsize, ha] at hrun
      unfold fastlz2_decompress
      rw [hctrl]
      refine ⟨by rw [hm0, Nat.shiftRight_eq_div_pow]; omega, ?_, ?_⟩
      · intro hcap
        exact hrun.1 ⟨hf, hcap⟩
      · intro hcap
        exact hrun.2 (fun hh => by omega)

/-- Round trip and overflow for the Level-2 compressor through the
dispatching decoder. -/
theorem fastlz2_roundtrip (B : List Nat) (h1 : 1 ≤ B.length) (hB : B.length < 2 ^ 32)
    (maxout : Nat) :
    (B.length ≤ maxout →
      (fastlz_decompress (fastlz2_compress B).buf (fastlz2_compress B).ret maxout).ret =
        B.length ∧
      (fastlz_decompress (fastlz2_compress B).buf (fastlz2_compress B).ret maxout).out =
        bytes B ∧
      (fastlz_decompress (fastlz2_compress B).buf (fastlz2_compress B).ret maxout).ip =
        (fastlz2_compress B).ret) ∧
    (maxout < B.length →
      (fastlz_decompress (fastlz2_compress B).buf (fastlz2_compress B).ret maxout).ret = 0) := by
  unfold fastlz2_compress
  split_ifs with h4
  · have h := decode1_of_CPost B _
      (CPost_shortPath Tok.enc1 Tok.shape1 ml1 enc1_lit shape1_lit B h1 h4) maxout
    have hlevel : rd (shortPath B).buf 0 >>> 5 = 0 := by
      rw [Nat.shiftRight_eq_div_pow]; omega
    rw [fastlz_decompress_level1 _ _ _ hlevel]
    exact h.2
  · dsimp only
    have h := decode2_of_CPost B _ (CPost_fastlz2_main B (by omega)) hB maxout
    rw [fastlz_decompress_level2 _ _ _ h.1]
    exact h.2

/-- Size of the result of either compressor. -/
theorem compress_size (B : List Nat) :
    (32 * (fastlz1_compress B).buf.length ≤ 33 * B.length + 32 ∧
      32 * (fastlz1_compress B).ret ≤ 33 * B.length + 31) ∧
    (32 * (fastlz2_compress B).buf.length ≤ 33 * B.length + 32 ∧
      32 * (fastlz2_compress B).ret ≤ 33 * B.length + 31) := by
  by_cases h0 : B.length = 0
  · have hz : (shortPath B).buf = [] ∧ (shortPath B).ret = 0 := by simp [shortPath, h0]
    have h4 : B.length < 4 := by omega
    simp [fastlz1_compress, fastlz2_compress, h4, hz]
  · constructor
    · obtain ⟨_, _, _, _, _, _, _, _, _, hs1, hs2⟩ := CPost_fastlz1_compress B (by omega)
      exact ⟨hs1, hs2⟩
    · unfold fastlz2_compress
      split_ifs with h4
      · obtain ⟨_, _, _, _, _, _, _, _, _, hs1, hs2⟩ :=
          CPost_shortPath Tok.enc1 Tok.shape1 ml1 enc1_lit shape1_lit B (by omega) h4
        exact ⟨hs1, hs2⟩
      · dsimp only
        obtain ⟨_, _, _, _, _, _, _, _, _, hs1, hs2⟩ := CPost_fastlz2_main B (by omega)
        simp only [mark2, List.length_set]
        exact ⟨hs1, hs2⟩

/-! ## Loads from the output -/

theorem refReads_ge : ∀ (n : Nat) (ref : Int), ∀ i ∈ refReads n ref, ref ≤ i := by
  intro n
  induction n with
  | zero => intro ref i hi; simp [refReads] at hi
  | succ n ih =>
    intro ref i hi
    simp only [refReads, List.mem_cons] at hi
    rcases hi with hi | hi
    · omega
    · have := ih _ _ hi; omega

theorem matchReads_ge (out : List Nat) (ref : Int) (len : Nat) :
    ∀ i ∈ matchReads out ref len, ref - 1 ≤ i := by
  intro i hi
  unfold matchReads at hi
  split_ifs at hi
  · simp only [List.mem_singleton] at hi; omega
  · exact refReads_ge _ _ i hi

theorem log_append_nonneg (log : List Int) (out : List Nat) (ref : Int) (len : Nat)
    (hlog : ∀ i ∈ log, 0 ≤ i) (href : ¬ (ref - 1 < 0)) :
    ∀ i ∈ log ++ matchReads out ref len, 0 ≤ i := by
  intro i hi
  rw [List.mem_append] at hi
  rcases hi with hi | hi
  · exact hlog i hi
  · have := matchReads_ge out ref len i hi; omega

/-- The Level-1 opcode loop never loads an output byte from before the start of
the output buffer. -/
theorem dloop1_noUnderread (input : List Nat) (length maxout : Nat) :
    ∀ (fuel ip ctrl : Nat) (out : List Nat) (log : List Int), (∀ i ∈ log, 0 ≤ i) →
      NoUnderread (dloop1 input length maxout fuel ip ctrl out log) := by
  intro fuel
  induction fuel with
  | zero => intro ip ctrl out log h; simpa [dloop1, NoUnderread] using h
  | succ fuel ih =>
    intro ip ctrl out log h
    simp only [dloop1]
    split_ifs <;> first
      | exact h
      | exact ih _ _ _ _ h
      | exact ih _ _ _ _ (log_append_nonneg _ _ _ _ h (by assumption))
      | exact log_append_nonneg _ _ _ _ h (by assumption)

/-- The Level-2 opcode loop never loads an output byte from before the start of
the output buffer. -/
theorem dloop2_noUnderread (input : List Nat) (length maxout : Nat) :
    ∀ (fuel ip ctrl : Nat) (out : List Nat) (log : List Int), (∀ i ∈ log, 0 ≤ i) →
      NoUnderread (dloop2 input length maxout fuel ip ctrl out log) := by
  intro fuel
  induction fuel with
  | zero => intro ip ctrl out log h; simpa [dloop2, NoUnderread] using h
  | succ fuel ih =>
    intro ip ctrl out log h
    simp only [dloop2]
    split_ifs <;> first
      | exact h
      | exact ih _ _ _ _ h
      | exact ih _ _ _ _ (log_append_nonneg _ _ _ _ h (by assumption))
      | exact log_append_nonneg _ _ _ _ h (by assumption)

/-- The Level-1 opcode loop on a stream that starts with well-formed opcodes and
goes on after them: it returns 0, or it reaches the control byte after them with
their output. -/
theorem dloop1_continue (mem : List Nat) (n maxout : Nat) :
    ∀ (ts : List Tok) (t : Tok) (fuel p : Nat) (out : List Nat) (log : List Int),
      t.shape1 → (∀ u ∈ ts, u.shape1) → At mem p (t.body1 ++ encAll Tok.enc1 ts) →
      p + (t.body1 ++ encAll Tok.enc1 ts).length < n → n + 2 ≤ fuel + p →
      (dloop1 mem n maxout fuel p t.hdr1 out log).ret = 0 ∨
      ∃ fuel2 log2, n + 2 ≤ fuel2 + (p + (t.body1 ++ encAll Tok.enc1 ts).length + 1) ∧
        dloop1 mem n maxout fuel p t.hdr1 out log =
          dloop1 mem n maxout fuel2 (p + (t.body1 ++ encAll Tok.enc1 ts).length + 1)
            (rd mem (p + (t.body1 ++ encAll Tok.enc1 ts).length))
            (applyAll ml1 out (t :: ts)) log2 := by
  intro ts
  induction ts with
  | nil =>
    intro t fuel p out log hs _ hAt hn hf
    simp only [encAll, List.append_nil] at hAt hn ⊢
    obtain ⟨f, rfl⟩ : ∃ f, fuel = f + 1 := ⟨fuel - 1, by omega⟩
    have step := dloop1_step mem n maxout f p out log t hs hAt (by omega)
    by_cases hok : out.length + t.size ml1 ≤ maxout ∧ t.fits out
    · right
      refine ⟨f, log ++ t.reads ml1 out, by omega, ?_⟩
      rw [step.2 hok.1 hok.2, if_pos hn]
      simp [applyAll]
    · left
      apply step.1
      by_cases hfit : t.fits out
      · left
        have : ¬ (out.length + t.size ml1 ≤ maxout) := fun hc => hok ⟨hc, hfit⟩
        omega
      · right; exact hfit
  | cons t2 ts ih =>
    intro t fuel p out log hs hss hAt hn hf
    have hs2 : t2.shape1 := hss t2 (List.mem_cons_self _ _)
    have hss2 : ∀ u ∈ ts, u.shape1 := fun u hu => hss u (List.mem_cons_of_mem _ hu)
    simp only [encAll, Tok.enc1, List.length_append, List.length_cons, List.cons_append]
      at hAt hn ⊢
    rw [At_append, At_cons] at hAt
    obtain ⟨hA1, hA2, hA3⟩ := hAt
    obtain ⟨f, rfl⟩ : ∃ f, fuel = f + 1 := ⟨fuel - 1, by omega⟩
    have step := dloop1_step mem n maxout f p out log t hs hA1 (by omega)
    have hlt : p + t.body1.length < n := by omega
    have ih2 := ih t2 f (p + t.body1.length + 1) (t.apply ml1 out) (log ++ t.reads ml1 out)
      hs2 hss2 hA3 (by simp only [List.length_append]; omega) (by omega)
    simp only [List.length_append] at ih2
    have e1 : p + t.body1.length + 1 + (t2.body1.length + (encAll Tok.enc1 ts).length) =
        p + (t.body1.length + (t2.body1.length + (encAll Tok.enc1 ts).length + 1)) := by omega
    rw [e1] at ih2
    by_cases hok : out.length + t.size ml1 ≤ maxout ∧ t.fits out
    · rw [step.2 hok.1 hok.2, if_pos hlt, hA2]
      simp only [applyAll] at ih2 ⊢
      exact ih2
    · left
      apply step.1
      by_cases hfit : t.fits out
      · left
        have : ¬ (out.length + t.size ml1 ≤ maxout) := fun hc => hok ⟨hc, hfit⟩
        omega
      · right; exact hfit

/-! ## Reference underflow -/

/-- The Level-2 opcode loop on a stream that starts with well-formed opcodes and
goes on after them: it returns 0, or it reaches the control byte after them with
their output. -/
theorem dloop2_continue (mem : List Nat) (n maxout : Nat) :
    ∀ (ts : List Tok) (t : Tok) (fuel p : Nat) (out : List Nat) (log : List Int),
      t.shape2 → (∀ u ∈ ts, u.shape2) → At mem p (t.body2 ++ encAll Tok.enc2 ts) →
      p + (t.body2 ++ encAll Tok.enc2 ts).length < n → n + 2 ≤ fuel + p →
      (dloop2 mem n maxout fuel p t.hdr2 out log).ret = 0 ∨
      ∃ fuel2 log2, n + 2 ≤ fuel2 + (p + (t.body2 ++ encAll Tok.enc2 ts).length + 1) ∧
        dloop2 mem n maxout fuel p t.hdr2 out log =
          dloop2 mem n maxout fuel2 (p + (t.body2 ++ encAll Tok.enc2 ts).length + 1)
            (rd mem (p + (t.body2 ++ encAll Tok.enc2 ts).length))
            (applyAll ml2 out (t :: ts)) log2 := by
  intro ts
  induction ts with
  | nil =>
    intro t fuel p out log hs _ hAt hn hf
    simp only [encAll, List.append_nil] at hAt hn ⊢
    obtain ⟨f, rfl⟩ : ∃ f, fuel = f + 1 := ⟨fuel - 1, by omega⟩
    have step := dloop2_step mem n maxout f p out log t hs hAt (by omega)
    by_cases hok : out.length + t.size ml2 ≤ maxout ∧ t.fits out
    · right
      refine ⟨f, log ++ t.reads ml2 out, by omega, ?_⟩
      rw [step.2 hok.1 hok.2, if_pos hn]
      simp [applyAll]
    · left
      apply step.1
      by_cases hfit : t.fits out
      · left
        have : ¬ (out.length + t.size ml2 ≤ maxout) := fun hc => hok ⟨hc, hfit⟩
        omega
      · right; exact hfit
  | cons t2 ts ih =>
    intro t fuel p out log hs hss hAt hn hf
    have hs2 : t2.shape2 := hss t2 (List.mem_cons_self _ _)
    have hss2 : ∀ u ∈ ts, u.shape2 := fun u hu => hss u (List.mem_cons_of_mem _ hu)
    simp only [encAll, Tok.enc2, List.length_append, List.length_cons, List.cons_append]
      at hAt hn ⊢
    rw [At_append, At_cons] at hAt
    obtain ⟨hA1, hA2, hA3⟩ := hAt
    obtain ⟨f, rfl⟩ : ∃ f, fuel = f + 1 := ⟨fuel - 1, by omega⟩
    have step := dloop2_step mem n maxout f p out log t hs hA1 (by omega)
    have hlt : p + t.body2.length < n := by omega
    have ih2 := ih t2 f (p + t.body2.length + 1) (t.apply ml2 out) (log ++ t.reads ml2 out)
      hs2 hss2 hA3 (by simp only [List.length_append]; omega) (by omega)
    simp only [List.length_append] at ih2
    have e1 : p + t.body2.length + 1 + (t2.body2.length + (encAll Tok.enc2 ts).length) =
        p + (t.body2.length + (t2.body2.length + (encAll Tok.enc2 ts).length + 1)) := by omega
    rw [e1] at ih2
    by_cases hok : out.length + t.size ml2 ≤ maxout ∧ t.fits out
    · rw [step.2 hok.1 hok.2, if_pos hlt, hA2]
      simp only [applyAll] at ih2 ⊢
      exact ih2
    · left
      apply step.1
      by_cases hfit : t.fits out
      · left
        have : ¬ (out.length + t.size ml2 ≤ maxout) := fun hc => hok ⟨hc, hfit⟩
        omega
      · right; exact hfit


/-- A stream whose first byte is `c0`: the literal run the decoders start with
holds `c0 % 32 + 1` bytes. -/
theorem first_ctrl (c0 : Nat) (bs0 : List Nat)
    (hb : bs0.length = c0 % 32 + 1) :
    c0 % 256 &&& 31 = bs0.length - 1 ∧ 1 ≤ bs0.length ∧ bs0.length ≤ 32 := by
  rw [and31]
  omega

/-- Level-1 reference underflow: a stream that goes on, after a first literal
run and well-formed opcodes, with a match opcode whose distance exceeds the
number of bytes decoded before it, is refused. -/
theorem underflow1 (c0 : Nat) (bs0 : List Nat) (ts : List Tok) (len d : Nat)
    (rest : List Nat) (maxout : Nat)
    (hbytes : ∀ b ∈ c0 :: (bs0 ++ (encAll Tok.enc1 ts ++
      ((Tok.mat len d).enc1 ++ rest))), b < 256)
    (hb : bs0.length = c0 % 32 + 1) (hts : ∀ t ∈ ts, t.shape1)
    (hm : (Tok.mat len d).shape1) (hd : bs0.length + sizeAll ml1 ts < d + 1) :
    (fastlz1_decompress
      (c0 :: (bs0 ++ (encAll Tok.enc1 ts ++ ((Tok.mat len d).enc1 ++ rest))))
      (c0 :: (bs0 ++ (encAll Tok.enc1 ts ++ ((Tok.mat len d).enc1 ++ rest)))).length
      maxout).ret = 0 := by
  generalize hmem : c0 :: (bs0 ++ (encAll Tok.enc1 ts ++ ((Tok.mat len d).enc1 ++ rest))) = mem
    at *
  have hAt : At mem 0 mem := by
    have := At_initial mem [] (by simpa using hbytes)
    simpa using this
  rw [← hmem, At_cons, At_append, At_append, At_append] at hAt
  obtain ⟨h0, hA1, hA2, hA3, _⟩ := hAt
  rw [hmem] at h0 hA1 hA2 hA3
  simp only [Tok.enc1, At_cons] at hA3
  obtain ⟨hA3h, hA3b⟩ := hA3
  obtain ⟨hctrl, hl1, hl2⟩ := first_ctrl c0 bs0 hb
  have hlen : mem.length = 1 + bs0.length + (encAll Tok.enc1 ts).length +
      (1 + (Tok.mat len d).body1.length) + rest.length := by
    rw [← hmem]; simp [Tok.enc1]; omega
  have hc0 : rd mem 0 = c0 % 256 := by
    rw [h0]; exact (Nat.mod_eq_of_lt (hbytes c0 (by rw [← hmem]; simp))).symm
  have hpre := dloop1_continue mem mem.length maxout ts (Tok.lit bs0) (mem.length + 1) 1 [] []
    ⟨hl1, hl2⟩ hts (by
      rw [At_append]
      exact ⟨by simpa [Tok.body1, Nat.add_comm] using hA1,
        by simpa [Tok.body1, Nat.add_comm, Nat.add_assoc] using hA2⟩)
    (by simp only [Tok.body1, List.length_append]; omega) (by omega)
  unfold fastlz1_decompress
  rw [hc0, hctrl]
  simp only [Tok.hdr1, Tok.body1, List.length_append] at hpre
  rcases hpre with hz | ⟨fuel2, log2, hf2, heq⟩
  · exact hz
  · rw [heq]
    have e1 : 0 + 1 + bs0.length + (encAll Tok.enc1 ts).length =
        1 + (bs0.length + (encAll Tok.enc1 ts).length) := by omega
    rw [e1] at hA3h hA3b
    rw [hA3h]
    obtain ⟨f, rfl⟩ : ∃ f, fuel2 = f + 1 := ⟨fuel2 - 1, by omega⟩
    have step := dloop1_step mem mem.length maxout f
      (1 + (bs0.length + (encAll Tok.enc1 ts).length) + 1)
      (applyAll ml1 [] (Tok.lit bs0 :: ts)) log2 (Tok.mat len d) hm hA3b (by omega)
    apply step.1
    right
    simp only [Tok.fits, applyAll_length, sizeAll, Tok.size, List.length_nil]
    omega

/-- Level-2 reference underflow: a stream that goes on, after a first literal
run and well-formed opcodes, with a match opcode whose distance exceeds the
number of bytes decoded before it, is refused. -/
theorem underflow2 (c0 : Nat) (bs0 : List Nat) (ts : List Tok) (len d : Nat)
    (rest : List Nat) (maxout : Nat)
    (hbytes : ∀ b ∈ c0 :: (bs0 ++ (encAll Tok.enc2 ts ++
      ((Tok.mat len d).enc2 ++ rest))), b < 256)
    (hb : bs0.length = c0 % 32 + 1) (hts : ∀ t ∈ ts, t.shape2)
    (hm : (Tok.mat len d).shape2) (hd : bs0.length + sizeAll ml2 ts < d + 1) :
    (fastlz2_decompress
      (c0 :: (bs0 ++ (encAll Tok.enc2 ts ++ ((Tok.mat len d).enc2 ++ rest))))
      (c0 :: (bs0 ++ (encAll Tok.enc2 ts ++ ((Tok.mat len d).enc2 ++ rest)))).length
      maxout).ret = 0 := by
  generalize hmem : c0 :: (bs0 ++ (encAll Tok.enc2 ts ++ ((Tok.mat len d).enc2 ++ rest))) = mem
    at *
  have hAt : At mem 0 mem := by
    have := At_initial mem [] (by simpa using hbytes)
    simpa using this
  rw [← hmem, At_cons, At_append, At_append, At_append] at hAt
  obtain ⟨h0, hA1, hA2, hA3, _⟩ := hAt
  rw [hmem] at h0 hA1 hA2 hA3
  simp only [Tok.enc2, At_cons] at hA3
  obtain ⟨hA3h, hA3b⟩ := hA3
  obtain ⟨hctrl, hl1, hl2⟩ := first_ctrl c0 bs0 hb
  have hlen : mem.length = 1 + bs0.length + (encAll Tok.enc2 ts).length +
      (1 + (Tok.mat len d).body2.length) + rest.length := by
    rw [← hmem]; simp [Tok.enc2]; omega
  have hc0 : rd mem 0 = c0 % 256 := by
    rw [h0]; exact (Nat.mod_eq_of_lt (hbytes c0 (by rw [← hmem]; simp))).symm
  have hpre := dloop2_continue mem mem.length maxout ts (Tok.lit bs0) (mem.length + 1) 1 [] []
    ⟨hl1, hl2⟩ hts (by
      rw [At_append]
      exact ⟨by simpa [Tok.body2, Nat.add_comm] using hA1,
        by simpa [Tok.body2, Nat.add_comm, Nat.add_assoc] using hA2⟩)
    (by simp only [Tok.body2, List.length_append]; omega) (by omega)
  unfold fastlz2_decompress
  rw [hc0, hctrl]
  simp only [Tok.hdr2, Tok.body2, List.length_append] at hpre
  rcases hpre with hz | ⟨fuel2, log2, hf2, heq⟩
  · exact hz
  · rw [heq]
    have e1 : 0 + 1 + bs0.length + (encAll Tok.enc2 ts).length =
        1 + (bs0.length + (encAll Tok.enc2 ts).length) := by omega
    rw [e1] at hA3h hA3b
    rw [hA3h]
    obtain ⟨f, rfl⟩ : ∃ f, fuel2 = f + 1 := ⟨fuel2 - 1, by omega⟩
    have step := dloop2_step mem mem.length maxout f
      (1 + (bs0.length + (encAll Tok.enc2 ts).length) + 1)
      (applyAll ml2 [] (Tok.lit bs0 :: ts)) log2 (Tok.mat len d) hm hA3b (by omega)
    apply step.1
    right
    simp only [Tok.fits, applyAll_length, sizeAll, Tok.size, List.length_nil]
    omega

/-! ## The level marker on the main paths -/

/-- Where the level marker is right: the first byte of the stream of
`fastlz1_compress` has top three bits 0 for every non-empty input, and that of
`fastlz2_compress` has top three bits 1 for every input of at least 4 bytes. -/
theorem level_marker_main_paths (B : List Nat) :
    (1 ≤ B.length → rd (fastlz1_compress B).buf 0 >>> 5 = 0) ∧
    (4 ≤ B.length → rd (fastlz2_compress B).buf 0 >>> 5 = 1) := by
  constructor
  · intro h1
    have h := (decode1_of_CPost B _ (CPost_fastlz1_compress B h1) 0).1
    rw [Nat.shiftRight_eq_div_pow]
    omega
  · intro h4
    have h4n : ¬ B.length < 4 := by omega
    unfold fastlz2_compress
    rw [if_neg h4n]
    dsimp only
    obtain ⟨toks, post, hbuf, hret, hs, hf1, ha1, hst, hb, _, _⟩ := CPost_fastlz2_main B h4
    generalize finish _ _ = r at *
    cases toks with
    | nil => exact absurd hst (by simp [startsLit])
    | cons t ts =>
      cases t with
      | mat len d => exact absurd hst (by simp [startsLit])
      | lit bs =>
        obtain ⟨hs1, hs2⟩ := hs _ (List.mem_cons_self _ _)
        have hAt : At r.buf 0 (encAll Tok.enc2 (Tok.lit bs :: ts)) := by
          rw [hbuf]; exact At_initial _ _ (by rw [← hbuf]; exact hb)
        simp only [encAll, Tok.enc2, Tok.hdr2, Tok.body2, List.cons_append] at hAt
        rw [At_cons] at hAt
        have hlen1 : 1 ≤ r.buf.length := by rw [hbuf]; simp [encAll, Tok.enc2]
        simp only [mark2]
        rw [hAt.1, or_32 _ (by omega), rd_set_zero _ _ hlen1 (by omega),
          Nat.shiftRight_eq_div_pow]
        omega

/-! ## Fuel of the decoder loops -/

/-- The Level-2 length chain does not depend on the fuel once the fuel covers
the modelled memory. -/
theorem chainLoop_fuel (input : List Nat) :
    ∀ (f1 f2 ip len : Nat), input.length - ip + 1 ≤ f1 → input.length - ip + 1 ≤ f2 →
      chainLoop input f1 ip len = chainLoop input f2 ip len := by
  intro f1
  induction f1 with
  | zero => intro f2 ip len h1 _; omega
  | succ f1 ih =>
    intro f2 ip len h1 h2
    cases f2 with
    | zero => omega
    | succ f2 =>
      simp only [chainLoop]
      split_ifs with h
      · have := lt_length_of_rd_ne_zero input ip (by omega)
        exact ih _ _ _ (by omega) (by omega)
      · rfl

/-- The Level-1 opcode loop does not depend on the fuel once the fuel covers the
declared length: `length + 1` iterations are enough from `ip = 1`. -/
theorem dloop1_fuel (input : List Nat) (length maxout : Nat) :
    ∀ (f1 f2 ip ctrl : Nat) (out : List Nat) (log : List Int),
      length + 2 ≤ f1 + ip → length + 2 ≤ f2 + ip → ip ≤ length + 1 →
      dloop1 input length maxout f1 ip ctrl out log =
        dloop1 input length maxout f2 ip ctrl out log := by
  intro f1
  induction f1 with
  | zero => intro f2 ip ctrl out log h1 _ h3; omega
  | succ f1 ih =>
    intro f2 ip ctrl out log h1 h2 h3
    cases f2 with
    | zero => omega
    | succ f2 =>
      simp only [dloop1]
      split_ifs <;> first
        | rfl
        | exact ih _ _ _ _ _ (by omega) (by omega) (by omega)

theorem chainLoop_ip (input : List Nat) :
    ∀ (fuel ip len : Nat), ip ≤ (chainLoop input fuel ip len).1 := by
  intro fuel
  induction fuel with
  | zero => intro ip len; simp [chainLoop]
  | succ fuel ih =>
    intro ip len
    simp only [chainLoop]
    split_ifs
    · have := ih (ip + 1) ((len + rd input ip) % 2 ^ 32); omega
    · simp

/-- The Level-2 opcode loop does not depend on the fuel once the fuel covers the
declared length: `length + 1` iterations are enough from `ip = 1`. -/
theorem dloop2_fuel (input : List Nat) (length maxout : Nat) :
    ∀ (f1 f2 ip ctrl : Nat) (out : List Nat) (log : List Int),
      length + 2 ≤ f1 + ip → length + 2 ≤ f2 + ip → ip ≤ length + 1 →
      dloop2 input length maxout f1 ip ctrl out log =
        dloop2 input length maxout f2 ip ctrl out log := by
  intro f1
  induction f1 with
  | zero => intro f2 ip ctrl out log h1 _ h3; omega
  | succ f1 ih =>
    intro f2 ip ctrl out log h1 h2 h3
    cases f2 with
    | zero => omega
    | succ f2 =>
      have hch := chainLoop_ip input (input.length - ip + 1) ip (ctrl >>> 5 - 1)
      simp only [dloop2]
      split_ifs <;> first
        | rfl
        | exact ih _ _ _ _ _ (by omega) (by omega) (by omega)

/-! ## Truncated literal runs -/

/-- A literal-run control byte `k` with fewer than `k + 1` input bytes after it
makes the Level-1 opcode loop return 0. -/
theorem dloop1_truncated (mem : List Nat) (n maxout fuel p k : Nat) (out : List Nat)
    (log : List Int) (hk : k < 32) (hn : n < p + (k + 1)) :
    (dloop1 mem n maxout (fuel + 1) p k out log).ret = 0 := by
  have h1 : ¬ k ≥ 32 := by omega
  have h2 : p + (k + 1) > n := hn
  simp only [dloop1, if_neg h1, if_pos h2]
  split_ifs <;> rfl

/-- A literal-run control byte `k` with fewer than `k + 1` input bytes after it
makes the Level-2 opcode loop return 0. -/
theorem dloop2_truncated (mem : List Nat) (n maxout fuel p k : Nat) (out : List Nat)
    (log : List Int) (hk : k < 32) (hn : n < p + (k + 1)) :
    (dloop2 mem n maxout (fuel + 1) p k out log).ret = 0 := by
  have h1 : ¬ k ≥ 32 := by omega
  have h2 : p + (k + 1) > n := hn
  simp only [dloop2, if_neg h1, if_pos h2]
  split_ifs <;> rfl

/-- Level 1: a stream whose first literal run is cut short is refused. -/
theorem truncated_first1 (c0 : Nat) (rest : List Nat) (maxout : Nat)
    (h : rest.length < c0 % 32 + 1) :
    (fastlz1_decompress (c0 :: rest) (c0 :: rest).length maxout).ret = 0 := by
  unfold fastlz1_decompress
  apply dloop1_truncated
  · rw [and31]; exact Nat.mod_lt _ (by decide)
  · rw [and31]
    simp only [rd, List.getD_cons_zero, List.length_cons]
    omega

/-- Level 2: a stream whose first literal run is cut short is refused. -/
theorem truncated_first2 (c0 : Nat) (rest : List Nat) (maxout : Nat)
    (h : rest.length < c0 % 32 + 1) :
    (fastlz2_decompress (c0 :: rest) (c0 :: rest).length maxout).ret = 0 := by
  unfold fastlz2_decompress
  apply dloop2_truncated
  · rw [and31]; exact Nat.mod_lt _ (by decide)
  · rw [and31]
    simp only [rd, List.getD_cons_zero, List.length_cons]
    omega

/-- Level 1: a stream that goes on, after a first literal run and well-formed
opcodes, with a literal-run control byte `k` and fewer than `k + 1` bytes is
refused. -/
theorem truncated_later1 (c0 : Nat) (bs0 : List Nat) (ts : List Tok) (k : Nat)
    (rest : List Nat) (maxout : Nat)
    (hbytes : ∀ b ∈ c0 :: (bs0 ++ (encAll Tok.enc1 ts ++ k :: rest)), b < 256)
    (hb : bs0.length = c0 % 32 + 1) (hts : ∀ t ∈ ts, t.shape1)
    (hk : k < 32) (hrest : rest.length < k + 1) :
    (fastlz1_decompress (c0 :: (bs0 ++ (encAll Tok.enc1 ts ++ k :: rest)))
      (c0 :: (bs0 ++ (encAll Tok.enc1 ts ++ k :: rest))).length maxout).ret = 0 := by
  generalize hmem : c0 :: (bs0 ++ (encAll Tok.enc1 ts ++ k :: rest)) = mem at *
  have hAt : At mem 0 mem := by
    have := At_initial mem [] (by simpa using hbytes)
    simpa using this
  rw [← hmem, At_cons, At_append, At_append, At_cons] at hAt
  obtain ⟨h0, hA1, hA2, hA3, _⟩ := hAt
  rw [hmem] at h0 hA1 hA2 hA3
  obtain ⟨hctrl, hl1, hl2⟩ := first_ctrl c0 bs0 hb
  have hlen : mem.length = 1 + bs0.length + (encAll Tok.enc1 ts).length + 1 + rest.length := by
    rw [← hmem]; simp; omega
  have hc0 : rd mem 0 = c0 % 256 := by
    rw [h0]; exact (Nat.mod_eq_of_lt (hbytes c0 (by rw [← hmem]; simp))).symm
  have hpre := dloop1_continue mem mem.length maxout ts (Tok.lit bs0) (mem.length + 1) 1 [] []
    ⟨hl1, hl2⟩ hts (by
      rw [At_append]
      exact ⟨by simpa [Tok.body1, Nat.add_comm] using hA1,
        by simpa [Tok.body1, Nat.add_comm, Nat.add_assoc] using hA2⟩)
    (by simp only [Tok.body1, List.length_append]; omega) (by omega)
  unfold fastlz1_decompress
  rw [hc0, hctrl]
  simp only [Tok.hdr1, Tok.body1, List.length_append] at hpre
  rcases hpre with hz | ⟨fuel2, log2, hf2, heq⟩
  · exact hz
  · rw [heq]
    have e1 : 0 + 1 + bs0.length + (encAll Tok.enc1 ts).length =
        1 + (bs0.length + (encAll Tok.enc1 ts).length) := by omega
    rw [e1] at hA3
    rw [hA3]
    obtain ⟨f, rfl⟩ : ∃ f, fuel2 = f + 1 := ⟨fuel2 - 1, by omega⟩
    exact dloop1_truncated mem mem.length maxout f _ k _ log2 hk (by omega)

/-- Level 2: a stream that goes on, after a first literal run and well-formed
opcodes, with a literal-run control byte `k` and fewer than `k + 1` bytes is
refused. -/
theorem truncated_later2 (c0 : Nat) (bs0 : List Nat) (ts : List Tok) (k : Nat)
    (rest : List Nat) (maxout : Nat)
    (hbytes : ∀ b ∈ c0 :: (bs0 ++ (encAll Tok.enc2 ts ++ k :: rest)), b < 256)
    (hb : bs0.length = c0 % 32 + 1) (hts : ∀ t ∈ ts, t.shape2)
    (hk : k < 32) (hrest : rest.length < k + 1) :
    (fastlz2_decompress (c0 :: (bs0 ++ (encAll Tok.enc2 ts ++ k :: rest)))
      (c0 :: (bs0 ++ (encAll Tok.enc2 ts ++ k :: rest))).length maxout).ret = 0 := by
  generalize hmem : c0 :: (bs0 ++ (encAll Tok.enc2 ts ++ k :: rest)) = mem at *
  have hAt : At mem 0 mem := by
    have := At_initial mem [] (by simpa using hbytes)
    simpa using this
  rw [← hmem, At_cons, At_append, At_append, At_cons] at hAt
  obtain ⟨h0, hA1, hA2, hA3, _⟩ := hAt
  rw [hmem] at h0 hA1 hA2 hA3
  obtain ⟨hctrl, hl1, hl2⟩ := first_ctrl c0 bs0 hb
  have hlen : mem.length = 1 + bs0.length + (encAll Tok.enc2 ts).length + 1 + rest.length := by
    rw [← hmem]; simp; omega
  have hc0 : rd mem 0 = c0 % 256 := by
    rw [h0]; exact (Nat.mod_eq_of_lt (hbytes c0 (by rw [← hmem]; simp))).symm
  have hpre := dloop2_continue mem mem.length maxout ts (Tok.lit bs0) (mem.length + 1) 1 [] []
    ⟨hl1, hl2⟩ hts (by
      rw [At_append]
      exact ⟨by simpa [Tok.body2, Nat.add_comm] using hA1,
        by simpa [Tok.body2, Nat.add_comm, Nat.add_assoc] using hA2⟩)
    (by simp only [Tok.body2, List.length_append]; omega) (by omega)
  unfold fastlz2_decompress
  rw [hc0, hctrl]
  simp only [Tok.hdr2, Tok.body2, List.length_append] at hpre
  rcases hpre with hz | ⟨fuel2, log2, hf2, heq⟩
  · exact hz
  · rw [heq]
    have e1 : 0 + 1 + bs0.length + (encAll Tok.enc2 ts).length =
        1 + (bs0.length + (encAll Tok.enc2 ts).length) := by omega
    rw [e1] at hA3
    rw [hA3]
    obtain ⟨f, rfl⟩ : ∃ f, fuel2 = f + 1 := ⟨fuel2 - 1, by omega⟩
    exact dloop2_truncated mem mem.length maxout f _ k _ log2 hk (by omega)

/-! ## Short inputs and the dispatching decoder -/

/-- The short-input path on a list of bytes: 0 and nothing stored for the empty
input, otherwise `N + 1` and the byte `N - 1` followed by the input. -/
theorem shortPath_eq (B : List Nat) (hB : ∀ b ∈ B, b < 256) :
    (B = [] → shortPath B = { ret := 0, buf := [] }) ∧
    (B ≠ [] → shortPath B = { ret := B.length + 1, buf := (B.length - 1) % 256 :: B }) := by
  constructor
  · rintro rfl
    rfl
  · intro hne
    have h1 : 1 ≤ B.length := List.length_pos.mpr hne
    have h0 : B.length ≠ 0 := by omega
    simp only [shortPath, if_pos h0, copyShort_eq B B.length 0 _ (by omega), st,
      bytes_of_lt B hB, List.drop_zero, List.nil_append, List.singleton_append]

/-- The dispatching decoder respects the output capacity. -/
theorem fastlz_decompress_write_safe (input : List Nat) (length maxout : Nat) :
    WriteSafe (fastlz_decompress input length maxout) maxout := by
  unfold fastlz_decompress
  dsimp only
  split_ifs
  · exact fastlz1_decompress_write_safe _ _ _
  · exact fastlz2_decompress_write_safe _ _ _
  · simp [WriteSafe]

/-! ## The reference decoders on opcodes -/

/-- One iteration of the Level-1 reference decoder on a well-formed opcode. -/
theorem refLoop1_step (mem : List Nat) (n fuel src : Nat) (out : List Nat) (t : Tok)
    (hs : t.shape1) (hAt : At mem src t.enc1) (hn : src < n) :
    refLoop1 mem n (fuel + 1) src out =
      refLoop1 mem n fuel (src + t.enc1.length) (t.apply ml1 out) := by
  cases t with
  | lit bs =>
    obtain ⟨h1, h2⟩ := hs
    simp only [Tok.enc1, Tok.hdr1, Tok.body1, At_cons] at hAt
    have e1 : (bs.length - 1) >>> 5 = 0 := by
      rw [Nat.shiftRight_eq_div_pow]; omega
    have e2 : 1 + (bs.length - 1) = bs.length := by omega
    have e3 : src + 1 + bs.length = src + (bs.length + 1) := by omega
    simp only [refLoop1, if_pos hn, hAt.1, e1, if_true, e2, copyLit_At mem bs (src + 1) out hAt.2,
      Tok.enc1, Tok.hdr1, Tok.body1, Tok.apply, List.length_cons, e3]
  | mat len d =>
    obtain ⟨h1, h2, h3⟩ := hs
    by_cases h7 : len < 7
    · simp only [Tok.enc1, Tok.hdr1, Tok.body1, h7, if_true, At_cons] at hAt
      have e1 : (len * 32 + d / 256) >>> 5 = len := by
        rw [Nat.shiftRight_eq_div_pow]; omega
      have e2 : 256 * ((len * 32 + d / 256) &&& 31) + d % 256 = d := by
        rw [and31]; omega
      have e3 : len ≠ 0 := by omega
      have e4 : ((out.length : Int) - (d : Int) - 1) = (out.length : Int) - ((d : Int) + 1) := by
        omega
      have e5 : 2 + len = len + 2 := by omega
      simp only [refLoop1, if_pos hn, hAt.1, hAt.2.1, e1, e2, e3, if_false, h7, if_true, e4, e5,
        Tok.enc1, Tok.hdr1, Tok.body1, Tok.apply, ml1, List.length_cons, List.length_nil]
    · simp only [Tok.enc1, Tok.hdr1, Tok.body1, h7, if_false, At_cons] at hAt
      have e1 : (224 + d / 256) >>> 5 = 7 := by
        rw [Nat.shiftRight_eq_div_pow]; omega
      have e2 : 256 * ((224 + d / 256) &&& 31) + d % 256 = d := by
        rw [and31]; omega
      have e4 : ((out.length : Int) - (d : Int) - 1) = (out.length : Int) - ((d : Int) + 1) := by
        omega
      have e5 : 9 + (len - 7) = len + 2 := by omega
      have e6 : src + 1 + 1 = src + 2 := by omega
      rw [e6] at hAt
      simp only [refLoop1, if_pos hn, hAt.1, hAt.2.1, hAt.2.2.1, e1, e2, if_false, h7, e4, e5,
        Tok.enc1, Tok.hdr1, Tok.body1, Tok.apply, ml1, List.length_cons, List.length_nil,
        OfNat.ofNat_ne_zero, lt_self_iff_false]

/-- The Level-1 reference decoder on a stream of well-formed opcodes stores the
bytes the opcodes stand for. -/
theorem refLoop1_run (mem : List Nat) (n : Nat) :
    ∀ (ts : List Tok) (fuel src : Nat) (out : List Nat),
      (∀ t ∈ ts, t.shape1) → At mem src (encAll Tok.enc1 ts) →
      src + (encAll Tok.enc1 ts).length = n → n ≤ fuel + src →
      refLoop1 mem n fuel src out = applyAll ml1 out ts := by
  intro ts
  induction ts with
  | nil =>
    intro fuel src out _ _ hn _
    simp only [encAll, List.length_nil, Nat.add_zero] at hn
    cases fuel with
    | zero => rfl
    | succ f => simp [refLoop1, hn, applyAll]
  | cons t ts ih =>
    intro fuel src out hs hAt hn hf
    simp only [encAll, List.length_append] at hAt hn
    rw [At_append] at hAt
    have hpos : 1 ≤ t.enc1.length := by simp [Tok.enc1]
    obtain ⟨f, rfl⟩ : ∃ f, fuel = f + 1 := ⟨fuel - 1, by omega⟩
    rw [refLoop1_step mem n f src out t (hs t (List.mem_cons_self _ _)) hAt.1 (by omega)]
    exact ih f _ _ (fun u hu => hs u (List.mem_cons_of_mem _ hu)) hAt.2 (by omega) (by omega)

/-- What the end of the Level-1 compressor gives the reference decoder. -/
theorem ref1_of_CPost (B : List Nat) (r : CResult)
    (h : CPost Tok.enc1 Tok.shape1 ml1 B r) :
    REF_Level1_decompress r.buf r.ret = bytes B := by
  obtain ⟨toks, post, hbuf, hret, hs, _, ha, _, hb, _, _⟩ := h
  have hAt : At r.buf 0 (encAll Tok.enc1 toks) := by
    rw [hbuf]; exact At_initial _ _ (by rw [← hbuf]; exact hb)
  unfold REF_Level1_decompress
  rw [refLoop1_run r.buf r.ret toks r.ret 0 [] hs hAt (by omega) (by omega), ha]

/-- The gamma loop of the Level-2 reference decoder: `m` bytes 255 and a last
byte `c` below 255 add `255 * m + c` to the length. -/
theorem refGamma_spec (mem : List Nat) (src c : Nat) (hc : c < 255) (post : List Nat) :
    ∀ (m fuel next len : Nat), 1 ≤ next →
      At mem (src + next - 1) (List.replicate m 255 ++ c :: post) → m + 1 ≤ fuel →
      refGamma mem src fuel next len 255 = (next + m + 1, len + 255 * m + c) := by
  intro m
  induction m with
  | zero =>
    intro fuel next len _ hAt hf
    obtain ⟨f, rfl⟩ : ∃ f, fuel = f + 1 := ⟨fuel - 1, by omega⟩
    simp only [List.replicate_zero, List.nil_append, At_cons] at hAt
    have hne : ¬ (c = 255) := by omega
    cases f with
    | zero => simp [refGamma, hAt.1]
    | succ f => simp [refGamma, hAt.1, hne]
  | succ m ih =>
    intro fuel next len hn hAt hf
    obtain ⟨f, rfl⟩ : ∃ f, fuel = f + 1 := ⟨fuel - 1, by omega⟩
    simp only [List.replicate_succ, List.cons_append, At_cons] at hAt
    have e : src + (next + 1) - 1 = src + next - 1 + 1 := by omega
    simp only [refGamma, hAt.1, if_true]
    rw [ih f (next + 1) _ (by omega) (by rw [e]; exact hAt.2) (by omega)]
    refine Prod.ext (by simp only; omega) ?_
    simp only
    omega

/-- The length part of a long Level-2 match as the reference decoder reads
it. -/
theorem gamma_part (mem : List Nat) (src x : Nat) (post : List Nat)
    (hAt : At mem (src + 1) (chainBytes x ++ post)) :
    (if 9 + rd mem (src + 1) = 9 + 255 then
        refGamma mem src (mem.length - src) 3 (9 + rd mem (src + 1)) (rd mem (src + 1))
      else (3, 9 + rd mem (src + 1))) = (3 + x / 255, 9 + x) := by
  simp only [chainBytes] at hAt
  rw [List.append_assoc, List.singleton_append] at hAt
  have hlen := At_replicate_length mem (src + 1) _ _ hAt
  by_cases hm : x / 255 = 0
  · rw [hm] at hAt
    simp only [List.replicate_zero, List.nil_append, At_cons] at hAt
    have hx : x % 255 = x := by omega
    rw [hx] at hAt
    have hne : ¬ (9 + x = 9 + 255) := by omega
    rw [hAt.1, if_neg hne, hm]
  · obtain ⟨m, hm2⟩ : ∃ m, x / 255 = m + 1 := ⟨x / 255 - 1, by omega⟩
    rw [hm2] at hAt hlen
    simp only [List.replicate_succ, List.cons_append, At_cons] at hAt
    rw [hAt.1, if_pos rfl]
    rw [refGamma_spec mem src (x % 255) (Nat.mod_lt _ (by decide)) post m _ 3 _ (by omega)
      (by simpa using hAt.2) (by omega)]
    refine Prod.ext (by simp only; omega) ?_
    simp only
    omega

/-- One iteration of the Level-2 reference decoder on a well-formed opcode. -/
theorem refLoop2_step (mem : List Nat) (n fuel src : Nat) (out : List Nat) (t : Tok)
    (hs : t.shape2) (hAt : At mem src t.enc2) (hn : src < n) :
    refLoop2 mem n (fuel + 1) src out =
      refLoop2 mem n fuel (src + t.enc2.length) (t.apply ml1 out) := by
  cases t with
  | lit bs =>
    obtain ⟨h1, h2⟩ := hs
    simp only [Tok.enc2, Tok.hdr2, Tok.body2, At_cons] at hAt
    have e1 : (bs.length - 1) >>> 5 = 0 := by
      rw [Nat.shiftRight_eq_div_pow]; omega
    have e2 : 1 + (bs.length - 1) = bs.length := by omega
    have e3 : src + 1 + bs.length = src + (bs.length + 1) := by omega
    simp only [refLoop2, if_pos hn, hAt.1, e1, if_true, e2, copyLit_At mem bs (src + 1) out hAt.2,
      Tok.enc2, Tok.hdr2, Tok.body2, Tok.apply, List.length_cons, e3]
  | mat len d =>
    obtain ⟨h1, hd⟩ := hs
    simp only [Tok.enc2, At_cons, Tok.body2] at hAt
    obtain ⟨hA0, hA1⟩ := hAt
    have hg := gamma_part mem src (len - 7)
    rw [At_append] at hA1
    obtain ⟨hAc, hAd⟩ := hA1
    have e1 : (Tok.mat len d).hdr2 >>> 5 = (if len < 7 then len else 7) := by
      simp only [Tok.hdr2, Nat.shiftRight_eq_div_pow]
      split_ifs <;> omega
    have e2 : (Tok.mat len d).hdr2 &&& 31 = (if d < 8191 then d / 256 else 31) := by
      simp only [Tok.hdr2, and31]
      split_ifs <;> omega
    have e4 : ((out.length : Int) - (d : Int) - 1) = (out.length : Int) - ((d : Int) + 1) := by
      omega
    by_cases h7 : len < 7
    · have e5 : ¬ (2 + len = 9) := by omega
      have e6 : len ≠ 0 := by omega
      have e7 : 2 + len = len + 2 := by omega
      have e15 : src + 2 - 1 = src + 1 := by omega
      simp only [h7, if_true, List.length_nil, Nat.add_zero] at hAd e1
      by_cases hnear : d < 8191
      · simp only [hnear, if_true, At_cons] at hAd e2
        have e8 : 256 * (d / 256) + d % 256 = d := by omega
        have e9 : ¬ (d = 8191) := by omega
        simp only [refLoop2, if_pos hn, hA0, e1, e2, e5, e6, if_false, e15,
          hAd.1, e8, e9, e4, Tok.enc2, Tok.body2, Tok.apply, ml1, h7, hnear, if_true,
          List.length_cons, List.length_nil, List.nil_append]
        rw [e7]
      · simp only [hnear, if_false, At_cons] at hAd e2
        obtain ⟨hd0, hd1, hd2, _⟩ := hAd
        have e8 : 256 * 31 + 255 = 8191 := by decide
        have e9 : 8191 + (256 * ((d - 8191) / 256) + (d - 8191) % 256) = d := by omega
        have e10 : src + 1 + 1 = src + 2 := by omega
        have e11 : src + 1 + 1 + 1 = src + 2 + 1 := by omega
        rw [e10] at hd1
        rw [e11] at hd2
        simp only [refLoop2, if_pos hn, hA0, e1, e2, e5, e6, if_false, e15,
          hd0, hd1, hd2, e8, e9, e4, Tok.enc2, Tok.body2, Tok.apply, ml1, h7, hnear, if_true,
          List.length_cons, List.length_nil, List.nil_append]
        rw [e7]
    · simp only [h7, if_false] at hAd e1 hAc
      have hg2 := hg [] (by simpa using hAc)
      have e5 : 2 + 7 = 9 := by decide
      have e6 : 9 + (len - 7) = len + 2 := by omega
      have hcl : (chainBytes (len - 7)).length = (len - 7) / 255 + 1 := by simp [chainBytes]
      rw [hcl] at hAd
      have e12 : src + (3 + (len - 7) / 255) - 1 = src + 1 + ((len - 7) / 255 + 1) := by omega
      by_cases hnear : d < 8191
      · simp only [hnear, if_true, At_cons] at hAd e2
        have e8 : 256 * (d / 256) + d % 256 = d := by omega
        have e9 : ¬ (d = 8191) := by omega
        simp only [refLoop2, if_pos hn, hA0, e1, e2, e5, if_true, OfNat.ofNat_ne_zero, if_false,
          Nat.reduceAdd] 
        simp only [Nat.reduceAdd] at hg2
        simp only [hg2, e12, hAd.1, e8, e9, if_false, e4, e6]
        simp only [Tok.enc2, Tok.body2, Tok.apply, ml1, h7, hnear, if_true, if_false,
          List.length_cons, List.length_nil, List.length_append, hcl]
        congr 1
        omega
      · simp only [hnear, if_false, At_cons] at hAd e2
        obtain ⟨hd0, hd1, hd2, _⟩ := hAd
        have e8 : 256 * 31 + 255 = 8191 := by decide
        have e9 : 8191 + (256 * ((d - 8191) / 256) + (d - 8191) % 256) = d := by omega
        have e13 : src + (3 + (len - 7) / 255) = src + 1 + ((len - 7) / 255 + 1) + 1 := by omega
        have e14 : src + 1 + ((len - 7) / 255 + 1) + 1 + 1 =
          src + (3 + (len - 7) / 255) + 1 := by omega
        rw [← e13] at hd1
        rw [e14] at hd2
        simp only [refLoop2, if_pos hn, hA0, e1, e2, e5, if_true, OfNat.ofNat_ne_zero, if_false,
          Nat.reduceAdd] 
        simp only [Nat.reduceAdd] at hg2
        simp only [hg2, e12, hd0, hd1, hd2, e8, e9, if_true, e4, e6]
        simp only [Tok.enc2, Tok.body2, Tok.apply, ml1, h7, hnear, if_true, if_false,
          List.length_cons, List.length_nil, List.length_append, hcl]
        rw [show src + (3 + (len - 7) / 255 + 2) =
          src + ((len - 7) / 255 + 1 + (0 + 1 + 1 + 1) + 1) from by omega]

/-- The Level-2 reference decoder on a stream of well-formed opcodes stores the
bytes the opcodes stand for. -/
theorem refLoop2_run (mem : List Nat) (n : Nat) :
    ∀ (ts : List Tok) (fuel src : Nat) (out : List Nat),
      (∀ t ∈ ts, t.shape2) → At mem src (encAll Tok.enc2 ts) →
      src + (encAll Tok.enc2 ts).length = n → n ≤ fuel + src →
      refLoop2 mem n fuel src out = applyAll ml1 out ts := by
  intro ts
  induction ts with
  | nil =>
    intro fuel src out _ _ hn _
    simp only [encAll, List.length_nil, Nat.add_zero] at hn
    cases fuel with
    | zero => rfl
    | succ f => simp [refLoop2, hn, applyAll]
  | cons t ts ih =>
    intro fuel src out hs hAt hn hf
    simp only [encAll, List.length_append] at hAt hn
    rw [At_append] at hAt
    have hpos : 1 ≤ t.enc2.length := by simp [Tok.enc2]
    obtain ⟨f, rfl⟩ : ∃ f, fuel = f + 1 := ⟨fuel - 1, by omega⟩
    rw [refLoop2_step mem n f src out t (hs t (List.mem_cons_self _ _)) hAt.1 (by omega)]
    exact ih f _ _ (fun u hu => hs u (List.mem_cons_of_mem _ hu)) hAt.2 (by omega) (by omega)

/-- What the end of the Level-2 compressor, before the level marker, gives the
reference decoder: on any memory that reads as the unmarked stream it stores
the input. -/
theorem ref2_of_CPost (B : List Nat) (r : CResult)
    (h : CPost Tok.enc2 Tok.shape2 ml1 B r) (mem : List Nat)
    (hmem : ∀ i, rd mem i = rd r.buf i) :
    REF_Level2_decompress mem r.ret = bytes B := by
  obtain ⟨toks, post, hbuf, hret, hs, _, ha, _, hb, _, _⟩ := h
  have hAt : At r.buf 0 (encAll Tok.enc2 toks) := by
    rw [hbuf]; exact At_initial _ _ (by rw [← hbuf]; exact hb)
  have hAt2 : At mem 0 (encAll Tok.enc2 toks) := fun j hj => by rw [hmem]; exact hAt j hj
  unfold REF_Level2_decompress
  rw [refLoop2_run mem r.ret toks r.ret 0 [] hs hAt2 (by omega) (by omega), ha]

/-- Clearing the level-marker bits of the first byte of a marked stream gives
back the unmarked stream, and leaves an unmarked stream as it is. -/
theorem clear_marker (B : List Nat) (r : CResult)
    (h : CPost Tok.enc2 Tok.shape2 ml1 B r) :
    (∀ i, rd ((mark2 r).buf.set 0 (rd (mark2 r).buf 0 &&& 31)) i = rd r.buf i) ∧
    (∀ i, rd (r.buf.set 0 (rd r.buf 0 &&& 31)) i = rd r.buf i) := by
  obtain ⟨toks, post, hbuf, hret, hs, _, ha, hst, hb, _, _⟩ := h
  cases toks with
  | nil => exact absurd hst (by simp [startsLit])
  | cons t ts =>
    cases t with
    | mat len d => exact absurd hst (by simp [startsLit])
    | lit bs =>
      obtain ⟨hs1, hs2⟩ := hs _ (List.mem_cons_self _ _)
      have hAt : At r.buf 0 (encAll Tok.enc2 (Tok.lit bs :: ts)) := by
        rw [hbuf]; exact At_initial _ _ (by rw [← hbuf]; exact hb)
      simp only [encAll, Tok.enc2, Tok.hdr2, Tok.body2, List.cons_append] at hAt
      rw [At_cons] at hAt
      have h0 := hAt.1
      have hlen1 : 1 ≤ r.buf.length := by rw [hbuf]; simp [encAll, Tok.enc2]
      have hm0 : rd (mark2 r).buf 0 = bs.length - 1 + 32 := by
        simp only [mark2]
        rw [h0, or_32 _ (by omega), rd_set_zero _ _ hlen1 (by omega)]
      have hc1 : (bs.length - 1 + 32) &&& 31 = bs.length - 1 := by rw [and31]; omega
      have hc2 : (bs.length - 1) &&& 31 = bs.length - 1 := by rw [and31]; omega
      constructor
      · intro i
        rw [hm0, hc1]
        cases i with
        | zero =>
          rw [rd_set_zero _ _ (by simp only [mark2, List.length_set]; exact hlen1) (by omega), h0]
        | succ j => simp only [mark2, rd_set_zero_succ]
      · intro i
        rw [h0, hc2]
        cases i with
        | zero => rw [rd_set_zero _ _ hlen1 (by omega), h0]
        | succ j => rw [rd_set_zero_succ]

/-- The Level-2 decoder on the unmarked stream of a compressor result that
satisfies the Level-2 postcondition stores the input when the capacity
suffices. -/
theorem decode2_unmarked_of_CPost (B : List Nat) (r : CResult)
    (h : CPost Tok.enc2 Tok.shape2 ml1 B r) (hB : B.length < 2 ^ 32) (maxout : Nat)
    (hcap : B.length ≤ maxout) :
    (fastlz2_decompress r.buf r.ret maxout).ret = B.length ∧
    (fastlz2_decompress r.buf r.ret maxout).out = bytes B := by
  obtain ⟨toks, post, hbuf, hret, hs, hf1, ha1, hst, hb, _, _⟩ := h
  have hsz1 : sizeAll ml1 toks = B.length := by
    have := applyAll_length ml1 toks []
    rw [ha1, bytes_length] at this
    simpa using this.symm
  obtain ⟨_, hag⟩ := ml2_agree toks hs B.length hB (by omega)
  have ha : applyAll ml2 [] toks = bytes B := by rw [(hag []).1]; exact ha1
  have hf : fitsAll ml2 [] toks := (hag []).2.mpr hf1
  cases toks with
  | nil => exact absurd hst (by simp [startsLit])
  | cons t ts =>
    cases t with
    | mat len d => exact absurd hst (by simp [startsLit])
    | lit bs =>
      have hsh : (Tok.lit bs).shape2 := hs _ (List.mem_cons_self _ _)
      have hss : ∀ u ∈ ts, u.shape2 := fun u hu => hs u (List.mem_cons_of_mem _ hu)
      obtain ⟨hs1, hs2⟩ := id hsh
      have hAt : At r.buf 0 (encAll Tok.enc2 (Tok.lit bs :: ts)) := by
        rw [hbuf]; exact At_initial _ _ (by rw [← hbuf]; exact hb)
      simp only [encAll, Tok.enc2, Tok.hdr2, Tok.body2, List.cons_append] at hAt hret
      rw [At_cons] at hAt
      obtain ⟨h0, hAt1⟩ := hAt
      have hctrl : rd r.buf 0 &&& 31 = (Tok.lit bs).hdr2 := by
        rw [h0, and31]; simp only [Tok.hdr2]; omega
      have hsize : sizeAll ml2 (Tok.lit bs :: ts) = B.length := by
        have := applyAll_length ml2 (Tok.lit bs :: ts) []
        rw [ha, bytes_length] at this
        simpa using this.symm
      have hrun := dloop2_run r.buf r.ret maxout ts (Tok.lit bs)
        (r.ret + 1) 1 [] [] hsh hss
        (by simpa [Tok.body2] using hAt1)
        (by simp only [Tok.body2, hret, List.length_cons]; omega) (by omega)
      simp only [List.length_nil, Nat.zero_add, hsize, ha] at hrun
      unfold fastlz2_decompress
      rw [hctrl]
      have := hrun.1 ⟨hf, hcap⟩
      exact ⟨this.1, this.2.1⟩

/-! ## The Adler-32 checksum -/

/-- The exact sums never decrease. -/
theorem adlerSum_ge (buf : List Nat) :
    ∀ (k ptr s1 s2 : Nat), s1 ≤ (adlerSum buf k ptr s1 s2).1 ∧ s2 ≤ (adlerSum buf k ptr s1 s2).2 := by
  intro k
  induction k with
  | zero => intro ptr s1 s2; simp [adlerSum]
  | succ k ih =>
    intro ptr s1 s2
    have := ih (ptr + 1) (s1 + rd buf ptr) (s2 + (s1 + rd buf ptr))
    simp only [adlerSum]
    omega

/-- While the exact sums stay below `2 ^ 32`, the lines of the source compute
them and no addition overflows. -/
theorem adlerRest_exact (buf : List Nat) :
    ∀ (k : Nat) (a : Adler), a.ovf = false →
      (adlerSum buf k a.ptr a.s1 a.s2).1 < 2 ^ 32 → (adlerSum buf k a.ptr a.s1 a.s2).2 < 2 ^ 32 →
      adlerRest buf k a =
        { ptr := a.ptr + k, s1 := (adlerSum buf k a.ptr a.s1 a.s2).1,
          s2 := (adlerSum buf k a.ptr a.s1 a.s2).2, ovf := false } := by
  intro k
  induction k with
  | zero =>
    intro a ha _ _
    cases a
    simp only at ha
    simp [adlerRest, adlerSum, ha]
  | succ k ih =>
    intro a ha h1 h2
    simp only [adlerSum] at h1 h2
    have hge := adlerSum_ge buf k (a.ptr + 1) (a.s1 + rd buf a.ptr) (a.s2 + (a.s1 + rd buf a.ptr))
    have b1 : a.s1 + rd buf a.ptr < 2 ^ 32 := by omega
    have b2 : a.s2 + (a.s1 + rd buf a.ptr) < 2 ^ 32 := by omega
    have hstep : adlerStep buf a =
        { ptr := a.ptr + 1, s1 := a.s1 + rd buf a.ptr, s2 := a.s2 + (a.s1 + rd buf a.ptr),
          ovf := false } := by
      have n1 : ¬ (2 ^ 32 ≤ a.s1 + rd buf a.ptr) := by omega
      have n2 : ¬ (2 ^ 32 ≤ a.s2 + (a.s1 + rd buf a.ptr)) := by omega
      simp only [adlerStep, Nat.mod_eq_of_lt b1, Nat.mod_eq_of_lt b2, ha, n1, n2, decide_False,
        Bool.or_self]
    simp only [adlerRest, adlerSum]
    rw [hstep, ih _ rfl h1 h2]
    simp only [Adler.mk.injEq, and_true, true_and]
    omega

/-- The unrolled loop and the loop after it run the line `k` times. -/
theorem adlerUnrolled_rest (buf : List Nat) :
    ∀ (fuel k : Nat) (a : Adler), k ≤ 8 * fuel + 7 →
      adlerRest buf (adlerUnrolled buf fuel k a).1 (adlerUnrolled buf fuel k a).2 =
        adlerRest buf k a := by
  intro fuel
  induction fuel with
  | zero =>
    intro k a _
    simp [adlerUnrolled]
  | succ f ih =>
    intro k a hk
    by_cases h8 : k ≥ 8
    · obtain ⟨j, rfl⟩ : ∃ j, k = j + 8 := ⟨k - 8, by omega⟩
      simp only [adlerUnrolled, if_pos h8, Nat.add_sub_cancel]
      rw [ih j _ (by omega)]
      simp only [adlerRest]
    · simp only [adlerUnrolled, if_neg h8]

/-- The exact sums over `j + k` bytes are those over `j` bytes, then `k`
bytes. -/
theorem adlerSum_add (buf : List Nat) :
    ∀ (j k ptr s1 s2 : Nat), adlerSum buf (j + k) ptr s1 s2 =
      adlerSum buf k (ptr + j) (adlerSum buf j ptr s1 s2).1 (adlerSum buf j ptr s1 s2).2 := by
  intro j
  induction j with
  | zero => intro k ptr s1 s2; simp [adlerSum]
  | succ j ih =>
    intro k ptr s1 s2
    have e : j + 1 + k = (j + k) + 1 := by omega
    have e2 : ptr + (j + 1) = ptr + 1 + j := by omega
    rw [e, e2]
    simp only [adlerSum]
    rw [ih]

/-- The exact sums modulo `M` only depend on the starting values modulo `M`. -/
theorem adlerSum_modEq (buf : List Nat) (M : Nat) :
    ∀ (k ptr s1 s2 t1 t2 : Nat), s1 % M = t1 % M → s2 % M = t2 % M →
      (adlerSum buf k ptr s1 s2).1 % M = (adlerSum buf k ptr t1 t2).1 % M ∧
      (adlerSum buf k ptr s1 s2).2 % M = (adlerSum buf k ptr t1 t2).2 % M := by
  intro k
  induction k with
  | zero => intro ptr s1 s2 t1 t2 h1 h2; exact ⟨h1, h2⟩
  | succ k ih =>
    intro ptr s1 s2 t1 t2 h1 h2
    simp only [adlerSum]
    have e1 : (s1 + rd buf ptr) % M = (t1 + rd buf ptr) % M := Nat.ModEq.add_right _ h1
    exact ih _ _ _ _ _ e1 (Nat.ModEq.add h2 e1)

/-- Bound of the exact sums after `k` bytes. -/
theorem adlerSum_le (buf : List Nat) :
    ∀ (k ptr s1 s2 : Nat), (adlerSum buf k ptr s1 s2).1 ≤ s1 + 255 * k ∧
      2 * (adlerSum buf k ptr s1 s2).2 ≤ 2 * s2 + 2 * (k * s1) + 255 * (k * (k + 1)) := by
  intro k
  induction k with
  | zero => intro ptr s1 s2; simp [adlerSum]
  | succ k ih =>
    intro ptr s1 s2
    have hb := rd_lt buf ptr
    obtain ⟨i1, i2⟩ := ih (ptr + 1) (s1 + rd buf ptr) (s2 + (s1 + rd buf ptr))
    simp only [adlerSum]
    constructor
    · omega
    · have e1 : k * (s1 + rd buf ptr) = k * s1 + k * rd buf ptr := by ring
      have e2 : k * rd buf ptr ≤ k * 255 := Nat.mul_le_mul_left k (by omega)
      have e3 : (k + 1) * s1 = k * s1 + s1 := by ring
      have e4 : (k + 1) * (k + 1 + 1) = k * (k + 1) + 2 * k + 2 := by ring
      rw [e1] at i2
      rw [e3, e4]
      omega

/-- A block of at most 5552 bytes from accumulators below `2 ^ 16` stays below
`2 ^ 32`. -/
theorem adlerSum_block (buf : List Nat) (k ptr s1 s2 : Nat) (hk : k ≤ 5552)
    (h1 : s1 < 65536) (h2 : s2 < 65536) :
    (adlerSum buf k ptr s1 s2).1 < 2 ^ 32 ∧ (adlerSum buf k ptr s1 s2).2 < 2 ^ 32 := by
  obtain ⟨i1, i2⟩ := adlerSum_le buf k ptr s1 s2
  have e1 : k * s1 ≤ 5552 * 65535 := Nat.mul_le_mul hk (by omega)
  have e2 : k * (k + 1) ≤ 5552 * 5553 := Nat.mul_le_mul hk (by omega)
  constructor <;> omega

/-- The block loop of `update_adler32` from accumulators below `2 ^ 16`: the
result is the exact sums over the `len` bytes, reduced, and nothing
overflows. -/
theorem adlerBlocks_spec (buf : List Nat) :
    ∀ (fuel len : Nat) (a : Adler), len ≤ fuel → 0 < len → a.ovf = false →
      a.s1 < 65536 → a.s2 < 65536 →
      adlerBlocks buf fuel len a =
        { ptr := a.ptr + len,
          s1 := (adlerSum buf len a.ptr a.s1 a.s2).1 % ADLER32_BASE,
          s2 := (adlerSum buf len a.ptr a.s1 a.s2).2 % ADLER32_BASE,
          ovf := false } := by
  intro fuel
  induction fuel with
  | zero => intro len a h1 h2; omega
  | succ f ih =>
    intro len a hf hpos ha h1 h2
    generalize hk : (if len < 5552 then len else 5552) = k
    have hk1 : k ≤ 5552 := by rw [← hk]; split_ifs <;> omega
    have hk2 : k ≤ len := by rw [← hk]; split_ifs <;> omega
    have hk3 : 0 < k := by rw [← hk]; split_ifs <;> omega
    obtain ⟨b1, b2⟩ := adlerSum_block buf k a.ptr a.s1 a.s2 hk1 h1 h2
    have hblock := adlerRest_exact buf k a ha b1 b2
    simp only [adlerBlocks, if_pos hpos, hk, adlerUnrolled_rest buf k k a (by omega), hblock]
    by_cases hl : len - k = 0
    · have hlen : len = k := by omega
      rw [hl, hlen]
      cases f with
      | zero => rfl
      | succ f => simp [adlerBlocks]
    · have hM1 : (adlerSum buf k a.ptr a.s1 a.s2).1 % ADLER32_BASE < 65536 := by
        have := Nat.mod_lt (adlerSum buf k a.ptr a.s1 a.s2).1 (by decide : 0 < ADLER32_BASE)
        simp only [ADLER32_BASE] at this ⊢
        omega
      have hM2 : (adlerSum buf k a.ptr a.s1 a.s2).2 % ADLER32_BASE < 65536 := by
        have := Nat.mod_lt (adlerSum buf k a.ptr a.s1 a.s2).2 (by decide : 0 < ADLER32_BASE)
        simp only [ADLER32_BASE] at this ⊢
        omega
      rw [ih (len - k) _ (by omega) (by omega) rfl hM1 hM2]
      have hsplit := adlerSum_add buf k (len - k) a.ptr a.s1 a.s2
      have e : k + (len - k) = len := by omega
      rw [e] at hsplit
      obtain ⟨m1, m2⟩ := adlerSum_modEq buf ADLER32_BASE (len - k) (a.ptr + k)
        ((adlerSum buf k a.ptr a.s1 a.s2).1 % ADLER32_BASE)
        ((adlerSum buf k a.ptr a.s1 a.s2).2 % ADLER32_BASE)
        (adlerSum buf k a.ptr a.s1 a.s2).1 (adlerSum buf k a.ptr a.s1 a.s2).2
        (Nat.mod_mod _ _) (Nat.mod_mod _ _)
      simp only [Adler.mk.injEq, and_true]
      rw [hsplit]
      exact ⟨by omega, m1, m2⟩

theorem and_ffff (x : Nat) : x &&& 0xffff = x % 65536 :=
  Nat.and_pow_two_sub_one_eq_mod x 16

/-- The variables of `update_adler32(checksum, buf, len)` at its `return`. -/
theorem adlerRun_spec (c : Nat) (buf : List Nat) (len : Nat) :
    adlerRun c buf len =
      { ptr := len,
        s1 := if len = 0 then c % 65536
          else (adlerSum buf len 0 (c % 65536) (c / 65536 % 65536)).1 % ADLER32_BASE,
        s2 := if len = 0 then c / 65536 % 65536
          else (adlerSum buf len 0 (c % 65536) (c / 65536 % 65536)).2 % ADLER32_BASE,
        ovf := false } := by
  unfold adlerRun
  rw [and_ffff, and_ffff, Nat.shiftRight_eq_div_pow]
  by_cases h0 : len = 0
  · subst h0
    simp [adlerBlocks]
  · rw [adlerBlocks_spec buf len len _ (le_refl _) (by omega) rfl
      (Nat.mod_lt _ (by decide)) (Nat.mod_lt _ (by decide))]
    simp [h0]

/-- Function `update_adler32` in exact arithmetic, and the absence of
overflow. -/
theorem update_adler32_spec (c : Nat) (buf : List Nat) (len : Nat) :
    update_adler32 c buf len = 65536 * (adlerRun c buf len).s2 + (adlerRun c buf len).s1 ∧
    (adlerRun c buf len).s1 < 65536 ∧ (adlerRun c buf len).s2 < 65536 ∧
    adlerOverflow c buf len = false := by
  have h := adlerRun_spec c buf len
  have b1 : (adlerRun c buf len).s1 < 65536 := by
    rw [h]
    simp only
    split_ifs
    · exact Nat.mod_lt _ (by decide)
    · have := Nat.mod_lt (adlerSum buf len 0 (c % 65536) (c / 65536 % 65536)).1
        (by decide : 0 < ADLER32_BASE)
      simp only [ADLER32_BASE] at this ⊢
      omega
  have b2 : (adlerRun c buf len).s2 < 65536 := by
    rw [h]
    simp only
    split_ifs
    · exact Nat.mod_lt _ (by decide)
    · have := Nat.mod_lt (adlerSum buf len 0 (c % 65536) (c / 65536 % 65536)).2
        (by decide : 0 < ADLER32_BASE)
      simp only [ADLER32_BASE] at this ⊢
      omega
  have hov : (adlerRun c buf len).ovf = false := by rw [h]
  refine ⟨?_, b1, b2, ?_⟩
  · simp only [update_adler32, Nat.shiftLeft_eq]
    omega
  · simp only [adlerOverflow, hov, Nat.shiftLeft_eq, Bool.false_or, decide_eq_false_iff_not]
    omega

/-- The exact sums only depend on the bytes read. -/
theorem adlerSum_congr (a b : List Nat) :
    ∀ (k p q s1 s2 : Nat), (∀ i, i < k → rd a (p + i) = rd b (q + i)) →
      adlerSum a k p s1 s2 = adlerSum b k q s1 s2 := by
  intro k
  induction k with
  | zero => intro p q s1 s2 _; rfl
  | succ k ih =>
    intro p q s1 s2 h
    have h0 := h 0 (by omega)
    simp only [Nat.add_zero] at h0
    simp only [adlerSum, h0]
    apply ih
    intro i hi
    have := h (i + 1) (by omega)
    rw [show p + 1 + i = p + (i + 1) from by omega, show q + 1 + i = q + (i + 1) from by omega]
    exact this

/-- The exact sums over a list of bytes: `s1` grows by the sum of the bytes and
`s2` by the sum of the successive values of `s1`. -/
theorem adlerSum_list :
    ∀ (l : List Nat) (s1 s2 : Nat), (∀ x ∈ l, x < 256) →
      adlerSum l l.length 0 s1 s2 =
        (s1 + l.sum,
          s2 + ((List.range l.length).map (fun i => s1 + (l.take (i + 1)).sum)).sum) := by
  intro l
  induction l with
  | nil => intro s1 s2 _; simp [adlerSum]
  | cons x l ih =>
    intro s1 s2 hl
    have hx : x < 256 := hl x (List.mem_cons_self _ _)
    have h0 : rd (x :: l) 0 = x := by simp [rd, Nat.mod_eq_of_lt hx]
    have hshift : adlerSum (x :: l) l.length (0 + 1) (s1 + x) (s2 + (s1 + x)) =
        adlerSum l l.length 0 (s1 + x) (s2 + (s1 + x)) := by
      apply adlerSum_congr
      intro i _
      simp [rd, Nat.add_comm 1 i]
    simp only [List.length_cons, adlerSum, h0]
    rw [hshift, ih _ _ (fun y hy => hl y (List.mem_cons_of_mem _ hy))]
    simp only [List.sum_cons, List.range_succ_eq_map, List.map_cons, List.map_map,
      List.take_succ_cons, List.take_zero, List.sum_nil, Nat.add_zero]
    refine Prod.ext (by simp only; omega) ?_
    simp only
    have : ((fun i => s1 + (x + (List.take i l).sum)) ∘ Nat.succ) =
        (fun i => s1 + x + (List.take (i + 1) l).sum) := by
      funext i
      simp [Nat.add_assoc]
    rw [this]
    omega

/-- A sum of remainders is congruent to the sum. -/
theorem sum_map_mod (M : Nat) (f : Nat → Nat) :
    ∀ (l : List Nat), (l.map (fun i => f i % M)).sum % M = (l.map f).sum % M := by
  intro l
  induction l with
  | nil => rfl
  | cons a l ih =>
    simp only [List.map_cons, List.sum_cons]
    rw [Nat.add_mod, ih, Nat.mod_mod, ← Nat.add_mod]

/-- Function `update_adler32` from the initial value 1 is the RFC 1950
definition. -/
theorem update_adler32_one (b : List Nat) (hb : ∀ x ∈ b, x < 256) :
    (adlerRun 1 b b.length).s1 = specS1 b ∧ (adlerRun 1 b b.length).s2 = specS2 b := by
  rw [adlerRun_spec]
  simp only [Nat.reduceMod, Nat.reduceDiv, adlerSum_list b 1 0 hb, Nat.zero_add, ADLER32_BASE,
    specS1, specS2]
  rw [sum_map_mod 65521 (fun i => 1 + (b.take (i + 1)).sum)]
  by_cases h0 : b.length = 0
  · have : b = [] := List.length_eq_zero.mp h0
    subst this
    simp
  · simp [h0]

/-- Function `update_adler32` only depends on the `len` bytes it reads. -/
theorem update_adler32_congr (c : Nat) (a b : List Nat) (len : Nat)
    (h : ∀ i, i < len → rd a i = rd b i) :
    update_adler32 c a len = update_adler32 c b len := by
  have e : adlerRun c a len = adlerRun c b len := by
    rw [adlerRun_spec, adlerRun_spec,
      adlerSum_congr a b len 0 0 _ _ (fun i hi => by simpa using h i hi)]
  simp only [update_adler32, e]

/-- Chaining of `update_adler32`. -/
theorem update_adler32_chain (x y : List Nat) :
    update_adler32 (update_adler32 1 x x.length) y y.length =
      update_adler32 1 (x ++ y) (x ++ y).length := by
  by_cases hy : y.length = 0
  · have : y = [] := List.length_eq_zero.mp hy
    subst this
    obtain ⟨e1, b1, b2, _⟩ := update_adler32_spec 1 x x.length
    obtain ⟨e2, _, _, _⟩ := update_adler32_spec (update_adler32 1 x x.length) [] 0
    simp only [List.append_nil, List.length_nil]
    rw [e2, adlerRun_spec]
    simp only [if_true]
    omega
  · obtain ⟨e1, b1, b2, _⟩ := update_adler32_spec 1 x x.length
    obtain ⟨e2, _, _, _⟩ := update_adler32_spec (update_adler32 1 x x.length) y y.length
    obtain ⟨e3, _, _, _⟩ := update_adler32_spec 1 (x ++ y) (x ++ y).length
    rw [e2, e3]
    have c1 : update_adler32 1 x x.length % 65536 = (adlerRun 1 x x.length).s1 := by omega
    have c2 : update_adler32 1 x x.length / 65536 % 65536 = (adlerRun 1 x x.length).s2 := by
      omega
    have hxy : (x ++ y).length ≠ 0 := by simp only [List.length_append]; omega
    rw [adlerRun_spec (update_adler32 1 x x.length), adlerRun_spec 1 (x ++ y)]
    simp only [if_neg hy, if_neg hxy, c1, c2, Nat.reduceMod, Nat.reduceDiv]
    have hsplit := adlerSum_add (x ++ y) x.length y.length 0 1 0
    rw [← List.length_append, Nat.zero_add] at hsplit
    have hx : adlerSum (x ++ y) x.length 0 1 0 = adlerSum x x.length 0 1 0 := by
      apply adlerSum_congr
      intro i hi
      simp only [rd, Nat.zero_add]
      rw [List.getD_append _ _ _ _ hi]
    have hyy : ∀ s1 s2, adlerSum (x ++ y) y.length x.length s1 s2 =
        adlerSum y y.length 0 s1 s2 := by
      intro s1 s2
      apply adlerSum_congr
      intro i _
      simp only [rd, Nat.zero_add]
      rw [List.getD_append_right _ _ _ _ (by omega)]
      congr 2
      omega
    rw [hsplit, hx, hyy]
    have hs := adlerRun_spec 1 x x.length
    simp only [Nat.reduceMod, Nat.reduceDiv] at hs
    have f1 : (adlerRun 1 x x.length).s1 % ADLER32_BASE =
        (adlerSum x x.length 0 1 0).1 % ADLER32_BASE := by
      rw [hs]
      simp only
      split_ifs with h0
      · rw [h0]; rfl
      · exact Nat.mod_mod _ _
    have f2 : (adlerRun 1 x x.length).s2 % ADLER32_BASE =
        (adlerSum x x.length 0 1 0).2 % ADLER32_BASE := by
      rw [hs]
      simp only
      split_ifs with h0
      · rw [h0]; rfl
      · exact Nat.mod_mod _ _
    obtain ⟨m1, m2⟩ := adlerSum_modEq y ADLER32_BASE y.length 0 _ _ _ _ f1 f2
    rw [m1, m2]

/-! ## Chunks of the container -/

/-- A value below `2 ^ 32` is read back from the four bytes
`write_chunk_header` stores for it. -/
theorem le32_bytes (v : Nat) (h : v < 2 ^ 32) :
    (v &&& 255) % 256 + 256 * (((v >>> 8) &&& 255) % 256) +
      65536 * (((v >>> 16) &&& 255) % 256) + 16777216 * (((v >>> 24) &&& 255) % 256) = v := by
  simp only [and255, Nat.shiftRight_eq_div_pow]
  omega

/-- The fields and the payload of a chunk written by `write_chunk_header` and
`fwrite`. -/
theorem chunk_fields (id options size checksum extra : Nat) (payload : List Nat)
    (hid : id < 2 ^ 16) (hop : options < 2 ^ 16) (hsz : size < 2 ^ 32)
    (hck : checksum < 2 ^ 32) (hex : extra < 2 ^ 32) :
    (write_chunk_header id options size checksum extra ++ payload).length = 16 + payload.length ∧
    (write_chunk_header id options size checksum extra ++ payload).drop 16 = payload ∧
    le16 (write_chunk_header id options size checksum extra ++ payload) 0 = id ∧
    le16 (write_chunk_header id options size checksum extra ++ payload) 2 = options ∧
    le32 (write_chunk_header id options size checksum extra ++ payload) 4 = size ∧
    le32 (write_chunk_header id options size checksum extra ++ payload) 8 = checksum ∧
    le32 (write_chunk_header id options size checksum extra ++ payload) 12 = extra := by
  have e1 := le32_bytes size hsz
  have e2 := le32_bytes checksum hck
  have e3 := le32_bytes extra hex
  have e4 : (id &&& 255) % 256 + 256 * ((id >>> 8) % 256) = id := by
    simp only [and255, Nat.shiftRight_eq_div_pow]; omega
  have e5 : (options &&& 255) % 256 + 256 * ((options >>> 8) % 256) = options := by
    simp only [and255, Nat.shiftRight_eq_div_pow]; omega
  refine ⟨by simp [write_chunk_header]; omega, by simp [write_chunk_header], ?_, ?_, ?_, ?_, ?_⟩
  · simpa [le16, rd, write_chunk_header] using e4
  · simpa [le16, rd, write_chunk_header] using e5
  · simpa [le32, rd, write_chunk_header] using e1
  · simpa [le32, rd, write_chunk_header] using e2
  · simpa [le32, rd, write_chunk_header] using e3

/-- The Level-2 compressor returns a length within the bytes it has stored. -/
theorem fastlz2_ret_le (B : List Nat) :
    (fastlz2_compress B).ret ≤ (fastlz2_compress B).buf.length := by
  unfold fastlz2_compress
  split_ifs with h4
  · by_cases h0 : B.length = 0
    · simp [shortPath, h0]
    · obtain ⟨toks, post, hbuf, hret, _⟩ :=
        CPost_shortPath Tok.enc2 Tok.shape2 ml1 enc2_lit shape2_lit B (by omega) h4
      rw [hbuf, hret]; simp
  · obtain ⟨toks, post, hbuf, hret, _⟩ := CPost_fastlz2_main B (by omega)
    dsimp only
    simp only [mark2, List.length_set]
    rw [hbuf, hret]; simp

/-- A load below `n` from the first `n` bytes of a list. -/
theorem rd_take (l : List Nat) (n i : Nat) (h : i < n) : rd (l.take n) i = rd l i := by
  simp only [rd]
  by_cases hi : i < l.length
  · rw [List.getD_eq_getElem _ _ (by simp; omega), List.getD_eq_getElem _ _ hi]
    simp
  · rw [List.getD_eq_default _ _ (by simp; omega), List.getD_eq_default _ _ (by omega)]

/-! ## The Level-1 compressor on a constant input -/

/-- A load from a constant list. -/
theorem rd_replicate (n x i : Nat) (h : i < n) : rd (List.replicate n x) i = x % 256 := by
  simp [rd, List.getD_eq_getElem, h]

/-- On an input whose bytes below `N` are all equal, the bounded comparison
loop runs to its bound. -/
theorem cmpLoop_const (B : List Nat) (N x : Nat) (hrd : ∀ i, i < N → rd B i = x) :
    ∀ (n ref ip : Nat), ref ≤ ip → ip + n ≤ N → cmpLoop B n ref ip = ip + n := by
  intro n
  induction n with
  | zero => intro ref ip _ _; rfl
  | succ n ih =>
    intro ref ip h1 h2
    simp only [cmpLoop, hrd ref (by omega), hrd ip (by omega), ne_eq, not_true_eq_false,
      if_false]
    rw [ih _ _ (by omega) (by omega)]
    omega

/-- On an input whose bytes below `N` are all equal, the unrolled comparison
runs to `ip_bound`. -/
theorem cmpUnrolled_const (B : List Nat) (N x ipb : Nat) (hrd : ∀ i, i < N → rd B i = x)
    (hb : ipb ≤ N) :
    ∀ (k ref ip : Nat), ref ≤ ip → ip + k ≤ ipb → cmpUnrolled B ipb k ref ip = ipb := by
  intro k
  induction k with
  | zero =>
    intro ref ip h1 h2
    simp only [cmpUnrolled]
    rw [cmpLoop_const B N x hrd _ _ _ h1 (by omega)]
    omega
  | succ k ih =>
    intro ref ip h1 h2
    simp only [cmpUnrolled, hrd ref (by omega), hrd ip (by omega), ne_eq, not_true_eq_false,
      if_false]
    exact ih _ _ (by omega) (by omega)

/-- The match branch of the Level-1 main loop: when the three bytes at the hash
candidate match and the match extends to `e`, the iteration leaves `ip` two
bytes before the end of the match and stores the match opcodes and a fresh
literal prefix. -/
theorem iter1_match (B : List Nat) (s : CState) (e : Nat)
    (hc : ¬ (s.ip - s.htab (HASH_FUNCTION B s.ip) = 0 ∨
      s.ip - s.htab (HASH_FUNCTION B s.ip) ≥ MAX_L1_DISTANCE ∨
      rd B (s.htab (HASH_FUNCTION B s.ip)) ≠ rd B s.ip ∨
      rd B (s.htab (HASH_FUNCTION B s.ip) + 1) ≠ rd B (s.ip + 1) ∨
      rd B (s.htab (HASH_FUNCTION B s.ip) + 2) ≠ rd B (s.ip + 2)))
    (he : extend B (B.length - 2) (s.ip - s.htab (HASH_FUNCTION B s.ip) - 1)
      (s.htab (HASH_FUNCTION B s.ip) + 3) (s.ip + 3) = e) :
    (iter1 B s).ip = e - 3 + 2 ∧
    (iter1 B s).out =
      st (emitMatch1
        (emitLong1 (s.ip - s.htab (HASH_FUNCTION B s.ip) - 1) (e - 3 - s.ip) (e - 3 - s.ip)
          (closeRun s.out s.copy)).1
        (s.ip - s.htab (HASH_FUNCTION B s.ip) - 1)
        (emitLong1 (s.ip - s.htab (HASH_FUNCTION B s.ip) - 1) (e - 3 - s.ip) (e - 3 - s.ip)
          (closeRun s.out s.copy)).2) (MAX_COPY - 1) ∧
    (iter1 B s).copy = 0 := by
  unfold iter1
  simp only [if_neg hc, he, afterMatch, and_self]

/-- The main loop ends at once when fewer than 14 bytes are left. -/
theorem loop1_stop (B : List Nat) (fuel : Nat) (s : CState) (h : ¬ (s.ip + 13 < B.length)) :
    loop1 B fuel s = s := by
  cases fuel with
  | zero => rfl
  | succ f => simp only [loop1, if_neg h]

/-- The state at the entry of the main loop on 1000 bytes `AA`. -/
theorem run1000_init (B : List Nat)
    (hrd : ∀ i, i < 1000 → rd B i = 0xAA) :
    (initState B).out = [0x1F, 0xAA, 0xAA] := by
  show st (st (st [] (MAX_COPY - 1)) (rd B 0)) (rd B 1) = _
  rw [hrd 0 (by omega), hrd 1 (by omega)]
  rfl

/-- On 1000 bytes `AA` the first hash candidate, the input start, matches at
`ip = 2`. -/
theorem run1000_candidate (B : List Nat)
    (hrd : ∀ i, i < 1000 → rd B i = 0xAA) :
    ¬ ((initState B).ip - (initState B).htab (HASH_FUNCTION B (initState B).ip) = 0 ∨
      (initState B).ip - (initState B).htab (HASH_FUNCTION B (initState B).ip) ≥
        MAX_L1_DISTANCE ∨
      rd B ((initState B).htab (HASH_FUNCTION B (initState B).ip)) ≠ rd B (initState B).ip ∨
      rd B ((initState B).htab (HASH_FUNCTION B (initState B).ip) + 1) ≠
        rd B ((initState B).ip + 1) ∨
      rd B ((initState B).htab (HASH_FUNCTION B (initState B).ip) + 2) ≠
        rd B ((initState B).ip + 2)) := by
  show ¬ (2 - 0 = 0 ∨ 2 - 0 ≥ MAX_L1_DISTANCE ∨ rd B 0 ≠ rd B 2 ∨ rd B 1 ≠ rd B 3 ∨
    rd B 2 ≠ rd B 4)
  rw [hrd 0 (by omega), hrd 1 (by omega), hrd 2 (by omega), hrd 3 (by omega),
    hrd 4 (by omega)]
  decide

/-- On 1000 bytes `AA` the first match extends to `ip_bound = 998`. -/
theorem run1000_extend (B : List Nat) (hlen : B.length = 1000)
    (hrd : ∀ i, i < 1000 → rd B i = 0xAA) :
    extend B (B.length - 2)
      ((initState B).ip - (initState B).htab (HASH_FUNCTION B (initState B).ip) - 1)
      ((initState B).htab (HASH_FUNCTION B (initState B).ip) + 3) ((initState B).ip + 3) =
      998 := by
  rw [hlen]
  show extend B 998 1 3 5 = 998
  unfold extend
  rw [if_neg (by decide)]
  exact cmpUnrolled_const B 1000 0xAA 998 hrd (by omega) 8 3 5 (by omega) (by omega)

/-- The opcodes stored for the match of biased length 993 at biased distance 1,
and the fresh literal prefix. -/
theorem run1000_emit :
    st (emitMatch1 (emitLong1 1 993 993 (closeRun [0x1F, 0xAA, 0xAA] 2)).1 1
      (emitLong1 1 993 993 (closeRun [0x1F, 0xAA, 0xAA] 2)).2) (MAX_COPY - 1) =
      [0x01, 0xAA, 0xAA, 0xE0, 0xFD, 0x01, 0xE0, 0xFD, 0x01, 0xE0, 0xFD, 0x01,
       0xE0, 0xC8, 0x01, 0x1F] := by
  decide

/-- The first iteration of the main loop on 1000 bytes `AA`. -/
theorem run1000_iter (B : List Nat) (hlen : B.length = 1000)
    (hrd : ∀ i, i < 1000 → rd B i = 0xAA) :
    (iter1 B (initState B)).ip = 997 ∧
    (iter1 B (initState B)).out =
      [0x01, 0xAA, 0xAA, 0xE0, 0xFD, 0x01, 0xE0, 0xFD, 0x01, 0xE0, 0xFD, 0x01,
       0xE0, 0xC8, 0x01, 0x1F] ∧
    (iter1 B (initState B)).copy = 0 := by
  obtain ⟨i1, i2, i3⟩ := iter1_match B (initState B) 998 (run1000_candidate B hrd) (run1000_extend B hlen hrd)
  rw [run1000_init B hrd] at i2
  refine ⟨i1, ?_, i3⟩
  rw [i2]
  exact run1000_emit

/-- The main loop on 1000 bytes `AA` makes one iteration. -/
theorem run1000_loop (B : List Nat) (hlen : B.length = 1000)
    (hrd : ∀ i, i < 1000 → rd B i = 0xAA) :
    loop1 B B.length (initState B) = iter1 B (initState B) := by
  have hlt : (initState B).ip + 13 < B.length := by
    rw [hlen]
    show 2 + 13 < 1000
    decide
  rw [hlen]
  show (if (initState B).ip + 13 < B.length then loop1 B 999 (iter1 B (initState B))
    else initState B) = _
  rw [if_pos hlt]
  exact loop1_stop B 999 _ (by rw [(run1000_iter B hlen hrd).1, hlen]; decide)

/-- The last three bytes are stored as literals. -/
theorem run1000_tail (B : List Nat)
    (hrd : ∀ i, i < 1000 → rd B i = 0xAA) :
    tailLoop B 3 997 [0x01, 0xAA, 0xAA, 0xE0, 0xFD, 0x01, 0xE0, 0xFD, 0x01, 0xE0,
      0xFD, 0x01, 0xE0, 0xC8, 0x01, 0x1F] 0 =
      ([0x01, 0xAA, 0xAA, 0xE0, 0xFD, 0x01, 0xE0, 0xFD, 0x01, 0xE0, 0xFD, 0x01,
        0xE0, 0xC8, 0x01, 0x1F, 0xAA, 0xAA, 0xAA], 3) := by
  simp only [tailLoop, hrd 997 (by omega), hrd (997 + 1) (by omega),
    hrd (997 + 1 + 1) (by omega)]
  decide

/-- The result of the Level-1 compressor on any input that reads as 1000 bytes
`AA`. -/
theorem run1000_result (B : List Nat) (hlen : B.length = 1000)
    (hrd : ∀ i, i < 1000 → rd B i = 0xAA) :
    (fastlz1_compress B).ret = 19 ∧
    (fastlz1_compress B).buf =
      [0x01, 0xAA, 0xAA, 0xE0, 0xFD, 0x01, 0xE0, 0xFD, 0x01, 0xE0, 0xFD, 0x01,
       0xE0, 0xC8, 0x01, 0x02, 0xAA, 0xAA, 0xAA] := by
  obtain ⟨i1, i2, i3⟩ := run1000_iter B hlen hrd
  have h4 : ¬ (B.length < 4) := by omega
  unfold fastlz1_compress
  rw [if_neg h4]
  dsimp only
  rw [run1000_loop B hlen hrd, i1, i2, i3, hlen, run1000_tail B hrd]
  decide

/-- The result of the Level-1 compressor on 1000 bytes `AA`. -/
theorem compress1_run1000 :
    (fastlz1_compress (List.replicate 1000 0xAA)).ret = 19 ∧
    (fastlz1_compress (List.replicate 1000 0xAA)).buf =
      [0x01, 0xAA, 0xAA, 0xE0, 0xFD, 0x01, 0xE0, 0xFD, 0x01, 0xE0, 0xFD, 0x01,
       0xE0, 0xC8, 0x01, 0x02, 0xAA, 0xAA, 0xAA] :=
  run1000_result _ (List.length_replicate _ _) (fun i hi => rd_replicate 1000 0xAA i hi)

/-! ## Long matches of the Level-1 compressor -/

/-- The loop of maximum-length blocks of a Level-1 match: it stores
`(len - 1) / 262` blocks `(7 << 5) + (distance >> 8), 253, distance & 255`, each
taking 262 off `len`, and leaves a `len` of at most 262. -/
theorem emitLong1_spec (d : Nat) :
    ∀ (fuel len : Nat) (out : List Nat), len ≤ fuel →
      emitLong1 d fuel len out =
        (len - 262 * ((len - 1) / 262),
          out ++ (List.replicate ((len - 1) / 262)
            [((7 <<< 5) + (d >>> 8)) % 256, 253, (d &&& 255) % 256]).flatten) := by
  intro fuel
  induction fuel with
  | zero =>
    intro len out h
    have : len = 0 := by omega
    subst this
    simp [emitLong1]
  | succ fuel ih =>
    intro len out h
    simp only [emitLong1, MAX_LEN, Nat.reduceSub]
    split_ifs with hlong
    · rw [ih (len - 262) _ (by omega)]
      have e1 : (len - 1) / 262 = (len - 262 - 1) / 262 + 1 := by omega
      rw [e1, List.replicate_succ, List.flatten_cons]
      refine Prod.ext (by simp only; omega) ?_
      simp [st]
    · have e1 : (len - 1) / 262 = 0 := by omega
      rw [e1]
      simp

/-! ## The Level-2 compressor on a constant input -/

/-- On an input whose bytes below `N` are all `x`, the run loop runs to its
bound. -/
theorem runLoop_const (B : List Nat) (N x : Nat) (hrd : ∀ i, i < N → rd B i = x) :
    ∀ (n ref ip : Nat), ref + n ≤ N → runLoop B x n ref ip = ip + n := by
  intro n
  induction n with
  | zero => intro ref ip _; rfl
  | succ n ih =>
    intro ref ip h
    simp only [runLoop, hrd ref (by omega), ne_eq, not_true_eq_false, if_false]
    rw [ih _ _ (by omega)]
    omega

/-- The run branch of the Level-2 main loop: when the byte at `ip` repeats the
one before it and the two after it, and the run extends to `e`, the iteration
leaves `ip` two bytes before the end of the match and stores one match opcode
at distance 1 and a fresh literal prefix. -/
theorem iter2_run (B : List Nat) (s : CState) (e : Nat)
    (hc : rd B s.ip = rd B (s.ip - 1) ∧ rd B s.ip = rd B (s.ip + 1) ∧
      rd B (s.ip + 1) = rd B (s.ip + 2))
    (he : extend B (B.length - 2) (1 - 1) (s.ip - 1 + 3) (s.ip + 3) = e) :
    (iter2 B s).ip = e - 3 + 2 ∧
    (iter2 B s).out = st (emitMatch2 (e - 3 - s.ip) (1 - 1) (closeRun s.out s.copy))
      (MAX_COPY - 1) ∧
    (iter2 B s).copy = 0 := by
  unfold iter2
  simp only [if_pos hc, match2, he, afterMatch, and_self]

/-- The main loop ends at once when fewer than 14 bytes are left. -/
theorem loop2_stop (B : List Nat) (fuel : Nat) (s : CState) (h : ¬ (s.ip + 13 < B.length)) :
    loop2 B fuel s = s := by
  cases fuel with
  | zero => rfl
  | succ f => simp only [loop2, if_neg h]

/-- The state at the entry of the main loop on `N` bytes `x`. -/
theorem run2_init (B : List Nat) (N x : Nat) (hN : 16 ≤ N) (hx : x < 256)
    (hrd : ∀ i, i < N → rd B i = x) :
    (initState B).out = [0x1F, x, x] := by
  show st (st (st [] (MAX_COPY - 1)) (rd B 0)) (rd B 1) = _
  rw [hrd 0 (by omega), hrd 1 (by omega)]
  simp [st, Nat.mod_eq_of_lt hx]

/-- The first iteration of the Level-2 main loop on `N ≥ 16` bytes `x`: a run
to `ip_bound`, stored as one match opcode at distance 1. -/
theorem run2_iter (B : List Nat) (N x : Nat) (hlen : B.length = N) (hN : 16 ≤ N)
    (hx : x < 256) (hrd : ∀ i, i < N → rd B i = x) :
    (iter2 B (initState B)).ip = N - 3 ∧
    (iter2 B (initState B)).out =
      [0x01, x, x, 0xE0] ++ List.replicate ((N - 14) / 255) 0xFF ++
        [(N - 14) % 255, 0x00, 0x1F] ∧
    (iter2 B (initState B)).copy = 0 := by
  have hc : rd B (initState B).ip = rd B ((initState B).ip - 1) ∧
      rd B (initState B).ip = rd B ((initState B).ip + 1) ∧
      rd B ((initState B).ip + 1) = rd B ((initState B).ip + 2) := by
    show rd B 2 = rd B 1 ∧ rd B 2 = rd B 3 ∧ rd B 3 = rd B 4
    rw [hrd 1 (by omega), hrd 2 (by omega), hrd 3 (by omega), hrd 4 (by omega)]
    exact ⟨rfl, rfl, rfl⟩
  have he : extend B (B.length - 2) (1 - 1) ((initState B).ip - 1 + 3) ((initState B).ip + 3) =
      N - 2 := by
    show extend B (B.length - 2) 0 4 5 = N - 2
    unfold extend
    rw [if_pos rfl]
    show runLoop B (rd B 4) (B.length - 2 - 5) 4 5 = N - 2
    rw [hrd 4 (by omega), runLoop_const B N x hrd _ _ _ (by omega)]
    omega
  obtain ⟨i1, i2, i3⟩ := iter2_run B (initState B) (N - 2) hc he
  refine ⟨by rw [i1]; omega, ?_, i3⟩
  rw [i2, run2_init B N x hN hx hrd]
  have hcl : closeRun [0x1F, x, x] (initState B).copy = [0x01, x, x] := rfl
  have hl : N - 2 - 3 - (initState B).ip = N - 7 := by
    show N - 2 - 3 - 2 = N - 7
    omega
  rw [hcl, hl]
  show st (emitMatch2 (N - 7) 0 [0x01, x, x]) 31 = _
  rw [emit2_spec (N - 7) 0 _ (by omega) (by omega)]
  have h7 : ¬ (N - 7 < 7) := by omega
  have e1 : N - 7 - 7 = N - 14 := by omega
  simp [st, Tok.enc2, Tok.hdr2, Tok.body2, chainBytes, h7, e1]

/-- The Level-2 main loop on `N ≥ 16` bytes `x` makes one iteration. -/
theorem run2_loop (B : List Nat) (N x : Nat) (hlen : B.length = N) (hN : 16 ≤ N)
    (hx : x < 256) (hrd : ∀ i, i < N → rd B i = x) :
    loop2 B B.length (initState B) = iter2 B (initState B) := by
  obtain ⟨f, hf⟩ : ∃ f, B.length = f + 1 := ⟨B.length - 1, by omega⟩
  have hlt : (initState B).ip + 13 < B.length := by
    show 2 + 13 < B.length
    omega
  rw [hf]
  show (if (initState B).ip + 13 < B.length then loop2 B f (iter2 B (initState B))
    else initState B) = _
  rw [if_pos hlt]
  exact loop2_stop B f _ (by rw [(run2_iter B N x hlen hN hx hrd).1]; omega)

/-- The last three bytes are stored as literals. -/
theorem run2_tail (B : List Nat) (N x : Nat) (hN : 16 ≤ N)
    (hrd : ∀ i, i < N → rd B i = x) (hx : x < 256) (out : List Nat) :
    tailLoop B (N - (N - 3)) (N - 3) out 0 = (out ++ [x, x, x], 3) := by
  have e : N - (N - 3) = 3 := by omega
  rw [e]
  simp only [tailLoop, hrd (N - 3) (by omega), hrd (N - 3 + 1) (by omega),
    hrd (N - 3 + 1 + 1) (by omega)]
  simp [st, Nat.mod_eq_of_lt hx]

/-- The result of the Level-2 compressor on any input that reads as `N ≥ 16`
bytes `x`. -/
theorem run2_result (B : List Nat) (N x : Nat) (hlen : B.length = N) (hN : 16 ≤ N)
    (hx : x < 256) (hrd : ∀ i, i < N → rd B i = x) :
    (fastlz2_compress B).ret = 10 + (N - 14) / 255 ∧
    (fastlz2_compress B).buf =
      [0x21, x, x, 0xE0] ++ List.replicate ((N - 14) / 255) 0xFF ++
        [(N - 14) % 255, 0x00, 0x02, x, x, x] := by
  obtain ⟨i1, i2, i3⟩ := run2_iter B N x hlen hN hx hrd
  have h4 : ¬ (B.length < 4) := by omega
  unfold fastlz2_compress
  rw [if_neg h4]
  dsimp only
  rw [run2_loop B N x hlen hN hx hrd, i1, i2, i3, hlen, run2_tail B N x hN hrd hx]
  have e : ([0x01, x, x, 0xE0] ++ List.replicate ((N - 14) / 255) 0xFF ++
      [(N - 14) % 255, 0x00, 0x1F] ++ [x, x, x]) =
      (0x01 :: ([x, x, 0xE0] ++ List.replicate ((N - 14) / 255) 0xFF ++
      [(N - 14) % 255, 0x00])) ++ 0x1F :: [x, x, x] := by simp
  rw [e]
  generalize hA : ([x, x, 0xE0] ++ List.replicate ((N - 14) / 255) 0xFF ++
      [(N - 14) % 255, 0x00]) = A
  have hAl : A.length = 5 + (N - 14) / 255 := by rw [← hA]; simp; omega
  have e2 : (0x01 :: A ++ 0x1F :: [x, x, x]).length - 3 - 1 = (0x01 :: A).length := by
    simp
  simp only [finish, mark2, if_pos (by decide : (3 : Nat) ≠ 0), e2]
  rw [List.set_append_right _ _ (le_refl _)]
  refine ⟨by simp [hAl]; omega, ?_⟩
  rw [← hA]
  simp [rd]

/-! ## Opcodes and input positions -/

/-- A match copy only appends to the output. -/
theorem copyRef_append :
    ∀ (n : Nat) (ref : Int) (out : List Nat), ∃ ext, copyRef n ref out = out ++ ext := by
  intro n
  induction n with
  | zero => intro ref out; exact ⟨[], by simp [copyRef]⟩
  | succ n ih =>
    intro ref out
    obtain ⟨ext, h⟩ := ih (ref + 1) (out ++ [rdo out ref])
    exact ⟨rdo out ref :: ext, by simp only [copyRef, h, List.append_assoc, List.singleton_append]⟩

/-- An opcode only appends to the output. -/
theorem Tok.apply_append (ml : Nat → Nat) (out : List Nat) (t : Tok) :
    ∃ ext, t.apply ml out = out ++ ext := by
  cases t with
  | lit bs => exact ⟨bs, rfl⟩
  | mat len d => exact copyRef_append _ _ _

/-- A sequence of opcodes only appends to the output. -/
theorem applyAll_extends (ml : Nat → Nat) :
    ∀ (ts : List Tok) (out : List Nat), ∃ ext, applyAll ml out ts = out ++ ext := by
  intro ts
  induction ts with
  | nil => intro out; exact ⟨[], by simp [applyAll]⟩
  | cons t ts ih =>
    intro out
    obtain ⟨e1, h1⟩ := Tok.apply_append ml out t
    obtain ⟨e2, h2⟩ := ih (t.apply ml out)
    refine ⟨e1 ++ e2, ?_⟩
    simp only [applyAll]
    rw [h2, h1, List.append_assoc]

/-- A load below the length of `P` from a list that starts with `P`. -/
theorem rd_append_left (P ext : List Nat) (i : Nat) (h : i < P.length) :
    rd (P ++ ext) i = rd P i := by
  simp only [rd]
  rw [List.getD_append _ _ _ _ h]

/-- A match copy of `n` bytes at distance `dist` repeats the output at that
distance: each byte appended is the byte `dist` places before it. -/
theorem copyRef_periodic (dist : Nat) (h1 : 1 ≤ dist) :
    ∀ (n : Nat) (out : List Nat), dist ≤ out.length →
      ∀ i, i < n →
        rd (copyRef n ((out.length : Int) - dist) out) (out.length + i) =
          rd (copyRef n ((out.length : Int) - dist) out) (out.length + i - dist) := by
  intro n
  induction n with
  | zero => intro out _ i hi; omega
  | succ n ih =>
    intro out hd i hi
    have hcast : ((out.length : Int) - dist) = ((out.length - dist : Nat) : Int) := by omega
    have hlen : (out ++ [rdo out ((out.length : Int) - dist)]).length = out.length + 1 := by simp
    have e3 : (((out.length + 1 : Nat) : Int) - dist) = (out.length : Int) - dist + 1 := by omega
    have ih2 := ih (out ++ [rdo out ((out.length : Int) - dist)]) (by rw [hlen]; omega)
    rw [hlen, e3] at ih2
    simp only [copyRef]
    cases i with
    | zero =>
      obtain ⟨ext, he⟩ := copyRef_append n ((out.length : Int) - dist + 1)
        (out ++ [rdo out ((out.length : Int) - dist)])
      rw [he, Nat.add_zero]
      rw [rd_append_left (out ++ [rdo out ((out.length : Int) - dist)]) ext out.length
        (by rw [hlen]; omega),
        rd_append_left (out ++ [rdo out ((out.length : Int) - dist)]) ext (out.length - dist)
        (by rw [hlen]; omega)]
      have : rd (out ++ [rdo out ((out.length : Int) - dist)]) out.length =
          rdo out ((out.length : Int) - dist) % 256 := by
        simp [rd, List.getD_append_right]
      rw [this, rd_append_left out _ (out.length - dist) (by omega), hcast, rdo_natCast, rd_mod]
    | succ j =>
      have := ih2 j (by omega)
      have e1 : out.length + (j + 1) = out.length + 1 + j := by omega
      rw [e1]
      exact this

/-- Loads of a list of bytes. -/
theorem rd_bytes (B : List Nat) (i : Nat) : rd (bytes B) i = rd B i := by
  by_cases h : i < B.length
  · have := rd_bytes_take B B.length i h (le_refl _)
    rwa [← bytes_length B, List.take_length] at this
  · simp only [rd]
    rw [List.getD_eq_default _ _ (by rw [bytes_length]; omega),
      List.getD_eq_default _ _ (by omega)]

/-- Where an opcode stands in a sequence that decodes to `X`: with `a` the
number of bytes the opcodes before it stand for, the opcode ends within `X`; a
literal run holds the bytes of `X` from `a` on; a match refers at most `a`
bytes back and every byte of `X` it stands for repeats the byte at its
distance. -/
theorem opcode_at (ml : Nat → Nat) (X : List Nat) (hX : ∀ b ∈ X, b < 256)
    (pre post : List Tok) (t : Tok)
    (hf : fitsAll ml [] (pre ++ t :: post)) (ha : applyAll ml [] (pre ++ t :: post) = X) :
    sizeAll ml pre + t.size ml ≤ X.length ∧
    (∀ bs, t = Tok.lit bs → At X (sizeAll ml pre) bs) ∧
    (∀ len d, t = Tok.mat len d → d + 1 ≤ sizeAll ml pre ∧
      ∀ i, i < ml len →
        rd X (sizeAll ml pre + i) = rd X (sizeAll ml pre + i - (d + 1))) := by
  rw [applyAll_append] at ha
  rw [fitsAll_append] at hf
  have hP : (applyAll ml [] pre).length = sizeAll ml pre := by
    simpa using applyAll_length ml pre []
  generalize applyAll ml [] pre = P at hP hf ha
  simp only [applyAll, fitsAll] at ha hf
  obtain ⟨ext, he⟩ := applyAll_extends ml post (t.apply ml P)
  rw [he] at ha
  have hQ := Tok.apply_length ml P t
  have hlen : sizeAll ml pre + t.size ml ≤ X.length := by
    rw [← ha, List.length_append, hQ, hP]; omega
  refine ⟨hlen, ?_, ?_⟩
  · intro bs hbs
    subst hbs
    simp only [Tok.apply] at ha
    intro j hj
    rw [← ha, List.append_assoc, ← hP]
    simp only [rd]
    rw [List.getD_append_right _ _ _ _ (by omega), List.getD_append _ _ _ _ (by omega)]
    have e : P.length + j - P.length = j := by omega
    rw [e]
    apply Nat.mod_eq_of_lt
    apply hX
    rw [← ha]
    rw [List.getD_eq_getElem _ _ hj]
    simp
  · intro len d hm
    subst hm
    simp only [Tok.fits] at hf
    simp only [Tok.apply] at ha hQ
    refine ⟨by rw [← hP]; exact hf.2.1, ?_⟩
    intro i hi
    have hper := copyRef_periodic (d + 1) (by omega) (ml len) P hf.2.1 i hi
    simp only [Tok.size] at hQ
    rw [← ha, ← hP, rd_append_left _ _ _ (by rw [hQ]; omega),
      rd_append_left _ _ _ (by rw [hQ]; omega)]
    have e : ((P.length : Int) - ((d + 1 : Nat) : Int)) = (P.length : Int) - ((d : Int) + 1) := by
      omega
    rw [e] at hper
    exact hper

/-! ## The opcodes of the Level-2 compressor -/

/-- A literal run of 1 to 32 bytes has the format `shape2s`. -/
theorem shape2s_lit (bs : List Nat) (h1 : 1 ≤ bs.length) (h2 : bs.length ≤ 32) :
    (Tok.lit bs).shape2s := ⟨h1, h2⟩

/-- The format `shape2s` is within the Level-2 format. -/
theorem shape2_of_shape2s (t : Tok) (h : t.shape2s) : t.shape2 := by
  cases t with
  | lit bs => exact h
  | mat len d =>
    obtain ⟨h1, h2, _⟩ := h
    simp only [MAX_FARDISTANCE, MAX_L2_DISTANCE] at h2
    exact ⟨h1, by omega⟩

/-- The Level-2 code from the label `match:` on keeps the invariant with the
opcode format `shape2s` and advances `ip`. -/
theorem CInv_match2_strong (B : List Nat) (s : CState) (htab : Nat → Nat)
    (ref0 len0 dist ref : Nat)
    (h : CInv Tok.enc2 Tok.shape2s ml1 B s.ip s.out s.copy) (hlim : s.ip + 13 < B.length)
    (href : ref0 < s.ip) (hdist : dist = s.ip - ref0) (hr : ref = ref0 + len0)
    (hlen : len0 = 3 ∨ len0 = 5) (hfar : 8191 ≤ dist → len0 = 5) (hmax : dist < 73725)
    (hmin : ∀ i, i < len0 → rd B (ref0 + i) = rd B (s.ip + i)) :
    CInv Tok.enc2 Tok.shape2s ml1 B (match2 B s htab s.ip len0 dist ref).ip
      (match2 B s htab s.ip len0 dist ref).out (match2 B s htab s.ip len0 dist ref).copy ∧
    s.ip < (match2 B s htab s.ip len0 dist ref).ip := by
  subst hdist hr
  have hext := extend_spec B s.ip ref0 len0 href (by omega) (by omega) hmin
  unfold match2 afterMatch
  dsimp only
  generalize extend B (B.length - 2) (s.ip - ref0 - 1) (ref0 + len0) (s.ip + len0) = r at *
  obtain ⟨hr1, hr2, hr3⟩ := hext
  have hd : s.ip - ref0 - 1 < 8191 + 65536 := by omega
  have hl1 : 1 ≤ r - 3 - s.ip := by omega
  have e := emit2_spec (r - 3 - s.ip) (s.ip - ref0 - 1) (closeRun s.out s.copy) hl1 hd
  have hml : ml1 (r - 3 - s.ip) = r - 1 - s.ip := by
    unfold ml1; omega
  have hsz2 : sizeAll ml1 [Tok.mat (r - 3 - s.ip) (s.ip - ref0 - 1)] = r - 1 - s.ip := by
    simp [sizeAll, Tok.size, hml]
  have hsound := matches_sound ml1 B (s.ip - ref0 - 1)
    [Tok.mat (r - 3 - s.ip) (s.ip - ref0 - 1)] s.ip
    (by intro t ht; rw [List.mem_singleton] at ht; exact ⟨_, ht⟩) (by omega)
    (by rw [hsz2]; omega) (by
      intro i hi
      rw [hsz2] at hi
      have := hr3 i (by omega)
      have e1 : s.ip - (s.ip - ref0 - 1 + 1) + i = ref0 + i := by omega
      rw [e1]; exact this)
  have hsh : (Tok.mat (r - 3 - s.ip) (s.ip - ref0 - 1)).shape2s := by
    refine ⟨hl1, ?_, ?_⟩
    · simp only [MAX_FARDISTANCE, MAX_L2_DISTANCE]; omega
    · simp only [MAX_L2_DISTANCE]; intro hfd; omega
  have hbo : ∀ b ∈ s.out, b < 256 := by
    obtain ⟨_, _, _, _, _, _, _, _, _, _, _, hbo, _⟩ := id h
    exact hbo
  have hinv := CInv_match Tok.enc2 Tok.shape2s ml1 enc2_lit shape2s_lit B s.ip s.out s.copy h
    [Tok.mat (r - 3 - s.ip) (s.ip - ref0 - 1)] (r - 1 - s.ip)
    (by intro t ht; rw [List.mem_singleton] at ht; rw [ht]; exact hsh)
    hsound.1 (by rw [hsound.2, hsz2]) (by omega)
    (by
      have := enc2_mat_length (r - 3 - s.ip) (s.ip - ref0 - 1) hl1 (by omega)
      simp only [encAll, List.append_nil]
      omega)
    (emitMatch2 (r - 3 - s.ip) (s.ip - ref0 - 1) (closeRun s.out s.copy))
    (by rw [e]; simp [encAll]) (by
      rw [e]
      intro b hb
      rw [List.mem_append] at hb
      rcases hb with hb | hb
      · exact closeRun_lt _ _ hbo b hb
      · exact enc2_mat_lt _ _ ⟨hl1, hd⟩ b hb)
  have e2 : r - 3 + 2 = s.ip + (r - 1 - s.ip) := by omega
  rw [e2]
  exact ⟨hinv, by omega⟩

/-- One iteration of the Level-2 main loop keeps the invariant with the opcode
format `shape2s` and advances `ip`. -/
theorem CInv_iter2_strong (B : List Nat) (s : CState)
    (h : CInv Tok.enc2 Tok.shape2s ml1 B s.ip s.out s.copy) (hlim : s.ip + 13 < B.length) :
    CInv Tok.enc2 Tok.shape2s ml1 B (iter2 B s).ip (iter2 B s).out (iter2 B s).copy ∧
    s.ip < (iter2 B s).ip := by
  have h2 : 2 ≤ s.ip := by
    obtain ⟨_, _, _, _, _, _, _, _, h2, _⟩ := id h
    exact h2
  unfold iter2
  dsimp only
  split_ifs with hrun hlit hfar hlit2
  · obtain ⟨r0, r1, r2⟩ := hrun
    exact CInv_match2_strong B s s.htab (s.ip - 1) 3 1 (s.ip - 1 + 3) h hlim (by omega) (by omega)
      rfl (Or.inl rfl) (by omega) (by omega) (by
        intro i hi
        interval_cases i
        · simpa using r0.symm
        · have e1 : s.ip - 1 + 1 = s.ip := by omega
          rw [e1]; exact r1
        · have e1 : s.ip - 1 + 2 = s.ip + 1 := by omega
          rw [e1]; exact r2)
  · have := CInv_literal Tok.enc2 Tok.shape2s ml1 enc2_lit shape2s_lit B s
      (Function.update s.htab (HASH_FUNCTION B s.ip) s.ip) h (by omega)
    exact ⟨this.1, by rw [this.2]; omega⟩
  · have := CInv_literal Tok.enc2 Tok.shape2s ml1 enc2_lit shape2s_lit B s
      (Function.update s.htab (HASH_FUNCTION B s.ip) s.ip) h (by omega)
    exact ⟨this.1, by rw [this.2]; omega⟩
  · simp only [not_or, not_not, MAX_FARDISTANCE, MAX_L2_DISTANCE, ge_iff_le, not_le] at hlit hlit2 hfar
    obtain ⟨hd0, hd1, hm0, hm1, hm2⟩ := hlit
    obtain ⟨hm3, hm4⟩ := hlit2
    generalize s.htab (HASH_FUNCTION B s.ip) = ref0 at *
    exact CInv_match2_strong B s _ ref0 5 (s.ip - ref0) (ref0 + 5) h hlim (by omega) rfl rfl
      (Or.inr rfl) (fun _ => rfl) (by omega) (by
        intro i hi
        interval_cases i
        · simpa using hm0
        · exact hm1
        · exact hm2
        · exact hm3.symm
        · exact hm4.symm)
  · simp only [not_or, not_not, MAX_FARDISTANCE, MAX_L2_DISTANCE, ge_iff_le, not_le] at hlit hfar
    obtain ⟨hd0, hd1, hm0, hm1, hm2⟩ := hlit
    generalize s.htab (HASH_FUNCTION B s.ip) = ref0 at *
    exact CInv_match2_strong B s _ ref0 3 (s.ip - ref0) (ref0 + 3) h hlim (by omega) rfl rfl
      (Or.inl rfl) (by omega) (by omega) (by
        intro i hi
        interval_cases i
        · simpa using hm0
        · exact hm1
        · exact hm2)

/-- The Level-2 main loop keeps the invariant with the opcode format `shape2s`
and ends because its condition `ip < ip_limit` fails, not for lack of fuel. -/
theorem CInv_loop2_strong (B : List Nat) :
    ∀ (fuel : Nat) (s : CState), CInv Tok.enc2 Tok.shape2s ml1 B s.ip s.out s.copy →
      B.length ≤ fuel + s.ip →
      CInv Tok.enc2 Tok.shape2s ml1 B (loop2 B fuel s).ip (loop2 B fuel s).out
        (loop2 B fuel s).copy ∧
      ¬ ((loop2 B fuel s).ip + 13 < B.length) := by
  intro fuel
  induction fuel with
  | zero =>
    intro s h hf
    simp only [loop2]
    exact ⟨h, by omega⟩
  | succ fuel ih =>
    intro s h hf
    simp only [loop2]
    split_ifs with hlim
    · have := CInv_iter2_strong B s h hlim
      exact ih _ this.1 (by omega)
    · exact ⟨h, hlim⟩

/-- The stream of the main path of `fastlz2_compress`, before the level marker
is set, is a sequence of opcodes of the format `shape2s` that reproduces the
input. -/
theorem CPost_fastlz2_main_strong (B : List Nat) (h4 : 4 ≤ B.length) :
    CPost Tok.enc2 Tok.shape2s ml1 B
      (finish
        (tailLoop B (B.length - (loop2 B B.length (initState B)).ip)
          (loop2 B B.length (initState B)).ip (loop2 B B.length (initState B)).out
          (loop2 B B.length (initState B)).copy).1
        (tailLoop B (B.length - (loop2 B B.length (initState B)).ip)
          (loop2 B B.length (initState B)).ip (loop2 B B.length (initState B)).out
          (loop2 B B.length (initState B)).copy).2) := by
  have hloop := CInv_loop2_strong B B.length (initState B)
    (CInv_init _ _ _ B (by omega)) (by omega)
  generalize loop2 B B.length (initState B) = s at *
  obtain ⟨_, _, _, _, _, _, _, _, _, hle, _⟩ := id hloop.1
  exact CPost_finish _ _ _ enc2_lit shape2s_lit B _ _
    (CInv_tailLoop _ _ _ enc2_lit shape2s_lit B _ _ _ _ hloop.1 (by omega))


/-! ## The opcodes of a compressed stream -/


/-- No Level-1 opcode encoding is the start of another: the first opcode of a
stream is determined by the stream. -/
theorem enc1_inj (t u : Tok) (r r2 : List Nat) (ht : t.shape1) (hu : u.shape1)
    (h : Tok.enc1 t ++ r = Tok.enc1 u ++ r2) : t = u ∧ r = r2 := by
  cases t with
  | lit bs =>
    cases u with
    | lit cs =>
      obtain ⟨a1, a2⟩ := ht
      obtain ⟨b1, b2⟩ := hu
      simp only [Tok.enc1, Tok.hdr1, Tok.body1, List.cons_append, List.cons.injEq] at h
      obtain ⟨h0, h1⟩ := h
      have hl : bs.length = cs.length := by omega
      obtain ⟨e1, e2⟩ := List.append_inj h1 hl
      exact ⟨by rw [e1], e2⟩
    | mat len d =>
      obtain ⟨a1, a2⟩ := ht
      obtain ⟨b1, b2, b3⟩ := hu
      simp only [Tok.enc1, Tok.hdr1, Tok.body1, List.cons_append, List.cons.injEq] at h
      obtain ⟨h0, _⟩ := h
      split_ifs at h0 <;> omega
  | mat len d =>
    obtain ⟨a1, a2, a3⟩ := ht
    cases u with
    | lit cs =>
      obtain ⟨b1, b2⟩ := hu
      simp only [Tok.enc1, Tok.hdr1, Tok.body1, List.cons_append, List.cons.injEq] at h
      obtain ⟨h0, _⟩ := h
      split_ifs at h0 <;> omega
    | mat len2 d2 =>
      obtain ⟨b1, b2, b3⟩ := hu
      simp only [Tok.enc1, Tok.hdr1, Tok.body1, List.cons_append, List.cons.injEq] at h
      obtain ⟨h0, h1⟩ := h
      by_cases c1 : len < 7 <;> by_cases c2 : len2 < 7 <;>
        simp only [c1, c2, if_true, if_false, List.cons_append, List.nil_append,
          List.cons.injEq] at h0 h1
      · obtain ⟨e1, e2⟩ := h1
        have hl : len = len2 := by omega
        have hd : d = d2 := by omega
        exact ⟨by rw [hl, hd], e2⟩
      · omega
      · omega
      · obtain ⟨e0, e1, e2⟩ := h1
        have hl : len = len2 := by omega
        have hd : d = d2 := by omega
        exact ⟨by rw [hl, hd], e2⟩

/-- A stream is the Level-1 encoding of at most one sequence of well-formed
opcodes. -/
theorem encAll_enc1_inj :
    ∀ (ts us : List Tok), (∀ t ∈ ts, t.shape1) → (∀ u ∈ us, u.shape1) →
      encAll Tok.enc1 ts = encAll Tok.enc1 us → ts = us := by
  intro ts
  induction ts with
  | nil =>
    intro us _ _ h
    cases us with
    | nil => rfl
    | cons u us => simp [encAll, Tok.enc1] at h
  | cons t ts ih =>
    intro us ht hu h
    cases us with
    | nil => simp [encAll, Tok.enc1] at h
    | cons u us =>
      simp only [encAll] at h
      obtain ⟨e1, e2⟩ := enc1_inj t u _ _ (ht t (List.mem_cons_self _ _))
        (hu u (List.mem_cons_self _ _)) h
      rw [e1, ih us (fun x hx => ht x (List.mem_cons_of_mem _ hx))
        (fun x hx => hu x (List.mem_cons_of_mem _ hx)) e2]

/-- No Level-2 length chain is the start of another. -/
theorem chainBytes_inj :
    ∀ (n x y : Nat) (r r2 : List Nat), x ≤ n → chainBytes x ++ r = chainBytes y ++ r2 →
      x = y ∧ r = r2 := by
  intro n
  induction n with
  | zero =>
    intro x y r r2 hx h
    have hx0 : x = 0 := by omega
    subst hx0
    by_cases hy : y < 255
    · have e1 : y / 255 = 0 := by omega
      have e2 : y % 255 = y := by omega
      simp only [chainBytes, Nat.zero_div, List.replicate_zero, Nat.zero_mod, List.nil_append,
        e1, e2, List.singleton_append, List.cons.injEq] at h
      exact ⟨h.1, h.2⟩
    · obtain ⟨k, hk⟩ : ∃ k, y / 255 = k + 1 := ⟨y / 255 - 1, by omega⟩
      simp only [chainBytes, Nat.zero_div, List.replicate_zero, Nat.zero_mod, List.nil_append,
        hk, List.replicate_succ, List.cons_append, List.singleton_append, List.cons.injEq] at h
      omega
  | succ n ih =>
    intro x y r r2 hx h
    by_cases hx5 : x < 255
    · have e1 : x / 255 = 0 := by omega
      have e2 : x % 255 = x := by omega
      by_cases hy : y < 255
      · have e3 : y / 255 = 0 := by omega
        have e4 : y % 255 = y := by omega
        simp only [chainBytes, e1, e2, e3, e4, List.replicate_zero, List.nil_append,
          List.singleton_append, List.cons.injEq] at h
        exact ⟨h.1, h.2⟩
      · obtain ⟨k, hk⟩ : ∃ k, y / 255 = k + 1 := ⟨y / 255 - 1, by omega⟩
        simp only [chainBytes, e1, e2, hk, List.replicate_zero, List.nil_append,
          List.replicate_succ, List.cons_append, List.singleton_append, List.cons.injEq] at h
        omega
    · obtain ⟨j, hj⟩ : ∃ j, x / 255 = j + 1 := ⟨x / 255 - 1, by omega⟩
      by_cases hy : y < 255
      · have e3 : y / 255 = 0 := by omega
        have e4 : y % 255 = y := by omega
        simp only [chainBytes, hj, e3, e4, List.replicate_zero, List.nil_append,
          List.replicate_succ, List.cons_append, List.singleton_append, List.cons.injEq] at h
        omega
      · obtain ⟨k, hk⟩ : ∃ k, y / 255 = k + 1 := ⟨y / 255 - 1, by omega⟩
        have hx2 : chainBytes x = 255 :: chainBytes (x - 255) := by
          have e1 : (x - 255) / 255 = j := by omega
          have e2 : (x - 255) % 255 = x % 255 := by omega
          simp [chainBytes, hj, e1, e2, List.replicate_succ]
        have hy2 : chainBytes y = 255 :: chainBytes (y - 255) := by
          have e1 : (y - 255) / 255 = k := by omega
          have e2 : (y - 255) % 255 = y % 255 := by omega
          simp [chainBytes, hk, e1, e2, List.replicate_succ]
        rw [hx2, hy2] at h
        simp only [List.cons_append, List.cons.injEq, true_and] at h
        obtain ⟨e1, e2⟩ := ih (x - 255) (y - 255) r r2 (by omega) h
        exact ⟨by omega, e2⟩


/-- The distance part of a Level-2 match encoding determines the distance. -/
theorem dist2_inj (d e : Nat) (r r2 : List Nat)
    (h0 : (if d < 8191 then d / 256 else 31) = (if e < 8191 then e / 256 else 31))
    (h : (if d < 8191 then [d % 256] else [255, (d - 8191) / 256, (d - 8191) % 256]) ++ r =
      (if e < 8191 then [e % 256] else [255, (e - 8191) / 256, (e - 8191) % 256]) ++ r2) :
    d = e ∧ r = r2 := by
  by_cases c1 : d < 8191 <;> by_cases c2 : e < 8191 <;>
    simp only [c1, c2, if_true, if_false, List.cons_append, List.nil_append,
      List.cons.injEq] at h0 h
  · exact ⟨by omega, h.2⟩
  · omega
  · omega
  · exact ⟨by omega, h.2.2.2⟩

/-- No Level-2 opcode encoding is the start of another. -/
theorem enc2_inj (t u : Tok) (r r2 : List Nat) (ht : t.shape2) (hu : u.shape2)
    (h : Tok.enc2 t ++ r = Tok.enc2 u ++ r2) : t = u ∧ r = r2 := by
  cases t with
  | lit bs =>
    cases u with
    | lit cs =>
      obtain ⟨a1, a2⟩ := ht
      obtain ⟨b1, b2⟩ := hu
      simp only [Tok.enc2, Tok.hdr2, Tok.body2, List.cons_append, List.cons.injEq] at h
      obtain ⟨h0, h1⟩ := h
      have hl : bs.length = cs.length := by omega
      obtain ⟨e1, e2⟩ := List.append_inj h1 hl
      exact ⟨by rw [e1], e2⟩
    | mat len d =>
      obtain ⟨a1, a2⟩ := ht
      obtain ⟨b1, b2⟩ := hu
      simp only [Tok.enc2, Tok.hdr2, Tok.body2, List.cons_append, List.cons.injEq] at h
      obtain ⟨h0, _⟩ := h
      split_ifs at h0 <;> omega
  | mat len d =>
    obtain ⟨a1, a2⟩ := ht
    cases u with
    | lit cs =>
      obtain ⟨b1, b2⟩ := hu
      simp only [Tok.enc2, Tok.hdr2, Tok.body2, List.cons_append, List.cons.injEq] at h
      obtain ⟨h0, _⟩ := h
      split_ifs at h0 <;> omega
    | mat len2 d2 =>
      obtain ⟨b1, b2⟩ := hu
      simp only [Tok.enc2, Tok.hdr2, Tok.body2, List.cons_append, List.cons.injEq,
        List.append_assoc] at h
      obtain ⟨h0, h1⟩ := h
      have hD : (if d < 8191 then d / 256 else 31) < 32 := by split_ifs <;> omega
      have hD2 : (if d2 < 8191 then d2 / 256 else 31) < 32 := by split_ifs <;> omega
      generalize hDe : (if d < 8191 then d / 256 else 31) = D at h0 hD
      generalize hDe2 : (if d2 < 8191 then d2 / 256 else 31) = D2 at h0 hD2
      by_cases c1 : len < 7 <;> by_cases c2 : len2 < 7 <;>
        simp only [c1, c2, if_true, if_false, List.nil_append] at h0 h1
      · have hl : len = len2 := by omega
        obtain ⟨e1, e2⟩ := dist2_inj d d2 r r2 (by rw [hDe, hDe2]; omega) h1
        exact ⟨by rw [hl, e1], e2⟩
      · omega
      · omega
      · obtain ⟨e0, e1⟩ := chainBytes_inj _ _ _ _ _ (le_refl _) h1
        have hl : len = len2 := by omega
        obtain ⟨e1, e2⟩ := dist2_inj d d2 r r2 (by rw [hDe, hDe2]; omega) e1
        exact ⟨by rw [hl, e1], e2⟩

/-- A stream is the Level-2 encoding of at most one sequence of well-formed
opcodes. -/
theorem encAll_enc2_inj :
    ∀ (ts us : List Tok), (∀ t ∈ ts, t.shape2) → (∀ u ∈ us, u.shape2) →
      encAll Tok.enc2 ts = encAll Tok.enc2 us → ts = us := by
  intro ts
  induction ts with
  | nil =>
    intro us _ _ h
    cases us with
    | nil => rfl
    | cons u us => simp [encAll, Tok.enc2] at h
  | cons t ts ih =>
    intro us ht hu h
    cases us with
    | nil => simp [encAll, Tok.enc2] at h
    | cons u us =>
      simp only [encAll] at h
      obtain ⟨e1, e2⟩ := enc2_inj t u _ _ (ht t (List.mem_cons_self _ _))
        (hu u (List.mem_cons_self _ _)) h
      rw [e1, ih us (fun x hx => ht x (List.mem_cons_of_mem _ hx))
        (fun x hx => hu x (List.mem_cons_of_mem _ hx)) e2]


/-- A stream has at most one sequence of Level-1 opcodes. -/
theorem Opcodes_unique1 (s : List Nat) (ts us : List Tok)
    (h1 : Opcodes Tok.enc1 Tok.shape1 s ts) (h2 : Opcodes Tok.enc1 Tok.shape1 s us) : ts = us :=
  encAll_enc1_inj ts us h1.2 h2.2 (h1.1.symm.trans h2.1)

/-- A stream has at most one sequence of Level-2 opcodes. -/
theorem Opcodes_unique2 (s : List Nat) (ts us : List Tok)
    (h1 : Opcodes Tok.enc2 Tok.shape2 s ts) (h2 : Opcodes Tok.enc2 Tok.shape2 s us) : ts = us :=
  encAll_enc2_inj ts us h1.2 h2.2 (h1.1.symm.trans h2.1)

/-- Each opcode of a stream of bytes is stored in the stream, right after the
encodings of the opcodes before it. -/
theorem Opcodes_at (E : Tok → List Nat) (S : Tok → Prop) (s : List Nat)
    (pre post : List Tok) (t : Tok) (h : Opcodes E S s (pre ++ t :: post))
    (hb : ∀ b ∈ s, b < 256) : At s (encAll E pre).length (E t) := by
  obtain ⟨hs, _⟩ := h
  have e : s = (encAll E pre ++ E t) ++ encAll E post := by
    rw [hs, encAll_append]
    simp [encAll]
  have h0 := At_initial (encAll E pre ++ E t) (encAll E post) (by rw [← e]; exact hb)
  rw [← e] at h0
  have := ((At_append s 0 _ _).mp h0).2
  rwa [Nat.zero_add] at this

/-- The stream of a compressor result that satisfies the postcondition is the
encoding of the opcodes of the postcondition. -/
theorem stream_of_CPost (E : Tok → List Nat) (S : Tok → Prop) (ml : Nat → Nat)
    (B : List Nat) (r : CResult) (h : CPost E S ml B r) :
    ∃ toks, Opcodes E S r.stream toks ∧ fitsAll ml [] toks ∧
      applyAll ml [] toks = bytes B ∧ startsLit toks ∧ ∀ b ∈ r.stream, b < 256 := by
  obtain ⟨toks, post, hbuf, hret, hs, hf, ha, hst, hb, _, _⟩ := h
  refine ⟨toks, ⟨?_, hs⟩, hf, ha, hst, ?_⟩
  · simp [CResult.stream, hbuf, hret]
  · intro b hb2
    exact hb b (List.mem_of_mem_take hb2)

/-- Clearing the level marker of a stream that starts with a literal run gives
the stream back, also after `mark2` has set the marker. -/
theorem clearLevel_stream (B : List Nat) (r : CResult)
    (h : CPost Tok.enc2 Tok.shape2s ml1 B r) :
    clearLevel (mark2 r).stream = r.stream ∧ clearLevel r.stream = r.stream := by
  obtain ⟨toks, post, hbuf, hret, hs, _, _, hst, hb, _, _⟩ := h
  cases toks with
  | nil => exact absurd hst (by simp [startsLit])
  | cons t ts =>
    cases t with
    | mat len d => exact absurd hst (by simp [startsLit])
    | lit bs =>
      obtain ⟨hs1, hs2⟩ := hs _ (List.mem_cons_self _ _)
      have hlt : bs.length - 1 < 32 := by omega
      have hbuf2 : r.buf = (bs.length - 1) :: (bs ++ encAll Tok.enc2 ts ++ post) := by
        rw [hbuf]; simp [encAll, Tok.enc2, Tok.hdr2, Tok.body2]
      have hret2 : r.ret = (bs ++ encAll Tok.enc2 ts).length + 1 := by
        rw [hret]; simp [encAll, Tok.enc2, Tok.hdr2, Tok.body2]
      have hand : ∀ x, x < 32 → (x + 32) % 256 &&& 31 = x ∧ x % 256 &&& 31 = x := by decide
      have hor := or_32 (bs.length - 1) hlt
      constructor
      · simp only [clearLevel, CResult.stream, mark2, hbuf2, hret2, rd, List.getD_cons_zero,
          List.set_cons_zero, List.take_succ_cons, Nat.mod_eq_of_lt (show bs.length - 1 < 256 by omega),
          hor]
        rw [(hand _ hlt).1]
      · simp only [clearLevel, CResult.stream, hbuf2, hret2, rd, List.getD_cons_zero,
          List.set_cons_zero, List.take_succ_cons]
        rw [(hand _ hlt).2]

/-- The stream `fastlz1_compress` returns consists of Level-1 opcodes that
reproduce the input, each match referring to earlier output. -/
theorem stream1_spec (B : List Nat) :
    ∃ toks, Opcodes Tok.enc1 Tok.shape1 (fastlz1_compress B).stream toks ∧
      fitsAll ml1 [] toks ∧ applyAll ml1 [] toks = bytes B ∧ (B ≠ [] → startsLit toks) ∧
      ∀ b ∈ (fastlz1_compress B).stream, b < 256 := by
  by_cases hB : B = []
  · subst hB
    exact ⟨[], ⟨by decide, by simp⟩, by simp [fitsAll], by simp [applyAll, bytes],
      fun h => absurd rfl h, by decide⟩
  · have h1 : 1 ≤ B.length := List.length_pos.mpr hB
    obtain ⟨toks, h⟩ := stream_of_CPost _ _ _ B _ (CPost_fastlz1_compress B h1)
    exact ⟨toks, h.1, h.2.1, h.2.2.1, fun _ => h.2.2.2.1, h.2.2.2.2⟩

/-- The stream `fastlz2_compress` returns, with the level marker cleared,
consists of Level-2 opcodes as the compressor emits them that reproduce the
input, each match referring to earlier output. -/
theorem stream2_spec (B : List Nat) :
    ∃ toks, Opcodes Tok.enc2 Tok.shape2s (clearLevel (fastlz2_compress B).stream) toks ∧
      fitsAll ml1 [] toks ∧ applyAll ml1 [] toks = bytes B ∧ (B ≠ [] → startsLit toks) ∧
      ∀ b ∈ clearLevel (fastlz2_compress B).stream, b < 256 := by
  by_cases hB : B = []
  · subst hB
    exact ⟨[], ⟨by decide, by simp⟩, by simp [fitsAll], by simp [applyAll, bytes],
      fun h => absurd rfl h, by decide⟩
  · have h1 : 1 ≤ B.length := List.length_pos.mpr hB
    by_cases h4 : B.length < 4
    · have hp := CPost_shortPath Tok.enc2 Tok.shape2s ml1 enc2_lit shape2s_lit B h1 h4
      have hc := (clearLevel_stream B _ hp).2
      obtain ⟨toks, h⟩ := stream_of_CPost _ _ _ B _ hp
      have e : fastlz2_compress B = shortPath B := by simp [fastlz2_compress, h4]
      rw [e, hc]
      exact ⟨toks, h.1, h.2.1, h.2.2.1, fun _ => h.2.2.2.1, h.2.2.2.2⟩
    · have hp := CPost_fastlz2_main_strong B (by omega)
      have hc := (clearLevel_stream B _ hp).1
      obtain ⟨toks, h⟩ := stream_of_CPost _ _ _ B _ hp
      have e : fastlz2_compress B = mark2 (finish
        (tailLoop B (B.length - (loop2 B B.length (initState B)).ip)
          (loop2 B B.length (initState B)).ip (loop2 B B.length (initState B)).out
          (loop2 B B.length (initState B)).copy).1
        (tailLoop B (B.length - (loop2 B B.length (initState B)).ip)
          (loop2 B B.length (initState B)).ip (loop2 B B.length (initState B)).out
          (loop2 B B.length (initState B)).copy).2) := by
        simp [fastlz2_compress, h4]
      rw [e, hc]
      exact ⟨toks, h.1, h.2.1, h.2.2.1, fun _ => h.2.2.2.1, h.2.2.2.2⟩

/-- Opcodes as the Level-2 compressor emits them are Level-2 opcodes. -/
theorem Opcodes_shape2s (s : List Nat) (toks : List Tok)
    (h : Opcodes Tok.enc2 Tok.shape2s s toks) : Opcodes Tok.enc2 Tok.shape2 s toks :=
  ⟨h.1, fun t ht => shape2_of_shape2s t (h.2 t ht)⟩

/-- An opcode of a sequence stands for at most as many bytes as the sequence. -/
theorem size_le_sizeAll (ml : Nat → Nat) (t : Tok) :
    ∀ (ts : List Tok), t ∈ ts → t.size ml ≤ sizeAll ml ts := by
  intro ts
  induction ts with
  | nil => intro h; simp at h
  | cons u us ih =>
    intro h
    rcases List.mem_cons.mp h with rfl | h
    · simp [sizeAll]
    · have := ih h
      simp only [sizeAll]
      omega

/-! ## The pending literal run at every state of the compressor loops -/

/-- The main loop of `fastlz1_compress` keeps the invariant, whatever the number
of iterations. -/
theorem CInv_loop1_any (B : List Nat) :
    ∀ (fuel : Nat) (s : CState), CInv Tok.enc1 Tok.shape1 ml1 B s.ip s.out s.copy →
      CInv Tok.enc1 Tok.shape1 ml1 B (loop1 B fuel s).ip (loop1 B fuel s).out
        (loop1 B fuel s).copy := by
  intro fuel
  induction fuel with
  | zero => intro s h; simpa only [loop1] using h
  | succ fuel ih =>
    intro s h
    simp only [loop1]
    split_ifs with hlim
    · exact ih _ (CInv_iter1 B s h hlim).1
    · exact h

/-- The main loop of `fastlz2_compress` keeps the invariant, whatever the number
of iterations. -/
theorem CInv_loop2_any (B : List Nat) :
    ∀ (fuel : Nat) (s : CState), CInv Tok.enc2 Tok.shape2s ml1 B s.ip s.out s.copy →
      CInv Tok.enc2 Tok.shape2s ml1 B (loop2 B fuel s).ip (loop2 B fuel s).out
        (loop2 B fuel s).copy := by
  intro fuel
  induction fuel with
  | zero => intro s h; simpa only [loop2] using h
  | succ fuel ih =>
    intro s h
    simp only [loop2]
    split_ifs with hlim
    · exact ih _ (CInv_iter2_strong B s h hlim).1
    · exact h

/-- The loop over the left-over bytes keeps the invariant after any number of
iterations within the input. -/
theorem CInv_tailLoop_any (E : Tok → List Nat) (S : Tok → Prop) (ml : Nat → Nat)
    (hE : ∀ bs, E (Tok.lit bs) = (bs.length - 1) :: bs)
    (hS : ∀ bs, 1 ≤ bs.length → bs.length ≤ 32 → S (Tok.lit bs))
    (B : List Nat) :
    ∀ (n ip : Nat) (out : List Nat) (copy : Nat), CInv E S ml B ip out copy →
      ip + n ≤ B.length →
      CInv E S ml B (ip + n) (tailLoop B n ip out copy).1 (tailLoop B n ip out copy).2 := by
  intro n
  induction n with
  | zero =>
    intro ip out copy h hn
    simpa [tailLoop] using h
  | succ n ih =>
    intro ip out copy h hn
    have := CInv_litStep E S ml hE hS B ip out copy h (by omega)
    simp only [tailLoop]
    rw [show ip + (n + 1) = ip + 1 + n from by omega]
    split_ifs with h32
    · exact ih _ _ _ (this.1 h32) (by omega)
    · exact ih _ _ _ (this.2 h32) (by omega)

/-- The invariant of the compressor loops gives the pending literal run. -/
theorem Pending_of_CInv (E : Tok → List Nat) (S : Tok → Prop) (ml : Nat → Nat)
    (B : List Nat) (ip : Nat) (out : List Nat) (copy : Nat)
    (h : CInv E S ml B ip out copy) : Pending E S B ip out copy := by
  obtain ⟨toks, lits, ho, hl, hc, hs, hf, ha, h2, hle, hst, hb, hsz⟩ := h
  have hlen : out.length = (encAll E toks).length + (copy + 1) := by
    rw [ho]; simp [hl]
  have hidx : out.length - copy - 1 = (encAll E toks).length := by omega
  have hat : At out 0 out := by
    have := At_initial out [] (by simpa using hb)
    simpa using this
  rw [ho] at hat
  have hat2 := ((At_append _ 0 _ _).mp hat).2
  rw [Nat.zero_add, ← ho, At_cons] at hat2
  obtain ⟨hp, hl2⟩ := hat2
  have htk : ((bytes B).take ip).length = ip := by
    rw [List.length_take, bytes_length]; omega
  have hsum : (applyAll ml [] toks).length + copy = ip := by
    rw [← htk, ← ha, List.length_append, hl]
  refine ⟨by simpa [MAX_COPY] using hc, by omega, by rw [hidx, hp]; rfl, by omega, hle, ?_,
    toks, ?_, hs⟩
  · intro j hj
    have h3 := hl2 j (by omega)
    rw [show out.length - copy + j = (encAll E toks).length + 1 + j from by omega, h3]
    have h4 : rd ((bytes B).take ip) ((applyAll ml [] toks).length + j) = lits.getD j 0 := by
      rw [← ha]
      have hlt : ∀ b ∈ lits, b < 256 := by
        intro b hb2
        apply hb
        rw [ho]
        simp [hb2]
      simp only [rd]
      rw [List.getD_append_right _ _ _ _ (by omega)]
      simp only [Nat.add_sub_cancel_left]
      rw [List.getD_eq_getElem _ _ (by omega)]
      exact Nat.mod_eq_of_lt (hlt _ (List.getElem_mem _))
    rw [← h4, rd_bytes_take B ip _ (by omega) hle]
    congr 1
    omega
  · rw [hidx, ho, List.take_left]

/-- The pending literal run in the format the compressor emits is a pending
literal run in the Level-2 format. -/
theorem Pending_shape2s (B : List Nat) (ip : Nat) (out : List Nat) (copy : Nat)
    (h : Pending Tok.enc2 Tok.shape2s B ip out copy) :
    Pending Tok.enc2 Tok.shape2 B ip out copy := by
  obtain ⟨h1, h2, h3, h4, h5, h6, toks, h7⟩ := h
  exact ⟨h1, h2, h3, h4, h5, h6, toks, Opcodes_shape2s _ _ h7⟩

/-- A literal run of a stream of opcodes that reproduce the input: its prefix
byte is the number of its literals minus 1, the literals follow it in the
stream, and they are the input bytes at the positions the run stands for. -/
theorem literal_run_at (E : Tok → List Nat) (S : Tok → Prop)
    (hE : ∀ bs, E (Tok.lit bs) = (bs.length - 1) :: bs)
    (hS : ∀ bs, S (Tok.lit bs) → 1 ≤ bs.length ∧ bs.length ≤ 32)
    (B s : List Nat) (pre post : List Tok) (bs : List Nat)
    (h : Opcodes E S s (pre ++ Tok.lit bs :: post)) (hb : ∀ b ∈ s, b < 256)
    (hf : fitsAll ml1 [] (pre ++ Tok.lit bs :: post))
    (ha : applyAll ml1 [] (pre ++ Tok.lit bs :: post) = bytes B) :
    rd s (encAll E pre).length < 32 ∧
    bs.length = rd s (encAll E pre).length + 1 ∧
    (encAll E pre).length + 1 + bs.length ≤ s.length ∧
    sizeAll ml1 pre + bs.length ≤ B.length ∧
    ∀ j, j < bs.length →
      rd s ((encAll E pre).length + 1 + j) = rd B (sizeAll ml1 pre + j) := by
  have hat := Opcodes_at _ _ _ pre post _ h hb
  obtain ⟨s1, s2⟩ := hS bs (h.2 _ (by simp))
  rw [hE, At_cons] at hat
  obtain ⟨e0, e1⟩ := hat
  have hX : ∀ b ∈ bytes B, b < 256 := by
    intro b hb
    simp only [bytes, List.mem_map] at hb
    obtain ⟨x, _, rfl⟩ := hb
    exact Nat.mod_lt _ (by decide)
  obtain ⟨k1, k2, _⟩ := opcode_at ml1 (bytes B) hX pre post _ hf ha
  have k3 := k2 bs rfl
  rw [bytes_length] at k1
  simp only [Tok.size] at k1
  refine ⟨by omega, by omega, ?_, k1, ?_⟩
  · rw [h.1, encAll_append]
    simp only [encAll, hE, List.length_append, List.length_cons]
    omega
  · intro j hj
    rw [e1 j hj, ← k3 j hj, rd_bytes]

/-! ## The loads of the compressors stay within the input -/

theorem hashReads_bound (p : Int) (N : Nat) (h0 : 0 ≤ p) (h : p + 2 < N) :
    ∀ i ∈ hashReads p, 0 ≤ i ∧ i < (N : Int) := by
  intro i hi
  simp only [hashReads, List.mem_cons, List.mem_singleton, List.not_mem_nil, or_false] at hi
  omega

theorem copyReads_bound :
    ∀ (n ip : Nat), ∀ i ∈ copyReads n ip, (ip : Int) ≤ i ∧ i < (ip : Int) + n := by
  intro n
  induction n with
  | zero => intro ip i hi; simp [copyReads] at hi
  | succ n ih =>
    intro ip i hi
    simp only [copyReads, List.mem_cons] at hi
    rcases hi with hi | hi
    · subst hi; push_cast; omega
    · have := ih (ip + 1) i hi
      push_cast at this ⊢
      omega

theorem runLoopReads_bound (input : List Nat) (x : Nat) :
    ∀ (n ref : Nat), ∀ i ∈ runLoopReads input x n ref,
      (ref : Int) ≤ i ∧ i < (ref : Int) + n := by
  intro n
  induction n with
  | zero => intro ref i hi; simp [runLoopReads] at hi
  | succ n ih =>
    intro ref i hi
    simp only [runLoopReads, List.mem_cons] at hi
    rcases hi with hi | hi
    · subst hi; push_cast; omega
    · split_ifs at hi with hx
      · simp at hi
      · have := ih (ref + 1) i hi
        push_cast at this ⊢
        omega

theorem cmpLoopReads_bound (input : List Nat) :
    ∀ (n ref ip : Nat), ref ≤ ip → ∀ i ∈ cmpLoopReads input n ref ip,
      (ref : Int) ≤ i ∧ i < (ip : Int) + n := by
  intro n
  induction n with
  | zero => intro ref ip _ i hi; simp [cmpLoopReads] at hi
  | succ n ih =>
    intro ref ip hr i hi
    simp only [cmpLoopReads, List.mem_cons] at hi
    rcases hi with hi | hi | hi
    · subst hi; push_cast; omega
    · subst hi; push_cast; omega
    · split_ifs at hi with hx
      · simp at hi
      · have := ih (ref + 1) (ip + 1) (by omega) i hi
        push_cast at this ⊢
        omega

theorem checkReads_bound (input : List Nat) :
    ∀ (k ref ip : Nat), ref ≤ ip → ∀ i ∈ checkReads input k ref ip,
      (ref : Int) ≤ i ∧ i < (ip : Int) + k := by
  intro k
  induction k with
  | zero => intro ref ip _ i hi; simp [checkReads] at hi
  | succ k ih =>
    intro ref ip hr i hi
    simp only [checkReads, List.mem_cons] at hi
    rcases hi with hi | hi | hi
    · subst hi; push_cast; omega
    · subst hi; push_cast; omega
    · split_ifs at hi with hx
      · simp at hi
      · have := ih (ref + 1) (ip + 1) (by omega) i hi
        push_cast at this ⊢
        omega

theorem cmpUnrolledReads_bound (input : List Nat) (ipb : Nat) :
    ∀ (k ref ip : Nat), ref ≤ ip → ∀ i ∈ cmpUnrolledReads input ipb k ref ip,
      (ref : Int) ≤ i ∧ (i < (ip : Int) + k ∨ i < (ipb : Int)) := by
  intro k
  induction k with
  | zero =>
    intro ref ip hr i hi
    simp only [cmpUnrolledReads] at hi
    by_cases hb : ipb ≤ ip
    · rw [show ipb - ip = 0 from by omega] at hi
      simp [cmpLoopReads] at hi
    · have := cmpLoopReads_bound input (ipb - ip) ref ip hr i hi
      refine ⟨this.1, ?_⟩
      right
      omega
  | succ k ih =>
    intro ref ip hr i hi
    simp only [cmpUnrolledReads, List.mem_cons] at hi
    rcases hi with hi | hi | hi
    · subst hi; push_cast; omega
    · subst hi; push_cast; omega
    · split_ifs at hi with hx
      · simp at hi
      · have := ih (ref + 1) (ip + 1) (by omega) i hi
        push_cast at this ⊢
        omega

/-- The loads of the match extension are within the input when the eight
unrolled comparisons are. -/
theorem extendReads_bound (input : List Nat) (d ref ip : Nat) (h1 : 1 ≤ ip) (hr : ref ≤ ip)
    (h8 : ip + 8 ≤ input.length) :
    ∀ i ∈ extendReads input (input.length - 2) d ref ip,
      0 ≤ i ∧ i < (input.length : Int) := by
  intro i hi
  unfold extendReads at hi
  split_ifs at hi with hd
  · simp only [List.mem_cons] at hi
    rcases hi with hi | hi
    · subst hi; omega
    · have := runLoopReads_bound input _ _ _ i hi
      omega
  · have := cmpUnrolledReads_bound input _ 8 ref ip hr i hi
    omega

/-- The loads of the match branch are within the input. -/
theorem matchBranchReads_bound (input : List Nat) (anchor ref0 len0 : Nat)
    (href : ref0 < anchor) (hlen : 3 ≤ len0) (hend : anchor + len0 + 8 < input.length)
    (hmin : ∀ i, i < len0 → rd input (ref0 + i) = rd input (anchor + i)) :
    ∀ i ∈ matchBranchReads input anchor len0 (anchor - ref0) (ref0 + len0),
      0 ≤ i ∧ i < (input.length : Int) := by
  obtain ⟨e1, e2, _⟩ := extend_spec input anchor ref0 len0 href hlen hend hmin
  intro i hi
  unfold matchBranchReads at hi
  dsimp only at hi
  generalize extend input (input.length - 2) (anchor - ref0 - 1) (ref0 + len0)
    (anchor + len0) = r at *
  simp only [List.mem_append] at hi
  rcases hi with hi | hi | hi
  · exact extendReads_bound input _ _ _ (by omega) (by omega) (by omega) i hi
  · exact hashReads_bound _ _ (by omega) (by omega) i hi
  · exact hashReads_bound _ _ (by omega) (by omega) i hi

/-- The loads of one iteration of the main loop of `fastlz1_compress` are
within the input. -/
theorem iter1Reads_bound (input : List Nat) (s : CState) (hlim : s.ip + 13 < input.length) :
    ∀ i ∈ iter1Reads input s, 0 ≤ i ∧ i < (input.length : Int) := by
  intro i hi
  unfold iter1Reads at hi
  dsimp only at hi
  generalize s.htab (HASH_FUNCTION input s.ip) = ref at *
  simp only [List.mem_append] at hi
  rcases hi with hi | hi
  · exact hashReads_bound _ _ (by omega) (by omega) i hi
  · split_ifs at hi with hd hc
    · simp only [List.mem_singleton] at hi
      omega
    · simp only [List.mem_append, List.mem_singleton] at hi
      rcases hi with hi | hi
      · have := checkReads_bound input 3 ref s.ip (by omega) i hi
        omega
      · omega
    · simp only [List.mem_append] at hi
      rcases hi with hi | hi
      · have := checkReads_bound input 3 ref s.ip (by omega) i hi
        omega
      · push_neg at hd hc
        refine matchBranchReads_bound input s.ip ref 3 (by omega) (by omega) (by omega) ?_ i hi
        intro j hj
        interval_cases j
        · exact hc.1
        · exact hc.2.1
        · exact hc.2.2

theorem loop1Reads_bound (input : List Nat) :
    ∀ (fuel : Nat) (s : CState), ∀ i ∈ loop1Reads input fuel s,
      0 ≤ i ∧ i < (input.length : Int) := by
  intro fuel
  induction fuel with
  | zero => intro s i hi; simp [loop1Reads] at hi
  | succ fuel ih =>
    intro s i hi
    simp only [loop1Reads] at hi
    split_ifs at hi with hlim
    · rcases List.mem_append.mp hi with hi | hi
      · exact iter1Reads_bound input s hlim i hi
      · exact ih _ i hi
    · simp at hi

/-- The loads of `fastlz1_compress` are within the input. -/
theorem compress1Reads_bound (input : List Nat) :
    ∀ i ∈ compress1Reads input, 0 ≤ i ∧ i < (input.length : Int) := by
  intro i hi
  unfold compress1Reads at hi
  split_ifs at hi with h4
  · have := copyReads_bound _ _ i hi
    omega
  · have hinv := (CInv_loop1_any input input.length _
      (CInv_init Tok.enc1 Tok.shape1 ml1 input (by omega)))
    obtain ⟨_, _, _, _, _, _, _, _, _, hle, _⟩ := hinv
    simp only [List.mem_append, List.mem_cons, List.mem_singleton, List.not_mem_nil,
      or_false] at hi
    rcases hi with (hi | hi) | hi
    · omega
    · exact loop1Reads_bound input _ _ i hi
    · have := copyReads_bound _ _ i hi
      omega

/-- The loads of the run check are within the input. -/
theorem runCheckReads_bound (input : List Nat) (a : Nat) (h1 : 1 ≤ a)
    (h : a + 2 < input.length) :
    ∀ i ∈ runCheckReads input a, 0 ≤ i ∧ i < (input.length : Int) := by
  intro i hi
  unfold runCheckReads at hi
  split_ifs at hi <;>
    simp only [List.mem_append, List.mem_cons, List.mem_singleton, List.not_mem_nil,
      or_false] at hi <;> omega

/-- The loads of one iteration of the main loop of `fastlz2_compress` are
within the input. -/
theorem iter2Reads_bound (input : List Nat) (s : CState) (h1 : 1 ≤ s.ip)
    (hlim : s.ip + 13 < input.length) :
    ∀ i ∈ iter2Reads input s, 0 ≤ i ∧ i < (input.length : Int) := by
  intro i hi
  unfold iter2Reads at hi
  dsimp only at hi
  generalize s.htab (HASH_FUNCTION input s.ip) = ref at *
  rcases List.mem_append.mp hi with hi | hi
  · exact runCheckReads_bound input s.ip h1 (by omega) i hi
  · split_ifs at hi with hrun hd hc hfar h5
    · have e : matchBranchReads input s.ip 3 1 (s.ip - 1 + 3) =
          matchBranchReads input s.ip 3 (s.ip - (s.ip - 1)) (s.ip - 1 + 3) := by
        rw [show s.ip - (s.ip - 1) = 1 from by omega]
      rw [e] at hi
      refine matchBranchReads_bound input s.ip (s.ip - 1) 3 (by omega) (by omega) (by omega)
        ?_ i hi
      intro j hj
      obtain ⟨r1, r2, r3⟩ := hrun
      interval_cases j
      · rw [Nat.add_zero, Nat.add_zero]; exact r1.symm
      · rw [show s.ip - 1 + 1 = s.ip from by omega]; exact r2
      · rw [show s.ip - 1 + 2 = s.ip + 1 from by omega]; exact r3
    · simp only [List.mem_append, List.mem_singleton] at hi
      rcases hi with hi | hi
      · exact hashReads_bound _ _ (by omega) (by omega) i hi
      · omega
    · simp only [List.mem_append, List.mem_singleton] at hi
      rcases hi with hi | hi | hi
      · exact hashReads_bound _ _ (by omega) (by omega) i hi
      · have := checkReads_bound input 3 ref s.ip (by omega) i hi
        omega
      · omega
    · simp only [List.mem_append, List.mem_singleton] at hi
      rcases hi with hi | hi | hi | hi
      · exact hashReads_bound _ _ (by omega) (by omega) i hi
      · have := checkReads_bound input 3 ref s.ip (by omega) i hi
        omega
      · have := checkReads_bound input 2 (ref + 3) (s.ip + 3) (by omega) i hi
        omega
      · omega
    · simp only [List.mem_append] at hi
      rcases hi with hi | hi | hi | hi
      · exact hashReads_bound _ _ (by omega) (by omega) i hi
      · have := checkReads_bound input 3 ref s.ip (by omega) i hi
        omega
      · have := checkReads_bound input 2 (ref + 3) (s.ip + 3) (by omega) i hi
        omega
      · push_neg at hd hc h5
        refine matchBranchReads_bound input s.ip ref 5 (by omega) (by omega) (by omega) ?_ i hi
        intro j hj
        interval_cases j
        · exact hc.1
        · exact hc.2.1
        · exact hc.2.2
        · exact h5.1.symm
        · exact h5.2.symm
    · simp only [List.mem_append] at hi
      rcases hi with hi | hi | hi
      · exact hashReads_bound _ _ (by omega) (by omega) i hi
      · have := checkReads_bound input 3 ref s.ip (by omega) i hi
        omega
      · push_neg at hd hc
        refine matchBranchReads_bound input s.ip ref 3 (by omega) (by omega) (by omega) ?_ i hi
        intro j hj
        interval_cases j
        · exact hc.1
        · exact hc.2.1
        · exact hc.2.2

theorem loop2Reads_bound (input : List Nat) :
    ∀ (fuel : Nat) (s : CState),
      CInv Tok.enc2 Tok.shape2s ml1 input s.ip s.out s.copy →
      ∀ i ∈ loop2Reads input fuel s, 0 ≤ i ∧ i < (input.length : Int) := by
  intro fuel
  induction fuel with
  | zero => intro s _ i hi; simp [loop2Reads] at hi
  | succ fuel ih =>
    intro s h i hi
    simp only [loop2Reads] at hi
    split_ifs at hi with hlim
    · rcases List.mem_append.mp hi with hi | hi
      · have h2 : 2 ≤ s.ip := by
          obtain ⟨_, _, _, _, _, _, _, _, h2, _⟩ := id h
          exact h2
        exact iter2Reads_bound input s (by omega) hlim i hi
      · exact ih _ (CInv_iter2_strong input s h hlim).1 i hi
    · simp at hi

/-- The loads of `fastlz2_compress` are within the input. -/
theorem compress2Reads_bound (input : List Nat) :
    ∀ i ∈ compress2Reads input, 0 ≤ i ∧ i < (input.length : Int) := by
  intro i hi
  unfold compress2Reads at hi
  split_ifs at hi with h4
  · have := copyReads_bound _ _ i hi
    omega
  · have hinit := CInv_init Tok.enc2 Tok.shape2s ml1 input (by omega)
    have hinv := CInv_loop2_any input input.length _ hinit
    obtain ⟨_, _, _, _, _, _, _, _, _, hle, _⟩ := hinv
    simp only [List.mem_append, List.mem_cons, List.mem_singleton, List.not_mem_nil,
      or_false] at hi
    rcases hi with (hi | hi) | hi
    · omega
    · exact loop2Reads_bound input _ _ hinit i hi
    · have := copyReads_bound _ _ i hi
      omega

/-- The value of the hash function is an index of the hash table. -/
theorem HASH_FUNCTION_lt (mem : List Nat) (p : Nat) : HASH_FUNCTION mem p < HASH_SIZE := by
  unfold HASH_FUNCTION
  dsimp only
  exact Nat.lt_of_le_of_lt Nat.and_le_right (by decide)

/-! ## Progress of the loops -/

/-- One iteration of the Level-1 opcode loop either ends the loop, with a result
that does not depend on the iterations left, or goes on with the control byte
at a position `ip2` after `ip` and below the declared length. -/
theorem dloop1_progress (input : List Nat) (length maxout : Nat) (ip ctrl : Nat)
    (out : List Nat) (log : List Int) :
    (∃ r, ∀ fuel, dloop1 input length maxout (fuel + 1) ip ctrl out log = r) ∨
    (∃ ip2 out2 log2, ip < ip2 ∧ ip2 < length ∧
      ∀ fuel, dloop1 input length maxout (fuel + 1) ip ctrl out log =
        dloop1 input length maxout fuel (ip2 + 1) (rd input ip2) out2 log2) := by
  simp only [dloop1]
  split_ifs <;> first
    | exact Or.inl ⟨_, fun _ => rfl⟩
    | exact Or.inr ⟨_, _, _, by omega, by assumption, fun _ => rfl⟩

/-- One iteration of the Level-2 opcode loop, for three numbers of iterations
left: either all three return the same result, or all three go on from the same
state, with the control byte at a position `ip2` after `ip` and below the
declared length. -/
theorem dloop2_three (input : List Nat) (length maxout : Nat) (ip ctrl : Nat)
    (out : List Nat) (log : List Int) (f1 f2 f3 : Nat) :
    (∃ r, dloop2 input length maxout (f1 + 1) ip ctrl out log = r ∧
      dloop2 input length maxout (f2 + 1) ip ctrl out log = r ∧
      dloop2 input length maxout (f3 + 1) ip ctrl out log = r) ∨
    (∃ ip2 out2 log2, ip < ip2 ∧ ip2 < length ∧
      dloop2 input length maxout (f1 + 1) ip ctrl out log =
        dloop2 input length maxout f1 (ip2 + 1) (rd input ip2) out2 log2 ∧
      dloop2 input length maxout (f2 + 1) ip ctrl out log =
        dloop2 input length maxout f2 (ip2 + 1) (rd input ip2) out2 log2 ∧
      dloop2 input length maxout (f3 + 1) ip ctrl out log =
        dloop2 input length maxout f3 (ip2 + 1) (rd input ip2) out2 log2) := by
  have hch := chainLoop_ip input (input.length - ip + 1) ip (ctrl >>> 5 - 1)
  rw [dloop2.eq_2, dloop2.eq_2, dloop2.eq_2]
  dsimp only
  generalize chainLoop input (input.length - ip + 1) ip (ctrl >>> 5 - 1) = ch at *
  have hr : ip ≤ (if ctrl >>> 5 - 1 = 7 - 1 then ch else (ip, ctrl >>> 5 - 1)).1 := by
    split_ifs
    · exact hch
    · exact le_refl _
  generalize (if ctrl >>> 5 - 1 = 7 - 1 then ch else (ip, ctrl >>> 5 - 1)) = r at *
  have h3 : r.1 + 1 ≤ (if rd input r.1 = 255 ∧ (ctrl &&& 31) <<< 8 = 31 <<< 8 then r.1 + 1 + 2
      else r.1 + 1) := by
    split_ifs <;> omega
  generalize (if rd input r.1 = 255 ∧ (ctrl &&& 31) <<< 8 = 31 <<< 8 then r.1 + 1 + 2
      else r.1 + 1) = ip3 at *
  split_ifs
  all_goals first
    | exact Or.inl ⟨_, rfl, rfl, rfl⟩
    | (right
       refine ⟨_, _, _, ?_, by assumption, rfl, rfl, rfl⟩
       omega)

/-- One iteration of the Level-2 opcode loop either ends the loop, with a result
that does not depend on the iterations left, or goes on with the control byte
at a position `ip2` after `ip` and below the declared length. -/
theorem dloop2_progress (input : List Nat) (length maxout : Nat) (ip ctrl : Nat)
    (out : List Nat) (log : List Int) :
    (∃ r, ∀ fuel, dloop2 input length maxout (fuel + 1) ip ctrl out log = r) ∨
    (∃ ip2 out2 log2, ip < ip2 ∧ ip2 < length ∧
      ∀ fuel, dloop2 input length maxout (fuel + 1) ip ctrl out log =
        dloop2 input length maxout fuel (ip2 + 1) (rd input ip2) out2 log2) := by
  by_cases h : ∀ f, dloop2 input length maxout (f + 1) ip ctrl out log =
      dloop2 input length maxout (0 + 1) ip ctrl out log
  · exact Or.inl ⟨_, h⟩
  · push_neg at h
    obtain ⟨g, hg⟩ := h
    right
    rcases dloop2_three input length maxout ip ctrl out log 0 g g with
      ⟨r, e1, e2, _⟩ | ⟨ip2, out2, log2, b1, b2, e1, _, _⟩
    · exact absurd (e2.trans e1.symm) hg
    · refine ⟨ip2, out2, log2, b1, b2, ?_⟩
      intro f
      rcases dloop2_three input length maxout ip ctrl out log 0 g f with
        ⟨r, k1, k2, _⟩ | ⟨ip3, out3, log3, _, _, k1, _, k3⟩
      · exact absurd (k2.trans k1.symm) hg
      · have e := e1.symm.trans k1
        simp only [dloop2, DResult.mk.injEq] at e
        obtain ⟨_, ho, hi, hl⟩ := e
        have hi2 : ip3 = ip2 := by omega
        rw [hi2, ← ho, ← hl] at k3
        exact k3

/-- The Level-2 length chain consumes at least one byte, and ends at most one
byte past the modelled memory when it starts within it. -/
theorem chainLoop_bound (input : List Nat) :
    ∀ (fuel ip len : Nat),
      ip < (chainLoop input (fuel + 1) ip len).1 ∧
      (ip ≤ input.length → (chainLoop input (fuel + 1) ip len).1 ≤ input.length + 1) := by
  intro fuel
  induction fuel with
  | zero =>
    intro ip len
    simp only [chainLoop]
    split_ifs with hc
    · have := lt_length_of_rd_ne_zero input ip (by omega)
      simp only []
      omega
    · simp only []
      omega
  | succ fuel ih =>
    intro ip len
    rw [chainLoop]
    split_ifs with hc
    · have := lt_length_of_rd_ne_zero input ip (by omega)
      have := ih (ip + 1) ((len + rd input ip) % 2 ^ 32)
      omega
    · simp only []
      omega

/-- The main loop of `fastlz1_compress` does not depend on the fuel once the
fuel covers the input left. -/
theorem loop1_fuel (B : List Nat) :
    ∀ (f1 f2 : Nat) (s : CState), CInv Tok.enc1 Tok.shape1 ml1 B s.ip s.out s.copy →
      B.length ≤ f1 + s.ip → B.length ≤ f2 + s.ip → loop1 B f1 s = loop1 B f2 s := by
  intro f1
  induction f1 with
  | zero =>
    intro f2 s _ h1 _
    cases f2 with
    | zero => rfl
    | succ f2 => simp only [loop1]; rw [if_neg (by omega)]
  | succ f1 ih =>
    intro f2 s h h1 h2
    cases f2 with
    | zero => simp only [loop1]; rw [if_neg (by omega)]
    | succ f2 =>
      simp only [loop1]
      split_ifs with hlim
      · have := CInv_iter1 B s h hlim
        exact ih f2 _ this.1 (by omega) (by omega)
      · rfl

/-- The main loop of `fastlz2_compress` does not depend on the fuel once the
fuel covers the input left. -/
theorem loop2_fuel (B : List Nat) :
    ∀ (f1 f2 : Nat) (s : CState), CInv Tok.enc2 Tok.shape2s ml1 B s.ip s.out s.copy →
      B.length ≤ f1 + s.ip → B.length ≤ f2 + s.ip → loop2 B f1 s = loop2 B f2 s := by
  intro f1
  induction f1 with
  | zero =>
    intro f2 s _ h1 _
    cases f2 with
    | zero => rfl
    | succ f2 => simp only [loop2]; rw [if_neg (by omega)]
  | succ f1 ih =>
    intro f2 s h h1 h2
    cases f2 with
    | zero => simp only [loop2]; rw [if_neg (by omega)]
    | succ f2 =>
      simp only [loop2]
      split_ifs with hlim
      · have := CInv_iter2_strong B s h hlim
        exact ih f2 _ this.1 (by omega) (by omega)
      · rfl

/-! ## The Level-2 length chain beyond the declared length -/

/-- A Level-2 stream of declared length 3 that ends right after the first byte
`E0` of a long match, in a memory that goes on with `k` bytes 255 and two bytes
0: the length chain runs over the `k + 1` bytes after the declared length, the
decoder ends with `ip = k + 5`, and it returns `255 * k + 10` when that fits
the capacity. -/
theorem chain_overrun (mem : List Nat) (k maxout : Nat) (h0 : rd mem 0 = 32)
    (h2 : rd mem 2 = 224) (hAt : At mem 3 (List.replicate k 255 ++ 0 :: [0]))
    (hlen : mem.length = k + 5) :
    chainLoop mem (mem.length - 3 + 1) 3 6 = (k + 4, (6 + 255 * k) % 2 ^ 32) ∧
    (fastlz2_decompress mem 3 (maxout + 1)).ip = k + 5 ∧
    (255 * k + 10 ≤ maxout + 1 → 255 * k + 6 < 2 ^ 32 →
      (fastlz2_decompress mem 3 (maxout + 1)).ret = 255 * k + 10) := by
  have hch : chainLoop mem (mem.length - 3 + 1) 3 6 = (k + 4, (6 + 255 * k) % 2 ^ 32) := by
    rw [chainLoop_spec mem 0 (by decide) [0] k _ 3 6 hAt (by omega)]
    refine Prod.ext (by simp only; omega) (by simp only [Nat.add_zero])
  have hc : rd mem (k + 4) = 0 := by
    have := hAt (k + 1) (by simp)
    rw [show 3 + (k + 1) = k + 4 from by omega] at this
    rw [this, List.getD_append_right _ _ _ _ (by simp)]
    simp
  have e0 : rd mem 0 &&& 31 = 0 := by rw [h0]; decide
  have e224 : (224 : Nat) >>> 5 - 1 = 7 - 1 := by decide
  have e224b : ((224 : Nat) &&& 31) <<< 8 = 0 := by decide
  have step1 : fastlz2_decompress mem 3 (maxout + 1) =
      dloop2 mem 3 (maxout + 1) 3 3 224 [rd mem 1] [] := by
    unfold fastlz2_decompress
    rw [e0, show 3 + 1 = 3 + 1 from rfl, dloop2.eq_2]
    simp only [copyLit, List.nil_append, List.length_nil, Nat.zero_add, Nat.zero_shiftRight,
      Nat.zero_and, Nat.zero_shiftLeft]
    rw [if_neg (by omega), if_neg (by omega), if_neg (by omega), if_pos (by omega), h2]
  rw [step1, show (3 : Nat) = 2 + 1 from rfl, dloop2.eq_2]
  rw [show (2 : Nat) + 1 = 3 from rfl] at *
  dsimp only
  rw [if_pos (by decide), e224, if_pos rfl, hch, e224b]
  dsimp only
  rw [hc]
  have hfar : ¬ ((0 : Nat) = 255 ∧ (0 : Nat) = 31 <<< 8) := by decide
  simp only [hfar, if_false, List.length_singleton, Nat.cast_one, Nat.cast_zero, sub_zero]
  refine ⟨trivial, ?_, ?_⟩
  · split_ifs <;> first
      | (exfalso; omega)
      | (show k + 4 + 1 = k + 5; omega)
  · intro hm hk
    rw [Nat.mod_eq_of_lt (by omega)]
    rw [if_neg (by omega), if_neg (by decide), if_neg (by omega)]
    simp only [copyMatch_length, List.length_singleton]
    omega

/-- Where the loops end by their own conditions.  For every memory `input`,
declared length and `maxout`, the opcode loops of `fastlz1_decompress` and
`fastlz2_decompress` give the result of the function for every number of
iterations allowed from `length + 1` on, and an iteration either ends the loop
or goes on with a control byte at a later position below the declared length.
For every input `B` of at least 4 bytes the main loops of `fastlz1_compress`
and `fastlz2_compress` give the same state for every number of iterations
allowed from `|B|` on, end with their condition false, and every iteration
strictly advances `ip` within the input; the loops that emit long matches give
the same result for every number of iterations allowed from their own bound on.
The Level-2 255-chain loop consumes at least one byte per iteration and goes on
only after a byte 255, but it has no test against the declared length: what is
stated for it here is relative to the modelled memory, past which a load gives
0. -/
theorem loops_end_within_bounds (input : List Nat) (length maxout : Nat) (B : List Nat) :
    (∀ fuel, length + 1 ≤ fuel →
      dloop1 input length maxout fuel 1 (rd input 0 &&& 31) [] [] =
        fastlz1_decompress input length maxout) ∧
    (∀ fuel, length + 1 ≤ fuel →
      dloop2 input length maxout fuel 1 (rd input 0 &&& 31) [] [] =
        fastlz2_decompress input length maxout) ∧
    (∀ (ip ctrl : Nat) (out : List Nat) (log : List Int),
      (∃ r, ∀ fuel, dloop1 input length maxout (fuel + 1) ip ctrl out log = r) ∨
      (∃ ip2 out2 log2, ip < ip2 ∧ ip2 < length ∧
        ∀ fuel, dloop1 input length maxout (fuel + 1) ip ctrl out log =
          dloop1 input length maxout fuel (ip2 + 1) (rd input ip2) out2 log2)) ∧
    (∀ (ip ctrl : Nat) (out : List Nat) (log : List Int),
      (∃ r, ∀ fuel, dloop2 input length maxout (fuel + 1) ip ctrl out log = r) ∨
      (∃ ip2 out2 log2, ip < ip2 ∧ ip2 < length ∧
        ∀ fuel, dloop2 input length maxout (fuel + 1) ip ctrl out log =
          dloop2 input length maxout fuel (ip2 + 1) (rd input ip2) out2 log2)) ∧
    (∀ (fuel ip len : Nat),
      (input.length - ip + 1 ≤ fuel →
        chainLoop input fuel ip len = chainLoop input (input.length - ip + 1) ip len) ∧
      chainLoop input (fuel + 1) ip len =
        (if rd input ip = 255 then chainLoop input fuel (ip + 1) ((len + rd input ip) % 2 ^ 32)
         else (ip + 1, (len + rd input ip) % 2 ^ 32)) ∧
      ip < (chainLoop input (fuel + 1) ip len).1 ∧
      (ip ≤ input.length → (chainLoop input (fuel + 1) ip len).1 ≤ input.length + 1)) ∧
    (4 ≤ B.length →
      (∀ fuel, B.length ≤ fuel →
        loop1 B fuel (initState B) = loop1 B B.length (initState B)) ∧
      ¬ ((loop1 B B.length (initState B)).ip + 13 < B.length) ∧
      (∀ k, (loop1 B k (initState B)).ip + 13 < B.length →
        (loop1 B k (initState B)).ip < (iter1 B (loop1 B k (initState B))).ip ∧
        (iter1 B (loop1 B k (initState B))).ip ≤ B.length) ∧
      (∀ fuel, B.length ≤ fuel →
        loop2 B fuel (initState B) = loop2 B B.length (initState B)) ∧
      ¬ ((loop2 B B.length (initState B)).ip + 13 < B.length) ∧
      (∀ k, (loop2 B k (initState B)).ip + 13 < B.length →
        (loop2 B k (initState B)).ip < (iter2 B (loop2 B k (initState B))).ip ∧
        (iter2 B (loop2 B k (initState B))).ip ≤ B.length)) ∧
    (∀ (d fuel len : Nat) (out : List Nat), len ≤ fuel →
      emitLong1 d fuel len out = emitLong1 d len len out) ∧
    (∀ (fuel len : Nat) (out : List Nat), len ≤ fuel →
      emitChain fuel len out = emitChain len len out) := by
  refine ⟨?_, ?_, dloop1_progress input length maxout, dloop2_progress input length maxout,
    ?_, ?_, ?_, ?_⟩
  · intro fuel hf
    exact dloop1_fuel input length maxout fuel (length + 1) 1 _ [] [] (by omega) (by omega)
      (by omega)
  · intro fuel hf
    exact dloop2_fuel input length maxout fuel (length + 1) 1 _ [] [] (by omega) (by omega)
      (by omega)
  · intro fuel ip len
    refine ⟨fun hf => chainLoop_fuel input fuel _ ip len hf (le_refl _), ?_,
      (chainLoop_bound input fuel ip len).1, (chainLoop_bound input fuel ip len).2⟩
    rw [chainLoop]
  · intro h4
    have i1 := CInv_init Tok.enc1 Tok.shape1 ml1 B h4
    have i2 := CInv_init Tok.enc2 Tok.shape2s ml1 B h4
    have hip : (initState B).ip = 2 := rfl
    refine ⟨?_, (CInv_loop1 B B.length _ i1 (by omega)).2, ?_, ?_,
      (CInv_loop2_strong B B.length _ i2 (by omega)).2, ?_⟩
    · intro fuel hf
      exact loop1_fuel B fuel B.length _ i1 (by omega) (by omega)
    · intro k hk
      have h := CInv_iter1 B _ (CInv_loop1_any B k _ i1) hk
      obtain ⟨_, _, _, _, _, _, _, _, _, hle, _⟩ := h.1
      exact ⟨h.2, hle⟩
    · intro fuel hf
      exact loop2_fuel B fuel B.length _ i2 (by omega) (by omega)
    · intro k hk
      have h := CInv_iter2_strong B _ (CInv_loop2_any B k _ i2) hk
      obtain ⟨_, _, _, _, _, _, _, _, _, hle, _⟩ := h.1
      exact ⟨h.2, hle⟩
  · intro d fuel len out hf
    rw [emitLong1_spec d fuel len out hf, emitLong1_spec d len len out (le_refl _)]
  · intro fuel len out hf
    rw [emitChain_spec fuel len out hf, emitChain_spec len len out (le_refl _)]

theorem loops_end_within_bounds_example :
    dloop1 [0x00, 0x41] 2 10 100 1 (rd [0x00, 0x41] 0 &&& 31) [] [] =
      fastlz1_decompress [0x00, 0x41] 2 10 ∧
    loop1 [97, 98, 99, 97, 98, 99, 97, 98, 99, 97, 98, 99, 97, 98, 99, 97, 98, 99, 97, 98]
      1000 (initState [97, 98, 99, 97, 98, 99, 97, 98, 99, 97, 98, 99, 97, 98, 99, 97, 98, 99, 97, 98]) =
      loop1 [97, 98, 99, 97, 98, 99, 97, 98, 99, 97, 98, 99, 97, 98, 99, 97, 98, 99, 97, 98]
        [97, 98, 99, 97, 98, 99, 97, 98, 99, 97, 98, 99, 97, 98, 99, 97, 98, 99, 97, 98].length
        (initState [97, 98, 99, 97, 98, 99, 97, 98, 99, 97, 98, 99, 97, 98, 99, 97, 98, 99, 97, 98]) :=
  ⟨(loops_end_within_bounds [0x00, 0x41] 2 10
      [97, 98, 99, 97, 98, 99, 97, 98, 99, 97, 98, 99, 97, 98, 99, 97, 98, 99, 97, 98]).1 100
      (by decide),
   ((loops_end_within_bounds [0x00, 0x41] 2 10
      [97, 98, 99, 97, 98, 99, 97, 98, 99, 97, 98, 99, 97, 98, 99, 97, 98, 99, 97, 98]).2.2.2.2.2.1
      (by decide)).1 1000 (by decide)⟩

/-! ## Main results -/

/-- C1 (Level-1 round trip): for every non-empty input `B` of bytes,
`fastlz_decompress` applied to the output buffer and returned length of
`fastlz_compress_level 1 B`, with `maxout = |B|`, returns `|B|` and stores
exactly the bytes of `B`. -/
theorem level1_round_trip (B : List Nat) (hne : B ≠ []) (hB : ∀ b ∈ B, b < 256) :
    (fastlz_decompress (fastlz_compress_level 1 B).buf (fastlz_compress_level 1 B).ret
      B.length).ret = B.length ∧
    (fastlz_decompress (fastlz_compress_level 1 B).buf (fastlz_compress_level 1 B).ret
      B.length).out = B := by
  have h1 : 1 ≤ B.length := List.length_pos.mpr hne
  have h := (fastlz1_roundtrip B h1 B.length).1 (le_refl _)
  rw [bytes_of_lt B hB] at h
  simp only [fastlz_compress_level, if_true]
  exact ⟨h.1, h.2.1⟩

/-- C1 at the 20-byte input `abcabcabcabcabcabcab`. -/
theorem level1_round_trip_witness :
    (fastlz_decompress
      (fastlz_compress_level 1
        [97, 98, 99, 97, 98, 99, 97, 98, 99, 97, 98, 99, 97, 98, 99, 97, 98, 99, 97, 98]).buf
      (fastlz_compress_level 1
        [97, 98, 99, 97, 98, 99, 97, 98, 99, 97, 98, 99, 97, 98, 99, 97, 98, 99, 97, 98]).ret
      [97, 98, 99, 97, 98, 99, 97, 98, 99, 97, 98, 99, 97, 98, 99, 97, 98, 99, 97, 98].length).ret =
      [97, 98, 99, 97, 98, 99, 97, 98, 99, 97, 98, 99, 97, 98, 99, 97, 98, 99, 97, 98].length ∧
    (fastlz_decompress
      (fastlz_compress_level 1
        [97, 98, 99, 97, 98, 99, 97, 98, 99, 97, 98, 99, 97, 98, 99, 97, 98, 99, 97, 98]).buf
      (fastlz_compress_level 1
        [97, 98, 99, 97, 98, 99, 97, 98, 99, 97, 98, 99, 97, 98, 99, 97, 98, 99, 97, 98]).ret
      [97, 98, 99, 97, 98, 99, 97, 98, 99, 97, 98, 99, 97, 98, 99, 97, 98, 99, 97, 98].length).out =
      [97, 98, 99, 97, 98, 99, 97, 98, 99, 97, 98, 99, 97, 98, 99, 97, 98, 99, 97, 98] :=
  level1_round_trip _ (by decide) (by decide)

/-- C2 (Level-2 round trip): for every non-empty input `B` of bytes whose
length fits the `int length` parameter, `fastlz_decompress` applied to the
output buffer and returned length of `fastlz_compress_level 2 B`, with
`maxout = |B|`, returns `|B|` and stores exactly the bytes of `B`. -/
theorem level2_round_trip (B : List Nat) (hne : B ≠ []) (hB : ∀ b ∈ B, b < 256)
    (hlen : B.length < 2 ^ 31) :
    (fastlz_decompress (fastlz_compress_level 2 B).buf (fastlz_compress_level 2 B).ret
      B.length).ret = B.length ∧
    (fastlz_decompress (fastlz_compress_level 2 B).buf (fastlz_compress_level 2 B).ret
      B.length).out = B := by
  have h1 : 1 ≤ B.length := List.length_pos.mpr hne
  have h := (fastlz2_roundtrip B h1 (by omega) B.length).1 (le_refl _)
  rw [bytes_of_lt B hB] at h
  simp only [fastlz_compress_level, if_true]
  exact ⟨h.1, h.2.1⟩

/-- C2 at the 20-byte input `abcabcabcabcabcabcab`. -/
theorem level2_round_trip_witness :
    (fastlz_decompress
      (fastlz_compress_level 2
        [97, 98, 99, 97, 98, 99, 97, 98, 99, 97, 98, 99, 97, 98, 99, 97, 98, 99, 97, 98]).buf
      (fastlz_compress_level 2
        [97, 98, 99, 97, 98, 99, 97, 98, 99, 97, 98, 99, 97, 98, 99, 97, 98, 99, 97, 98]).ret
      [97, 98, 99, 97, 98, 99, 97, 98, 99, 97, 98, 99, 97, 98, 99, 97, 98, 99, 97, 98].length).ret =
      [97, 98, 99, 97, 98, 99, 97, 98, 99, 97, 98, 99, 97, 98, 99, 97, 98, 99, 97, 98].length ∧
    (fastlz_decompress
      (fastlz_compress_level 2
        [97, 98, 99, 97, 98, 99, 97, 98, 99, 97, 98, 99, 97, 98, 99, 97, 98, 99, 97, 98]).buf
      (fastlz_compress_level 2
        [97, 98, 99, 97, 98, 99, 97, 98, 99, 97, 98, 99, 97, 98, 99, 97, 98, 99, 97, 98]).ret
      [97, 98, 99, 97, 98, 99, 97, 98, 99, 97, 98, 99, 97, 98, 99, 97, 98, 99, 97, 98].length).out =
      [97, 98, 99, 97, 98, 99, 97, 98, 99, 97, 98, 99, 97, 98, 99, 97, 98, 99, 97, 98] :=
  level2_round_trip _ (by decide) (by decide) (by decide)

/-- C3 (decoder write safety): for every input memory, declared length and
`maxout`, each of `fastlz_decompress`, `fastlz1_decompress` and
`fastlz2_decompress` stores only to `output[0 .. out.length)` with
`out.length ≤ maxout`, returns a value `ret ≤ maxout`, and when `ret` is not 0
the bytes stored are exactly `output[0 .. ret)`. -/
theorem decompress_write_safety (input : List Nat) (length maxout : Nat) :
    WriteSafe (fastlz_decompress input length maxout) maxout ∧
    WriteSafe (fastlz1_decompress input length maxout) maxout ∧
    WriteSafe (fastlz2_decompress input length maxout) maxout := by
  refine ⟨?_, fastlz1_decompress_write_safe _ _ _, fastlz2_decompress_write_safe _ _ _⟩
  unfold fastlz_decompress
  dsimp only
  split_ifs
  · exact fastlz1_decompress_write_safe _ _ _
  · exact fastlz2_decompress_write_safe _ _ _
  · simp [WriteSafe]

/-- C4 (decoder read safety), the code at a failing input: the 3-byte stream
`00 41 20` ends inside a match opcode.  With declared length 3, the byte `00`
next in memory and `maxout = 10`, each decoder ends with `ip = 4`: it has read
the input indices 0, 1, 2 and 3, the last one beyond the declared length, and
`fastlz_decompress` returns 4 instead of 0. -/
theorem decompress_reads_past_declared_length :
    (fastlz_decompress [0x00, 0x41, 0x20, 0x00] 3 10).ip = 4 ∧
    (fastlz_decompress [0x00, 0x41, 0x20, 0x00] 3 10).ret = 4 ∧
    (fastlz1_decompress [0x00, 0x41, 0x20, 0x00] 3 10).ip = 4 ∧
    (fastlz2_decompress [0x00, 0x41, 0x20, 0x00] 3 10).ip = 4 := by
  decide

/-- C5 (compressed-size bound): for every input of length `N` and both levels,
the returned length is at most `N + N / 32 + 1`, the bytes stored in the output
buffer are `output[0 .. buf.length)` with `buf.length ≤ N + N / 32 + 1` (so no
index beyond `N + N / 32` is stored to), and for `N ≥ 54` they fit in
`105 * N / 100` bytes, the integer part of `1.05 * N`. -/
theorem compress_size_bound (B : List Nat) :
    ((fastlz_compress_level 1 B).ret ≤ B.length + B.length / 32 + 1 ∧
      (fastlz_compress_level 1 B).buf.length ≤ B.length + B.length / 32 + 1 ∧
      (54 ≤ B.length → (fastlz_compress_level 1 B).buf.length ≤ 105 * B.length / 100)) ∧
    ((fastlz_compress_level 2 B).ret ≤ B.length + B.length / 32 + 1 ∧
      (fastlz_compress_level 2 B).buf.length ≤ B.length + B.length / 32 + 1 ∧
      (54 ≤ B.length → (fastlz_compress_level 2 B).buf.length ≤ 105 * B.length / 100)) := by
  obtain ⟨⟨a1, a2⟩, ⟨b1, b2⟩⟩ := compress_size B
  simp only [fastlz_compress_level, if_true, OfNat.ofNat_ne_one, if_false]
  refine ⟨⟨by omega, by omega, fun _ => by omega⟩, ⟨by omega, by omega, fun _ => by omega⟩⟩

/-- C6, the claim fails for Level 2 on short inputs: for the one-byte input
`42`, `fastlz_compress_level 2` returns 2 with the stream `00 42`, whose first
byte has top three bits 0, not 1: the short-input path `if (length < 4)`, which
creates a literal copy only, returns before the marker is set. -/
theorem level2_short_input_has_no_marker :
    (fastlz_compress_level 2 [0x42]).ret = 2 ∧
    (fastlz_compress_level 2 [0x42]).buf = [0x00, 0x42] ∧
    rd (fastlz_compress_level 2 [0x42]).buf 0 >>> 5 = 0 := by
  decide

/-- C6 (amended): the top three bits of the first byte of
`fastlz_compress_level 1 B` are 0 for every non-empty input `B`; those of
`fastlz_compress_level 2 B` are 1 for every input of at least 4 bytes; and for
an input of 1 to 3 bytes `fastlz_compress_level 2 B` is the result of
`fastlz_compress_level 1 B`, the literal run of the short-input path, whose
top three bits are 0. -/
theorem level_discrimination (B : List Nat) :
    (1 ≤ B.length → rd (fastlz_compress_level 1 B).buf 0 >>> 5 = 0) ∧
    (4 ≤ B.length → rd (fastlz_compress_level 2 B).buf 0 >>> 5 = 1) ∧
    (1 ≤ B.length → B.length < 4 →
      fastlz_compress_level 2 B = fastlz_compress_level 1 B ∧
      rd (fastlz_compress_level 2 B).buf 0 >>> 5 = 0) := by
  have h := level_marker_main_paths B
  have e1 : fastlz_compress_level 1 B = fastlz1_compress B := by
    simp only [fastlz_compress_level, if_true]
  have e2 : fastlz_compress_level 2 B = fastlz2_compress B := by
    simp only [fastlz_compress_level, OfNat.ofNat_ne_one, if_false, if_true]
  rw [e1, e2]
  refine ⟨h.1, h.2, ?_⟩
  intro h1 h4
  have e3 : fastlz2_compress B = fastlz1_compress B := by
    simp only [fastlz2_compress, fastlz1_compress, if_pos h4]
  rw [e3]
  exact ⟨rfl, h.1 h1⟩

theorem level_discrimination_witness :
    rd (fastlz_compress_level 1
      [97, 98, 99, 97, 98, 99, 97, 98, 99, 97, 98, 99, 97, 98, 99, 97, 98, 99, 97, 98]).buf 0 >>> 5 = 0 ∧
    rd (fastlz_compress_level 2
      [97, 98, 99, 97, 98, 99, 97, 98, 99, 97, 98, 99, 97, 98, 99, 97, 98, 99, 97, 98]).buf 0 >>> 5 = 1 ∧
    fastlz_compress_level 2 [0x42, 0x43] = fastlz_compress_level 1 [0x42, 0x43] ∧
    rd (fastlz_compress_level 2 [0x42, 0x43]).buf 0 >>> 5 = 0 :=
  ⟨(level_discrimination
      [97, 98, 99, 97, 98, 99, 97, 98, 99, 97, 98, 99, 97, 98, 99, 97, 98, 99, 97, 98]).1
      (by decide),
   (level_discrimination
      [97, 98, 99, 97, 98, 99, 97, 98, 99, 97, 98, 99, 97, 98, 99, 97, 98, 99, 97, 98]).2.1
      (by decide),
   (level_discrimination [0x42, 0x43]).2.2 (by decide) (by decide)⟩

/-- C7 (auto-selection): `fastlz_compress` gives the result (returned length and
output bytes) of `fastlz_compress_level 1` on inputs shorter than 65536 bytes
and that of `fastlz_compress_level 2` on all other inputs. -/
theorem compress_auto_selection (input : List Nat) :
    (input.length < 65536 → fastlz_compress input = fastlz_compress_level 1 input) ∧
    (65536 ≤ input.length → fastlz_compress input = fastlz_compress_level 2 input) := by
  constructor
  · intro h
    simp [fastlz_compress, fastlz_compress_level, h]
  · intro h
    have h2 : ¬ input.length < 65536 := by omega
    simp [fastlz_compress, fastlz_compress_level, h2]

/-- C8 (decoder dispatch): with `t` the top three bits of `input[0]`,
`fastlz_decompress` is `fastlz1_decompress` when `t = 0`, is
`fastlz2_decompress` when `t = 1`, and otherwise returns 0 and stores
nothing. -/
theorem decompress_dispatch (input : List Nat) (length maxout : Nat) :
    (rd input 0 >>> 5 = 0 →
      fastlz_decompress input length maxout = fastlz1_decompress input length maxout) ∧
    (rd input 0 >>> 5 = 1 →
      fastlz_decompress input length maxout = fastlz2_decompress input length maxout) ∧
    (rd input 0 >>> 5 ≠ 0 → rd input 0 >>> 5 ≠ 1 →
      (fastlz_decompress input length maxout).ret = 0 ∧
      (fastlz_decompress input length maxout).out = []) := by
  refine ⟨fastlz_decompress_level1 _ _ _, fastlz_decompress_level2 _ _ _, ?_⟩
  intro h0 h1
  simp [fastlz_decompress, h0, h1]

/-- C8 at concrete streams: `00 41` goes to the Level-1 decoder, `20 41` to the
Level-2 decoder, and `40 41` is refused. -/
theorem decompress_dispatch_witness :
    fastlz_decompress [0x00, 0x41] 2 1 = fastlz1_decompress [0x00, 0x41] 2 1 ∧
    fastlz_decompress [0x20, 0x41] 2 1 = fastlz2_decompress [0x20, 0x41] 2 1 ∧
    (fastlz_decompress [0x40, 0x41] 2 1).ret = 0 ∧
    (fastlz_decompress [0x40, 0x41] 2 1).out = [] :=
  ⟨(decompress_dispatch [0x00, 0x41] 2 1).1 (by decide),
   (decompress_dispatch [0x20, 0x41] 2 1).2.1 (by decide),
   (decompress_dispatch [0x40, 0x41] 2 1).2.2 (by decide) (by decide)⟩

/-- C9 (output overflow is an error): for every non-empty input `B` whose
length fits the `int length` parameter and every `maxout = k < |B|`,
`fastlz_decompress` applied to the result of `fastlz_compress_level 1 B`, and
to that of `fastlz_compress_level 2 B`, returns 0. -/
theorem output_overflow_returns_zero (B : List Nat) (k : Nat) (hne : B ≠ [])
    (hlen : B.length < 2 ^ 31) (hk : k < B.length) :
    (fastlz_decompress (fastlz_compress_level 1 B).buf (fastlz_compress_level 1 B).ret
      k).ret = 0 ∧
    (fastlz_decompress (fastlz_compress_level 2 B).buf (fastlz_compress_level 2 B).ret
      k).ret = 0 := by
  have h1 : 1 ≤ B.length := List.length_pos.mpr hne
  simp only [fastlz_compress_level, if_true, OfNat.ofNat_ne_one, if_false]
  exact ⟨(fastlz1_roundtrip B h1 k).2 hk, (fastlz2_roundtrip B h1 (by omega) k).2 hk⟩

/-- C9 at the 20-byte input `abcabcabcabcabcabcab` with `maxout = 19`. -/
theorem output_overflow_returns_zero_witness :
    (fastlz_decompress
      (fastlz_compress_level 1
        [97, 98, 99, 97, 98, 99, 97, 98, 99, 97, 98, 99, 97, 98, 99, 97, 98, 99, 97, 98]).buf
      (fastlz_compress_level 1
        [97, 98, 99, 97, 98, 99, 97, 98, 99, 97, 98, 99, 97, 98, 99, 97, 98, 99, 97, 98]).ret
      19).ret = 0 ∧
    (fastlz_decompress
      (fastlz_compress_level 2
        [97, 98, 99, 97, 98, 99, 97, 98, 99, 97, 98, 99, 97, 98, 99, 97, 98, 99, 97, 98]).buf
      (fastlz_compress_level 2
        [97, 98, 99, 97, 98, 99, 97, 98, 99, 97, 98, 99, 97, 98, 99, 97, 98, 99, 97, 98]).ret
      19).ret = 0 :=
  output_overflow_returns_zero _ 19 (by decide) (by decide) (by decide)

/-- C10 (reference underflow is an error): a stream that consists of a first
byte `c0`, the `c0 % 32 + 1` literals `bs0` of the first run, well-formed
opcodes `ts`, then a match opcode with all its bytes present whose distance
`d + 1` exceeds the number of bytes decoded before it, then anything, makes
`fastlz1_decompress` (Level-1 opcodes) and `fastlz2_decompress` (Level-2
opcodes) return 0; and on every input neither decoder loads an output byte from
before the start of the output buffer. -/
theorem reference_underflow_returns_zero :
    (∀ (c0 : Nat) (bs0 : List Nat) (ts : List Tok) (len d : Nat) (rest : List Nat)
        (maxout : Nat),
      (∀ b ∈ c0 :: (bs0 ++ (encAll Tok.enc1 ts ++ ((Tok.mat len d).enc1 ++ rest))), b < 256) →
      bs0.length = c0 % 32 + 1 → (∀ t ∈ ts, t.shape1) → (Tok.mat len d).shape1 →
      bs0.length + sizeAll ml1 ts < d + 1 →
      (fastlz1_decompress
        (c0 :: (bs0 ++ (encAll Tok.enc1 ts ++ ((Tok.mat len d).enc1 ++ rest))))
        (c0 :: (bs0 ++ (encAll Tok.enc1 ts ++ ((Tok.mat len d).enc1 ++ rest)))).length
        maxout).ret = 0) ∧
    (∀ (c0 : Nat) (bs0 : List Nat) (ts : List Tok) (len d : Nat) (rest : List Nat)
        (maxout : Nat),
      (∀ b ∈ c0 :: (bs0 ++ (encAll Tok.enc2 ts ++ ((Tok.mat len d).enc2 ++ rest))), b < 256) →
      bs0.length = c0 % 32 + 1 → (∀ t ∈ ts, t.shape2) → (Tok.mat len d).shape2 →
      bs0.length + sizeAll ml2 ts < d + 1 →
      (fastlz2_decompress
        (c0 :: (bs0 ++ (encAll Tok.enc2 ts ++ ((Tok.mat len d).enc2 ++ rest))))
        (c0 :: (bs0 ++ (encAll Tok.enc2 ts ++ ((Tok.mat len d).enc2 ++ rest)))).length
        maxout).ret = 0) ∧
    (∀ (input : List Nat) (length maxout : Nat),
      NoUnderread (fastlz1_decompress input length maxout) ∧
      NoUnderread (fastlz2_decompress input length maxout)) :=
  ⟨underflow1, underflow2, fun input length maxout =>
    ⟨dloop1_noUnderread input length maxout _ _ _ _ _ (by simp),
     dloop2_noUnderread input length maxout _ _ _ _ _ (by simp)⟩⟩

/-- C10 at concrete streams: `00 41 20 05` (Level 1) and `20 41 20 05`
(Level 2) hold the literal `41` and then a 3-byte match at distance 6, and both
are refused. -/
theorem reference_underflow_returns_zero_witness :
    (fastlz1_decompress [0x00, 0x41, 0x20, 0x05] 4 100).ret = 0 ∧
    (fastlz2_decompress [0x20, 0x41, 0x20, 0x05] 4 100).ret = 0 :=
  ⟨reference_underflow_returns_zero.1 0x00 [0x41] [] 1 5 [] 100 (by decide) (by decide)
      (by simp) ⟨by decide, by decide, by decide⟩ (by decide),
   reference_underflow_returns_zero.2.1 0x20 [0x41] [] 1 5 [] 100 (by decide) (by decide)
      (by simp) ⟨by decide, by decide⟩ (by decide)⟩

/-- C11 (truncated literal run is an error): a stream whose first literal run,
of `c0 % 32 + 1` bytes, is cut short makes `fastlz1_decompress` and
`fastlz2_decompress` return 0; and a stream that consists of a first byte
`c0`, the `c0 % 32 + 1` literals `bs0` of the first run, well-formed opcodes
`ts`, then a literal-run prefix byte `k` in `0 .. 31` followed by fewer than
`k + 1` bytes makes `fastlz1_decompress` (Level-1 opcodes) and
`fastlz2_decompress` (Level-2 opcodes) return 0. -/
theorem truncated_literal_run_returns_zero :
    (∀ (c0 : Nat) (rest : List Nat) (maxout : Nat), rest.length < c0 % 32 + 1 →
      (fastlz1_decompress (c0 :: rest) (c0 :: rest).length maxout).ret = 0 ∧
      (fastlz2_decompress (c0 :: rest) (c0 :: rest).length maxout).ret = 0) ∧
    (∀ (c0 : Nat) (bs0 : List Nat) (ts : List Tok) (k : Nat) (rest : List Nat) (maxout : Nat),
      (∀ b ∈ c0 :: (bs0 ++ (encAll Tok.enc1 ts ++ k :: rest)), b < 256) →
      bs0.length = c0 % 32 + 1 → (∀ t ∈ ts, t.shape1) → k < 32 → rest.length < k + 1 →
      (fastlz1_decompress (c0 :: (bs0 ++ (encAll Tok.enc1 ts ++ k :: rest)))
        (c0 :: (bs0 ++ (encAll Tok.enc1 ts ++ k :: rest))).length maxout).ret = 0) ∧
    (∀ (c0 : Nat) (bs0 : List Nat) (ts : List Tok) (k : Nat) (rest : List Nat) (maxout : Nat),
      (∀ b ∈ c0 :: (bs0 ++ (encAll Tok.enc2 ts ++ k :: rest)), b < 256) →
      bs0.length = c0 % 32 + 1 → (∀ t ∈ ts, t.shape2) → k < 32 → rest.length < k + 1 →
      (fastlz2_decompress (c0 :: (bs0 ++ (encAll Tok.enc2 ts ++ k :: rest)))
        (c0 :: (bs0 ++ (encAll Tok.enc2 ts ++ k :: rest))).length maxout).ret = 0) :=
  ⟨fun c0 rest maxout h => ⟨truncated_first1 c0 rest maxout h, truncated_first2 c0 rest maxout h⟩,
   truncated_later1, truncated_later2⟩

/-- C11 at concrete streams: `02 41 42` announces three literals and holds two;
`00 41 20 00 03 42 43` (Level 1) and `20 41 20 00 03 42 43` (Level 2) hold the
literal `41`, a 3-byte match at distance 1, then the prefix `03` with two bytes
after it instead of four.  All are refused. -/
theorem truncated_literal_run_returns_zero_witness :
    ((fastlz1_decompress [0x02, 0x41, 0x42] 3 100).ret = 0 ∧
      (fastlz2_decompress [0x02, 0x41, 0x42] 3 100).ret = 0) ∧
    (fastlz1_decompress [0x00, 0x41, 0x20, 0x00, 0x03, 0x42, 0x43] 7 100).ret = 0 ∧
    (fastlz2_decompress [0x20, 0x41, 0x20, 0x00, 0x03, 0x42, 0x43] 7 100).ret = 0 :=
  ⟨truncated_literal_run_returns_zero.1 0x02 [0x41, 0x42] 100 (by decide),
   truncated_literal_run_returns_zero.2.1 0x00 [0x41] [Tok.mat 1 0] 3 [0x42, 0x43] 100
     (by decide) (by decide) (by simp [Tok.shape1]) (by decide) (by decide),
   truncated_literal_run_returns_zero.2.2 0x20 [0x41] [Tok.mat 1 0] 3 [0x42, 0x43] 100
     (by decide) (by decide) (by simp [Tok.shape2]) (by decide) (by decide)⟩

/-- C12 (short-input preamble): for both levels, the empty input gives the
returned value 0 and nothing stored, and an input `B` of `N` bytes with
`1 ≤ N < 4` gives the returned value `N + 1` and the output bytes `N - 1`
followed by the `N` bytes of `B`. -/
theorem short_input_preamble (B : List Nat) (hB : ∀ b ∈ B, b < 256) (h4 : B.length < 4) :
    (B = [] →
      fastlz_compress_level 1 B = { ret := 0, buf := [] } ∧
      fastlz_compress_level 2 B = { ret := 0, buf := [] }) ∧
    (B ≠ [] →
      fastlz_compress_level 1 B = { ret := B.length + 1, buf := (B.length - 1) :: B } ∧
      fastlz_compress_level 2 B = { ret := B.length + 1, buf := (B.length - 1) :: B }) := by
  obtain ⟨he, hn⟩ := shortPath_eq B hB
  have hm : (B.length - 1) % 256 = B.length - 1 := by omega
  rw [hm] at hn
  simp only [fastlz_compress_level, fastlz1_compress, fastlz2_compress, if_pos h4, if_true,
    OfNat.ofNat_ne_one, if_false]
  exact ⟨fun h => ⟨he h, he h⟩, fun h => ⟨hn h, hn h⟩⟩

/-- C12 at the one-byte input `42`: both levels return 2 and store `00 42`. -/
theorem short_input_preamble_witness :
    fastlz_compress_level 1 [0x42] = { ret := 2, buf := [0x00, 0x42] } ∧
    fastlz_compress_level 2 [0x42] = { ret := 2, buf := [0x00, 0x42] } :=
  (short_input_preamble [0x42] (by decide) (by decide)).2 (by decide)

/-- C13, the claim fails for Level 2: on the input `00 01 02 03`,
`fastlz_compress_level 2` stores `23 00 01 02 03`, not `03 00 01 02 03`; the
first byte carries the level marker. -/
theorem four_byte_input_level2_first_byte :
    (fastlz_compress_level 2 [0x00, 0x01, 0x02, 0x03]).buf = [0x23, 0x00, 0x01, 0x02, 0x03] ∧
    (fastlz_compress_level 2 [0x00, 0x01, 0x02, 0x03]).buf ≠ [0x03, 0x00, 0x01, 0x02, 0x03] := by
  decide

/-- C13 (amended): on the input `00 01 02 03` both levels return 5;
`fastlz_compress_level 1` stores exactly `03 00 01 02 03` and
`fastlz_compress_level 2` stores exactly `23 00 01 02 03`, the same bytes with
the level marker set in the first. -/
theorem four_byte_input :
    (fastlz_compress_level 1 [0x00, 0x01, 0x02, 0x03]).ret = 5 ∧
    (fastlz_compress_level 1 [0x00, 0x01, 0x02, 0x03]).buf = [0x03, 0x00, 0x01, 0x02, 0x03] ∧
    (fastlz_compress_level 2 [0x00, 0x01, 0x02, 0x03]).ret = 5 ∧
    (fastlz_compress_level 2 [0x00, 0x01, 0x02, 0x03]).buf =
      [0x03 ||| 0x20, 0x00, 0x01, 0x02, 0x03] := by
  decide

/-- C16, the claim fails: the input `00 01 02 03` compresses at Level 1 to the
5-byte stream `03 00 01 02 03`; with the first byte changed to `00` the stream
reads as the literal `00` and a run of the two literals `02 03`, and
`fastlz_decompress` with `maxout = 4` returns 3, neither 4 nor 0. -/
theorem single_byte_corruption_changes_length :
    (fastlz_compress_level 1 [0x00, 0x01, 0x02, 0x03]).ret = 5 ∧
    (fastlz_compress_level 1 [0x00, 0x01, 0x02, 0x03]).buf = [0x03, 0x00, 0x01, 0x02, 0x03] ∧
    (fastlz_decompress ((fastlz_compress_level 1 [0x00, 0x01, 0x02, 0x03]).buf.set 0 0x00)
      (fastlz_compress_level 1 [0x00, 0x01, 0x02, 0x03]).ret 4).ret = 3 ∧
    (fastlz_decompress ((fastlz_compress_level 1 [0x00, 0x01, 0x02, 0x03]).buf.set 0 0x00)
      (fastlz_compress_level 1 [0x00, 0x01, 0x02, 0x03]).ret 4).out = [0x00, 0x02, 0x03] := by
  decide

/-- C16 (amended): for every input `B` and every stream obtained from
`fastlz_compress_level 1 B` by changing the byte at any index `i` to any value
`v`, `fastlz_decompress` with `maxout = |B|` returns a length of at most `|B|`,
stores at most `|B|` bytes, and a returned length other than 0 is the number of
bytes stored. -/
theorem single_byte_corruption_length_bound (B : List Nat) (i v : Nat) :
    (fastlz_decompress ((fastlz_compress_level 1 B).buf.set i v)
      (fastlz_compress_level 1 B).ret B.length).ret ≤ B.length ∧
    (fastlz_decompress ((fastlz_compress_level 1 B).buf.set i v)
      (fastlz_compress_level 1 B).ret B.length).out.length ≤ B.length ∧
    ((fastlz_decompress ((fastlz_compress_level 1 B).buf.set i v)
      (fastlz_compress_level 1 B).ret B.length).ret ≠ 0 →
     (fastlz_decompress ((fastlz_compress_level 1 B).buf.set i v)
      (fastlz_compress_level 1 B).ret B.length).ret =
     (fastlz_decompress ((fastlz_compress_level 1 B).buf.set i v)
      (fastlz_compress_level 1 B).ret B.length).out.length) := by
  obtain ⟨h1, h2, h3⟩ := fastlz_decompress_write_safe
    ((fastlz_compress_level 1 B).buf.set i v) (fastlz_compress_level 1 B).ret B.length
  exact ⟨h2, h1, h3⟩

/-- C14 (Level-1 reference-decoder agreement): for every non-empty input `B`
of bytes, `REF_Level1_decompress` applied to the output buffer and returned
length of `fastlz_compress_level 1 B` stores exactly the bytes of `B`, and so
does `fastlz1_decompress` on the same stream with `maxout = |B|`. -/
theorem level1_reference_decoder_agreement (B : List Nat) (hne : B ≠ [])
    (hB : ∀ b ∈ B, b < 256) :
    REF_Level1_decompress (fastlz_compress_level 1 B).buf (fastlz_compress_level 1 B).ret = B ∧
    (fastlz1_decompress (fastlz_compress_level 1 B).buf (fastlz_compress_level 1 B).ret
      B.length).out = B := by
  have h1 : 1 ≤ B.length := List.length_pos.mpr hne
  have hp := CPost_fastlz1_compress B h1
  have hr := ref1_of_CPost B _ hp
  have hd := (decode1_of_CPost B _ hp B.length).2.1 (le_refl _)
  rw [bytes_of_lt B hB] at hr hd
  simp only [fastlz_compress_level, if_true]
  exact ⟨hr, hd.2.1⟩

/-- C15 (Level-2 reference-decoder agreement): for every non-empty input `B`
of bytes whose length fits the `int length` parameter, `REF_Level2_decompress`
applied to the stream of `fastlz_compress_level 2 B` with the level-marker
bits of its first byte cleared (first byte AND 31) stores exactly the bytes of
`B`, and so does `fastlz2_decompress` on the stream as produced, with
`maxout = |B|`. -/
theorem level2_reference_decoder_agreement (B : List Nat) (hne : B ≠ [])
    (hB : ∀ b ∈ B, b < 256) (hlen : B.length < 2 ^ 31) :
    REF_Level2_decompress
      ((fastlz_compress_level 2 B).buf.set 0 (rd (fastlz_compress_level 2 B).buf 0 &&& 31))
      (fastlz_compress_level 2 B).ret = B ∧
    (fastlz2_decompress (fastlz_compress_level 2 B).buf (fastlz_compress_level 2 B).ret
      B.length).out = B := by
  have h1 : 1 ≤ B.length := List.length_pos.mpr hne
  simp only [fastlz_compress_level, OfNat.ofNat_ne_one, if_false, if_true]
  unfold fastlz2_compress
  split_ifs with h4
  · have hp := CPost_shortPath Tok.enc2 Tok.shape2 ml1 enc2_lit shape2_lit B h1 h4
    have hr := ref2_of_CPost B _ hp _ (clear_marker B _ hp).2
    have hd := decode2_unmarked_of_CPost B _ hp (by omega) B.length (le_refl _)
    rw [bytes_of_lt B hB] at hr hd
    exact ⟨hr, hd.2⟩
  · dsimp only
    have hp := CPost_fastlz2_main B (by omega)
    have hr := ref2_of_CPost B _ hp _ (clear_marker B _ hp).1
    have hd := (decode2_of_CPost B _ hp (by omega) B.length).2.1 (le_refl _)
    rw [bytes_of_lt B hB] at hr hd
    exact ⟨hr, hd.2.1⟩
/-- C14 at the 20-byte input `abcabcabcabcabcabcab`, whose stream holds a long
match. -/
theorem level1_reference_decoder_agreement_witness :
    REF_Level1_decompress
      (fastlz_compress_level 1
        [97, 98, 99, 97, 98, 99, 97, 98, 99, 97, 98, 99, 97, 98, 99, 97, 98, 99, 97, 98]).buf
      (fastlz_compress_level 1
        [97, 98, 99, 97, 98, 99, 97, 98, 99, 97, 98, 99, 97, 98, 99, 97, 98, 99, 97, 98]).ret =
      [97, 98, 99, 97, 98, 99, 97, 98, 99, 97, 98, 99, 97, 98, 99, 97, 98, 99, 97, 98] ∧
    (fastlz1_decompress
      (fastlz_compress_level 1
        [97, 98, 99, 97, 98, 99, 97, 98, 99, 97, 98, 99, 97, 98, 99, 97, 98, 99, 97, 98]).buf
      (fastlz_compress_level 1
        [97, 98, 99, 97, 98, 99, 97, 98, 99, 97, 98, 99, 97, 98, 99, 97, 98, 99, 97, 98]).ret
      [97, 98, 99, 97, 98, 99, 97, 98, 99, 97, 98, 99, 97, 98, 99, 97, 98, 99, 97, 98].length).out =
      [97, 98, 99, 97, 98, 99, 97, 98, 99, 97, 98, 99, 97, 98, 99, 97, 98, 99, 97, 98] :=
  level1_reference_decoder_agreement _ (by decide) (by decide)
/-- C15 at the 20-byte input `abcabcabcabcabcabcab`, whose stream holds a long
match. -/
theorem level2_reference_decoder_agreement_witness :
    REF_Level2_decompress
      ((fastlz_compress_level 2
        [97, 98, 99, 97, 98, 99, 97, 98, 99, 97, 98, 99, 97, 98, 99, 97, 98, 99, 97, 98]).buf.set 0
        (rd (fastlz_compress_level 2
          [97, 98, 99, 97, 98, 99, 97, 98, 99, 97, 98, 99, 97, 98, 99, 97, 98, 99, 97, 98]).buf 0 &&& 31))
      (fastlz_compress_level 2
        [97, 98, 99, 97, 98, 99, 97, 98, 99, 97, 98, 99, 97, 98, 99, 97, 98, 99, 97, 98]).ret =
      [97, 98, 99, 97, 98, 99, 97, 98, 99, 97, 98, 99, 97, 98, 99, 97, 98, 99, 97, 98] ∧
    (fastlz2_decompress
      (fastlz_compress_level 2
        [97, 98, 99, 97, 98, 99, 97, 98, 99, 97, 98, 99, 97, 98, 99, 97, 98, 99, 97, 98]).buf
      (fastlz_compress_level 2
        [97, 98, 99, 97, 98, 99, 97, 98, 99, 97, 98, 99, 97, 98, 99, 97, 98, 99, 97, 98]).ret
      [97, 98, 99, 97, 98, 99, 97, 98, 99, 97, 98, 99, 97, 98, 99, 97, 98, 99, 97, 98].length).out =
      [97, 98, 99, 97, 98, 99, 97, 98, 99, 97, 98, 99, 97, 98, 99, 97, 98, 99, 97, 98] :=
  level2_reference_decoder_agreement _ (by decide) (by decide) (by decide)

/-- C17 (Adler-32 correctness): for every buffer `b` of bytes, of any length,
`update_adler32(1, b)` is the RFC 1950 value `(s2 << 16) + s1` with
`s1 = (1 + sum of the bytes) mod 65521` and `s2 = (sum of the successive s1
values) mod 65521`, and no addition in it overflows a 32-bit accumulator; it
gives 1 for the empty buffer, `0x00620062` for `a` and `0x024d0127` for
`abc`. -/
theorem adler32_matches_rfc1950 (b : List Nat) (hb : ∀ x ∈ b, x < 256) :
    update_adler32 1 b b.length = specAdler32 b ∧
    adlerOverflow 1 b b.length = false ∧
    update_adler32 1 [] 0 = 1 ∧
    update_adler32 1 [0x61] 1 = 0x00620062 ∧
    update_adler32 1 [0x61, 0x62, 0x63] 3 = 0x024d0127 := by
  obtain ⟨e, _, _, hov⟩ := update_adler32_spec 1 b b.length
  obtain ⟨h1, h2⟩ := update_adler32_one b hb
  refine ⟨?_, hov, by decide, by decide, by decide⟩
  rw [e, h1, h2, specAdler32, Nat.shiftLeft_eq]
  omega
/-- C17 at a buffer of 5553 bytes `a`, which takes two blocks of the loop. -/
theorem adler32_matches_rfc1950_witness :
    update_adler32 1 (List.replicate 5553 0x61) (List.replicate 5553 0x61).length =
      specAdler32 (List.replicate 5553 0x61) ∧
    adlerOverflow 1 (List.replicate 5553 0x61) (List.replicate 5553 0x61).length = false :=
  ⟨(adler32_matches_rfc1950 (List.replicate 5553 0x61)
      (fun _ hx => by rw [List.eq_of_mem_replicate hx]; decide)).1,
   (adler32_matches_rfc1950 (List.replicate 5553 0x61)
      (fun _ hx => by rw [List.eq_of_mem_replicate hx]; decide)).2.1⟩

/-- C18 (Adler-32 chaining): for all buffers `x` and `y`,
`update_adler32(update_adler32(1, x), y)` is `update_adler32(1, x ++ y)`; so
the checksum of the file-entry chunk, computed over the 10 bytes of the header
and then over the name, is the checksum of the header followed by the name. -/
theorem adler32_chaining (x y : List Nat) :
    update_adler32 (update_adler32 1 x x.length) y y.length =
      update_adler32 1 (x ++ y) (x ++ y).length ∧
    (x.length = 10 → fileEntryChecksum x y = update_adler32 1 (x ++ y) (x ++ y).length) := by
  have h := update_adler32_chain x y
  refine ⟨h, fun h10 => ?_⟩
  simp only [fileEntryChecksum, ← h10]
  exact h

/-- C19, the claim fails: for the block of 32 bytes `00` the payload of the
data chunk is `21 00 00 E0 12 00 02 00 00 00`, the Level-2 stream of the block
(level marker set, a run at distance 1), while `fastlz_compress_level 1` gives
`01 00 00 E0 12 01 02 00 00 00`. -/
theorem data_chunk_payload_not_level1 :
    (packBlock 1 (List.replicate 32 0)).drop 16 = [0x21, 0, 0, 0xE0, 0x12, 0, 0x02, 0, 0, 0] ∧
    (fastlz_compress_level 1 (List.replicate 32 0)).buf.take
      (fastlz_compress_level 1 (List.replicate 32 0)).ret =
      [0x01, 0, 0, 0xE0, 0x12, 0x01, 0x02, 0, 0, 0] ∧
    (packBlock 1 (List.replicate 32 0)).drop 16 ≠
      (fastlz_compress_level 1 (List.replicate 32 0)).buf.take
        (fastlz_compress_level 1 (List.replicate 32 0)).ret := by
  decide

/-- C19 (amended): for every block of at least 32 and at most `BLOCK_SIZE`
bytes packed with method 1, the bytes written are a 16-byte header with id 17,
options 1, size = payload length, checksum = Adler-32 of the payload and
extra = the block length, followed by the payload, which is exactly the stream
of `fastlz_compress_level 2` on the block. -/
theorem data_chunk_is_level2 (block : List Nat) (h32 : 32 ≤ block.length)
    (hmax : block.length ≤ BLOCK_SIZE) :
    (packBlock 1 block).length = 16 + (fastlz_compress_level 2 block).ret ∧
    (packBlock 1 block).drop 16 =
      (fastlz_compress_level 2 block).buf.take (fastlz_compress_level 2 block).ret ∧
    le16 (packBlock 1 block) 0 = 17 ∧
    le16 (packBlock 1 block) 2 = 1 ∧
    le32 (packBlock 1 block) 4 = (fastlz_compress_level 2 block).ret ∧
    le32 (packBlock 1 block) 8 =
      update_adler32 1
        ((fastlz_compress_level 2 block).buf.take (fastlz_compress_level 2 block).ret)
        (fastlz_compress_level 2 block).ret ∧
    le32 (packBlock 1 block) 12 = block.length := by
  have hm : ¬ (block.length < 32) := by omega
  have hsz := (compress_size block).2.1
  have hle := fastlz2_ret_le block
  have hck := update_adler32_spec 1 (fastlz2_compress block).buf (fastlz2_compress block).ret
  have hcg := update_adler32_congr 1
    ((fastlz2_compress block).buf.take (fastlz2_compress block).ret) (fastlz2_compress block).buf
    (fastlz2_compress block).ret (fun i hi => rd_take _ _ _ hi)
  simp only [BLOCK_SIZE] at hmax
  simp only [packBlock, if_neg hm, if_true, fastlz_compress_level, OfNat.ofNat_ne_one, if_false,
    hcg]
  have hf := chunk_fields 17 1 (fastlz2_compress block).ret
    (update_adler32 1 (fastlz2_compress block).buf (fastlz2_compress block).ret) block.length
    ((fastlz2_compress block).buf.take (fastlz2_compress block).ret)
    (by decide) (by decide) (by omega) (by omega) (by omega)
  rw [List.length_take, Nat.min_eq_left hle] at hf
  exact hf
/-- C19 (amended) at the block of 32 bytes `00`. -/
theorem data_chunk_is_level2_witness :
    (packBlock 1 (List.replicate 32 0)).length =
      16 + (fastlz_compress_level 2 (List.replicate 32 0)).ret ∧
    (packBlock 1 (List.replicate 32 0)).drop 16 =
      (fastlz_compress_level 2 (List.replicate 32 0)).buf.take
        (fastlz_compress_level 2 (List.replicate 32 0)).ret ∧
    le16 (packBlock 1 (List.replicate 32 0)) 0 = 17 ∧
    le16 (packBlock 1 (List.replicate 32 0)) 2 = 1 ∧
    le32 (packBlock 1 (List.replicate 32 0)) 4 =
      (fastlz_compress_level 2 (List.replicate 32 0)).ret ∧
    le32 (packBlock 1 (List.replicate 32 0)) 8 =
      update_adler32 1
        ((fastlz_compress_level 2 (List.replicate 32 0)).buf.take
          (fastlz_compress_level 2 (List.replicate 32 0)).ret)
        (fastlz_compress_level 2 (List.replicate 32 0)).ret ∧
    le32 (packBlock 1 (List.replicate 32 0)) 12 = (List.replicate 32 0).length :=
  data_chunk_is_level2 (List.replicate 32 0) (by decide) (by decide)

/-- C20, the claim fails: the output of `fastlz_compress_level 1` on 1000 bytes
`AA` begins with the byte `01`, not `1F` (the prefix is set to the run length
minus one when the match closes the run), and the first match opcode
`E0 FD 01` has the distance field 1, a match at distance 2, not a run at
distance 1. -/
theorem run_input_level1_first_bytes :
    rd (fastlz_compress_level 1 (List.replicate 1000 0xAA)).buf 0 = 0x01 ∧
    rd (fastlz_compress_level 1 (List.replicate 1000 0xAA)).buf 0 ≠ 0x1F ∧
    (fastlz_compress_level 1 (List.replicate 1000 0xAA)).buf.take 6 =
      Tok.enc1 (Tok.lit [0xAA, 0xAA]) ++ Tok.enc1 (Tok.mat 260 1) := by
  simp only [fastlz_compress_level, if_true, compress1_run1000.2]
  decide

/-- C20 (amended): for the input of 1000 bytes `AA`, `fastlz_compress_level 1`
returns 19 and stores `01 AA AA E0 FD 01 E0 FD 01 E0 FD 01 E0 C8 01 02 AA AA
AA`: the literal-run prefix `01` with two literals, then four match opcodes
with distance field 1 (distance 2) that stand for 262, 262, 262 and 209 bytes,
then a run of three literals. -/
theorem run_input_level1_stream :
    (fastlz_compress_level 1 (List.replicate 1000 0xAA)).ret = 19 ∧
    (fastlz_compress_level 1 (List.replicate 1000 0xAA)).buf =
      [0x01, 0xAA, 0xAA, 0xE0, 0xFD, 0x01, 0xE0, 0xFD, 0x01, 0xE0, 0xFD, 0x01,
       0xE0, 0xC8, 0x01, 0x02, 0xAA, 0xAA, 0xAA] ∧
    (fastlz_compress_level 1 (List.replicate 1000 0xAA)).buf =
      encAll Tok.enc1 [Tok.lit [0xAA, 0xAA], Tok.mat 260 1, Tok.mat 260 1, Tok.mat 260 1,
        Tok.mat 207 1, Tok.lit [0xAA, 0xAA, 0xAA]] ∧
    ml1 260 = 262 ∧ ml1 207 = 209 := by
  simp only [fastlz_compress_level, if_true, compress1_run1000.1, compress1_run1000.2]
  decide

/-- C21 (Level-2 byte runs): for every byte `b` and every `N ≥ 16`,
`fastlz_compress_level 2` on `N` bytes `b` returns `10 + (N - 14) / 255` and
stores exactly `21 b b E0`, then `(N - 14) / 255` bytes `FF`, then the byte
`(N - 14) mod 255`, then `00 02 b b b`; with the marker bits cleared this is
the encoding of a run of two literals, one match with length field `N - 7`
and distance field 0 (distance 1), and a run of three literals. -/
theorem level2_byte_runs (b N : Nat) (hb : b < 256) (hN : 16 ≤ N) :
    (fastlz_compress_level 2 (List.replicate N b)).ret = 10 + (N - 14) / 255 ∧
    (fastlz_compress_level 2 (List.replicate N b)).buf =
      [0x21, b, b, 0xE0] ++ List.replicate ((N - 14) / 255) 0xFF ++
        [(N - 14) % 255, 0x00, 0x02, b, b, b] ∧
    (fastlz_compress_level 2 (List.replicate N b)).buf.set 0
        (rd (fastlz_compress_level 2 (List.replicate N b)).buf 0 &&& 31) =
      encAll Tok.enc2 [Tok.lit [b, b], Tok.mat (N - 7) 0, Tok.lit [b, b, b]] := by
  have h := run2_result (List.replicate N b) N b (List.length_replicate _ _) hN hb
    (fun i hi => by rw [rd_replicate N b i hi, Nat.mod_eq_of_lt hb])
  have hl : fastlz_compress_level 2 (List.replicate N b) = fastlz2_compress (List.replicate N b) := by
    simp only [fastlz_compress_level, OfNat.ofNat_ne_one, if_false, if_true]
  rw [hl]
  refine ⟨h.1, h.2, ?_⟩
  rw [h.2]
  have h7 : ¬ (N - 7 < 7) := by omega
  have e1 : N - 7 - 7 = N - 14 := by omega
  have e33 : (33 : Nat) &&& 31 = 1 := by decide
  simp [rd, encAll, Tok.enc2, Tok.hdr2, Tok.body2, chainBytes, h7, e1, e33]
/-- C21 at 1000 bytes `AA`: the length of the single match is stored with the
chain `FF FF FF DD`. -/
theorem level2_byte_runs_witness :
    (fastlz_compress_level 2 (List.replicate 1000 0xAA)).ret = 13 ∧
    (fastlz_compress_level 2 (List.replicate 1000 0xAA)).buf =
      [0x21, 0xAA, 0xAA, 0xE0, 0xFF, 0xFF, 0xFF, 0xDD, 0x00, 0x02, 0xAA, 0xAA, 0xAA] ∧
    (fastlz_compress_level 2 (List.replicate 1000 0xAA)).buf.set 0
        (rd (fastlz_compress_level 2 (List.replicate 1000 0xAA)).buf 0 &&& 31) =
      encAll Tok.enc2 [Tok.lit [0xAA, 0xAA], Tok.mat 993 0, Tok.lit [0xAA, 0xAA, 0xAA]] :=
  level2_byte_runs 0xAA 1000 (by decide) (by decide)

/-- C22, the claim fails: on 1000 bytes `AA`, `fastlz1_compress` encodes a
match of biased length 993; the maximum-length block stored after the first
literal run is `E0 FD 01`, whose second byte is 253, not 255. -/
theorem long_match_block_length_byte :
    (fastlz_compress_level 1 (List.replicate 1000 0xAA)).buf.take 6 =
      [0x01, 0xAA, 0xAA, 0xE0, 0xFD, 0x01] ∧
    rd (fastlz_compress_level 1 (List.replicate 1000 0xAA)).buf 4 ≠ 255 ∧
    emitLong1 1 993 993 [0x01, 0xAA, 0xAA] =
      (207, [0x01, 0xAA, 0xAA, 0xE0, 0xFD, 0x01, 0xE0, 0xFD, 0x01, 0xE0, 0xFD, 0x01]) := by
  refine ⟨?_, ?_, by decide⟩
  · simp only [fastlz_compress_level, if_true, compress1_run1000.2]
    decide
  · simp only [fastlz_compress_level, if_true, compress1_run1000.2]
    decide

/-- C22 (amended): the loop `while (len > MAX_LEN - 2)` of `fastlz1_compress`,
entered with the biased length `len` of a match at biased distance `d`, stores
`(len - 1) / 262` maximum-length blocks, each the three bytes
`(7 << 5) + (d >> 8)`, 253, `d & 255`, each taking 262 off `len`, and leaves a
`len` of at most 262 (at least 1 when it started above 262); for `d < 8192`
such a block is the opcode of a match of 262 bytes. -/
theorem long_match_splitting (d len : Nat) (out : List Nat) :
    emitLong1 d len len out =
      (len - 262 * ((len - 1) / 262),
        out ++ (List.replicate ((len - 1) / 262)
          [((7 <<< 5) + (d >>> 8)) % 256, 253, (d &&& 255) % 256]).flatten) ∧
    (emitLong1 d len len out).1 ≤ 262 ∧
    (262 < len → 1 ≤ (emitLong1 d len len out).1 ∧ 1 ≤ (len - 1) / 262) ∧
    (d < 8192 → [((7 <<< 5) + (d >>> 8)) % 256, 253, (d &&& 255) % 256] =
      Tok.enc1 (Tok.mat 260 d) ∧ ml1 260 = 262) := by
  have h := emitLong1_spec d len len out (le_refl _)
  refine ⟨h, ?_, ?_, ?_⟩
  · rw [h]; simp only; omega
  · intro hl; rw [h]; simp only; omega
  · intro hd
    refine ⟨?_, rfl⟩
    have e1 : ((7 <<< 5) + (d >>> 8)) % 256 = 224 + d / 256 := by
      have : (7 : Nat) <<< 5 = 224 := by decide
      rw [this, Nat.shiftRight_eq_div_pow]; omega
    rw [e1, and255]
    simp [Tok.enc1, Tok.hdr1, Tok.body1]


/-- C23 (Level-1 match ranges): for every input, the stream `fastlz1_compress`
returns is a sequence of Level-1 opcodes, and every match opcode of it, with
first byte `c` at its place `p` in the stream, has `c ≥ 32`; its length is
`2 + (c >> 5)` with one more byte when `c >> 5 < 7`, and `9 +` the next byte
with two more bytes when `c >> 5 = 7`; its distance is the 13-bit field
`(c & 31) << 8 | last byte` plus 1; the length is between 3 and 264 and the
distance between 1 and 8192. -/
theorem level1_match_ranges (B : List Nat) :
    (∃ toks, Opcodes Tok.enc1 Tok.shape1 (fastlz1_compress B).stream toks) ∧
    ∀ (pre post : List Tok) (len d : Nat),
      Opcodes Tok.enc1 Tok.shape1 (fastlz1_compress B).stream (pre ++ Tok.mat len d :: post) →
        32 ≤ rd (fastlz1_compress B).stream (encAll Tok.enc1 pre).length ∧
        (rd (fastlz1_compress B).stream (encAll Tok.enc1 pre).length >>> 5 < 7 →
          (Tok.enc1 (Tok.mat len d)).length = 2 ∧
          ml1 len = 2 + rd (fastlz1_compress B).stream (encAll Tok.enc1 pre).length >>> 5 ∧
          d + 1 = ((rd (fastlz1_compress B).stream (encAll Tok.enc1 pre).length &&& 31) <<< 8) +
            rd (fastlz1_compress B).stream ((encAll Tok.enc1 pre).length + 1) + 1) ∧
        (¬ rd (fastlz1_compress B).stream (encAll Tok.enc1 pre).length >>> 5 < 7 →
          rd (fastlz1_compress B).stream (encAll Tok.enc1 pre).length >>> 5 = 7 ∧
          (Tok.enc1 (Tok.mat len d)).length = 3 ∧
          ml1 len = 9 + rd (fastlz1_compress B).stream ((encAll Tok.enc1 pre).length + 1) ∧
          d + 1 = ((rd (fastlz1_compress B).stream (encAll Tok.enc1 pre).length &&& 31) <<< 8) +
            rd (fastlz1_compress B).stream ((encAll Tok.enc1 pre).length + 2) + 1) ∧
        3 ≤ ml1 len ∧ ml1 len ≤ 264 ∧ 1 ≤ d + 1 ∧ d + 1 ≤ 8192 := by
  obtain ⟨toks, ho, _, _, _, hb⟩ := stream1_spec B
  refine ⟨⟨toks, ho⟩, ?_⟩
  intro pre post len d h
  have hat := Opcodes_at _ _ _ pre post _ h hb
  obtain ⟨h1, h2, h3⟩ := h.2 (Tok.mat len d) (by simp)
  generalize (fastlz1_compress B).stream = s at *
  generalize (encAll Tok.enc1 pre).length = p at *
  have hdec : ∀ a, a < 8 → ∀ b, b < 32 →
      (a * 32 + b) >>> 5 = a ∧ ((a * 32 + b) &&& 31) <<< 8 = b * 256 := by decide
  have hb32 : d / 256 < 32 := by omega
  by_cases c : len < 7
  · simp only [Tok.enc1, Tok.hdr1, Tok.body1, if_pos c, At_cons] at hat
    obtain ⟨e0, e1, _⟩ := hat
    obtain ⟨k1, k2⟩ := hdec len (by omega) (d / 256) hb32
    rw [e0, e1, k1, k2]
    simp only [Tok.enc1, Tok.body1, if_pos c, ml1, List.length_cons, List.length_nil]
    refine ⟨by omega, fun _ => ⟨trivial, by omega, by omega⟩, fun h => absurd c h, by omega,
      by omega, by omega, by omega⟩
  · simp only [Tok.enc1, Tok.hdr1, Tok.body1, if_neg c, At_cons] at hat
    obtain ⟨e0, e1, e2, _⟩ := hat
    obtain ⟨k1, k2⟩ := hdec 7 (by omega) (d / 256) hb32
    rw [show p + 1 + 1 = p + 2 from rfl] at e2
    rw [e0, e1, e2, show 224 + d / 256 = 7 * 32 + d / 256 from rfl, k1, k2]
    simp only [Tok.enc1, Tok.body1, if_neg c, ml1, List.length_cons, List.length_nil]
    refine ⟨by omega, fun h => absurd h (by omega), fun _ => ⟨trivial, trivial, by omega, by omega⟩,
      by omega, by omega, by omega, by omega⟩

theorem level1_match_ranges_witness :
    32 ≤ rd (fastlz1_compress
        [97, 98, 99, 97, 98, 99, 97, 98, 99, 97, 98, 99, 97, 98, 99, 97, 98, 99, 97, 98]).stream
      (encAll Tok.enc1 [Tok.lit [97, 98, 99]]).length ∧
    3 ≤ ml1 12 ∧ ml1 12 ≤ 264 ∧ 1 ≤ 2 + 1 ∧ 2 + 1 ≤ 8192 :=
  ⟨((level1_match_ranges
      [97, 98, 99, 97, 98, 99, 97, 98, 99, 97, 98, 99, 97, 98, 99, 97, 98, 99, 97, 98]).2
      [Tok.lit [97, 98, 99]] [Tok.lit [99, 97, 98]] 12 2
      ⟨by decide, by simp [Tok.shape1]⟩).1,
   ((level1_match_ranges
      [97, 98, 99, 97, 98, 99, 97, 98, 99, 97, 98, 99, 97, 98, 99, 97, 98, 99, 97, 98]).2
      [Tok.lit [97, 98, 99]] [Tok.lit [99, 97, 98]] 12 2
      ⟨by decide, by simp [Tok.shape1]⟩).2.2.2⟩

/-- C24 (minimum match lengths): for every input, the streams of
`fastlz1_compress` and of `fastlz2_compress` (level marker cleared) are
sequences of opcodes of their level, and every match opcode of either has a
length field of at least 1, in the top three bits of its first byte, and stands
for at least 3 bytes; a match of `fastlz2_compress` with distance at least 8192
stands for at least 5 bytes.  At Level 2 the length the decoder computes in its
`uint32_t` is the length of the match when the input is shorter than `2^32`. -/
theorem minimum_match_lengths (B : List Nat) :
    ((∃ toks, Opcodes Tok.enc1 Tok.shape1 (fastlz1_compress B).stream toks) ∧
      ∀ (pre post : List Tok) (len d : Nat),
        Opcodes Tok.enc1 Tok.shape1 (fastlz1_compress B).stream
            (pre ++ Tok.mat len d :: post) →
          1 ≤ len ∧ 1 ≤ rd (fastlz1_compress B).stream (encAll Tok.enc1 pre).length >>> 5 ∧
          3 ≤ ml1 len) ∧
    ((∃ toks, Opcodes Tok.enc2 Tok.shape2 (clearLevel (fastlz2_compress B).stream) toks) ∧
      ∀ (pre post : List Tok) (len d : Nat),
        Opcodes Tok.enc2 Tok.shape2 (clearLevel (fastlz2_compress B).stream)
            (pre ++ Tok.mat len d :: post) →
          1 ≤ len ∧
          1 ≤ rd (clearLevel (fastlz2_compress B).stream) (encAll Tok.enc2 pre).length >>> 5 ∧
          3 ≤ ml1 len ∧ (B.length < 2 ^ 32 → ml2 len = ml1 len) ∧
          (8192 ≤ d + 1 → 3 ≤ len ∧ 5 ≤ ml1 len)) := by
  have hdec : ∀ a, a < 8 → ∀ b, b < 32 → (a * 32 + b) >>> 5 = a := by decide
  constructor
  · obtain ⟨toks, ho, _, _, _, hb⟩ := stream1_spec B
    refine ⟨⟨toks, ho⟩, ?_⟩
    intro pre post len d h
    have hat := Opcodes_at _ _ _ pre post _ h hb
    obtain ⟨h1, h2, h3⟩ := h.2 (Tok.mat len d) (by simp)
    simp only [Tok.enc1, At_cons] at hat
    obtain ⟨e0, _⟩ := hat
    rw [e0]
    have hb32 : d / 256 < 32 := by omega
    refine ⟨h1, ?_, by simp only [ml1]; omega⟩
    simp only [Tok.hdr1]
    split_ifs with c
    · rw [hdec len (by omega) _ hb32]; exact h1
    · rw [show 224 + d / 256 = 7 * 32 + d / 256 from rfl, hdec 7 (by omega) _ hb32]; omega
  · obtain ⟨toks, ho, _, ha, _, hb⟩ := stream2_spec B
    refine ⟨⟨toks, Opcodes_shape2s _ _ ho⟩, ?_⟩
    intro pre post len d h
    have e := Opcodes_unique2 _ _ _ h (Opcodes_shape2s _ _ ho)
    subst e
    have hat := Opcodes_at _ _ _ pre post _ h hb
    obtain ⟨h1, h2, h3⟩ := ho.2 (Tok.mat len d) (by simp)
    simp only [MAX_FARDISTANCE, MAX_L2_DISTANCE] at h2 h3
    simp only [Tok.enc2, At_cons] at hat
    obtain ⟨e0, _⟩ := hat
    rw [e0]
    have hsz := size_le_sizeAll ml1 (Tok.mat len d) (pre ++ Tok.mat len d :: post) (by simp)
    have hlen := applyAll_length ml1 (pre ++ Tok.mat len d :: post) []
    rw [ha, bytes_length] at hlen
    simp only [Tok.size, ml1, List.length_nil] at hsz hlen
    have hD : (if d < 8191 then d / 256 else 31) < 32 := by split_ifs <;> omega
    refine ⟨h1, ?_, by simp only [ml1]; omega, ?_, ?_⟩
    · simp only [Tok.hdr2]
      split_ifs with c1 c2 c2
      · rw [hdec len (by omega) _ (by omega)]; exact h1
      · rw [hdec len (by omega) _ (by omega)]; exact h1
      · rw [hdec 7 (by omega) _ (by omega)]; omega
      · rw [hdec 7 (by omega) _ (by omega)]; omega
    · intro hB
      simp only [ml2, ml1]
      rw [Nat.mod_eq_of_lt (by omega)]
      omega
    · intro hfar
      have := h3 (by omega)
      simp only [ml1]
      omega

theorem minimum_match_lengths_witness :
    (1 ≤ 12 ∧
      1 ≤ rd (fastlz1_compress
          [97, 98, 99, 97, 98, 99, 97, 98, 99, 97, 98, 99, 97, 98, 99, 97, 98, 99, 97, 98]).stream
        (encAll Tok.enc1 [Tok.lit [97, 98, 99]]).length >>> 5 ∧
      3 ≤ ml1 12) ∧
    (1 ≤ 12 ∧
      1 ≤ rd (clearLevel (fastlz2_compress
          [97, 98, 99, 97, 98, 99, 97, 98, 99, 97, 98, 99, 97, 98, 99, 97, 98, 99, 97, 98]).stream)
        (encAll Tok.enc2 [Tok.lit [97, 98, 99]]).length >>> 5 ∧
      3 ≤ ml1 12 ∧
      ([97, 98, 99, 97, 98, 99, 97, 98, 99, 97, 98, 99, 97, 98, 99, 97, 98, 99, 97, 98].length < 2 ^ 32 →
        ml2 12 = ml1 12) ∧
      (8192 ≤ 2 + 1 → 3 ≤ 12 ∧ 5 ≤ ml1 12)) :=
  ⟨(minimum_match_lengths
      [97, 98, 99, 97, 98, 99, 97, 98, 99, 97, 98, 99, 97, 98, 99, 97, 98, 99, 97, 98]).1.2
      [Tok.lit [97, 98, 99]] [Tok.lit [99, 97, 98]] 12 2
      ⟨by decide, by simp [Tok.shape1]⟩,
   (minimum_match_lengths
      [97, 98, 99, 97, 98, 99, 97, 98, 99, 97, 98, 99, 97, 98, 99, 97, 98, 99, 97, 98]).2.2
      [Tok.lit [97, 98, 99]] [Tok.lit [99, 97, 98]] 12 2
      ⟨by decide, by simp [Tok.shape2]⟩⟩

/-- C25 (match soundness): for every input `B` of `N` bytes and both levels,
the stream the compressor returns is a sequence of opcodes of the level, and
every match opcode of it, with the opcodes
before it standing for the first `a` input bytes, with distance `d + 1` and
length `m`, has `1 ≤ d + 1 ≤ a`, `a + m ≤ N`, and `B[a + i] = B[a + i - (d + 1)]`
for every `i < m`. -/
theorem match_soundness (B : List Nat) :
    ((∃ toks, Opcodes Tok.enc1 Tok.shape1 (fastlz1_compress B).stream toks) ∧
      ∀ (pre post : List Tok) (len d : Nat),
        Opcodes Tok.enc1 Tok.shape1 (fastlz1_compress B).stream
            (pre ++ Tok.mat len d :: post) →
          applyAll ml1 [] pre = (bytes B).take (sizeAll ml1 pre) ∧
          1 ≤ d + 1 ∧ d + 1 ≤ sizeAll ml1 pre ∧ sizeAll ml1 pre + ml1 len ≤ B.length ∧
          ∀ i, i < ml1 len →
            rd B (sizeAll ml1 pre + i) = rd B (sizeAll ml1 pre + i - (d + 1))) ∧
    ((∃ toks, Opcodes Tok.enc2 Tok.shape2 (clearLevel (fastlz2_compress B).stream) toks) ∧
      ∀ (pre post : List Tok) (len d : Nat),
        Opcodes Tok.enc2 Tok.shape2 (clearLevel (fastlz2_compress B).stream)
            (pre ++ Tok.mat len d :: post) →
          applyAll ml1 [] pre = (bytes B).take (sizeAll ml1 pre) ∧
          1 ≤ d + 1 ∧ d + 1 ≤ sizeAll ml1 pre ∧ sizeAll ml1 pre + ml1 len ≤ B.length ∧
          ∀ i, i < ml1 len →
            rd B (sizeAll ml1 pre + i) = rd B (sizeAll ml1 pre + i - (d + 1))) := by
  have key : ∀ (pre post : List Tok) (len d : Nat),
      fitsAll ml1 [] (pre ++ Tok.mat len d :: post) →
      applyAll ml1 [] (pre ++ Tok.mat len d :: post) = bytes B →
        applyAll ml1 [] pre = (bytes B).take (sizeAll ml1 pre) ∧
        1 ≤ d + 1 ∧ d + 1 ≤ sizeAll ml1 pre ∧ sizeAll ml1 pre + ml1 len ≤ B.length ∧
        ∀ i, i < ml1 len →
          rd B (sizeAll ml1 pre + i) = rd B (sizeAll ml1 pre + i - (d + 1)) := by
    intro pre post len d hf ha
    have hX : ∀ b ∈ bytes B, b < 256 := by
      intro b hb
      simp only [bytes, List.mem_map] at hb
      obtain ⟨x, _, rfl⟩ := hb
      exact Nat.mod_lt _ (by decide)
    obtain ⟨k1, _, k3⟩ := opcode_at ml1 (bytes B) hX pre post _ hf ha
    obtain ⟨k4, k5⟩ := k3 len d rfl
    rw [bytes_length] at k1
    refine ⟨?_, by omega, k4, k1, ?_⟩
    · rw [applyAll_append] at ha
      obtain ⟨ext, he⟩ := applyAll_extends ml1 (Tok.mat len d :: post) (applyAll ml1 [] pre)
      rw [he] at ha
      have hl := applyAll_length ml1 pre []
      simp only [List.length_nil, Nat.zero_add] at hl
      rw [← ha, ← hl, List.take_left]
    · intro i hi
      have := k5 i hi
      rwa [rd_bytes, rd_bytes] at this
  constructor
  · obtain ⟨toks, ho, hf, ha, _, hb⟩ := stream1_spec B
    refine ⟨⟨toks, ho⟩, ?_⟩
    intro pre post len d h
    have e := Opcodes_unique1 _ _ _ h ho
    subst e
    exact key pre post len d hf ha
  · obtain ⟨toks, ho, hf, ha, _, hb⟩ := stream2_spec B
    refine ⟨⟨toks, Opcodes_shape2s _ _ ho⟩, ?_⟩
    intro pre post len d h
    have e := Opcodes_unique2 _ _ _ h (Opcodes_shape2s _ _ ho)
    subst e
    exact key pre post len d hf ha

theorem match_soundness_witness :
    (∀ i, i < ml1 12 →
      rd [97, 98, 99, 97, 98, 99, 97, 98, 99, 97, 98, 99, 97, 98, 99, 97, 98, 99, 97, 98]
          (sizeAll ml1 [Tok.lit [97, 98, 99]] + i) =
        rd [97, 98, 99, 97, 98, 99, 97, 98, 99, 97, 98, 99, 97, 98, 99, 97, 98, 99, 97, 98]
          (sizeAll ml1 [Tok.lit [97, 98, 99]] + i - (2 + 1))) ∧
    (∀ i, i < ml1 12 →
      rd [97, 98, 99, 97, 98, 99, 97, 98, 99, 97, 98, 99, 97, 98, 99, 97, 98, 99, 97, 98]
          (sizeAll ml1 [Tok.lit [97, 98, 99]] + i) =
        rd [97, 98, 99, 97, 98, 99, 97, 98, 99, 97, 98, 99, 97, 98, 99, 97, 98, 99, 97, 98]
          (sizeAll ml1 [Tok.lit [97, 98, 99]] + i - (2 + 1))) :=
  ⟨((match_soundness
      [97, 98, 99, 97, 98, 99, 97, 98, 99, 97, 98, 99, 97, 98, 99, 97, 98, 99, 97, 98]).1.2
      [Tok.lit [97, 98, 99]] [Tok.lit [99, 97, 98]] 12 2
      ⟨by decide, by simp [Tok.shape1]⟩).2.2.2.2,
   ((match_soundness
      [97, 98, 99, 97, 98, 99, 97, 98, 99, 97, 98, 99, 97, 98, 99, 97, 98, 99, 97, 98]).2.2
      [Tok.lit [97, 98, 99]] [Tok.lit [99, 97, 98]] 12 2
      ⟨by decide, by simp [Tok.shape2]⟩).2.2.2.2⟩


/-- C27 (Level-2 distance encoding): for every input, the stream of
`fastlz2_compress` (level marker cleared) is a sequence of Level-2 opcodes, and
every match opcode of it, with distance field `d` (the distance minus 1), first
byte at place `p` and last byte at place `q - 1` of the stream, has distance
`d + 1 < 65535 + 8191 - 1`; when `d ≥ 8191` the low 5 bits of its first byte
are 31 and its last three bytes are 255 and the two bytes of the residual
`d - 8191 < 65536`, high byte first; when `d < 8191` the low 5 bits of its first
byte are `d / 256`, its last byte is `d % 256`, and the two are not 31 and
255. -/
theorem level2_distance_encoding (B : List Nat) :
    (∃ toks, Opcodes Tok.enc2 Tok.shape2 (clearLevel (fastlz2_compress B).stream) toks) ∧
    ∀ (pre post : List Tok) (len d : Nat),
      Opcodes Tok.enc2 Tok.shape2 (clearLevel (fastlz2_compress B).stream)
          (pre ++ Tok.mat len d :: post) →
        d + 1 < 65535 + 8191 - 1 ∧
        (8191 ≤ d →
          d - 8191 < 65536 ∧
          rd (clearLevel (fastlz2_compress B).stream) (encAll Tok.enc2 pre).length &&& 31 = 31 ∧
          rd (clearLevel (fastlz2_compress B).stream)
            ((encAll Tok.enc2 pre).length + (Tok.enc2 (Tok.mat len d)).length - 3) = 255 ∧
          rd (clearLevel (fastlz2_compress B).stream)
            ((encAll Tok.enc2 pre).length + (Tok.enc2 (Tok.mat len d)).length - 2) * 256 +
          rd (clearLevel (fastlz2_compress B).stream)
            ((encAll Tok.enc2 pre).length + (Tok.enc2 (Tok.mat len d)).length - 1) =
            d - 8191) ∧
        (d < 8191 →
          rd (clearLevel (fastlz2_compress B).stream) (encAll Tok.enc2 pre).length &&& 31 =
            d / 256 ∧
          rd (clearLevel (fastlz2_compress B).stream)
            ((encAll Tok.enc2 pre).length + (Tok.enc2 (Tok.mat len d)).length - 1) = d % 256 ∧
          ¬ (rd (clearLevel (fastlz2_compress B).stream) (encAll Tok.enc2 pre).length &&& 31 =
              31 ∧
            rd (clearLevel (fastlz2_compress B).stream)
              ((encAll Tok.enc2 pre).length + (Tok.enc2 (Tok.mat len d)).length - 1) =
              255)) := by
  have hdec : ∀ a, a < 8 → ∀ b, b < 32 → (a * 32 + b) &&& 31 = b := by decide
  obtain ⟨toks, ho, _, _, _, hb⟩ := stream2_spec B
  refine ⟨⟨toks, Opcodes_shape2s _ _ ho⟩, ?_⟩
  intro pre post len d h
  have e := Opcodes_unique2 _ _ _ h (Opcodes_shape2s _ _ ho)
  subst e
  have hat := Opcodes_at _ _ _ pre post _ h hb
  obtain ⟨h1, h2, h3⟩ := ho.2 (Tok.mat len d) (by simp)
  simp only [MAX_FARDISTANCE, MAX_L2_DISTANCE] at h2 h3
  generalize (clearLevel (fastlz2_compress B).stream) = s at *
  generalize (encAll Tok.enc2 pre).length = p at *
  have hL : (if len < 7 then len else 7) < 8 := by split_ifs <;> omega
  simp only [Tok.enc2, Tok.hdr2, Tok.body2, At_cons, At_append, List.length_cons,
    List.length_append] at hat ⊢
  generalize (if len < 7 then len else 7) = L at *
  generalize (if len < 7 then [] else chainBytes (len - 7)) = c at *
  obtain ⟨e0, _, hd⟩ := hat
  refine ⟨by omega, ?_, ?_⟩
  · intro hfar
    have c1 : ¬ d < 8191 := by omega
    simp only [if_neg c1, At_cons, List.length_cons, List.length_nil] at hd e0 ⊢
    obtain ⟨e1, e2, e3, _⟩ := hd
    rw [e0, hdec L hL 31 (by omega)]
    rw [show p + (c.length + (0 + 1 + 1 + 1) + 1) - 3 = p + 1 + c.length from by omega,
      show p + (c.length + (0 + 1 + 1 + 1) + 1) - 2 = p + 1 + c.length + 1 from by omega,
      show p + (c.length + (0 + 1 + 1 + 1) + 1) - 1 = p + 1 + c.length + 1 + 1 from by omega,
      e1, e2, e3]
    refine ⟨by omega, rfl, rfl, ?_⟩
    omega
  · intro hnear
    simp only [if_pos hnear, At_cons, List.length_cons, List.length_nil] at hd e0 ⊢
    obtain ⟨e1, _⟩ := hd
    rw [e0, hdec L hL (d / 256) (by omega)]
    rw [show p + (c.length + (0 + 1) + 1) - 1 = p + 1 + c.length from by omega, e1]
    refine ⟨rfl, rfl, ?_⟩
    omega

theorem level2_distance_encoding_witness :
    2 + 1 < 65535 + 8191 - 1 ∧
    rd (clearLevel (fastlz2_compress
        [97, 98, 99, 97, 98, 99, 97, 98, 99, 97, 98, 99, 97, 98, 99, 97, 98, 99, 97, 98]).stream)
      (encAll Tok.enc2 [Tok.lit [97, 98, 99]]).length &&& 31 = 2 / 256 ∧
    rd (clearLevel (fastlz2_compress
        [97, 98, 99, 97, 98, 99, 97, 98, 99, 97, 98, 99, 97, 98, 99, 97, 98, 99, 97, 98]).stream)
      ((encAll Tok.enc2 [Tok.lit [97, 98, 99]]).length +
        (Tok.enc2 (Tok.mat 12 2)).length - 1) = 2 % 256 :=
  ⟨((level2_distance_encoding
      [97, 98, 99, 97, 98, 99, 97, 98, 99, 97, 98, 99, 97, 98, 99, 97, 98, 99, 97, 98]).2
      [Tok.lit [97, 98, 99]] [Tok.lit [99, 97, 98]] 12 2
      ⟨by decide, by simp [Tok.shape2]⟩).1,
   (((level2_distance_encoding
      [97, 98, 99, 97, 98, 99, 97, 98, 99, 97, 98, 99, 97, 98, 99, 97, 98, 99, 97, 98]).2
      [Tok.lit [97, 98, 99]] [Tok.lit [99, 97, 98]] 12 2
      ⟨by decide, by simp [Tok.shape2]⟩).2.2 (by decide)).1,
   (((level2_distance_encoding
      [97, 98, 99, 97, 98, 99, 97, 98, 99, 97, 98, 99, 97, 98, 99, 97, 98, 99, 97, 98]).2
      [Tok.lit [97, 98, 99]] [Tok.lit [99, 97, 98]] 12 2
      ⟨by decide, by simp [Tok.shape2]⟩).2.2 (by decide)).2.1⟩

/-- C26 (literal-run well-formedness): for every input `B` and both levels, at
every state of the main loop and of the loop over the left-over bytes (inputs
of at least 4 bytes; shorter inputs take the short path, which has no loop) the
pending literal count `copy` is in `0 .. 31`, the byte at `op - copy - 1` is in
the output and is the prefix byte `MAX_COPY - 1` of the pending run, the output
before it consists of complete opcodes and the `copy` bytes after it are the
last `copy` input bytes consumed; the returned stream (level marker cleared at
Level 2) is a sequence of opcodes of the level that starts with a literal run
when the input is not empty, and every literal run of it has a prefix byte `k`
in `0 .. 31` followed, within the stream, by exactly `k + 1` literals, which are
the input bytes at consecutive positions. -/
theorem literal_run_well_formed (B : List Nat) :
    (4 ≤ B.length →
      (∀ k, Pending Tok.enc1 Tok.shape1 B (loop1 B k (initState B)).ip
        (loop1 B k (initState B)).out (loop1 B k (initState B)).copy) ∧
      (∀ n, (loop1 B B.length (initState B)).ip + n ≤ B.length →
        Pending Tok.enc1 Tok.shape1 B ((loop1 B B.length (initState B)).ip + n)
          (tailLoop B n (loop1 B B.length (initState B)).ip
            (loop1 B B.length (initState B)).out (loop1 B B.length (initState B)).copy).1
          (tailLoop B n (loop1 B B.length (initState B)).ip
            (loop1 B B.length (initState B)).out (loop1 B B.length (initState B)).copy).2) ∧
      (∀ k, Pending Tok.enc2 Tok.shape2 B (loop2 B k (initState B)).ip
        (loop2 B k (initState B)).out (loop2 B k (initState B)).copy) ∧
      (∀ n, (loop2 B B.length (initState B)).ip + n ≤ B.length →
        Pending Tok.enc2 Tok.shape2 B ((loop2 B B.length (initState B)).ip + n)
          (tailLoop B n (loop2 B B.length (initState B)).ip
            (loop2 B B.length (initState B)).out (loop2 B B.length (initState B)).copy).1
          (tailLoop B n (loop2 B B.length (initState B)).ip
            (loop2 B B.length (initState B)).out (loop2 B B.length (initState B)).copy).2)) ∧
    ((∃ toks, Opcodes Tok.enc1 Tok.shape1 (fastlz1_compress B).stream toks ∧
        (B ≠ [] → startsLit toks)) ∧
      ∀ (pre post : List Tok) (bs : List Nat),
        Opcodes Tok.enc1 Tok.shape1 (fastlz1_compress B).stream
            (pre ++ Tok.lit bs :: post) →
          rd (fastlz1_compress B).stream (encAll Tok.enc1 pre).length < 32 ∧
          bs.length = rd (fastlz1_compress B).stream (encAll Tok.enc1 pre).length + 1 ∧
          (encAll Tok.enc1 pre).length + 1 + bs.length ≤ (fastlz1_compress B).stream.length ∧
          sizeAll ml1 pre + bs.length ≤ B.length ∧
          ∀ j, j < bs.length →
            rd (fastlz1_compress B).stream ((encAll Tok.enc1 pre).length + 1 + j) =
              rd B (sizeAll ml1 pre + j)) ∧
    ((∃ toks, Opcodes Tok.enc2 Tok.shape2 (clearLevel (fastlz2_compress B).stream) toks ∧
        (B ≠ [] → startsLit toks)) ∧
      ∀ (pre post : List Tok) (bs : List Nat),
        Opcodes Tok.enc2 Tok.shape2 (clearLevel (fastlz2_compress B).stream)
            (pre ++ Tok.lit bs :: post) →
          rd (clearLevel (fastlz2_compress B).stream) (encAll Tok.enc2 pre).length < 32 ∧
          bs.length =
            rd (clearLevel (fastlz2_compress B).stream) (encAll Tok.enc2 pre).length + 1 ∧
          (encAll Tok.enc2 pre).length + 1 + bs.length ≤
            (clearLevel (fastlz2_compress B).stream).length ∧
          sizeAll ml1 pre + bs.length ≤ B.length ∧
          ∀ j, j < bs.length →
            rd (clearLevel (fastlz2_compress B).stream)
                ((encAll Tok.enc2 pre).length + 1 + j) =
              rd B (sizeAll ml1 pre + j)) := by
  refine ⟨?_, ?_, ?_⟩
  · intro h4
    have i1 := CInv_init Tok.enc1 Tok.shape1 ml1 B h4
    have i2 := CInv_init Tok.enc2 Tok.shape2s ml1 B h4
    refine ⟨?_, ?_, ?_, ?_⟩
    · intro k
      exact Pending_of_CInv _ _ _ _ _ _ _ (CInv_loop1_any B k _ i1)
    · intro n hn
      exact Pending_of_CInv _ _ _ _ _ _ _
        (CInv_tailLoop_any _ _ _ enc1_lit shape1_lit B n _ _ _
          (CInv_loop1_any B B.length _ i1) hn)
    · intro k
      exact Pending_shape2s _ _ _ _ (Pending_of_CInv _ _ _ _ _ _ _ (CInv_loop2_any B k _ i2))
    · intro n hn
      exact Pending_shape2s _ _ _ _ (Pending_of_CInv _ _ _ _ _ _ _
        (CInv_tailLoop_any _ _ _ enc2_lit shape2s_lit B n _ _ _
          (CInv_loop2_any B B.length _ i2) hn))
  · obtain ⟨toks, ho, hf, ha, hst, hb⟩ := stream1_spec B
    refine ⟨⟨toks, ho, hst⟩, ?_⟩
    intro pre post bs h
    have e := Opcodes_unique1 _ _ _ h ho
    subst e
    exact literal_run_at Tok.enc1 Tok.shape1 enc1_lit (fun _ h => h) B _ pre post bs h hb hf ha
  · obtain ⟨toks, ho, hf, ha, hst, hb⟩ := stream2_spec B
    refine ⟨⟨toks, Opcodes_shape2s _ _ ho, hst⟩, ?_⟩
    intro pre post bs h
    have e := Opcodes_unique2 _ _ _ h (Opcodes_shape2s _ _ ho)
    subst e
    exact literal_run_at Tok.enc2 Tok.shape2 enc2_lit (fun _ h => h) B _ pre post bs h hb hf ha

theorem literal_run_well_formed_witness :
    Pending Tok.enc1 Tok.shape1
      [97, 98, 99, 97, 98, 99, 97, 98, 99, 97, 98, 99, 97, 98, 99, 97, 98, 99, 97, 98]
      (loop1 [97, 98, 99, 97, 98, 99, 97, 98, 99, 97, 98, 99, 97, 98, 99, 97, 98, 99, 97, 98]
        1 (initState [97, 98, 99, 97, 98, 99, 97, 98, 99, 97, 98, 99, 97, 98, 99, 97, 98, 99, 97, 98])).ip
      (loop1 [97, 98, 99, 97, 98, 99, 97, 98, 99, 97, 98, 99, 97, 98, 99, 97, 98, 99, 97, 98]
        1 (initState [97, 98, 99, 97, 98, 99, 97, 98, 99, 97, 98, 99, 97, 98, 99, 97, 98, 99, 97, 98])).out
      (loop1 [97, 98, 99, 97, 98, 99, 97, 98, 99, 97, 98, 99, 97, 98, 99, 97, 98, 99, 97, 98]
        1 (initState [97, 98, 99, 97, 98, 99, 97, 98, 99, 97, 98, 99, 97, 98, 99, 97, 98, 99, 97, 98])).copy ∧
    [97, 98, 99].length =
      rd (fastlz1_compress
        [97, 98, 99, 97, 98, 99, 97, 98, 99, 97, 98, 99, 97, 98, 99, 97, 98, 99, 97, 98]).stream
        (encAll Tok.enc1 []).length + 1 :=
  ⟨((literal_run_well_formed
      [97, 98, 99, 97, 98, 99, 97, 98, 99, 97, 98, 99, 97, 98, 99, 97, 98, 99, 97, 98]).1
      (by decide)).1 1,
   ((literal_run_well_formed
      [97, 98, 99, 97, 98, 99, 97, 98, 99, 97, 98, 99, 97, 98, 99, 97, 98, 99, 97, 98]).2.1.2
      [] [Tok.mat 12 2, Tok.lit [99, 97, 98]] [97, 98, 99]
      ⟨by decide, by simp [Tok.shape1]⟩).2.1⟩

/-- C28 (compressor read safety): for every input `B` of `N ≥ 0` bytes, every
index at which `fastlz1_compress` or `fastlz2_compress` loads a byte of the
input (hashes, run check `ip[-1 .. 2]`, check of the first 3 or 5 bytes of a
candidate, unrolled and bounded extension, hash updates after a match,
literals, left-over bytes, short-input path) lies in `[0, N)`, also for the
main loops run for any number of iterations; every value of `HASH_FUNCTION`,
the only index used with the hash table, is below 8192; and at every state of
the main loops and of the loops over the left-over bytes, where the prefix
fix-up `*(op - copy - 1) = copy - 1` or `op--` can take place, the index
`op - copy - 1` is not before the output start. -/
theorem compressor_read_safety (B : List Nat) :
    (∀ i ∈ compress1Reads B, 0 ≤ i ∧ i < (B.length : Int)) ∧
    (∀ i ∈ compress2Reads B, 0 ≤ i ∧ i < (B.length : Int)) ∧
    (∀ (fuel : Nat), ∀ i ∈ loop1Reads B fuel (initState B), 0 ≤ i ∧ i < (B.length : Int)) ∧
    (4 ≤ B.length →
      ∀ (fuel : Nat), ∀ i ∈ loop2Reads B fuel (initState B), 0 ≤ i ∧ i < (B.length : Int)) ∧
    (∀ (mem : List Nat) (p : Nat), HASH_FUNCTION mem p < 8192) ∧
    (4 ≤ B.length →
      (∀ k, 0 ≤ ((loop1 B k (initState B)).out.length : Int) -
        (loop1 B k (initState B)).copy - 1) ∧
      (∀ n, (loop1 B B.length (initState B)).ip + n ≤ B.length →
        0 ≤ ((tailLoop B n (loop1 B B.length (initState B)).ip
            (loop1 B B.length (initState B)).out
            (loop1 B B.length (initState B)).copy).1.length : Int) -
          (tailLoop B n (loop1 B B.length (initState B)).ip
            (loop1 B B.length (initState B)).out
            (loop1 B B.length (initState B)).copy).2 - 1) ∧
      (∀ k, 0 ≤ ((loop2 B k (initState B)).out.length : Int) -
        (loop2 B k (initState B)).copy - 1) ∧
      (∀ n, (loop2 B B.length (initState B)).ip + n ≤ B.length →
        0 ≤ ((tailLoop B n (loop2 B B.length (initState B)).ip
            (loop2 B B.length (initState B)).out
            (loop2 B B.length (initState B)).copy).1.length : Int) -
          (tailLoop B n (loop2 B B.length (initState B)).ip
            (loop2 B B.length (initState B)).out
            (loop2 B B.length (initState B)).copy).2 - 1)) := by
  refine ⟨compress1Reads_bound B, compress2Reads_bound B,
    fun fuel => loop1Reads_bound B fuel _, ?_, HASH_FUNCTION_lt, ?_⟩
  · intro h4 fuel
    exact loop2Reads_bound B fuel _ (CInv_init Tok.enc2 Tok.shape2s ml1 B h4)
  · intro h4
    have i1 := CInv_init Tok.enc1 Tok.shape1 ml1 B h4
    have i2 := CInv_init Tok.enc2 Tok.shape2s ml1 B h4
    refine ⟨?_, ?_, ?_, ?_⟩
    · intro k
      have := (Pending_of_CInv _ _ _ _ _ _ _ (CInv_loop1_any B k _ i1)).2.1
      omega
    · intro n hn
      have := (Pending_of_CInv _ _ _ _ _ _ _
        (CInv_tailLoop_any _ _ _ enc1_lit shape1_lit B n _ _ _
          (CInv_loop1_any B B.length _ i1) hn)).2.1
      omega
    · intro k
      have := (Pending_of_CInv _ _ _ _ _ _ _ (CInv_loop2_any B k _ i2)).2.1
      omega
    · intro n hn
      have := (Pending_of_CInv _ _ _ _ _ _ _
        (CInv_tailLoop_any _ _ _ enc2_lit shape2s_lit B n _ _ _
          (CInv_loop2_any B B.length _ i2) hn)).2.1
      omega

theorem compressor_read_safety_witness :
    (∀ i ∈ compress1Reads
        [97, 98, 99, 97, 98, 99, 97, 98, 99, 97, 98, 99, 97, 98, 99, 97, 98, 99, 97, 98],
      0 ≤ i ∧ i < ([97, 98, 99, 97, 98, 99, 97, 98, 99, 97, 98, 99, 97, 98, 99, 97, 98, 99, 97, 98].length : Int)) ∧
    (∀ (fuel : Nat), ∀ i ∈ loop2Reads
        [97, 98, 99, 97, 98, 99, 97, 98, 99, 97, 98, 99, 97, 98, 99, 97, 98, 99, 97, 98]
        fuel (initState [97, 98, 99, 97, 98, 99, 97, 98, 99, 97, 98, 99, 97, 98, 99, 97, 98, 99, 97, 98]),
      0 ≤ i ∧ i < ([97, 98, 99, 97, 98, 99, 97, 98, 99, 97, 98, 99, 97, 98, 99, 97, 98, 99, 97, 98].length : Int)) :=
  ⟨(compressor_read_safety
      [97, 98, 99, 97, 98, 99, 97, 98, 99, 97, 98, 99, 97, 98, 99, 97, 98, 99, 97, 98]).1,
   (compressor_read_safety
      [97, 98, 99, 97, 98, 99, 97, 98, 99, 97, 98, 99, 97, 98, 99, 97, 98, 99, 97, 98]).2.2.2.1
      (by decide)⟩

/-- C29 (termination), the code at a failing input: the Level-2 stream
`20 41 E0` of declared length 3 ends right after the first byte of a long
match.  In a memory that goes on with `k` bytes `FF` and two bytes `00`, the
255-chain loop of `fastlz2_decompress` is entered at `ip = 3`, the declared
length, and runs `k + 1` iterations, every one of them on a byte beyond the
declared length; the decoder ends with `ip = k + 5` and, when the capacity
allows, returns `255 * k + 10`.  With 1000 bytes `FF` it ends with `ip = 1005`
and returns 255010.  The number of iterations of the loop is set by the bytes
that follow the stream in memory, not by the stream. -/
theorem chain_loop_runs_past_declared_length (k maxout : Nat) :
    chainLoop ([0x20, 0x41, 0xE0] ++ List.replicate k 255 ++ [0, 0])
        (([0x20, 0x41, 0xE0] ++ List.replicate k 255 ++ [0, 0]).length - 3 + 1) 3 6 =
      (k + 4, (6 + 255 * k) % 2 ^ 32) ∧
    (fastlz2_decompress ([0x20, 0x41, 0xE0] ++ List.replicate k 255 ++ [0, 0]) 3
      (maxout + 1)).ip = k + 5 ∧
    (255 * k + 10 ≤ maxout + 1 → 255 * k + 6 < 2 ^ 32 →
      (fastlz2_decompress ([0x20, 0x41, 0xE0] ++ List.replicate k 255 ++ [0, 0]) 3
        (maxout + 1)).ret = 255 * k + 10) ∧
    (fastlz2_decompress ([0x20, 0x41, 0xE0] ++ List.replicate 1000 255 ++ [0, 0]) 3
      1000000).ip = 1005 ∧
    (fastlz2_decompress ([0x20, 0x41, 0xE0] ++ List.replicate 1000 255 ++ [0, 0]) 3
      1000000).ret = 255010 := by
  have key : ∀ j m, chainLoop ([0x20, 0x41, 0xE0] ++ List.replicate j 255 ++ [0, 0])
        (([0x20, 0x41, 0xE0] ++ List.replicate j 255 ++ [0, 0]).length - 3 + 1) 3 6 =
      (j + 4, (6 + 255 * j) % 2 ^ 32) ∧
    (fastlz2_decompress ([0x20, 0x41, 0xE0] ++ List.replicate j 255 ++ [0, 0]) 3
      (m + 1)).ip = j + 5 ∧
    (255 * j + 10 ≤ m + 1 → 255 * j + 6 < 2 ^ 32 →
      (fastlz2_decompress ([0x20, 0x41, 0xE0] ++ List.replicate j 255 ++ [0, 0]) 3
        (m + 1)).ret = 255 * j + 10) := by
    intro j m
    have hb : ∀ b ∈ ([0x20, 0x41, 0xE0] ++ (List.replicate j 255 ++ [0, 0])) ++ [], b < 256 := by
      intro b hb
      simp only [List.append_nil, List.mem_append, List.mem_cons, List.mem_singleton,
        List.not_mem_nil, or_false, List.mem_replicate] at hb
      rcases hb with (h | h | h) | (h | h | h) <;> omega
    have hat := At_initial ([0x20, 0x41, 0xE0] ++ (List.replicate j 255 ++ [0, 0])) [] hb
    rw [List.append_nil] at hat
    have hat2 := ((At_append _ 0 _ _).mp hat).2
    rw [← List.append_assoc] at hat2
    exact chain_overrun _ j m (by simp [rd]) (by simp [rd]) hat2 (by simp)
  have h1000 := key 1000 999999
  exact ⟨(key k maxout).1, (key k maxout).2.1, (key k maxout).2.2, h1000.2.1,
    h1000.2.2 (by decide) (by decide)⟩

end FastLZ
